import Mathlib

/-!
# Red-black tree (package `rbtree`): shallow embedding and verification

The Go package stores nodes behind pointers, with `parent`, `left` and `right`
links.  The embedding keeps that shape: a pointer is `Option Nat` (`none` is
`nil`), the heap is a list of node cells indexed by address, and every Go
function becomes a function on the tree object together with its heap.  A
dereference of `nil` is the fault `Fault.nilDeref`; loops and recursive calls
consume fuel and report `Fault.outOfFuel` when it is exhausted.
-/

namespace rbtree

/-- Node colours (`const ( Red Color = iota; Black )`). -/
inductive Color where
  | Red
  | Black
deriving DecidableEq, Repr

/-- A Go pointer to a node: `none` is `nil`, `some a` the cell at address `a`. -/
abbrev Ptr := Option Nat

/-- Why an execution did not return. -/
inductive Fault where
  | nilDeref
  | outOfFuel
deriving DecidableEq, Repr

/-- Result of running a piece of the program. -/
abbrev Exec := Except Fault

/-- The `Node` struct.  The `Value` interface is modelled by `Option V`, with
`none` standing for the Go `nil` value. -/
structure Node (K V : Type) where
  key : K
  value : Option V
  color : Color
  parent : Ptr
  left : Ptr
  right : Ptr
deriving DecidableEq, Repr

/-- The `Tree` struct (`size`, `root`) together with the heap its pointers
refer to.  Go `int` is taken unbounded: `size` never leaves the range of the
number of allocated cells. -/
structure Tree (K V : Type) where
  size : Int
  root : Ptr
  heap : List (Node K V)
deriving DecidableEq, Repr

variable {K V : Type}

/-- Read the cell a pointer refers to; `nil` (or an unallocated address) faults. -/
def Tree.load (s : Tree K V) (p : Ptr) : Exec (Node K V) :=
  match p with
  | none => .error .nilDeref
  | some a =>
    match s.heap[a]? with
    | none => .error .nilDeref
    | some nd => .ok nd

/-- Overwrite fields of the cell a pointer refers to. -/
def Tree.update (s : Tree K V) (p : Ptr) (f : Node K V → Node K V) : Exec (Tree K V) :=
  match p with
  | none => .error .nilDeref
  | some a =>
    match s.heap[a]? with
    | none => .error .nilDeref
    | some nd => .ok { s with heap := s.heap.set a (f nd) }

/-- Field read `n.key`. -/
def getKey (s : Tree K V) (n : Ptr) : Exec K := do
  let nd ← s.load n
  pure nd.key

/-- Field read `n.value`. -/
def getValue (s : Tree K V) (n : Ptr) : Exec (Option V) := do
  let nd ← s.load n
  pure nd.value

/-- Field read `n.color`. -/
def getColor (s : Tree K V) (n : Ptr) : Exec Color := do
  let nd ← s.load n
  pure nd.color

/-- Field read `n.parent`. -/
def getParent (s : Tree K V) (n : Ptr) : Exec Ptr := do
  let nd ← s.load n
  pure nd.parent

/-- Field read `n.left`. -/
def getLeft (s : Tree K V) (n : Ptr) : Exec Ptr := do
  let nd ← s.load n
  pure nd.left

/-- Field read `n.right`. -/
def getRight (s : Tree K V) (n : Ptr) : Exec Ptr := do
  let nd ← s.load n
  pure nd.right

/-- Field write `n.key = k`. -/
def setKey (s : Tree K V) (n : Ptr) (k : K) : Exec (Tree K V) :=
  s.update n fun nd => { nd with key := k }

/-- Field write `n.value = v`. -/
def setValue (s : Tree K V) (n : Ptr) (v : Option V) : Exec (Tree K V) :=
  s.update n fun nd => { nd with value := v }

/-- Field write `n.color = c`. -/
def setColor (s : Tree K V) (n : Ptr) (c : Color) : Exec (Tree K V) :=
  s.update n fun nd => { nd with color := c }

/-- Field write `n.parent = p`. -/
def setParent (s : Tree K V) (n : Ptr) (p : Ptr) : Exec (Tree K V) :=
  s.update n fun nd => { nd with parent := p }

/-- Field write `n.left = p`. -/
def setLeft (s : Tree K V) (n : Ptr) (p : Ptr) : Exec (Tree K V) :=
  s.update n fun nd => { nd with left := p }

/-- Field write `n.right = p`. -/
def setRight (s : Tree K V) (n : Ptr) (p : Ptr) : Exec (Tree K V) :=
  s.update n fun nd => { nd with right := p }

/-- The loop `for node.left != nil { node = node.left }` (in `Next`, `First`,
`minimun`). -/
def loopLeft : Nat → Tree K V → Ptr → Exec Ptr
  | 0, _, _ => .error .outOfFuel
  | fuel + 1, s, node => do
    let l ← getLeft s node
    if l ≠ none then loopLeft fuel s l else pure node

/-- The loop `for node.right != nil { node = node.right }` (in `Previous`,
`Last`, `maximum`). -/
def loopRight : Nat → Tree K V → Ptr → Exec Ptr
  | 0, _, _ => .error .outOfFuel
  | fuel + 1, s, node => do
    let r ← getRight s node
    if r ≠ none then loopRight fuel s r else pure node

/-- The loop `for node.parent != nil && node.parent.right == node { node = node.parent }`
of `Next`. -/
def climbRight : Nat → Tree K V → Ptr → Exec Ptr
  | 0, _, _ => .error .outOfFuel
  | fuel + 1, s, node => do
    let p ← getParent s node
    if p ≠ none then
      let pr ← getRight s p
      if pr = node then climbRight fuel s p else pure node
    else pure node

/-- The loop `for node.parent != nil && node.parent.left == node { node = node.parent }`
of `Previous`. -/
def climbLeft : Nat → Tree K V → Ptr → Exec Ptr
  | 0, _, _ => .error .outOfFuel
  | fuel + 1, s, node => do
    let p ← getParent s node
    if p ≠ none then
      let pl ← getLeft s p
      if pl = node then climbLeft fuel s p else pure node
    else pure node

/-- `func (node *Node) Next() *Node`. -/
def Next (fuel : Nat) (s : Tree K V) (node : Ptr) : Exec Ptr :=
  if node = none then pure none
  else do
    let r ← getRight s node
    if r ≠ none then
      loopLeft fuel s r
    else
      let node ← climbRight fuel s node
      getParent s node

/-- `func (node *Node) Previous() *Node`. -/
def Previous (fuel : Nat) (s : Tree K V) (node : Ptr) : Exec Ptr :=
  if node = none then pure none
  else do
    let l ← getLeft s node
    if l ≠ none then
      loopRight fuel s l
    else
      let node ← climbLeft fuel s node
      getParent s node

/-- `func color(n *Node) Color`. -/
def color (s : Tree K V) (n : Ptr) : Exec Color :=
  if n = none then pure Color.Black else getColor s n

/-- `func (n *Node) detach()`. -/
def detach (s : Tree K V) (n : Ptr) : Exec (Tree K V) := do
  let s ← setParent s n none
  let s ← setLeft s n none
  setRight s n none

/-- `func (n *Node) grandparent() *Node`. -/
def grandparent (s : Tree K V) (n : Ptr) : Exec Ptr := do
  let p ← getParent s n
  if p ≠ none then getParent s p else pure none

/-- `func (n *Node) sibling() *Node`. -/
def sibling (s : Tree K V) (n : Ptr) : Exec Ptr := do
  let p ← getParent s n
  if p = none then pure none
  else
    let pl ← getLeft s p
    if pl = n then getRight s p else getLeft s p

/-- `func (n *Node) uncle() *Node`. -/
def uncle (s : Tree K V) (n : Ptr) : Exec Ptr := do
  let p ← getParent s n
  if p = none then pure none else sibling s p

/-- `func height(n *Node) int`. -/
def height : Nat → Tree K V → Ptr → Exec Int
  | 0, _, _ => .error .outOfFuel
  | fuel + 1, s, n =>
    if n = none then pure 0
    else do
      let l ← getLeft s n
      let hl ← height fuel s l
      let r ← getRight s n
      let hr ← height fuel s r
      pure (1 + max hl hr)

/-- `func New() *Tree`. -/
def New : Tree K V := { size := 0, root := none, heap := [] }

/-- `func (tree *Tree) Size() int`. -/
def Size (s : Tree K V) : Int := s.size

/-- `func (tree *Tree) Height() int`. -/
def Height (fuel : Nat) (s : Tree K V) : Exec Int := height fuel s s.root

/-- `func (tree *Tree) First() *Node`. -/
def First (fuel : Nat) (s : Tree K V) : Exec Ptr := loopLeft fuel s s.root

/-- `func (tree *Tree) Last() *Node`. -/
def Last (fuel : Nat) (s : Tree K V) : Exec Ptr := loopRight fuel s s.root

/-- `func (tree *Tree) End() *Node`. -/
def End (_s : Tree K V) : Ptr := none

/-- `func (tree *Tree) lookup(key Key) *Node`; `cmp a b` is `a.Compare(b)`. -/
def lookupLoop (cmp : K → K → Int) : Nat → Tree K V → K → Ptr → Exec Ptr
  | 0, _, _, _ => .error .outOfFuel
  | fuel + 1, s, key, node =>
    if node ≠ none then do
      let nk ← getKey s node
      let compare := cmp nk key
      if compare = 0 then pure node
      else do
        let node ← if compare < 0 then getRight s node else pure node
        let node ← if compare > 0 then getLeft s node else pure node
        lookupLoop cmp fuel s key node
    else pure none

/-- `func (tree *Tree) lookup(key Key) *Node`. -/
def lookup (cmp : K → K → Int) (fuel : Nat) (s : Tree K V) (key : K) : Exec Ptr :=
  lookupLoop cmp fuel s key s.root

/-- `func (tree *Tree) Lookup(key Key) Value`. -/
def Lookup (cmp : K → K → Int) (fuel : Nat) (s : Tree K V) (key : K) : Exec (Option V) := do
  let res ← lookup cmp fuel s key
  if res ≠ none then getValue s res else pure none

/-- `func (tree *Tree) replace(old, new *Node)`. -/
def replace (s : Tree K V) (old new : Ptr) : Exec (Tree K V) := do
  let op ← getParent s old
  let s ← if op = none then pure { s with root := new }
    else do
      let opl ← getLeft s op
      if old = opl then setLeft s op new else setRight s op new
  if new ≠ none then
    let op ← getParent s old
    setParent s new op
  else pure s

/-- `func (tree *Tree) rotateRight(n *Node)`. -/
def rotateRight (s : Tree K V) (n : Ptr) : Exec (Tree K V) := do
  let l ← getLeft s n
  let s ← replace s n l
  let lr ← getRight s l
  let s ← setLeft s n lr
  let lr ← getRight s l
  let s ← if lr ≠ none then setParent s lr n else pure s
  let s ← setParent s n l
  setRight s l n

/-- `func (tree *Tree) rotateLeft(n *Node)`. -/
def rotateLeft (s : Tree K V) (n : Ptr) : Exec (Tree K V) := do
  let r ← getRight s n
  let s ← replace s n r
  let rl ← getLeft s r
  let s ← setRight s n rl
  let rl ← getLeft s r
  let s ← if rl ≠ none then setParent s rl n else pure s
  let s ← setParent s n r
  setLeft s r n

/-- `func (tree *Tree) maximum(node *Node) *Node`. -/
def maximum (fuel : Nat) (s : Tree K V) (node : Ptr) : Exec Ptr :=
  if node = none then pure none else loopRight fuel s node

/-- `func (tree *Tree) minimun(node *Node) *Node`. -/
def minimun (fuel : Nat) (s : Tree K V) (node : Ptr) : Exec Ptr :=
  if node = none then pure none else loopLeft fuel s node

/-- `func (tree *Tree) swap(n, m *Node)`. -/
def swap (s : Tree K V) (n m : Ptr) : Exec (Tree K V) := do
  let nk ← getKey s n
  let mk ← getKey s m
  let s ← setKey s n mk
  let s ← setKey s m nk
  let nv ← getValue s n
  let mv ← getValue s m
  let s ← setValue s n mv
  setValue s m nv

/-- The test `n == n.parent.left`. -/
def isLeftChild (s : Tree K V) (n : Ptr) : Exec Bool := do
  let p ← getParent s n
  let pl ← getLeft s p
  pure (decide (n = pl))

/-- The test `n == n.parent.right`. -/
def isRightChild (s : Tree K V) (n : Ptr) : Exec Bool := do
  let p ← getParent s n
  let pr ← getRight s p
  pure (decide (n = pr))

/-- The test `n.parent == g.left`. -/
def parentIsLeftOf (s : Tree K V) (n g : Ptr) : Exec Bool := do
  let p ← getParent s n
  let gl ← getLeft s g
  pure (decide (p = gl))

/-- The test `n.parent == g.right`. -/
def parentIsRightOf (s : Tree K V) (n g : Ptr) : Exec Bool := do
  let p ← getParent s n
  let gr ← getRight s g
  pure (decide (p = gr))

/-- The test `color(x.left) == c`. -/
def leftColorIs (s : Tree K V) (x : Ptr) (c : Color) : Exec Bool := do
  let xl ← getLeft s x
  let xc ← color s xl
  pure (decide (xc = c))

/-- The test `color(x.right) == c`. -/
def rightColorIs (s : Tree K V) (x : Ptr) (c : Color) : Exec Bool := do
  let xr ← getRight s x
  let xc ← color s xr
  pure (decide (xc = c))

/-- The test `n.parent.color == c`. -/
def parentColorIs (s : Tree K V) (n : Ptr) (c : Color) : Exec Bool := do
  let p ← getParent s n
  let pc ← getColor s p
  pure (decide (pc = c))

/-- Short-circuit `a && b`: `b` is evaluated only when `a` is true. -/
def andAlso (a b : Exec Bool) : Exec Bool := do
  let x ← a
  if x then b else pure false

/-- `func (tree *Tree) balanceInsert(n *Node)`. -/
def balanceInsert : Nat → Tree K V → Ptr → Exec (Tree K V)
  | 0, _, _ => .error .outOfFuel
  | fuel + 1, s, n => do
    -- i. node is root, colour it Black
    let p ← getParent s n
    if p = none then setColor s n Color.Black
    else do
      -- ii. if parent is Black, tree is already balanced
      let p ← getParent s n
      let pc ← color s p
      if pc = Color.Black then pure s
      else do
        let grandparent ← grandparent s n
        -- iii. uncle and parent are red
        let uncle ← uncle s n
        let uc ← color s uncle
        if uc = Color.Red then do
          let p ← getParent s n
          let s ← setColor s p Color.Black
          let s ← setColor s uncle Color.Black
          let s ← setColor s grandparent Color.Red
          balanceInsert fuel s grandparent
        else do
          -- iv. reduce to left-left or right-right
          let c1 ← andAlso (isRightChild s n) (parentIsLeftOf s n grandparent)
          let (s, n) ←
            if c1 then do
              let p ← getParent s n
              let s ← rotateLeft s p
              let nl ← getLeft s n
              pure (s, nl)
            else do
              let c2 ← andAlso (isLeftChild s n) (parentIsRightOf s n grandparent)
              if c2 then do
                let p ← getParent s n
                let s ← rotateRight s p
                let nr ← getRight s n
                pure (s, nr)
              else pure (s, n)
          let p ← getParent s n
          let s ← setColor s p Color.Black
          let s ← setColor s grandparent Color.Red
          let c3 ← andAlso (isLeftChild s n) (parentIsLeftOf s n grandparent)
          if c3 then rotateRight s grandparent
          else do
            let c4 ← andAlso (isRightChild s n) (parentIsRightOf s n grandparent)
            if c4 then rotateLeft s grandparent else pure s

/-- `func (tree *Tree) balanceRemove(n *Node)`. -/
def balanceRemove : Nat → Tree K V → Ptr → Exec (Tree K V)
  | 0, _, _ => .error .outOfFuel
  | fuel + 1, s, n => do
    -- i. n is the tree root, nothing to do
    let p ← getParent s n
    if p = none then pure s
    else do
      -- ii. reduce to a Black sibling
      let sib ← sibling s n
      let sc ← color s sib
      let (s, sib) ←
        if sc = Color.Red then do
          let p ← getParent s n
          let s ← setColor s p Color.Red
          let s ← setColor s sib Color.Black
          let c ← isLeftChild s n
          let p ← getParent s n
          let s ← if c then rotateLeft s p else rotateRight s p
          let sib ← sibling s n
          pure (s, sib)
        else pure (s, sib)
      -- iii. parent and sibling children are black
      let c3 ← andAlso (parentColorIs s n Color.Black)
        (andAlso (leftColorIs s sib Color.Black) (rightColorIs s sib Color.Black))
      if c3 then do
        let s ← setColor s sib Color.Red
        let p ← getParent s n
        balanceRemove fuel s p
      else do
        -- iv.
        let c4 ← andAlso (parentColorIs s n Color.Red)
          (andAlso (leftColorIs s sib Color.Black) (rightColorIs s sib Color.Black))
        if c4 then do
          let s ← setColor s sib Color.Red
          let p ← getParent s n
          setColor s p Color.Black
        else do
          -- v.
          let c5 ← andAlso (isLeftChild s n)
            (andAlso (leftColorIs s sib Color.Red) (rightColorIs s sib Color.Black))
          let s ←
            if c5 then do
              let s ← setColor s sib Color.Red
              let sl ← getLeft s sib
              let s ← setColor s sl Color.Black
              rotateRight s sib
            else pure s
          let c5r ← andAlso (isRightChild s n)
            (andAlso (rightColorIs s sib Color.Red) (leftColorIs s sib Color.Black))
          let s ←
            if c5r then do
              let s ← setColor s sib Color.Red
              let sr ← getRight s sib
              let s ← setColor s sr Color.Black
              rotateLeft s sib
            else pure s
          -- vi.
          let sib ← sibling s n
          let p ← getParent s n
          let pc ← getColor s p
          let s ← setColor s sib pc
          let p ← getParent s n
          let s ← setColor s p Color.Black
          let c6 ← andAlso (isLeftChild s n) (rightColorIs s sib Color.Red)
          let s ←
            if c6 then do
              let sr ← getRight s sib
              let s ← setColor s sr Color.Black
              let p ← getParent s n
              rotateLeft s p
            else pure s
          let c6r ← andAlso (isLeftChild s n) (leftColorIs s sib Color.Red)
          if c6r then do
            let sl ← getLeft s sib
            let s ← setColor s sl Color.Black
            let p ← getParent s n
            rotateRight s p
          else pure s

/-- The descent loop of `insert`.  The result carries the node `n` the loop
broke out at, or `none` when the loop returned from `insert` after overwriting
the value of an equal key. -/
def insertLoop (cmp : K → K → Int) : Nat → Tree K V → Ptr → Ptr → Exec (Tree K V × Option Ptr)
  | 0, _, _, _ => .error .outOfFuel
  | fuel + 1, s, node, n => do
    let nodeKey ← getKey s node
    let nKey ← getKey s n
    let compare := cmp nodeKey nKey
    if compare = 0 then do
      let v ← getValue s node
      let s ← setValue s n v
      pure (s, none)
    else do
      let (s, n, broke) ←
        if compare < 0 then do
          let l ← getLeft s n
          if l = none then do
            let s ← setLeft s n node
            pure (s, n, true)
          else pure (s, l, false)
        else pure (s, n, false)
      if broke then pure (s, some n)
      else do
        let (s, n, broke) ←
          if compare > 0 then do
            let r ← getRight s n
            if r = none then do
              let s ← setRight s n node
              pure (s, n, true)
            else pure (s, r, false)
          else pure (s, n, false)
        if broke then pure (s, some n)
        else insertLoop cmp fuel s node n

/-- `func (tree *Tree) insert(node *Node)`. -/
def insert (cmp : K → K → Int) (fuel : Nat) (s : Tree K V) (node : Ptr) : Exec (Tree K V) := do
  let (s, returned) ←
    if s.root = none then pure ({ s with root := node }, false)
    else do
      let (s, r) ← insertLoop cmp fuel s node s.root
      match r with
      | none => pure (s, true)
      | some n => do
        let s ← setParent s node n
        pure (s, false)
  if returned then pure s
  else
    let s := { s with size := s.size + 1 }
    balanceInsert fuel s node

/-- `func (tree *Tree) Insert(key Key, value Value)`: the new node is allocated
at the next free address. -/
def Insert (cmp : K → K → Int) (fuel : Nat) (s : Tree K V) (key : K) (value : Option V) :
    Exec (Tree K V) :=
  let n : Ptr := some s.heap.length
  let s := { s with heap := s.heap ++ [⟨key, value, Color.Red, none, none, none⟩] }
  insert cmp fuel s n

/-- `func (tree *Tree) remove(key Key) *Node`. -/
def remove (cmp : K → K → Int) (fuel : Nat) (s : Tree K V) (key : K) :
    Exec (Tree K V × Ptr) := do
  let n ← lookup cmp fuel s key
  if n = none then pure (s, none)
  else do
    let two ← andAlso (do let l ← getLeft s n; pure (decide (l ≠ none)))
      (do let r ← getRight s n; pure (decide (r ≠ none)))
    let (s, n) ←
      if two then do
        let l ← getLeft s n
        let max ← maximum fuel s l
        let s ← swap s n max
        pure (s, max)
      else pure (s, n)
    let child ← getRight s n
    let child ← if child = none then getLeft s n else pure child
    let nc ← getColor s n
    let s ←
      if nc = Color.Black then do
        let cc ← color s child
        let s ← setColor s n cc
        balanceRemove fuel s n
      else pure s
    let s ← replace s n child
    let np ← getParent s n
    let s ← if np = none ∧ child ≠ none then setColor s child Color.Black else pure s
    let s ← detach s n
    let s := { s with size := s.size - 1 }
    pure (s, n)

/-- `func (tree *Tree) Remove(key Key) Value`. -/
def Remove (cmp : K → K → Int) (fuel : Nat) (s : Tree K V) (key : K) :
    Exec (Tree K V × Option V) := do
  let (s, n) ← remove cmp fuel s key
  if n = none then pure (s, none)
  else do
    let v ← getValue s n
    pure (s, v)

/-- `func InOrder(n *Node, fn NodeFunc)`.  The callback acts on a caller state
`σ`; the result is the state after all calls. -/
def InOrder {σ : Type} : Nat → Tree K V → Ptr → (σ → Option V → σ) → σ → Exec σ
  | 0, _, _, _, _ => .error .outOfFuel
  | fuel + 1, s, n, fn, acc =>
    if n = none then pure acc
    else do
      let l ← getLeft s n
      let acc ← if l ≠ none then InOrder fuel s l fn acc else pure acc
      let v ← getValue s n
      let acc := fn acc v
      let r ← getRight s n
      if r ≠ none then InOrder fuel s r fn acc else pure acc

/-- `type IterFunc func(node *Node, fn NodeFunc)`, for callbacks on any caller
state. -/
def IterFunc (K V : Type) : Type 1 :=
  (σ : Type) → Nat → Tree K V → Ptr → (σ → Option V → σ) → σ → Exec σ

/-- `InOrder` as an `IterFunc` value. -/
def inOrderIter : IterFunc K V := fun _ fuel s n fn acc => InOrder fuel s n fn acc

/-- `func (tree *Tree) Do(fn NodeFunc, iter IterFunc)`; `none` is a nil `iter`. -/
def Do {σ : Type} (fuel : Nat) (s : Tree K V) (fn : σ → Option V → σ) (acc : σ)
    (iter : Option (IterFunc K V)) : Exec σ :=
  let iter := match iter with
    | none => inOrderIter
    | some f => f
  let n := s.root
  iter σ fuel s n fn acc

/-- A sequence of `Insert` calls, in list order. -/
def insertAll (cmp : K → K → Int) (fuel : Nat) : List (K × Option V) → Tree K V → Exec (Tree K V)
  | [], s => pure s
  | (k, v) :: rest, s => do
    let s ← Insert cmp fuel s k v
    insertAll cmp fuel rest s

/-- The cursor loop `for n := start; n != tree.End(); n = step(n) { ... }` of
`TestNextPrevious`, returning the nodes it visits in order. -/
def cursorLoop (step : Tree K V → Ptr → Exec Ptr) : Nat → Tree K V → Ptr → Exec (List Nat)
  | 0, _, _ => .error .outOfFuel
  | fuel + 1, s, n =>
    match n with
    | none => pure []
    | some a => do
      let n1 ← step s (some a)
      let rest ← cursorLoop step fuel s n1
      pure (a :: rest)

/-- A Go-facing three-way comparison on naturals, in the manner of
`String.Compare`: `-1`, `0` or `1`. -/
def natCompare (a b : Nat) : Int :=
  if a < b then -1 else if a > b then 1 else 0

/-! ## Abstract shapes and the representation relation -/

/-- The tree of cells reachable from a pointer through `left`/`right` links:
each node records its address, colour, key and value. -/
inductive Shape (K V : Type) where
  | nil : Shape K V
  | node (l : Shape K V) (a : Nat) (c : Color) (k : K) (v : Option V) (r : Shape K V) : Shape K V
deriving DecidableEq, Repr

namespace Shape

/-- Pointer to the root cell of a shape (`nil` for the empty shape). -/
def ptr : Shape K V → Ptr
  | nil => none
  | node _ a _ _ _ _ => some a

/-- Left-self-right sequence of the nodes: address, key and value. -/
def inorder : Shape K V → List (Nat × K × Option V)
  | nil => []
  | node l a _ k v r => l.inorder ++ (a, k, v) :: r.inorder

/-- Addresses of the nodes, in in-order sequence. -/
def addrs (t : Shape K V) : List Nat := t.inorder.map fun e => e.1

/-- Keys of the nodes, in in-order sequence. -/
def keys (t : Shape K V) : List K := t.inorder.map fun e => e.2.1

/-- Values of the nodes, in in-order sequence. -/
def values (t : Shape K V) : List (Option V) := t.inorder.map fun e => e.2.2

/-- Key/value bindings, in in-order sequence. -/
def entries (t : Shape K V) : List (K × Option V) := t.inorder.map fun e => e.2

/-- Number of nodes. -/
def size : Shape K V → Nat
  | nil => 0
  | node l _ _ _ _ r => l.size + 1 + r.size

/-- Colour of the root; an empty position counts as Black. -/
def rootColor : Shape K V → Color
  | nil => Color.Black
  | node _ _ c _ _ _ => c

/-- Black nodes on each root-to-nil path, one entry per path. -/
def pathBlacks : Shape K V → List Nat
  | nil => [0]
  | node l _ c _ _ r =>
    (l.pathBlacks ++ r.pathBlacks).map fun n => n + (if c = Color.Black then 1 else 0)

/-- Black nodes on the leftmost root-to-nil path. -/
def blackHeight : Shape K V → Nat
  | nil => 0
  | node l _ c _ _ _ => l.blackHeight + (if c = Color.Black then 1 else 0)

/-- Invariant 1: the root is Black (or the tree is empty). -/
def RootBlack (t : Shape K V) : Prop := t.rootColor = Color.Black

/-- Invariant 2: a Red node has no Red child (hence no Red parent). -/
def NoRedRed : Shape K V → Prop
  | nil => True
  | node l _ c _ _ r =>
    (c = Color.Red → l.rootColor = Color.Black ∧ r.rootColor = Color.Black) ∧
      l.NoRedRed ∧ r.NoRedRed

/-- Invariant 3: every root-to-nil path crosses the same number of Black nodes. -/
def EqualBlackPaths (t : Shape K V) : Prop :=
  ∀ x ∈ t.pathBlacks, ∀ y ∈ t.pathBlacks, x = y

/-- Invariant 3 in recursive form: at every node both subtrees have the same
black height. -/
def Balanced : Shape K V → Prop
  | nil => True
  | node l _ _ _ _ r => l.blackHeight = r.blackHeight ∧ l.Balanced ∧ r.Balanced

/-- Invariant 4: the in-order key sequence is strictly increasing. -/
def SortedKeys [LinearOrder K] (t : Shape K V) : Prop := t.keys.Pairwise (· < ·)

/-- Invariants 1 to 3 together. -/
def RedBlack (t : Shape K V) : Prop := t.RootBlack ∧ t.NoRedRed ∧ t.EqualBlackPaths

/-- Longest root-to-nil node count (`height` of the source). -/
def depth : Shape K V → Nat
  | nil => 0
  | node l _ _ _ _ r => 1 + max l.depth r.depth

/-- Value stored at the root (`nil` for the empty shape). -/
def rootValue : Shape K V → Option V
  | nil => none
  | node _ _ _ _ v _ => v

/-- Binary search for a key: the subtree rooted at the node holding `key`,
or `nil`. -/
def find [LinearOrder K] (key : K) : Shape K V → Shape K V
  | nil => nil
  | node l a c k v r =>
    if key = k then node l a c k v r
    else if k < key then r.find key else l.find key

end Shape

/-- The cells of shape `t` are laid out in heap `m`, the root cell having
parent link `par`: every cell holds the node's key, value and colour, its
child links point to the roots of the sub-shapes, and each child's parent link
points back to its owner. -/
def Own (m : List (Node K V)) : Ptr → Shape K V → Prop
  | _, .nil => True
  | par, .node l a c k v r =>
    m[a]? = some ⟨k, v, c, par, l.ptr, r.ptr⟩ ∧ Own m (some a) l ∧ Own m (some a) r

/-- The tree object `s` represents shape `t`: `root` points to the root cell,
the root has no parent, all links are consistent and no cell occurs twice. -/
def Rep (s : Tree K V) (t : Shape K V) : Prop :=
  s.root = t.ptr ∧ Own s.heap none t ∧ t.addrs.Nodup

/-- The Key capability's contract: `cmp` is a three-way comparison for the
linear order on `K`. -/
structure LawfulCompare [LinearOrder K] (cmp : K → K → Int) : Prop where
  lt_iff : ∀ a b, cmp a b < 0 ↔ a < b
  eq_iff : ∀ a b, cmp a b = 0 ↔ a = b
  gt_iff : ∀ a b, 0 < cmp a b ↔ b < a

/-- The element following `x` in a list, `d` when `x` is the last one. -/
def nextIn : List Nat → Nat → Ptr → Ptr
  | [], _, d => d
  | y :: ys, x, d => if y = x then (ys.head?).or d else nextIn ys x d

/-- The element preceding `x` in a list, `d` when `x` is the first one. -/
def prevIn : List Nat → Nat → Ptr → Ptr
  | [], _, d => d
  | y :: ys, x, d => if x ∈ ys then prevIn ys x (some y) else d

/-! ## Paths: a shape with a hole -/

/-- The part of a shape around a hole: the ancestors of the hole, innermost
first, each with its other subtree. -/
inductive Path (K V : Type) where
  | top : Path K V
  | left (up : Path K V) (a : Nat) (c : Color) (k : K) (v : Option V) (r : Shape K V) : Path K V
  | right (l : Shape K V) (a : Nat) (c : Color) (k : K) (v : Option V) (up : Path K V) : Path K V
deriving DecidableEq, Repr

namespace Path

/-- Fill the hole. -/
def plug : Path K V → Shape K V → Shape K V
  | top, t => t
  | left up a c k v r, t => up.plug (.node t a c k v r)
  | right l a c k v up, t => up.plug (.node l a c k v t)

/-- Pointer to the parent of the hole. -/
def ptr : Path K V → Ptr
  | top => none
  | left _ a _ _ _ _ => some a
  | right _ a _ _ _ _ => some a

/-- Number of ancestors of the hole. -/
def depth : Path K V → Nat
  | top => 0
  | left up _ _ _ _ _ => up.depth + 1
  | right _ _ _ _ _ up => up.depth + 1

/-- In-order nodes before the hole. -/
def before : Path K V → List (Nat × K × Option V)
  | top => []
  | left up _ _ _ _ _ => up.before
  | right l a _ k v up => up.before ++ l.inorder ++ [(a, k, v)]

/-- In-order nodes after the hole. -/
def after : Path K V → List (Nat × K × Option V)
  | top => []
  | left up a _ k v r => (a, k, v) :: r.inorder ++ up.after
  | right _ _ _ _ _ up => up.after

/-- Addresses of the path cells. -/
def addrs (p : Path K V) : List Nat := (p.before ++ p.after).map fun e => e.1

/-- Root pointer of the plugged shape, given the pointer put in the hole. -/
def root : Path K V → Ptr → Ptr
  | top, hole => hole
  | left up a _ _ _ _, _ => up.root (some a)
  | right _ a _ _ _ up, _ => up.root (some a)

/-- Colour of the parent of the hole; the position above the root counts as
Red, so that a Red hole is only allowed below a Black node. -/
def color : Path K V → Color
  | top => Color.Red
  | left _ _ c _ _ _ => c
  | right _ _ c _ _ _ => c

/-- Colour of the root of the plugged shape, given the colour put in the
hole. -/
def rootColor : Path K V → Color → Color
  | top, h => h
  | left up _ c _ _ _, _ => up.rootColor c
  | right _ _ c _ _ up, _ => up.rootColor c

/-- Black-height bookkeeping along a path: every sibling subtree is balanced
and as high as the hole is expected to be (`b`). -/
def Bal : Path K V → Nat → Prop
  | top, _ => True
  | left up _ c _ _ r, b =>
    r.Balanced ∧ r.blackHeight = b ∧ up.Bal (b + (if c = Color.Black then 1 else 0))
  | right l _ c _ _ up, b =>
    l.Balanced ∧ l.blackHeight = b ∧ up.Bal (b + (if c = Color.Black then 1 else 0))

/-- No Red node of the path has a Red parent or a Red sibling-side child; the
hole itself is not looked at. -/
def NoRedRed : Path K V → Prop
  | top => True
  | left up _ c _ _ r =>
    r.NoRedRed ∧ (c = Color.Red → r.rootColor = Color.Black ∧ up.color = Color.Black) ∧ up.NoRedRed
  | right l _ c _ _ up =>
    l.NoRedRed ∧ (c = Color.Red → l.rootColor = Color.Black ∧ up.color = Color.Black) ∧ up.NoRedRed

end Path

/-- Binary search for a key, remembering the way: the path from the root to
the node holding `key`, or to the empty position where it belongs. -/
def Shape.pathTo [LinearOrder K] (key : K) : Shape K V → Path K V → Path K V
  | .nil, acc => acc
  | .node l a c k v r, acc =>
    if key = k then acc
    else if k < key then r.pathTo key (.right l a c k v acc)
    else l.pathTo key (.left acc a c k v r)

/-- The value bound to `key` in a list of bindings (Go `nil` when absent). -/
def valueOf [DecidableEq K] (key : K) : List (K × Option V) → Option V
  | [] => none
  | (k, v) :: rest => if k = key then v else valueOf key rest

/-- Insert a binding into a list of bindings sorted by key, overwriting the
value of an equal key. -/
def insertEntry [LinearOrder K] (key : K) (v : Option V) :
    List (K × Option V) → List (K × Option V)
  | [] => [(key, v)]
  | (k1, v1) :: rest =>
    if key = k1 then (key, v) :: rest
    else if key < k1 then (key, v) :: (k1, v1) :: rest
    else (k1, v1) :: insertEntry key v rest

/-- The cells of a path are laid out in heap `m`, the child link on the hole
side being `hole`. -/
def OwnPath (m : List (Node K V)) : Path K V → Ptr → Prop
  | .top, _ => True
  | .left up a c k v r, hole =>
    m[a]? = some ⟨k, v, c, up.ptr, hole, r.ptr⟩ ∧ Own m (some a) r ∧ OwnPath m up (some a)
  | .right l a c k v up, hole =>
    m[a]? = some ⟨k, v, c, up.ptr, l.ptr, hole⟩ ∧ Own m (some a) l ∧ OwnPath m up (some a)

/-- Heap after the guarded write `if q != nil { q.parent = par }`. -/
def reparentHeap (m : List (Node K V)) (q par : Ptr) : List (Node K V) :=
  match q with
  | none => m
  | some x =>
    match m[x]? with
    | none => m
    | some nd => m.set x { nd with parent := par }

/-- Steps iii to vi of `balanceRemove` (everything after the sibling has been
made Black), with the recursive call as a parameter. -/
def balanceRemoveTail (recur : Tree K V → Ptr → Exec (Tree K V)) (s : Tree K V) (n sib : Ptr) :
    Exec (Tree K V) := do
  let c3 ← andAlso (parentColorIs s n Color.Black)
    (andAlso (leftColorIs s sib Color.Black) (rightColorIs s sib Color.Black))
  if c3 then do
    let s ← setColor s sib Color.Red
    let p ← getParent s n
    recur s p
  else do
    let c4 ← andAlso (parentColorIs s n Color.Red)
      (andAlso (leftColorIs s sib Color.Black) (rightColorIs s sib Color.Black))
    if c4 then do
      let s ← setColor s sib Color.Red
      let p ← getParent s n
      setColor s p Color.Black
    else do
      let c5 ← andAlso (isLeftChild s n)
        (andAlso (leftColorIs s sib Color.Red) (rightColorIs s sib Color.Black))
      let s ←
        if c5 then do
          let s ← setColor s sib Color.Red
          let sl ← getLeft s sib
          let s ← setColor s sl Color.Black
          rotateRight s sib
        else pure s
      let c5r ← andAlso (isRightChild s n)
        (andAlso (rightColorIs s sib Color.Red) (leftColorIs s sib Color.Black))
      let s ←
        if c5r then do
          let s ← setColor s sib Color.Red
          let sr ← getRight s sib
          let s ← setColor s sr Color.Black
          rotateLeft s sib
        else pure s
      let sib ← sibling s n
      let p ← getParent s n
      let pc ← getColor s p
      let s ← setColor s sib pc
      let p ← getParent s n
      let s ← setColor s p Color.Black
      let c6 ← andAlso (isLeftChild s n) (rightColorIs s sib Color.Red)
      let s ←
        if c6 then do
          let sr ← getRight s sib
          let s ← setColor s sr Color.Black
          let p ← getParent s n
          rotateLeft s p
        else pure s
      let c6r ← andAlso (isLeftChild s n) (leftColorIs s sib Color.Red)
      if c6r then do
        let sl ← getLeft s sib
        let s ← setColor s sl Color.Black
        let p ← getParent s n
        rotateRight s p
      else pure s

/-- The tree object `s` represents the shape obtained by plugging `t` into
`path` (the representation relation, seen from a node inside the tree). -/
def RepZ (s : Tree K V) (path : Path K V) (t : Shape K V) : Prop :=
  s.root = path.root t.ptr ∧ OwnPath s.heap path t.ptr ∧ Own s.heap path.ptr t ∧
    ((path.before ++ t.inorder ++ path.after).map fun e => e.1).Nodup

/-! ## Specification vocabulary for `remove` -/

/-- Stack the path `inner` (a path inside a subtree) on the path `outer` that
leads to that subtree. -/
def Path.comp : Path K V → Path K V → Path K V
  | .top, outer => outer
  | .left up a c k v r, outer => .left (up.comp outer) a c k v r
  | .right l a c k v up, outer => .right l a c k v (up.comp outer)

/-- Path from the root of a shape to its rightmost node. -/
def Shape.maxPath : Shape K V → Path K V
  | .nil => .top
  | .node _ _ _ _ _ .nil => .top
  | .node l a c k v (.node rl b cb kb vb rr) =>
    ((Shape.node rl b cb kb vb rr).maxPath).comp (.right l a c k v .top)

/-- The subtree rooted at the rightmost node. -/
def Shape.maxNode : Shape K V → Shape K V
  | .nil => .nil
  | .node l a c k v .nil => .node l a c k v .nil
  | .node _ _ _ _ _ (.node rl b cb kb vb rr) => (Shape.node rl b cb kb vb rr).maxNode

/-- The last part of `remove`, from `tree.replace(n, child)` on. -/
def unlinkNode (s : Tree K V) (n child : Ptr) : Exec (Tree K V × Ptr) := do
  let s ← replace s n child
  let np ← getParent s n
  let s ← if np = none ∧ child ≠ none then setColor s child Color.Black else pure s
  let s ← detach s n
  let s := { s with size := s.size - 1 }
  pure (s, n)

/-- The second half of `remove`, from `child := n.right` on: take out the node
`n`, which has at most one child. -/
def removeNode (fuel : Nat) (s : Tree K V) (n : Ptr) : Exec (Tree K V × Ptr) := do
  let child ← getRight s n
  let child ← if child = none then getLeft s n else pure child
  let nc ← getColor s n
  let s ←
    if nc = Color.Black then do
      let cc ← color s child
      let s ← setColor s n cc
      balanceRemove fuel s n
    else pure s
  unlinkNode s n child

/-! ## Bindings of a call sequence, and the concrete trees of the examples -/

instance (t : Shape K V) : Decidable t.RootBlack :=
  inferInstanceAs (Decidable (t.rootColor = Color.Black))

instance (t : Shape K V) : Decidable t.EqualBlackPaths :=
  inferInstanceAs (Decidable (∀ x ∈ t.pathBlacks, ∀ y ∈ t.pathBlacks, x = y))

instance [LinearOrder K] (t : Shape K V) : Decidable t.SortedKeys :=
  inferInstanceAs (Decidable (t.keys.Pairwise (· < ·)))

/-- The bindings that a sequence of `Insert` calls leaves behind: ordered by
key, one per key, each key with the value of its latest call. -/
def bindingsOf [LinearOrder K] (kvs : List (K × Option V)) : List (K × Option V) :=
  kvs.foldl (fun E kv => insertEntry kv.1 kv.2 E) []

/-- A callback for `Do` that records the values it is handed, in call order. -/
def collect (acc : List (Option V)) (v : Option V) : List (Option V) := acc ++ [v]

/-- Keys 2, 1, 3, 0, each bound to itself. -/
def kvs2130 : List (Nat × Option Nat) := [(2, some 2), (1, some 1), (3, some 3), (0, some 0)]

/-- The tree object after `Insert` of 2, 1, 3, 0 into `New()`: cell 0 holds key
2, cell 1 key 1, cell 2 key 3 and cell 3 key 0. -/
def tree2130 : Tree Nat Nat :=
  { size := 4, root := some 0,
    heap := [⟨2, some 2, .Black, none, some 1, some 2⟩, ⟨1, some 1, .Black, some 0, some 3, none⟩,
      ⟨3, some 3, .Black, some 0, none, none⟩, ⟨0, some 0, .Red, some 1, none, none⟩] }

/-- The shape of `tree2130`: Black 2 over Black 1 (with Red 0 on its left) and
Black 3. -/
def shape2130 : Shape Nat Nat :=
  .node (.node (.node .nil 3 .Red 0 (some 0) .nil) 1 .Black 1 (some 1) .nil) 0 .Black 2 (some 2)
    (.node .nil 2 .Black 3 (some 3) .nil)

/-- The tree object that `Remove(3)` leaves of `tree2130`; cell 2 is detached. -/
def tree2130Less3 : Tree Nat Nat :=
  { size := 3, root := some 0,
    heap := [⟨2, some 2, .Black, none, some 1, none⟩, ⟨1, some 1, .Black, some 0, some 3, none⟩,
      ⟨3, some 3, .Black, none, none, none⟩, ⟨0, some 0, .Red, some 1, none, none⟩] }

/-- The shape of `tree2130Less3`: Black 2 over Black 1 over Red 0, a left spine. -/
def shape2130Less3 : Shape Nat Nat :=
  .node (.node (.node .nil 3 .Red 0 (some 0) .nil) 1 .Black 1 (some 1) .nil) 0 .Black 2 (some 2)
    .nil

/-- Keys 5, 3, 8, 1, 4, 7, 9, each bound to itself. -/
def kvs7 : List (Nat × Option Nat) :=
  [(5, some 5), (3, some 3), (8, some 8), (1, some 1), (4, some 4), (7, some 7), (9, some 9)]

/-! ## Descending traversal, the bounded-count decorator, `Uint` keys -/

/-- Modelled from the spec: `InOrderR`, the function that `InOrderReverse`
calls on the right and on the left subtree; no file of the repository defines
it.  The spec describes the descending traversal as visiting right, self,
left at every node and calling the callback once per value; this definition
does that. -/
def InOrderR {σ : Type} : Nat → Tree K V → Ptr → (σ → Option V → σ) → σ → Exec σ
  | 0, _, _, _, _ => .error .outOfFuel
  | fuel + 1, s, n, fn, acc =>
    if n = none then pure acc
    else do
      let r ← getRight s n
      let acc ← if r ≠ none then InOrderR fuel s r fn acc else pure acc
      let v ← getValue s n
      let acc := fn acc v
      let l ← getLeft s n
      if l ≠ none then InOrderR fuel s l fn acc else pure acc

/-- `func InOrderReverse(n *Node, fn NodeFunc)`; the calls on the subtrees go
to `InOrderR`, as in the source. -/
def InOrderReverse {σ : Type} (fuel : Nat) (s : Tree K V) (n : Ptr) (fn : σ → Option V → σ)
    (acc : σ) : Exec σ :=
  if n = none then pure acc
  else do
    let r ← getRight s n
    let acc ← if r ≠ none then InOrderR fuel s r fn acc else pure acc
    let v ← getValue s n
    let acc := fn acc v
    let l ← getLeft s n
    if l ≠ none then InOrderR fuel s l fn acc else pure acc

/-- `InOrderReverse` as an `IterFunc` value. -/
def inOrderReverseIter : IterFunc K V := fun _ fuel s n fn acc => InOrderReverse fuel s n fn acc

/-- `func limit(l int, iter IterFunc, n *Node, fn NodeFunc)`.  The counter `c`
of the closure `_fn` travels in the callback state, next to the state of `fn`;
Go `int` is taken unbounded. -/
def limit (l : Int) (iter : IterFunc K V) (σ : Type) (fuel : Nat) (s : Tree K V) (n : Ptr)
    (fn : σ → Option V → σ) (acc : σ) : Exec σ := do
  let r ← iter (Int × σ) fuel s n
    (fun st value =>
      let c := st.1 + 1
      if c > l then (c, st.2) else (c, fn st.2 value))
    (0, acc)
  pure r.2

/-- `func Limit(l int, iter IterFunc) IterFunc`. -/
def Limit (l : Int) (iter : IterFunc K V) : IterFunc K V :=
  fun σ fuel s n fn acc => limit l iter σ fuel s n fn acc

/-- Conversion `int(x)` of a `uint64` value on a platform with 64-bit `int`:
the two's complement reading of the same bits. -/
def toInt64 (x : Nat) : Int := if x < 2 ^ 63 then (x : Int) else (x : Int) - 2 ^ 64

/-- `func (a Uint) Compare(b Key) int`, `int(a - b.(Uint))`: the subtraction is
the one of `uint64`, modulo `2 ^ 64`.  Keys are naturals below `2 ^ 64`. -/
def Uint.Compare (a b : Nat) : Int := toInt64 ((a + 2 ^ 64 - b) % 2 ^ 64)

/-- `func (a Uint) Equals(b Key) bool`, `a - b.(Uint) == 0`. -/
def Uint.Equals (a b : Nat) : Bool := (a + 2 ^ 64 - b) % 2 ^ 64 == 0

/-- Number of edges on the longest path from the root to a leaf node (0 for a
single node, and for the empty shape). -/
def Shape.edgeHeight : Shape K V → Nat
  | .nil => 0
  | .node .nil _ _ _ _ .nil => 0
  | .node l _ _ _ _ r => 1 + max l.edgeHeight r.edgeHeight

/-- The nodes in order, each with its address, key, value and colour. -/
def Shape.labels : Shape K V → List (Nat × K × Option V × Color)
  | .nil => []
  | .node l a c k v r => l.labels ++ (a, k, v, c) :: r.labels

/-- An execution that does not stop for lack of fuel: it returns, or it faults
on a nil dereference. -/
def Finishes {α : Type} (e : Exec α) : Prop := e ≠ .error .outOfFuel

/-- A callback for `Do` that counts its calls. -/
def countCalls (c : Nat) (_v : Option V) : Nat := c + 1

/-- The keys 0 to 15, each bound to itself. -/
def kvs16 : List (Nat × Option Nat) := (List.range 16).map fun k => (k, some k)

/-- The tree object after `Insert` of the keys 0 to 15 into `New()`. -/
def tree16 : Tree Nat Nat :=
  match insertAll natCompare 20 kvs16 New with
  | .ok s => s
  | .error _ => New

/-- A tree object holding the single key 5 (what `Insert(5, 5)` makes of
`New()`). -/
def singleTree : Tree Nat Nat :=
  { size := 1, root := some 0, heap := [⟨5, some 5, .Black, none, none, none⟩] }

/-- The shape of `singleTree`. -/
def singleShape : Shape Nat Nat := .node .nil 0 .Black 5 (some 5) .nil

/-! ## Reachable tree objects -/

/-- What one run returns, another run returns too (a run with more fuel
extends a run with less). -/
def Extends {α : Type} (e e1 : Exec α) : Prop := ∀ r, e = .ok r → e1 = .ok r

/-- The tree objects a caller of the package can hold: the tree of `New()`, and
whatever a call of `Insert` or `Remove` that returned has made of such a tree.
(The fields of `Tree` and `Node` are unexported, so there is no other way to
build one.) -/
inductive Reachable (cmp : K → K → Int) : Tree K V → Prop where
  | new : Reachable cmp New
  | insert {s s1 : Tree K V} (fuel : Nat) (key : K) (value : Option V) :
      Reachable cmp s → Insert cmp fuel s key value = .ok s1 → Reachable cmp s1
  | remove {s s1 : Tree K V} (fuel : Nat) (key : K) (v : Option V) :
      Reachable cmp s → Remove cmp fuel s key = .ok (s1, v) → Reachable cmp s1

/-! ## Concrete states inside `Insert` and `Remove` -/

/-- The tree object after `Insert` of 2, 1, 3 into `New()`: Black 2 over Red 1
and Red 3. -/
def tree213 : Tree Nat Nat :=
  { size := 3, root := some 0,
    heap := [⟨2, some 2, .Black, none, some 1, some 2⟩, ⟨1, some 1, .Red, some 0, none, none⟩,
      ⟨3, some 3, .Red, some 0, none, none⟩] }

/-- The tree object that `balanceInsert` receives inside `Insert(0, 0)` on
`tree213`: the new Red node of key 0 (cell 3) hangs below Red 1, whose sibling
Red 3 is the uncle; the size is already counted. -/
def insertPending : Tree Nat Nat :=
  { size := 4, root := some 0,
    heap := [⟨2, some 2, .Black, none, some 1, some 2⟩, ⟨1, some 1, .Red, some 0, some 3, none⟩,
      ⟨3, some 3, .Red, some 0, none, none⟩, ⟨0, some 0, .Red, some 1, none, none⟩] }

/-- The shape of `insertPending`. -/
def shapePending : Shape Nat Nat :=
  .node (.node (.node .nil 3 .Red 0 (some 0) .nil) 1 .Red 1 (some 1) .nil) 0 .Black 2 (some 2)
    (.node .nil 2 .Red 3 (some 3) .nil)

/-- The tree object that `Remove(0)` leaves of `tree2130`: Black 2 over Black 1
and Black 3; cell 3 is detached.  `Remove(1)` hands this object to
`balanceRemove` at the node of key 1 (cell 1). -/
def tree213Black : Tree Nat Nat :=
  { size := 3, root := some 0,
    heap := [⟨2, some 2, .Black, none, some 1, some 2⟩, ⟨1, some 1, .Black, some 0, none, none⟩,
      ⟨3, some 3, .Black, some 0, none, none⟩, ⟨0, some 0, .Red, none, none, none⟩] }

/-- The shape of `tree213Black`. -/
def shape213Black : Shape Nat Nat :=
  .node (.node .nil 1 .Black 1 (some 1) .nil) 0 .Black 2 (some 2)
    (.node .nil 2 .Black 3 (some 3) .nil)

/-- The object `tree213Black` after `balanceRemove` at the node of key 1: the
sibling of key 3 has turned Red. -/
def tree213Recolored : Tree Nat Nat :=
  { size := 3, root := some 0,
    heap := [⟨2, some 2, .Black, none, some 1, some 2⟩, ⟨1, some 1, .Black, some 0, none, none⟩,
      ⟨3, some 3, .Red, some 0, none, none⟩, ⟨0, some 0, .Red, none, none, none⟩] }

/-! ## Running the program: basic rewriting rules -/

@[simp] theorem bind_ok {α β : Type} (a : α) (f : α → Exec β) : (Except.ok a >>= f) = f a := rfl

@[simp] theorem bind_error {α β : Type} (e : Fault) (f : α → Exec β) :
    ((Except.error e : Exec α) >>= f) = Except.error e := rfl

@[simp] theorem pure_eq_ok {α : Type} (a : α) : (pure a : Exec α) = Except.ok a := rfl

theorem load_cell {s : Tree K V} {a : Nat} {nd : Node K V} (h : s.heap[a]? = some nd) :
    s.load (some a) = .ok nd := by
  simp [Tree.load, h]

theorem getKey_cell {s : Tree K V} {a : Nat} {nd : Node K V} (h : s.heap[a]? = some nd) :
    getKey s (some a) = .ok nd.key := by
  simp [getKey, load_cell h]

theorem getValue_cell {s : Tree K V} {a : Nat} {nd : Node K V} (h : s.heap[a]? = some nd) :
    getValue s (some a) = .ok nd.value := by
  simp [getValue, load_cell h]

theorem getColor_cell {s : Tree K V} {a : Nat} {nd : Node K V} (h : s.heap[a]? = some nd) :
    getColor s (some a) = .ok nd.color := by
  simp [getColor, load_cell h]

theorem getParent_cell {s : Tree K V} {a : Nat} {nd : Node K V} (h : s.heap[a]? = some nd) :
    getParent s (some a) = .ok nd.parent := by
  simp [getParent, load_cell h]

theorem getLeft_cell {s : Tree K V} {a : Nat} {nd : Node K V} (h : s.heap[a]? = some nd) :
    getLeft s (some a) = .ok nd.left := by
  simp [getLeft, load_cell h]

theorem getRight_cell {s : Tree K V} {a : Nat} {nd : Node K V} (h : s.heap[a]? = some nd) :
    getRight s (some a) = .ok nd.right := by
  simp [getRight, load_cell h]

/-! ## Shapes: elementary facts -/

namespace Shape

@[simp] theorem ptr_nil : (nil : Shape K V).ptr = none := rfl

@[simp] theorem ptr_node (l : Shape K V) (a : Nat) (c : Color) (k : K) (v : Option V)
    (r : Shape K V) : (node l a c k v r).ptr = some a := rfl

@[simp] theorem addrs_nil : (nil : Shape K V).addrs = [] := rfl

@[simp] theorem addrs_node (l : Shape K V) (a : Nat) (c : Color) (k : K) (v : Option V)
    (r : Shape K V) : (node l a c k v r).addrs = l.addrs ++ a :: r.addrs := by
  simp [addrs, inorder]

@[simp] theorem keys_nil : (nil : Shape K V).keys = [] := rfl

@[simp] theorem keys_node (l : Shape K V) (a : Nat) (c : Color) (k : K) (v : Option V)
    (r : Shape K V) : (node l a c k v r).keys = l.keys ++ k :: r.keys := by
  simp [keys, inorder]

theorem length_inorder (t : Shape K V) : t.inorder.length = t.size := by
  induction t with
  | nil => rfl
  | node l a c k v r ihl ihr => simp [inorder, size, ihl, ihr]; omega

theorem length_addrs (t : Shape K V) : t.addrs.length = t.size := by
  simp [addrs, length_inorder]

theorem ptr_mem_addrs {t : Shape K V} {x : Nat} (h : t.ptr = some x) : x ∈ t.addrs := by
  cases t with
  | nil => simp [ptr] at h
  | node l a c k v r =>
    simp only [ptr, Option.some.injEq] at h
    simp [h]

theorem ptr_eq_none {t : Shape K V} : t.ptr = none ↔ t = nil := by
  cases t <;> simp [ptr]

theorem addrs_ne_nil {t : Shape K V} (h : t ≠ nil) : t.addrs ≠ [] := by
  cases t with
  | nil => exact absurd rfl h
  | node l a c k v r => simp

end Shape

/-! ## Successor and predecessor in a list -/

theorem nextIn_append_mem {l1 : List Nat} (l2 : List Nat) {x : Nat} (d : Ptr) (h : x ∈ l1) :
    nextIn (l1 ++ l2) x d = nextIn l1 x ((l2.head?).or d) := by
  induction l1 with
  | nil => simp at h
  | cons y ys ih =>
    by_cases hy : y = x
    · cases ys <;> simp [nextIn, hy]
    · have hx : x ∈ ys := by
        rcases List.mem_cons.1 h with h1 | h1
        · exact absurd h1.symm hy
        · exact h1
      simp [nextIn, hy, ih hx]

theorem nextIn_append_not_mem {l1 : List Nat} (l2 : List Nat) {x : Nat} (d : Ptr) (h : x ∉ l1) :
    nextIn (l1 ++ l2) x d = nextIn l2 x d := by
  induction l1 with
  | nil => simp
  | cons y ys ih =>
    have hy : y ≠ x := fun e => h (by simp [e])
    have hx : x ∉ ys := fun e => h (by simp [e])
    simp [nextIn, hy, ih hx]

theorem prevIn_append_mem {l2 : List Nat} (l1 : List Nat) {x : Nat} (d : Ptr) (h : x ∈ l2)
    (h1 : x ∉ l1) : prevIn (l1 ++ l2) x d = prevIn l2 x ((l1.getLast?).or d) := by
  induction l1 generalizing d with
  | nil => simp
  | cons y ys ih =>
    have hx : x ∉ ys := fun e => h1 (by simp [e])
    have hm : x ∈ ys ++ l2 := by simp [h]
    rw [List.cons_append, prevIn, if_pos hm, ih (some y) hx]
    cases ys with
    | nil => simp
    | cons z zs =>
      cases hl : (z :: zs).getLast? with
      | none => simp at hl
      | some w => simp [List.getLast?_cons_cons, hl]

theorem prevIn_append_not_mem {l2 : List Nat} (l1 : List Nat) {x : Nat} (d : Ptr) (h : x ∉ l2) :
    prevIn (l1 ++ l2) x d = prevIn l1 x d := by
  induction l1 generalizing d with
  | nil =>
    cases l2 with
    | nil => rfl
    | cons z zs =>
      have : x ∉ zs := fun e => h (by simp [e])
      simp [prevIn, this]
  | cons y ys ih =>
    by_cases hx : x ∈ ys
    · simp [prevIn, hx, ih]
    · simp [prevIn, hx, h]

/-! ## Successor and predecessor in a list, by position -/

theorem nextIn_index : ∀ (l : List Nat) (i x : Nat) (d : Ptr), l.Nodup → l[i]? = some x →
    nextIn l x d = (l[i + 1]?).or d := by
  intro l
  induction l with
  | nil => intro i x d _ h; simp at h
  | cons y ys ih =>
    intro i x d hnd h
    cases i with
    | zero =>
      simp only [List.getElem?_cons_zero, Option.some.injEq] at h
      simp [nextIn, h, List.head?_eq_getElem?]
    | succ j =>
      simp only [List.getElem?_cons_succ] at h
      have hx : x ∈ ys := List.getElem?_mem h
      have hy : y ≠ x := fun e => (List.nodup_cons.1 hnd).1 (e ▸ hx)
      simp [nextIn, hy, ih j x d (List.nodup_cons.1 hnd).2 h]

theorem prevIn_eq_nextIn_reverse : ∀ (l : List Nat) (x : Nat) (d : Ptr),
    prevIn l x d = nextIn l.reverse x d := by
  intro l
  induction l with
  | nil => intro x d; rfl
  | cons y ys ih =>
    intro x d
    rw [List.reverse_cons, prevIn]
    by_cases hx : x ∈ ys
    · rw [if_pos hx, nextIn_append_mem _ _ (List.mem_reverse.2 hx), ih]
      simp
    · rw [if_neg hx, nextIn_append_not_mem _ _ (fun h => hx (List.mem_reverse.1 h))]
      by_cases hy : y = x <;> simp [nextIn, hy]

theorem nextIn_mem : ∀ (l : List Nat) (x y : Nat), nextIn l x none = some y → y ∈ l := by
  intro l
  induction l with
  | nil => intro x y h; simp [nextIn] at h
  | cons z zs ih =>
    intro x y h
    by_cases hz : z = x
    · simp only [nextIn, if_pos hz, Option.or_none] at h
      exact List.mem_cons_of_mem _ (List.mem_of_mem_head? h)
    · simp only [nextIn, if_neg hz] at h
      exact List.mem_cons_of_mem _ (ih x y h)

theorem prevIn_of_nextIn : ∀ (l : List Nat) (x y : Nat) (d : Ptr), l.Nodup → x ∈ l →
    nextIn l x none = some y → prevIn l y d = some x := by
  intro l
  induction l with
  | nil => intro x y d _ h; simp at h
  | cons z zs ih =>
    intro x y d hnd hx h
    obtain ⟨hz, hnd2⟩ := List.nodup_cons.1 hnd
    by_cases hzx : z = x
    · subst hzx
      simp only [nextIn, if_true, Option.or_none] at h
      cases zs with
      | nil => simp at h
      | cons w ws =>
        simp only [List.head?_cons, Option.some.injEq] at h
        subst h
        have hw : w ∉ ws := (List.nodup_cons.1 hnd2).1
        simp [prevIn, hw]
    · simp only [nextIn, if_neg hzx] at h
      have hxz : x ∈ zs := by
        rcases List.mem_cons.1 hx with e | e
        · exact absurd e.symm hzx
        · exact e
      have hy : y ∈ zs := nextIn_mem zs x y h
      rw [prevIn, if_pos hy]
      exact ih x y (some z) hnd2 hxz h

/-! ## Navigation: `First`, `Last`, `Next`, `Previous` -/

theorem getLast?_append_cons {α : Type} (l1 : List α) (a : α) (l2 : List α) :
    (l1 ++ a :: l2).getLast? = (a :: l2).getLast? := by
  rw [List.getLast?_append]
  cases h : (a :: l2).getLast? with
  | none => simp at h
  | some w => simp

theorem loopLeft_shape (s : Tree K V) : ∀ (t : Shape K V) (par : Ptr) (fuel : Nat),
    Own s.heap par t → t ≠ .nil → t.size ≤ fuel → loopLeft fuel s t.ptr = .ok t.addrs.head? := by
  intro t
  induction t with
  | nil => intro par fuel _ h; exact absurd rfl h
  | node l a c k v r ihl _ =>
    intro par fuel hown _ hfuel
    obtain ⟨hc, hl, _⟩ := hown
    cases fuel with
    | zero => simp [Shape.size] at hfuel
    | succ fuel =>
      have hsz : l.size ≤ fuel := by simp [Shape.size] at hfuel; omega
      cases l with
      | nil => simp [loopLeft, getLeft_cell hc]
      | node ll al cl kl vl rl =>
        have := ihl (some a) fuel hl (by simp) hsz
        simp [loopLeft, getLeft_cell hc] at this ⊢
        simpa using this

theorem loopRight_shape (s : Tree K V) : ∀ (t : Shape K V) (par : Ptr) (fuel : Nat),
    Own s.heap par t → t ≠ .nil → t.size ≤ fuel →
    loopRight fuel s t.ptr = .ok t.addrs.getLast? := by
  intro t
  induction t with
  | nil => intro par fuel _ h; exact absurd rfl h
  | node l a c k v r _ ihr =>
    intro par fuel hown _ hfuel
    obtain ⟨hc, _, hr⟩ := hown
    cases fuel with
    | zero => simp [Shape.size] at hfuel
    | succ fuel =>
      have hsz : r.size ≤ fuel := by simp [Shape.size] at hfuel; omega
      cases r with
      | nil => simp [loopRight, getRight_cell hc, getLast?_append_cons]
      | node lr ar cr kr vr rr =>
        have := ihr (some a) fuel hr (by simp) hsz
        rw [Shape.addrs_node, getLast?_append_cons] at this
        rw [Shape.addrs_node, Shape.addrs_node, getLast?_append_cons, ← List.cons_append,
          getLast?_append_cons]
        simpa [loopRight, getRight_cell hc] using this

/-- Successor by pointer navigation, for the nodes of a sub-shape: `nxt` is
what climbing from the root of the sub-shape yields. -/
theorem next_aux (s : Tree K V) : ∀ (t : Shape K V) (par nxt : Ptr) (F : Nat),
    Own s.heap par t → t.addrs.Nodup →
    (∀ fuel, F ≤ fuel → t ≠ .nil → (climbRight fuel s t.ptr >>= getParent s) = .ok nxt) →
    ∀ x ∈ t.addrs, ∀ fuel, F + t.size ≤ fuel →
      Next fuel s (some x) = .ok (nextIn t.addrs x nxt) := by
  intro t
  induction t with
  | nil => intro par nxt F _ _ _ x hx; simp at hx
  | node l a c k v r ihl ihr =>
    intro par nxt F hown hnd hup x hx fuel hfuel
    obtain ⟨hc, hl, hr⟩ := hown
    rw [Shape.addrs_node] at hnd hx ⊢
    have hndl : l.addrs.Nodup := (List.nodup_append.1 hnd).1
    have hndr : r.addrs.Nodup := ((List.nodup_cons.1 (List.nodup_append.1 hnd).2.1)).2
    have hal : a ∉ l.addrs := fun h =>
      (List.nodup_append.1 hnd).2.2 h (List.mem_cons_self _ _)
    have har : a ∉ r.addrs := (List.nodup_cons.1 (List.nodup_append.1 hnd).2.1).1
    have hdis : ∀ y, y ∈ l.addrs → y ∉ r.addrs := fun y hy1 hy2 =>
      (List.nodup_append.1 hnd).2.2 hy1 (List.mem_cons_of_mem _ hy2)
    simp only [Shape.size] at hfuel
    rcases List.mem_append.1 hx with hxl | hxr
    · -- a node of the left subtree
      rw [nextIn_append_mem _ _ hxl]
      simp only [List.head?_cons, Option.or_some]
      refine ihl (some a) (some a) 1 hl hndl ?_ x hxl fuel (by omega)
      intro f hf hne
      cases l with
      | nil => exact absurd rfl hne
      | node ll al cl kl vl rl =>
        obtain ⟨hcl, _, _⟩ := hl
        have hne2 : r.ptr ≠ some al := fun h =>
          hdis al (by simp) (Shape.ptr_mem_addrs h)
        cases f with
        | zero => omega
        | succ f =>
          simp [climbRight, getParent_cell hcl, getRight_cell hc, hne2]
    · rcases List.mem_cons.1 hxr with hxa | hxr
      · -- the root of the sub-shape
        subst hxa
        rw [nextIn_append_not_mem _ _ hal]
        simp only [nextIn, if_true]
        cases r with
        | nil =>
          have := hup fuel (by omega) (by simp)
          simpa [Next, getRight_cell hc] using this
        | node lr ar cr kr vr rr =>
          have := loopLeft_shape s _ (some x) fuel hr (by simp) (by omega)
          rw [Shape.addrs_node] at this ⊢
          simp only [Shape.ptr_node] at this
          cases hh : (lr.addrs ++ ar :: rr.addrs).head? with
          | none => simp at hh
          | some w =>
            simp [Next, getRight_cell hc, this, hh]
      · -- a node of the right subtree
        have hxl : x ∉ l.addrs := fun h => hdis x h hxr
        have hxa : a ≠ x := fun h => har (h ▸ hxr)
        rw [nextIn_append_not_mem _ _ hxl]
        simp only [nextIn, if_neg hxa]
        refine ihr (some a) nxt (F + 1) hr hndr ?_ x hxr fuel (by omega)
        intro f hf hne
        cases r with
        | nil => exact absurd rfl hne
        | node lr ar cr kr vr rr =>
          obtain ⟨hcr, _, _⟩ := hr
          cases f with
          | zero => omega
          | succ f =>
            have := hup f (by omega) (by simp)
            simpa [climbRight, getParent_cell hcr, getRight_cell hc] using this

/-- Predecessor by pointer navigation, for the nodes of a sub-shape. -/
theorem previous_aux (s : Tree K V) : ∀ (t : Shape K V) (par prv : Ptr) (F : Nat),
    Own s.heap par t → t.addrs.Nodup →
    (∀ fuel, F ≤ fuel → t ≠ .nil → (climbLeft fuel s t.ptr >>= getParent s) = .ok prv) →
    ∀ x ∈ t.addrs, ∀ fuel, F + t.size ≤ fuel →
      Previous fuel s (some x) = .ok (prevIn t.addrs x prv) := by
  intro t
  induction t with
  | nil => intro par nxt F _ _ _ x hx; simp at hx
  | node l a c k v r ihl ihr =>
    intro par prv F hown hnd hup x hx fuel hfuel
    obtain ⟨hc, hl, hr⟩ := hown
    rw [Shape.addrs_node] at hnd hx ⊢
    have hndl : l.addrs.Nodup := (List.nodup_append.1 hnd).1
    have hndr : r.addrs.Nodup := ((List.nodup_cons.1 (List.nodup_append.1 hnd).2.1)).2
    have hal : a ∉ l.addrs := fun h =>
      (List.nodup_append.1 hnd).2.2 h (List.mem_cons_self _ _)
    have har : a ∉ r.addrs := (List.nodup_cons.1 (List.nodup_append.1 hnd).2.1).1
    have hdis : ∀ y, y ∈ l.addrs → y ∉ r.addrs := fun y hy1 hy2 =>
      (List.nodup_append.1 hnd).2.2 hy1 (List.mem_cons_of_mem _ hy2)
    simp only [Shape.size] at hfuel
    rcases List.mem_append.1 hx with hxl | hxr
    · -- a node of the left subtree
      have hxr : x ∉ a :: r.addrs := by
        intro h
        rcases List.mem_cons.1 h with h | h
        · exact hal (h ▸ hxl)
        · exact hdis x hxl h
      rw [prevIn_append_not_mem _ _ hxr]
      refine ihl (some a) prv (F + 1) hl hndl ?_ x hxl fuel (by omega)
      intro f hf hne
      cases l with
      | nil => exact absurd rfl hne
      | node ll al cl kl vl rl =>
        obtain ⟨hcl, _, _⟩ := hl
        cases f with
        | zero => omega
        | succ f =>
          have := hup f (by omega) (by simp)
          simpa [climbLeft, getParent_cell hcl, getLeft_cell hc] using this
    · rcases List.mem_cons.1 hxr with hxa | hxr
      · -- the root of the sub-shape
        subst hxa
        rw [prevIn_append_mem _ _ (List.mem_cons_self _ _) hal]
        simp only [prevIn, if_neg har]
        cases l with
        | nil =>
          have := hup fuel (by omega) (by simp)
          simpa [Previous, getLeft_cell hc] using this
        | node ll al cl kl vl rl =>
          have := loopRight_shape s _ (some x) fuel hl (by simp) (by omega)
          rw [Shape.addrs_node] at this ⊢
          simp only [Shape.ptr_node] at this
          cases hh : (ll.addrs ++ al :: rl.addrs).getLast? with
          | none => simp at hh
          | some w =>
            simp [Previous, getLeft_cell hc, this, hh]
      · -- a node of the right subtree
        have hxl : x ∉ l.addrs := fun h => hdis x h hxr
        have hxa : a ≠ x := fun h => har (h ▸ hxr)
        rw [prevIn_append_mem _ _ (List.mem_cons_of_mem _ hxr) hxl]
        simp only [prevIn, if_pos hxr]
        refine ihr (some a) (some a) 1 hr hndr ?_ x hxr fuel (by omega)
        intro f hf hne
        cases r with
        | nil => exact absurd rfl hne
        | node lr ar cr kr vr rr =>
          obtain ⟨hcr, _, _⟩ := hr
          have hne2 : l.ptr ≠ some ar := fun h =>
            hdis ar (Shape.ptr_mem_addrs h) (by simp)
          cases f with
          | zero => omega
          | succ f =>
            simp [climbLeft, getParent_cell hcr, getLeft_cell hc, hne2]

theorem next_shape {s : Tree K V} {t : Shape K V} (h : Rep s t) {x : Nat} (hx : x ∈ t.addrs)
    {fuel : Nat} (hfuel : t.size < fuel) :
    Next fuel s (some x) = .ok (nextIn t.addrs x none) := by
  refine next_aux s t none none 1 h.2.1 h.2.2 ?_ x hx fuel (by omega)
  intro f hf hne
  cases t with
  | nil => exact absurd rfl hne
  | node l a c k v r =>
    obtain ⟨hc, _, _⟩ := h.2.1
    cases f with
    | zero => omega
    | succ f => simp [climbRight, getParent_cell hc]

theorem previous_shape {s : Tree K V} {t : Shape K V} (h : Rep s t) {x : Nat}
    (hx : x ∈ t.addrs) {fuel : Nat} (hfuel : t.size < fuel) :
    Previous fuel s (some x) = .ok (prevIn t.addrs x none) := by
  refine previous_aux s t none none 1 h.2.1 h.2.2 ?_ x hx fuel (by omega)
  intro f hf hne
  cases t with
  | nil => exact absurd rfl hne
  | node l a c k v r =>
    obtain ⟨hc, _, _⟩ := h.2.1
    cases f with
    | zero => omega
    | succ f => simp [climbLeft, getParent_cell hc]

theorem cursorLoop_list (s : Tree K V) (step : Tree K V → Ptr → Exec Ptr) (l : List Nat)
    (hstep : ∀ i x, l[i]? = some x → step s (some x) = .ok l[i + 1]?) :
    ∀ (fuel i : Nat), l.length - i < fuel → cursorLoop step fuel s l[i]? = .ok (l.drop i) := by
  intro fuel
  induction fuel with
  | zero => intro i h; omega
  | succ fuel ih =>
    intro i h
    cases hi : l[i]? with
    | none =>
      have : l.length ≤ i := List.getElem?_eq_none_iff.1 hi
      simp [cursorLoop, List.drop_eq_nil_of_le this]
    | some a =>
      have hlt : i < l.length := by
        by_contra hcon
        rw [List.getElem?_eq_none_iff.2 (by omega)] at hi
        simp at hi
      have hd : l.drop i = a :: l.drop (i + 1) := by
        rw [List.drop_eq_getElem_cons hlt]
        rw [List.getElem?_eq_getElem hlt] at hi
        simp only [Option.some.injEq] at hi
        rw [hi]
      simp [cursorLoop, hstep i a hi, ih (i + 1) (by omega), hd]

/-! ## Frames: cells outside a write are untouched -/

theorem Own.root_cell {m : List (Node K V)} {par : Ptr} {l r : Shape K V} {a : Nat} {c : Color}
    {k : K} {v : Option V} (h : Own m par (.node l a c k v r)) :
    m[a]? = some ⟨k, v, c, par, l.ptr, r.ptr⟩ := h.1

theorem Own.congr {m m1 : List (Node K V)} : ∀ {t : Shape K V} {par : Ptr},
    (∀ a ∈ t.addrs, m1[a]? = m[a]?) → Own m par t → Own m1 par t := by
  intro t
  induction t with
  | nil => intro par _ _; trivial
  | node l a c k v r ihl ihr =>
    intro par hfr h
    obtain ⟨hc, hl, hr⟩ := h
    refine ⟨?_, ihl (fun x hx => hfr x (by simp [hx])) hl, ihr (fun x hx => hfr x (by simp [hx])) hr⟩
    rw [hfr a (by simp), hc]

theorem Own.reparent {m : List (Node K V)} {par par1 : Ptr} {t : Shape K V} {m1 : List (Node K V)}
    (h : Own m par t)
    (hroot : ∀ a nd, t.ptr = some a → m[a]? = some nd → m1[a]? = some { nd with parent := par1 })
    (hfr : ∀ a ∈ t.addrs, t.ptr ≠ some a → m1[a]? = m[a]?)
    (hnd : t.addrs.Nodup) : Own m1 par1 t := by
  cases t with
  | nil => trivial
  | node l a c k v r =>
    obtain ⟨hc, hl, hr⟩ := h
    rw [Shape.addrs_node] at hnd
    have hal : a ∉ l.addrs := fun h =>
      (List.nodup_append.1 hnd).2.2 h (List.mem_cons_self _ _)
    have har : a ∉ r.addrs := (List.nodup_cons.1 (List.nodup_append.1 hnd).2.1).1
    refine ⟨?_, hl.congr ?_, hr.congr ?_⟩
    · rw [hroot a _ rfl hc]
    · intro x hx
      exact hfr x (by simp [hx]) (by simp; rintro rfl; exact hal hx)
    · intro x hx
      exact hfr x (by simp [hx]) (by simp; rintro rfl; exact har hx)

theorem Own.allocated {m : List (Node K V)} : ∀ {t : Shape K V} {par : Ptr}, Own m par t →
    ∀ a ∈ t.addrs, ∃ nd, m[a]? = some nd := by
  intro t
  induction t with
  | nil => intro par _ a ha; simp at ha
  | node l x c k v r ihl ihr =>
    intro par h a ha
    obtain ⟨hc, hl, hr⟩ := h
    rw [Shape.addrs_node] at ha
    rcases List.mem_append.1 ha with h1 | h1
    · exact ihl hl a h1
    · rcases List.mem_cons.1 h1 with h2 | h2
      · exact ⟨_, h2 ▸ hc⟩
      · exact ihr hr a h2

namespace Path

@[simp] theorem addrs_top : (top : Path K V).addrs = [] := rfl

@[simp] theorem ptr_top : (top : Path K V).ptr = none := rfl

@[simp] theorem ptr_left (up : Path K V) (a : Nat) (c : Color) (k : K) (v : Option V)
    (r : Shape K V) : (left up a c k v r).ptr = some a := rfl

@[simp] theorem ptr_right (l : Shape K V) (a : Nat) (c : Color) (k : K) (v : Option V)
    (up : Path K V) : (right l a c k v up).ptr = some a := rfl

@[simp] theorem root_top (h : Ptr) : (top : Path K V).root h = h := rfl

@[simp] theorem root_left (up : Path K V) (a : Nat) (c : Color) (k : K) (v : Option V)
    (r : Shape K V) (h : Ptr) : (left up a c k v r).root h = up.root (some a) := rfl

@[simp] theorem root_right (l : Shape K V) (a : Nat) (c : Color) (k : K) (v : Option V)
    (up : Path K V) (h : Ptr) : (right l a c k v up).root h = up.root (some a) := rfl

theorem mem_addrs_left {up : Path K V} {a : Nat} {c : Color} {k : K} {v : Option V}
    {r : Shape K V} {x : Nat} :
    x ∈ (left up a c k v r).addrs ↔ x = a ∨ x ∈ r.addrs ∨ x ∈ up.addrs := by
  simp only [addrs, before, after, Shape.addrs, List.map_append, List.map_cons, List.mem_append,
    List.mem_cons]
  tauto

theorem mem_addrs_right {up : Path K V} {a : Nat} {c : Color} {k : K} {v : Option V}
    {l : Shape K V} {x : Nat} :
    x ∈ (right l a c k v up).addrs ↔ x = a ∨ x ∈ l.addrs ∨ x ∈ up.addrs := by
  simp only [addrs, before, after, Shape.addrs, List.map_append, List.map_cons, List.mem_append,
    List.mem_cons, List.map_nil, List.mem_singleton, List.not_mem_nil, or_false]
  tauto

theorem plug_inorder : ∀ (p : Path K V) (t : Shape K V),
    (p.plug t).inorder = p.before ++ t.inorder ++ p.after := by
  intro p
  induction p with
  | top => intro t; simp [plug, before, after]
  | left up a c k v r ih => intro t; simp [plug, before, after, ih, Shape.inorder]
  | right l a c k v up ih => intro t; simp [plug, before, after, ih, Shape.inorder]

theorem plug_ptr : ∀ (p : Path K V) (t : Shape K V), (p.plug t).ptr = p.root t.ptr := by
  intro p
  induction p with
  | top => intro t; rfl
  | left up a c k v r ih => intro t; simp [plug, ih]
  | right l a c k v up ih => intro t; simp [plug, ih]

theorem plug_size : ∀ (p : Path K V) (t : Shape K V),
    (p.plug t).size = (p.before ++ p.after).length + t.size := by
  intro p t
  rw [← Shape.length_inorder, plug_inorder, ← Shape.length_inorder]
  simp; omega

end Path

theorem OwnPath.congr_heap {m m1 : List (Node K V)} : ∀ {p : Path K V} {hole : Ptr},
    (∀ a ∈ p.addrs, m1[a]? = m[a]?) → OwnPath m p hole → OwnPath m1 p hole := by
  intro p
  induction p with
  | top => intro hole _ _; trivial
  | left up a c k v r ih =>
    intro hole hfr h
    obtain ⟨hc, hr, hup⟩ := h
    refine ⟨?_, hr.congr ?_, ih ?_ hup⟩
    · rw [hfr a (Path.mem_addrs_left.2 (Or.inl rfl)), hc]
    · intro x hx; exact hfr x (Path.mem_addrs_left.2 (Or.inr (Or.inl hx)))
    · intro x hx; exact hfr x (Path.mem_addrs_left.2 (Or.inr (Or.inr hx)))
  | right l a c k v up ih =>
    intro hole hfr h
    obtain ⟨hc, hl, hup⟩ := h
    refine ⟨?_, hl.congr ?_, ih ?_ hup⟩
    · rw [hfr a (Path.mem_addrs_right.2 (Or.inl rfl)), hc]
    · intro x hx; exact hfr x (Path.mem_addrs_right.2 (Or.inr (Or.inl hx)))
    · intro x hx; exact hfr x (Path.mem_addrs_right.2 (Or.inr (Or.inr hx)))

theorem own_plug {m : List (Node K V)} : ∀ (p : Path K V) (t : Shape K V),
    Own m none (p.plug t) ↔ OwnPath m p t.ptr ∧ Own m p.ptr t := by
  intro p
  induction p with
  | top => intro t; simp [Path.plug, OwnPath]
  | left up a c k v r ih =>
    intro t
    simp only [Path.plug, ih, OwnPath, Path.ptr_left, Path.ptr_right, Own, Shape.ptr_node]
    tauto
  | right l a c k v up ih =>
    intro t
    simp only [Path.plug, ih, OwnPath, Path.ptr_left, Path.ptr_right, Own, Shape.ptr_node]
    tauto

theorem repZ_iff {s : Tree K V} {p : Path K V} {t : Shape K V} :
    RepZ s p t ↔ Rep s (p.plug t) := by
  simp only [RepZ, Rep, own_plug, Path.plug_ptr, Shape.addrs, Path.plug_inorder]
  tauto

/-! ## Writes at the focus of a path -/

theorem nodup_focus {p : Path K V} {t : Shape K V}
    (h : ((p.before ++ t.inorder ++ p.after).map fun e => e.1).Nodup) :
    t.addrs.Nodup ∧ p.addrs.Nodup ∧ ∀ a ∈ t.addrs, a ∉ p.addrs := by
  have hperm : List.Perm ((p.before ++ t.inorder ++ p.after).map fun e => e.1)
      (t.addrs ++ p.addrs) := by
    have h0 := ((@List.perm_append_comm _ p.before t.inorder).append_right p.after).map
      fun e => e.1
    simpa only [Shape.addrs, Path.addrs, List.map_append, List.append_assoc] using h0
  have h2 := (hperm.nodup_iff).1 h
  rw [List.nodup_append] at h2
  exact ⟨h2.1, h2.2.1, fun a ha hb => h2.2.2 ha hb⟩

theorem nodup_of_focus {p : Path K V} {t : Shape K V} (h1 : t.addrs.Nodup)
    (h2 : p.addrs.Nodup) (h3 : ∀ a ∈ t.addrs, a ∉ p.addrs) :
    ((p.before ++ t.inorder ++ p.after).map fun e => e.1).Nodup := by
  have hperm : List.Perm ((p.before ++ t.inorder ++ p.after).map fun e => e.1)
      (t.addrs ++ p.addrs) := by
    have h0 := ((@List.perm_append_comm _ p.before t.inorder).append_right p.after).map
      fun e => e.1
    simpa only [Shape.addrs, Path.addrs, List.map_append, List.append_assoc] using h0
  rw [hperm.nodup_iff, List.nodup_append]
  exact ⟨h1, h2, fun a ha hb => h3 a ha hb⟩

theorem getElem?_set_self_of {m : List (Node K V)} {a : Nat} {nd x : Node K V}
    (h : m[a]? = some nd) : (m.set a x)[a]? = some x := by
  have hlt : a < m.length := by
    by_contra hcon
    rw [List.getElem?_eq_none_iff.2 (by omega)] at h
    simp at h
  exact List.getElem?_set_self hlt

theorem update_cell {s : Tree K V} {a : Nat} {nd : Node K V} (h : s.heap[a]? = some nd)
    (f : Node K V → Node K V) :
    s.update (some a) f = .ok { s with heap := s.heap.set a (f nd) } := by
  simp [Tree.update, h]

/-- A write to the focus node that keeps its links rewrites the node's label
and nothing else. -/
theorem update_focus {s : Tree K V} {p : Path K V} {l r : Shape K V} {n : Nat} {c : Color}
    {k : K} {v : Option V} (h : RepZ s p (.node l n c k v r)) (f : Node K V → Node K V)
    (hpar : ∀ nd, (f nd).parent = nd.parent) (hleft : ∀ nd, (f nd).left = nd.left)
    (hright : ∀ nd, (f nd).right = nd.right) :
    ∃ s1, s.update (some n) f = .ok s1 ∧ s1.size = s.size ∧
      s1.heap.length = s.heap.length ∧
      RepZ s1 p (.node l n (f ⟨k, v, c, p.ptr, l.ptr, r.ptr⟩).color
        (f ⟨k, v, c, p.ptr, l.ptr, r.ptr⟩).key (f ⟨k, v, c, p.ptr, l.ptr, r.ptr⟩).value r) := by
  obtain ⟨hroot, hpath, hown, hnd⟩ := h
  obtain ⟨hc, hl, hr⟩ := hown
  obtain ⟨hndt, hndp, hdis⟩ := nodup_focus hnd
  rw [Shape.addrs_node] at hndt hdis
  have hal : n ∉ l.addrs := fun h =>
    (List.nodup_append.1 hndt).2.2 h (List.mem_cons_self _ _)
  have har : n ∉ r.addrs := (List.nodup_cons.1 (List.nodup_append.1 hndt).2.1).1
  refine ⟨_, update_cell hc f, rfl, by simp, ?_, ?_, ?_, ?_⟩
  · simpa using hroot
  · refine hpath.congr_heap ?_
    intro a ha
    have : n ≠ a := by rintro rfl; exact hdis n (by simp) ha
    simp [List.getElem?_set_ne this]
  · refine ⟨?_, hl.congr ?_, hr.congr ?_⟩
    · simp only [getElem?_set_self_of hc, Option.some.injEq]
      have e1 := hpar ⟨k, v, c, p.ptr, l.ptr, r.ptr⟩
      have e2 := hleft ⟨k, v, c, p.ptr, l.ptr, r.ptr⟩
      have e3 := hright ⟨k, v, c, p.ptr, l.ptr, r.ptr⟩
      revert e1 e2 e3
      cases f ⟨k, v, c, p.ptr, l.ptr, r.ptr⟩ with
      | mk k1 v1 c1 p1 l1 r1 =>
        intro e1 e2 e3
        simp only at e1 e2 e3
        simp [e1, e2, e3]
    · intro a ha
      have : n ≠ a := by rintro rfl; exact hal ha
      simp [List.getElem?_set_ne this]
    · intro a ha
      have : n ≠ a := by rintro rfl; exact har ha
      simp [List.getElem?_set_ne this]
  · simpa [Shape.inorder] using hnd

theorem setColor_focus {s : Tree K V} {p : Path K V} {l r : Shape K V} {n : Nat} {c : Color}
    {k : K} {v : Option V} (h : RepZ s p (.node l n c k v r)) (c1 : Color) :
    ∃ s1, setColor s (some n) c1 = .ok s1 ∧ s1.size = s.size ∧
      s1.heap.length = s.heap.length ∧ RepZ s1 p (.node l n c1 k v r) :=
  update_focus h (fun nd => { nd with color := c1 }) (fun _ => rfl) (fun _ => rfl) (fun _ => rfl)

theorem setValue_focus {s : Tree K V} {p : Path K V} {l r : Shape K V} {n : Nat} {c : Color}
    {k : K} {v : Option V} (h : RepZ s p (.node l n c k v r)) (v1 : Option V) :
    ∃ s1, setValue s (some n) v1 = .ok s1 ∧ s1.size = s.size ∧
      s1.heap.length = s.heap.length ∧ RepZ s1 p (.node l n c k v1 r) :=
  update_focus h (fun nd => { nd with value := v1 }) (fun _ => rfl) (fun _ => rfl) (fun _ => rfl)

theorem setKey_focus {s : Tree K V} {p : Path K V} {l r : Shape K V} {n : Nat} {c : Color}
    {k : K} {v : Option V} (h : RepZ s p (.node l n c k v r)) (k1 : K) :
    ∃ s1, setKey s (some n) k1 = .ok s1 ∧ s1.size = s.size ∧
      s1.heap.length = s.heap.length ∧ RepZ s1 p (.node l n c k1 v r) :=
  update_focus h (fun nd => { nd with key := k1 }) (fun _ => rfl) (fun _ => rfl) (fun _ => rfl)

/-! ## `replace` and the rotations -/

namespace Path

theorem addrs_left_perm (up : Path K V) (a : Nat) (c : Color) (k : K) (v : Option V)
    (r : Shape K V) : List.Perm (left up a c k v r).addrs (a :: (r.addrs ++ up.addrs)) := by
  simp only [addrs, before, after, Shape.addrs, List.map_append, List.map_cons]
  have h1 : List.Perm
      (List.map (fun e => e.1) up.before ++
        (a :: (List.map (fun e => e.1) r.inorder ++ List.map (fun e => e.1) up.after)))
      ((a :: (List.map (fun e => e.1) r.inorder ++ List.map (fun e => e.1) up.after)) ++
        List.map (fun e => e.1) up.before) := List.perm_append_comm
  refine h1.trans ?_
  simp only [List.cons_append, List.append_assoc]
  exact List.Perm.cons _ (List.Perm.append_left _ List.perm_append_comm)

theorem addrs_right_perm (l : Shape K V) (a : Nat) (c : Color) (k : K) (v : Option V)
    (up : Path K V) : List.Perm (right l a c k v up).addrs (a :: (l.addrs ++ up.addrs)) := by
  simp only [addrs, before, after, Shape.addrs, List.map_append, List.map_cons, List.map_nil]
  have h1 : List.Perm
      ((List.map (fun e => e.1) up.before ++ List.map (fun e => e.1) l.inorder) ++
        a :: List.map (fun e => e.1) up.after)
      (a :: ((List.map (fun e => e.1) up.before ++ List.map (fun e => e.1) l.inorder) ++
        List.map (fun e => e.1) up.after)) := List.perm_middle
  have h2 : List.Perm
      ((List.map (fun e => e.1) up.before ++ List.map (fun e => e.1) l.inorder) ++
        List.map (fun e => e.1) up.after)
      ((List.map (fun e => e.1) l.inorder ++ List.map (fun e => e.1) up.before) ++
        List.map (fun e => e.1) up.after) := List.perm_append_comm.append_right _
  have h3 := h1.trans (List.Perm.cons a h2)
  simpa only [List.append_assoc, List.singleton_append, List.cons_append, List.nil_append]
    using h3

theorem nodup_left {up : Path K V} {a : Nat} {c : Color} {k : K} {v : Option V}
    {r : Shape K V} (h : (left up a c k v r).addrs.Nodup) :
    a ∉ r.addrs ∧ a ∉ up.addrs ∧ r.addrs.Nodup ∧ up.addrs.Nodup ∧
      ∀ x ∈ r.addrs, x ∉ up.addrs := by
  rw [(addrs_left_perm up a c k v r).nodup_iff, List.nodup_cons, List.nodup_append] at h
  simp only [List.mem_append, not_or] at h
  exact ⟨h.1.1, h.1.2, h.2.1, h.2.2.1, fun x hx hy => h.2.2.2 hx hy⟩

theorem nodup_right {up : Path K V} {a : Nat} {c : Color} {k : K} {v : Option V}
    {l : Shape K V} (h : (right l a c k v up).addrs.Nodup) :
    a ∉ l.addrs ∧ a ∉ up.addrs ∧ l.addrs.Nodup ∧ up.addrs.Nodup ∧
      ∀ x ∈ l.addrs, x ∉ up.addrs := by
  rw [(addrs_right_perm l a c k v up).nodup_iff, List.nodup_cons, List.nodup_append] at h
  simp only [List.mem_append, not_or] at h
  exact ⟨h.1.1, h.1.2, h.2.1, h.2.2.1, fun x hx hy => h.2.2.2 hx hy⟩

end Path

theorem replace_path {s : Tree K V} {p : Path K V} {n : Nat} {nd : Node K V}
    (hroot : s.root = p.root (some n)) (hp : OwnPath s.heap p (some n))
    (hn : s.heap[n]? = some nd) (hpar : nd.parent = p.ptr) (hnp : n ∉ p.addrs)
    (hndp : p.addrs.Nodup) (new : Ptr)
    (hnew : ∀ r, new = some r → r ∉ p.addrs ∧ r ≠ n ∧ ∃ rd, s.heap[r]? = some rd) :
    ∃ s1, replace s (some n) new = .ok s1 ∧ s1.size = s.size ∧
      s1.heap.length = s.heap.length ∧ s1.root = p.root new ∧ OwnPath s1.heap p new ∧
      (∀ a, a ∉ p.addrs → new ≠ some a → s1.heap[a]? = s.heap[a]?) ∧
      (∀ r rd, new = some r → s.heap[r]? = some rd →
        s1.heap[r]? = some { rd with parent := p.ptr }) := by
  cases p with
  | top =>
    simp only [Path.ptr_top, Path.ptr_left, Path.ptr_right] at hpar
    cases new with
    | none =>
      refine ⟨{ s with root := none }, ?_, rfl, rfl, rfl, trivial, ?_, ?_⟩
      · simp [replace, getParent_cell hn, hpar]
      · intro a _ _; rfl
      · intro r rd h; simp at h
    | some r =>
      obtain ⟨_, hrn, rd, hrd⟩ := hnew r rfl
      refine ⟨{ s with root := some r, heap := s.heap.set r { rd with parent := none } },
        ?_, rfl, by simp, rfl, trivial, ?_, ?_⟩
      · have h1 : getParent { s with root := some r } (some n) = .ok none := by
          rw [getParent_cell (s := { s with root := some r }) hn, hpar]
        simp [replace, getParent_cell hn, hpar, h1, setParent, Tree.update, hrd]
      · intro a _ har
        have : r ≠ a := fun e => har (by rw [e])
        simp [List.getElem?_set_ne this]
      · intro r1 rd1 h1 h2
        simp only [Option.some.injEq] at h1
        subst h1
        rw [hrd] at h2
        simp only [Option.some.injEq] at h2
        subst h2
        simp [getElem?_set_self_of hrd]
  | left up a c k v sib =>
    obtain ⟨hc, hsib, hup⟩ := hp
    obtain ⟨hasib, haup, _, _, _⟩ := Path.nodup_left hndp
    have hna : n ≠ a := fun e => hnp (Path.mem_addrs_left.2 (Or.inl e))
    simp only [Path.ptr_top, Path.ptr_left, Path.ptr_right] at hpar
    cases new with
    | none =>
      refine ⟨{ s with heap := s.heap.set a ⟨k, v, c, up.ptr, none, sib.ptr⟩ },
        ?_, rfl, by simp, by simpa using hroot, ?_, ?_, ?_⟩
      · simp [replace, getParent_cell hn, hpar, getLeft_cell hc, setLeft, update_cell hc]
      · refine ⟨by simp [getElem?_set_self_of hc], hsib.congr ?_, hup.congr_heap ?_⟩
        · intro x hx
          have : a ≠ x := by rintro rfl; exact hasib hx
          simp [List.getElem?_set_ne this]
        · intro x hx
          have : a ≠ x := by rintro rfl; exact haup hx
          simp [List.getElem?_set_ne this]
      · intro x hx _
        have : a ≠ x := by rintro rfl; exact hx (Path.mem_addrs_left.2 (Or.inl rfl))
        simp [List.getElem?_set_ne this]
      · intro r rd h; simp at h
    | some r =>
      obtain ⟨hrp, hrn, rd, hrd⟩ := hnew r rfl
      have hra : r ≠ a := fun e => hrp (Path.mem_addrs_left.2 (Or.inl e))
      refine ⟨{ s with heap := ((s.heap.set a ⟨k, v, c, up.ptr, some r, sib.ptr⟩).set r
          { rd with parent := some a }) },
        ?_, rfl, by simp, by simpa using hroot, ?_, ?_, ?_⟩
      · have h1 : getParent { s with heap := s.heap.set a ⟨k, v, c, up.ptr, some r, sib.ptr⟩ }
            (some n) = .ok (some a) := by
          rw [@getParent_cell _ _ _ _ nd (by simp [List.getElem?_set_ne hna.symm, hn]), hpar]
        have h2 : (s.heap.set a ⟨k, v, c, up.ptr, some r, sib.ptr⟩)[r]? = some rd := by
          simp [List.getElem?_set_ne hra.symm, hrd]
        simp [replace, getParent_cell hn, hpar, getLeft_cell hc, setLeft, hc, h1,
          setParent, Tree.update, h2]
      · refine ⟨?_, hsib.congr ?_, hup.congr_heap ?_⟩
        · simp [List.getElem?_set_ne hra, getElem?_set_self_of hc]
        · intro x hx
          have h3 : a ≠ x := by rintro rfl; exact hasib hx
          have h4 : r ≠ x := by
            rintro rfl; exact hrp (Path.mem_addrs_left.2 (Or.inr (Or.inl hx)))
          simp [List.getElem?_set_ne h3, List.getElem?_set_ne h4]
        · intro x hx
          have h3 : a ≠ x := by rintro rfl; exact haup hx
          have h4 : r ≠ x := by
            rintro rfl; exact hrp (Path.mem_addrs_left.2 (Or.inr (Or.inr hx)))
          simp [List.getElem?_set_ne h3, List.getElem?_set_ne h4]
      · intro x hx hxr
        have h3 : a ≠ x := by rintro rfl; exact hx (Path.mem_addrs_left.2 (Or.inl rfl))
        have h4 : r ≠ x := fun e => hxr (by rw [e])
        simp [List.getElem?_set_ne h3, List.getElem?_set_ne h4]
      · intro r1 rd1 h1 h2
        simp only [Option.some.injEq] at h1
        subst h1
        rw [hrd] at h2
        simp only [Option.some.injEq] at h2
        subst h2
        have h5 : (s.heap.set a ⟨k, v, c, up.ptr, some r, sib.ptr⟩)[r]? = some rd := by
          simp [List.getElem?_set_ne hra.symm, hrd]
        simp [getElem?_set_self_of h5]
  | right sib a c k v up =>
    obtain ⟨hc, hsib, hup⟩ := hp
    obtain ⟨hasib, haup, _, _, _⟩ := Path.nodup_right hndp
    have hna : n ≠ a := fun e => hnp (Path.mem_addrs_right.2 (Or.inl e))
    have hsn : sib.ptr ≠ some n := fun e =>
      hnp (Path.mem_addrs_right.2 (Or.inr (Or.inl (Shape.ptr_mem_addrs e))))
    have hsn2 : ¬ some n = sib.ptr := fun e => hsn e.symm
    simp only [Path.ptr_top, Path.ptr_left, Path.ptr_right] at hpar
    cases new with
    | none =>
      refine ⟨{ s with heap := s.heap.set a ⟨k, v, c, up.ptr, sib.ptr, none⟩ },
        ?_, rfl, by simp, by simpa using hroot, ?_, ?_, ?_⟩
      · simp [replace, getParent_cell hn, hpar, getLeft_cell hc, setRight, update_cell hc, hsn2]
      · refine ⟨by simp [getElem?_set_self_of hc], hsib.congr ?_, hup.congr_heap ?_⟩
        · intro x hx
          have : a ≠ x := by rintro rfl; exact hasib hx
          simp [List.getElem?_set_ne this]
        · intro x hx
          have : a ≠ x := by rintro rfl; exact haup hx
          simp [List.getElem?_set_ne this]
      · intro x hx _
        have : a ≠ x := by rintro rfl; exact hx (Path.mem_addrs_right.2 (Or.inl rfl))
        simp [List.getElem?_set_ne this]
      · intro r rd h; simp at h
    | some r =>
      obtain ⟨hrp, hrn, rd, hrd⟩ := hnew r rfl
      have hra : r ≠ a := fun e => hrp (Path.mem_addrs_right.2 (Or.inl e))
      refine ⟨{ s with heap := ((s.heap.set a ⟨k, v, c, up.ptr, sib.ptr, some r⟩).set r
          { rd with parent := some a }) },
        ?_, rfl, by simp, by simpa using hroot, ?_, ?_, ?_⟩
      · have h1 : getParent { s with heap := s.heap.set a ⟨k, v, c, up.ptr, sib.ptr, some r⟩ }
            (some n) = .ok (some a) := by
          rw [@getParent_cell _ _ _ _ nd (by simp [List.getElem?_set_ne hna.symm, hn]), hpar]
        have h2 : (s.heap.set a ⟨k, v, c, up.ptr, sib.ptr, some r⟩)[r]? = some rd := by
          simp [List.getElem?_set_ne hra.symm, hrd]
        simp [replace, getParent_cell hn, hpar, getLeft_cell hc, setRight, hc, h1,
          setParent, Tree.update, h2, hsn2]
      · refine ⟨?_, hsib.congr ?_, hup.congr_heap ?_⟩
        · simp [List.getElem?_set_ne hra, getElem?_set_self_of hc]
        · intro x hx
          have h3 : a ≠ x := by rintro rfl; exact hasib hx
          have h4 : r ≠ x := by
            rintro rfl; exact hrp (Path.mem_addrs_right.2 (Or.inr (Or.inl hx)))
          simp [List.getElem?_set_ne h3, List.getElem?_set_ne h4]
        · intro x hx
          have h3 : a ≠ x := by rintro rfl; exact haup hx
          have h4 : r ≠ x := by
            rintro rfl; exact hrp (Path.mem_addrs_right.2 (Or.inr (Or.inr hx)))
          simp [List.getElem?_set_ne h3, List.getElem?_set_ne h4]
      · intro x hx hxr
        have h3 : a ≠ x := by rintro rfl; exact hx (Path.mem_addrs_right.2 (Or.inl rfl))
        have h4 : r ≠ x := fun e => hxr (by rw [e])
        simp [List.getElem?_set_ne h3, List.getElem?_set_ne h4]
      · intro r1 rd1 h1 h2
        simp only [Option.some.injEq] at h1
        subst h1
        rw [hrd] at h2
        simp only [Option.some.injEq] at h2
        subst h2
        have h5 : (s.heap.set a ⟨k, v, c, up.ptr, sib.ptr, some r⟩)[r]? = some rd := by
          simp [List.getElem?_set_ne hra.symm, hrd]
        simp [getElem?_set_self_of h5]

theorem rot_distinct {L RL RR P : List Nat} {n r : Nat}
    (h : (L ++ n :: (RL ++ r :: RR)).Nodup)
    (hd : ∀ a ∈ L ++ n :: (RL ++ r :: RR), a ∉ P) :
    n ≠ r ∧ n ∉ P ∧ r ∉ P ∧ L.Nodup ∧ RL.Nodup ∧ RR.Nodup ∧
    (∀ a ∈ L, a ≠ n ∧ a ≠ r ∧ a ∉ P ∧ a ∉ RL ∧ a ∉ RR) ∧
    (∀ a ∈ RL, a ≠ n ∧ a ≠ r ∧ a ∉ P ∧ a ∉ RR) ∧
    (∀ a ∈ RR, a ≠ n ∧ a ≠ r ∧ a ∉ P) := by
  simp only [List.nodup_append, List.nodup_cons, List.mem_append, List.mem_cons, not_or] at h
  simp only [List.mem_append, List.mem_cons] at hd
  obtain ⟨h1, ⟨⟨h2, h3, h4⟩, h5, ⟨h6, h7⟩, h8⟩, h9⟩ := h
  refine ⟨h3, hd n (by simp), hd r (by simp), h1, h5, h7, ?_, ?_, ?_⟩
  · intro a ha
    refine ⟨?_, ?_, hd a (by simp [ha]), ?_, ?_⟩
    · rintro rfl; exact h9 ha (by simp)
    · rintro rfl; exact h9 ha (by simp)
    · intro hb; exact h9 ha (by simp [hb])
    · intro hb; exact h9 ha (by simp [hb])
  · intro a ha
    refine ⟨?_, ?_, hd a (by simp [ha]), ?_⟩
    · rintro rfl; exact h2 ha
    · rintro rfl; exact h8 ha (by simp)
    · intro hb; exact h8 ha (by simp [hb])
  · intro a ha
    refine ⟨?_, ?_, hd a (by simp [ha])⟩
    · rintro rfl; exact h4 ha
    · rintro rfl; exact h6 ha

theorem lt_of_cell {m : List (Node K V)} {a : Nat} {nd : Node K V} (h : m[a]? = some nd) :
    a < m.length := by
  by_contra hcon
  rw [List.getElem?_eq_none_iff.2 (by omega)] at h
  simp at h

@[simp] theorem length_reparentHeap (m : List (Node K V)) (q par : Ptr) :
    (reparentHeap m q par).length = m.length := by
  unfold reparentHeap
  cases q with
  | none => rfl
  | some x =>
    cases h : m[x]? with
    | none => simp [h]
    | some nd => simp [h]

theorem reparentHeap_ne (m : List (Node K V)) (q par : Ptr) (a : Nat) (h : q ≠ some a) :
    (reparentHeap m q par)[a]? = m[a]? := by
  unfold reparentHeap
  cases q with
  | none => rfl
  | some x =>
    have hx : x ≠ a := fun e => h (by rw [e])
    cases h : m[x]? with
    | none => simp [h]
    | some nd => simp [h, List.getElem?_set_ne hx]

theorem reparentHeap_self (m : List (Node K V)) (par : Ptr) (a : Nat) (nd : Node K V)
    (h : m[a]? = some nd) :
    (reparentHeap m (some a) par)[a]? = some { nd with parent := par } := by
  simp [reparentHeap, h, getElem?_set_self_of h]

theorem setParent_guarded {α : Type} (s : Tree K V) (q par : Ptr) (f : Tree K V → Exec α)
    (h : ∀ x, q = some x → ∃ nd, s.heap[x]? = some nd) :
    (if q ≠ none then setParent s q par >>= f else pure s >>= f) =
      f { s with heap := reparentHeap s.heap q par } := by
  cases q with
  | none => simp [reparentHeap]
  | some x =>
    obtain ⟨nd, hnd⟩ := h x rfl
    simp [setParent, update_cell hnd, reparentHeap, hnd]

/-- Left rotation around the focus node. -/
theorem rotateLeft_focus {s : Tree K V} {p : Path K V} {l rl rr : Shape K V} {n r : Nat}
    {c cr : Color} {k kr : K} {v vr : Option V}
    (h : RepZ s p (.node l n c k v (.node rl r cr kr vr rr))) :
    ∃ s1, rotateLeft s (some n) = .ok s1 ∧ s1.size = s.size ∧
      s1.heap.length = s.heap.length ∧
      RepZ s1 p (.node (.node l n c k v rl) r cr kr vr rr) := by
  obtain ⟨hroot, hpath, ⟨hcn, hl, hcr, hrl, hrr⟩, hnd⟩ := h
  obtain ⟨hndt, hndp, hdis⟩ := nodup_focus hnd
  simp only [Shape.addrs_node] at hndt hdis
  obtain ⟨hnr, hnp, hrp, hndl, hndrl, hndrr, hL, hRL, hRR⟩ := rot_distinct hndt hdis
  simp only [Shape.ptr_node] at hroot hpath hcn
  obtain ⟨s1, hrep, hsz1, hlen1, hroot1, hpath1, hfr1, hnew1⟩ :=
    replace_path hroot hpath hcn rfl hnp hndp (some r)
      (by intro x hx; cases hx; exact ⟨hrp, hnr.symm, _, hcr⟩)
  have h1n : s1.heap[n]? = some ⟨k, v, c, p.ptr, l.ptr, some r⟩ := by
    rw [hfr1 n hnp (by simp [hnr.symm]), hcn]
  have h1r : s1.heap[r]? = some ⟨kr, vr, cr, p.ptr, rl.ptr, rr.ptr⟩ := by
    rw [hnew1 r _ rfl hcr]
  -- the heap after the remaining writes
  have hrlp : ∀ x, rl.ptr = some x → x ∈ rl.addrs := fun x hx => Shape.ptr_mem_addrs hx
  have hrln : rl.ptr ≠ some n := fun e => (hRL n (hrlp n e)).1 rfl
  have hrlr : rl.ptr ≠ some r := fun e => (hRL r (hrlp r e)).2.1 rfl
  have e2 : setRight s1 (some n) rl.ptr =
      .ok { s1 with heap := s1.heap.set n ⟨k, v, c, p.ptr, l.ptr, rl.ptr⟩ } := by
    simp [setRight, update_cell h1n]
  have h2r : (s1.heap.set n ⟨k, v, c, p.ptr, l.ptr, rl.ptr⟩)[r]? =
      some ⟨kr, vr, cr, p.ptr, rl.ptr, rr.ptr⟩ := by
    rw [List.getElem?_set_ne hnr, h1r]
  have e3 := fun f => setParent_guarded (α := Tree K V)
    { s1 with heap := s1.heap.set n ⟨k, v, c, p.ptr, l.ptr, rl.ptr⟩ } rl.ptr (some n) f
    (by
      intro x hx
      have hxn : n ≠ x := fun e => hrln (by rw [hx, e])
      obtain ⟨nd, hnd⟩ := hrl.allocated x (hrlp x hx)
      refine ⟨nd, ?_⟩
      simp only [List.getElem?_set_ne hxn]
      rw [hfr1 x (hRL x (hrlp x hx)).2.2.1 (by simp; exact fun e => (hRL x (hrlp x hx)).2.1 e.symm), hnd])
  simp only at e3
  have h3n : (reparentHeap (s1.heap.set n ⟨k, v, c, p.ptr, l.ptr, rl.ptr⟩) rl.ptr (some n))[n]? =
      some ⟨k, v, c, p.ptr, l.ptr, rl.ptr⟩ := by
    rw [reparentHeap_ne _ _ _ _ hrln, getElem?_set_self_of h1n]
  have h3r : (reparentHeap (s1.heap.set n ⟨k, v, c, p.ptr, l.ptr, rl.ptr⟩) rl.ptr (some n))[r]? =
      some ⟨kr, vr, cr, p.ptr, rl.ptr, rr.ptr⟩ := by
    rw [reparentHeap_ne _ _ _ _ hrlr, h2r]
  have h4r : ((reparentHeap (s1.heap.set n ⟨k, v, c, p.ptr, l.ptr, rl.ptr⟩) rl.ptr (some n)).set n
      ⟨k, v, c, some r, l.ptr, rl.ptr⟩)[r]? = some ⟨kr, vr, cr, p.ptr, rl.ptr, rr.ptr⟩ := by
    rw [List.getElem?_set_ne hnr, h3r]
  refine ⟨{ s1 with heap :=
      (((reparentHeap (s1.heap.set n ⟨k, v, c, p.ptr, l.ptr, rl.ptr⟩) rl.ptr (some n)).set n
        ⟨k, v, c, some r, l.ptr, rl.ptr⟩).set r ⟨kr, vr, cr, p.ptr, some n, rr.ptr⟩) },
    ?_, hsz1, by simp [hlen1], ?_⟩
  · simp only [rotateLeft, getRight_cell hcn, bind_ok, hrep, getLeft_cell h1r, e2]
    have h2r' : getLeft { s1 with heap := s1.heap.set n ⟨k, v, c, p.ptr, l.ptr, rl.ptr⟩ }
        (some r) = .ok rl.ptr := by rw [getLeft_cell h2r]
    simp only [h2r', bind_ok]
    rw [e3]
    simp [setParent, setLeft, Tree.update, h3n, h4r]
  · -- the new heap represents the rotated shape
    have hfinal : ∀ a, a ≠ n → a ≠ r → rl.ptr ≠ some a → a ∉ p.addrs →
        (((reparentHeap (s1.heap.set n ⟨k, v, c, p.ptr, l.ptr, rl.ptr⟩) rl.ptr (some n)).set n
          ⟨k, v, c, some r, l.ptr, rl.ptr⟩).set r ⟨kr, vr, cr, p.ptr, some n, rr.ptr⟩)[a]? =
          s.heap[a]? := by
      intro a h1 h2 h3 h4
      rw [List.getElem?_set_ne (Ne.symm h2), List.getElem?_set_ne (Ne.symm h1),
        reparentHeap_ne _ _ _ _ h3, List.getElem?_set_ne (Ne.symm h1),
        hfr1 a h4 (by simp; exact fun e => h2 e.symm)]
    refine ⟨by simpa using hroot1, ?_, ⟨?_, ⟨?_, ?_, ?_⟩, ?_⟩, ?_⟩ <;> dsimp only
    · refine hpath1.congr_heap ?_
      intro a ha
      have h1 : a ≠ n := by rintro rfl; exact hnp ha
      have h2 : a ≠ r := by rintro rfl; exact hrp ha
      have h3 : rl.ptr ≠ some a := fun e => (hRL a (hrlp a e)).2.2.1 ha
      rw [List.getElem?_set_ne (Ne.symm h2), List.getElem?_set_ne (Ne.symm h1),
        reparentHeap_ne _ _ _ _ h3, List.getElem?_set_ne (Ne.symm h1)]
    · simp [getElem?_set_self_of h4r]
    · rw [List.getElem?_set_ne hnr.symm, getElem?_set_self_of h3n]
    · refine hl.congr ?_
      intro a ha
      obtain ⟨g1, g2, g3, g4, g5⟩ := hL a ha
      exact hfinal a g1 g2 (fun e => g4 (hrlp a e)) g3
    · refine hrl.reparent ?_ ?_ hndrl
      · intro a nd ha hnd
        obtain ⟨g1, g2, g3, g4⟩ := hRL a (hrlp a ha)
        rw [List.getElem?_set_ne (Ne.symm g2), List.getElem?_set_ne (Ne.symm g1), ha]
        refine reparentHeap_self _ _ _ _ ?_
        rw [List.getElem?_set_ne (Ne.symm g1), hfr1 a g3 (by simp; exact fun e => g2 e.symm),
          hnd]
      · intro a ha hne
        obtain ⟨g1, g2, g3, g4⟩ := hRL a ha
        exact hfinal a g1 g2 hne g3
    · refine hrr.congr ?_
      intro a ha
      obtain ⟨g1, g2, g3⟩ := hRR a ha
      exact hfinal a g1 g2 (fun e => (hRL a (hrlp a e)).2.2.2 ha) g3
    · simpa [Shape.inorder] using hnd

/-- Right rotation around the focus node. -/
theorem rotateRight_focus {s : Tree K V} {p : Path K V} {ll lr r : Shape K V} {n x : Nat}
    {c cl : Color} {k kl : K} {v vl : Option V}
    (h : RepZ s p (.node (.node ll x cl kl vl lr) n c k v r)) :
    ∃ s1, rotateRight s (some n) = .ok s1 ∧ s1.size = s.size ∧
      s1.heap.length = s.heap.length ∧
      RepZ s1 p (.node ll x cl kl vl (.node lr n c k v r)) := by
  obtain ⟨hroot, hpath, ⟨hcn, ⟨hcx, hll, hlr⟩, hr⟩, hnd⟩ := h
  obtain ⟨hndt, hndp, hdis⟩ := nodup_focus hnd
  simp only [Shape.addrs_node, List.append_assoc, List.cons_append] at hndt hdis
  obtain ⟨hxn, hxp, hnp, hndll, hndlr, hndr, hLL, hLR, hR⟩ := rot_distinct hndt hdis
  simp only [Shape.ptr_node] at hroot hpath hcn
  obtain ⟨s1, hrep, hsz1, hlen1, hroot1, hpath1, hfr1, hnew1⟩ :=
    replace_path hroot hpath hcn rfl hnp hndp (some x)
      (by intro y hy; cases hy; exact ⟨hxp, hxn, _, hcx⟩)
  have h1n : s1.heap[n]? = some ⟨k, v, c, p.ptr, some x, r.ptr⟩ := by
    rw [hfr1 n hnp (by simp [hxn]), hcn]
  have h1x : s1.heap[x]? = some ⟨kl, vl, cl, p.ptr, ll.ptr, lr.ptr⟩ := by
    rw [hnew1 x _ rfl hcx]
  have hlrp : ∀ y, lr.ptr = some y → y ∈ lr.addrs := fun y hy => Shape.ptr_mem_addrs hy
  have hlrn : lr.ptr ≠ some n := fun e => (hLR n (hlrp n e)).2.1 rfl
  have hlrx : lr.ptr ≠ some x := fun e => (hLR x (hlrp x e)).1 rfl
  have e2 : setLeft s1 (some n) lr.ptr =
      .ok { s1 with heap := s1.heap.set n ⟨k, v, c, p.ptr, lr.ptr, r.ptr⟩ } := by
    simp [setLeft, update_cell h1n]
  have h2x : (s1.heap.set n ⟨k, v, c, p.ptr, lr.ptr, r.ptr⟩)[x]? =
      some ⟨kl, vl, cl, p.ptr, ll.ptr, lr.ptr⟩ := by
    rw [List.getElem?_set_ne hxn.symm, h1x]
  have e3 := fun f => setParent_guarded (α := Tree K V)
    { s1 with heap := s1.heap.set n ⟨k, v, c, p.ptr, lr.ptr, r.ptr⟩ } lr.ptr (some n) f
    (by
      intro y hy
      have hyn : n ≠ y := fun e => hlrn (by rw [hy, e])
      obtain ⟨nd, hnd⟩ := hlr.allocated y (hlrp y hy)
      refine ⟨nd, ?_⟩
      simp only [List.getElem?_set_ne hyn]
      rw [hfr1 y (hLR y (hlrp y hy)).2.2.1 (by simp; exact fun e => (hLR y (hlrp y hy)).1 e.symm),
        hnd])
  simp only at e3
  have h3n : (reparentHeap (s1.heap.set n ⟨k, v, c, p.ptr, lr.ptr, r.ptr⟩) lr.ptr (some n))[n]? =
      some ⟨k, v, c, p.ptr, lr.ptr, r.ptr⟩ := by
    rw [reparentHeap_ne _ _ _ _ hlrn, getElem?_set_self_of h1n]
  have h3x : (reparentHeap (s1.heap.set n ⟨k, v, c, p.ptr, lr.ptr, r.ptr⟩) lr.ptr (some n))[x]? =
      some ⟨kl, vl, cl, p.ptr, ll.ptr, lr.ptr⟩ := by
    rw [reparentHeap_ne _ _ _ _ hlrx, h2x]
  have h4x : ((reparentHeap (s1.heap.set n ⟨k, v, c, p.ptr, lr.ptr, r.ptr⟩) lr.ptr (some n)).set n
      ⟨k, v, c, some x, lr.ptr, r.ptr⟩)[x]? = some ⟨kl, vl, cl, p.ptr, ll.ptr, lr.ptr⟩ := by
    rw [List.getElem?_set_ne hxn.symm, h3x]
  refine ⟨{ s1 with heap :=
      (((reparentHeap (s1.heap.set n ⟨k, v, c, p.ptr, lr.ptr, r.ptr⟩) lr.ptr (some n)).set n
        ⟨k, v, c, some x, lr.ptr, r.ptr⟩).set x ⟨kl, vl, cl, p.ptr, ll.ptr, some n⟩) },
    ?_, hsz1, by simp [hlen1], ?_⟩
  · simp only [rotateRight, getLeft_cell hcn, bind_ok, hrep, getRight_cell h1x, e2]
    have h2x' : getRight { s1 with heap := s1.heap.set n ⟨k, v, c, p.ptr, lr.ptr, r.ptr⟩ }
        (some x) = .ok lr.ptr := by rw [getRight_cell h2x]
    simp only [h2x', bind_ok]
    rw [e3]
    simp [setParent, setRight, Tree.update, h3n, h4x]
  · have hfinal : ∀ a, a ≠ n → a ≠ x → lr.ptr ≠ some a → a ∉ p.addrs →
        (((reparentHeap (s1.heap.set n ⟨k, v, c, p.ptr, lr.ptr, r.ptr⟩) lr.ptr (some n)).set n
          ⟨k, v, c, some x, lr.ptr, r.ptr⟩).set x ⟨kl, vl, cl, p.ptr, ll.ptr, some n⟩)[a]? =
          s.heap[a]? := by
      intro a h1 h2 h3 h4
      rw [List.getElem?_set_ne (Ne.symm h2), List.getElem?_set_ne (Ne.symm h1),
        reparentHeap_ne _ _ _ _ h3, List.getElem?_set_ne (Ne.symm h1),
        hfr1 a h4 (by simp; exact fun e => h2 e.symm)]
    refine ⟨by simpa using hroot1, ?_, ⟨?_, ?_, ⟨?_, ?_, ?_⟩⟩, ?_⟩ <;> dsimp only
    · refine hpath1.congr_heap ?_
      intro a ha
      have h1 : a ≠ n := by rintro rfl; exact hnp ha
      have h2 : a ≠ x := by rintro rfl; exact hxp ha
      have h3 : lr.ptr ≠ some a := fun e => (hLR a (hlrp a e)).2.2.1 ha
      rw [List.getElem?_set_ne (Ne.symm h2), List.getElem?_set_ne (Ne.symm h1),
        reparentHeap_ne _ _ _ _ h3, List.getElem?_set_ne (Ne.symm h1)]
    · simp [getElem?_set_self_of h4x]
    · refine hll.congr ?_
      intro a ha
      obtain ⟨g1, g2, g3, g4, g5⟩ := hLL a ha
      exact hfinal a g2 g1 (fun e => g4 (hlrp a e)) g3
    · rw [List.getElem?_set_ne hxn, getElem?_set_self_of h3n]
    · refine hlr.reparent ?_ ?_ hndlr
      · intro a nd ha hnd
        obtain ⟨g1, g2, g3, g4⟩ := hLR a (hlrp a ha)
        rw [List.getElem?_set_ne (Ne.symm g1), List.getElem?_set_ne (Ne.symm g2), ha]
        refine reparentHeap_self _ _ _ _ ?_
        rw [List.getElem?_set_ne (Ne.symm g2), hfr1 a g3 (by simp; exact fun e => g1 e.symm),
          hnd]
      · intro a ha hne
        obtain ⟨g1, g2, g3, g4⟩ := hLR a ha
        exact hfinal a g2 g1 hne g3
    · refine hr.congr ?_
      intro a ha
      obtain ⟨g1, g2, g3⟩ := hR a ha
      exact hfinal a g2 g1 (fun e => (hLR a (hlrp a e)).2.2.2 ha) g3
    · simpa [Shape.inorder] using hnd

/-! ## Binary search: `lookup` -/

namespace Shape

@[simp] theorem entries_nil : (nil : Shape K V).entries = [] := rfl

@[simp] theorem entries_node (l : Shape K V) (a : Nat) (c : Color) (k : K) (v : Option V)
    (r : Shape K V) : (node l a c k v r).entries = l.entries ++ (k, v) :: r.entries := by
  simp [entries, inorder]

theorem keys_eq_entries (t : Shape K V) : t.keys = t.entries.map fun e => e.1 := by
  simp [keys, entries]

theorem sorted_node [LinearOrder K] {l r : Shape K V} {a : Nat} {c : Color} {k : K}
    {v : Option V} (h : (node l a c k v r).SortedKeys) :
    l.SortedKeys ∧ r.SortedKeys ∧ (∀ x ∈ l.keys, x < k) ∧ (∀ y ∈ r.keys, k < y) := by
  simp only [SortedKeys, keys_node, List.pairwise_append, List.pairwise_cons, List.mem_cons] at h
  exact ⟨h.1, h.2.1.2, fun x hx => h.2.2 x hx k (Or.inl rfl), h.2.1.1⟩

theorem find_of_not_mem [LinearOrder K] (key : K) : ∀ (t : Shape K V), key ∉ t.keys →
    t.find key = nil := by
  intro t
  induction t with
  | nil => intro _; rfl
  | node l a c k v r ihl ihr =>
    intro h
    simp only [keys_node, List.mem_append, List.mem_cons, not_or] at h
    simp only [find, if_neg h.2.1]
    split
    · exact ihr h.2.2
    · exact ihl h.1

theorem find_of_mem [LinearOrder K] (key : K) : ∀ (t : Shape K V), t.SortedKeys →
    key ∈ t.keys → ∃ l a c v r, t.find key = node l a c key v r := by
  intro t
  induction t with
  | nil => intro _ h; simp at h
  | node l a c k v r ihl ihr =>
    intro hs h
    obtain ⟨hsl, hsr, hlt, hgt⟩ := sorted_node hs
    simp only [keys_node, List.mem_append, List.mem_cons] at h
    by_cases hk : key = k
    · subst hk
      exact ⟨l, a, c, v, r, by simp [find]⟩
    · simp only [find, if_neg hk]
      rcases h with h | h | h
      · have : ¬ k < key := not_lt.2 (le_of_lt (hlt key h))
        rw [if_neg this]
        exact ihl hsl h
      · exact absurd h hk
      · rw [if_pos (hgt key h)]
        exact ihr hsr h

theorem own_find [LinearOrder K] {m : List (Node K V)} (key : K) : ∀ (t : Shape K V) (par : Ptr),
    Own m par t → ∃ par1, Own m par1 (t.find key) := by
  intro t
  induction t with
  | nil => intro par _; exact ⟨none, trivial⟩
  | node l a c k v r ihl ihr =>
    intro par h
    simp only [find]
    split
    · exact ⟨par, h⟩
    · split
      · exact ihr _ h.2.2
      · exact ihl _ h.2.1

theorem plug_pathTo [LinearOrder K] (key : K) : ∀ (t : Shape K V) (acc : Path K V),
    (t.pathTo key acc).plug (t.find key) = acc.plug t := by
  intro t
  induction t with
  | nil => intro acc; rfl
  | node l a c k v r ihl ihr =>
    intro acc
    simp only [pathTo, find]
    split
    · rfl
    · split
      · rw [ihr]; rfl
      · rw [ihl]; rfl

end Shape

theorem valueOf_append_of_not_mem [DecidableEq K] (key : K) (l1 l2 : List (K × Option V))
    (h : key ∉ l1.map fun e => e.1) : valueOf key (l1 ++ l2) = valueOf key l2 := by
  induction l1 with
  | nil => rfl
  | cons e es ih =>
    obtain ⟨k, v⟩ := e
    simp only [List.map_cons, List.mem_cons, not_or] at h
    have hk : ¬ k = key := fun e => h.1 e.symm
    simp only [List.cons_append, valueOf, if_neg hk]
    exact ih h.2

theorem valueOf_append_of_mem [DecidableEq K] (key : K) (l1 l2 : List (K × Option V))
    (h : key ∈ l1.map fun e => e.1) : valueOf key (l1 ++ l2) = valueOf key l1 := by
  induction l1 with
  | nil => simp at h
  | cons e es ih =>
    obtain ⟨k, v⟩ := e
    by_cases hk : k = key
    · simp [valueOf, hk]
    · simp only [List.map_cons, List.mem_cons] at h
      rcases h with h | h
      · exact absurd h.symm hk
      · simp only [List.cons_append, valueOf, if_neg hk]
        exact ih h

theorem valueOf_of_not_mem [DecidableEq K] (key : K) (l : List (K × Option V))
    (h : key ∉ l.map fun e => e.1) : valueOf key l = none := by
  have := valueOf_append_of_not_mem key l [] h
  simpa [valueOf] using this

theorem valueOf_find [LinearOrder K] (key : K) : ∀ (t : Shape K V), t.SortedKeys →
    valueOf key t.entries = (t.find key).rootValue := by
  intro t
  induction t with
  | nil => intro _; rfl
  | node l a c k v r ihl ihr =>
    intro hs
    obtain ⟨hsl, hsr, hlt, hgt⟩ := Shape.sorted_node hs
    rw [Shape.entries_node]
    by_cases hk : key = k
    · subst hk
      have hnl : key ∉ l.entries.map fun e => e.1 := by
        rw [← Shape.keys_eq_entries]
        intro h; exact lt_irrefl _ (hlt key h)
      rw [valueOf_append_of_not_mem key _ _ hnl]
      simp [valueOf, Shape.find, Shape.rootValue]
    · simp only [Shape.find, if_neg hk]
      by_cases hlt2 : k < key
      · have hnl : key ∉ l.entries.map fun e => e.1 := by
          rw [← Shape.keys_eq_entries]
          intro h; exact lt_asymm hlt2 (hlt key h)
        rw [valueOf_append_of_not_mem key _ _ hnl, if_pos hlt2, ← ihr hsr]
        have hk2 : ¬ k = key := fun e => hk e.symm
        simp [valueOf, hk2]
      · rw [if_neg hlt2, ← ihl hsl]
        have hkl : key < k := lt_of_le_of_ne (not_lt.1 hlt2) hk
        by_cases hm : key ∈ l.keys
        · rw [Shape.keys_eq_entries] at hm
          exact valueOf_append_of_mem key _ _ hm
        · rw [Shape.keys_eq_entries] at hm
          rw [valueOf_append_of_not_mem key _ _ hm, valueOf_of_not_mem key _ hm]
          have hk2 : ¬ k = key := fun e => hk e.symm
          have hnr : key ∉ r.entries.map fun e => e.1 := by
            rw [← Shape.keys_eq_entries]
            intro h; exact lt_asymm hkl (hgt key h)
          simp [valueOf, hk2, valueOf_of_not_mem key _ hnr]

theorem lookupLoop_shape [LinearOrder K] {cmp : K → K → Int} (hc : LawfulCompare cmp)
    (s : Tree K V) (key : K) : ∀ (t : Shape K V) (par : Ptr) (fuel : Nat),
    Own s.heap par t → t.size < fuel →
    lookupLoop cmp fuel s key t.ptr = .ok (t.find key).ptr := by
  intro t
  induction t with
  | nil =>
    intro par fuel _ hf
    cases fuel with
    | zero => omega
    | succ f => simp [lookupLoop, Shape.find]
  | node l a c k v r ihl ihr =>
    intro par fuel hown hf
    obtain ⟨hcell, hl, hr⟩ := hown
    simp only [Shape.size] at hf
    cases fuel with
    | zero => omega
    | succ f =>
      by_cases hk : key = k
      · subst hk
        have h0 : cmp key key = 0 := (hc.eq_iff _ _).2 rfl
        simp [lookupLoop, getKey_cell hcell, h0, Shape.find]
      · have h0 : cmp k key ≠ 0 := fun e => hk ((hc.eq_iff _ _).1 e).symm
        by_cases hlt : k < key
        · have h1 : cmp k key < 0 := (hc.lt_iff _ _).2 hlt
          have h2 : ¬ cmp k key > 0 := by omega
          have := ihr (some a) f hr (by omega)
          simp [lookupLoop, getKey_cell hcell, h0, h1, h2, Shape.find, hk, hlt,
            getRight_cell hcell, this]
        · have h1 : ¬ cmp k key < 0 := fun e => hlt ((hc.lt_iff _ _).1 e)
          have h2 : cmp k key > 0 := by omega
          have := ihl (some a) f hl (by omega)
          simp [lookupLoop, getKey_cell hcell, h0, h1, h2, Shape.find, hk, hlt,
            getLeft_cell hcell, this]

theorem lookup_shape [LinearOrder K] {cmp : K → K → Int} (hc : LawfulCompare cmp)
    {s : Tree K V} {t : Shape K V} (h : Rep s t) (key : K) {fuel : Nat} (hf : t.size < fuel) :
    lookup cmp fuel s key = .ok (t.find key).ptr := by
  unfold lookup
  rw [h.1]
  exact lookupLoop_shape hc s key t none fuel h.2.1 hf

theorem Lookup_shape [LinearOrder K] {cmp : K → K → Int} (hc : LawfulCompare cmp)
    {s : Tree K V} {t : Shape K V} (h : Rep s t) (hs : t.SortedKeys) (key : K) {fuel : Nat}
    (hf : t.size < fuel) : Lookup cmp fuel s key = .ok (valueOf key t.entries) := by
  unfold Lookup
  rw [lookup_shape hc h key hf, valueOf_find key t hs]
  obtain ⟨par1, hown⟩ := Shape.own_find key t none h.2.1
  cases hfind : t.find key with
  | nil => simp [Shape.rootValue]
  | node l a c k v r =>
    rw [hfind] at hown
    simp [Shape.rootValue, getValue_cell hown.1]

/-! ## Red-black invariants through a path -/

theorem color_eq_black_of_ne_red {c : Color} (h : c ≠ .Red) : c = .Black := by
  cases c with
  | Red => exact absurd rfl h
  | Black => rfl

namespace Shape

@[simp] theorem rootColor_nil : (nil : Shape K V).rootColor = .Black := rfl

@[simp] theorem rootColor_node (l : Shape K V) (a : Nat) (c : Color) (k : K) (v : Option V)
    (r : Shape K V) : (node l a c k v r).rootColor = c := rfl

theorem mem_pathBlacks_of_balanced : ∀ (t : Shape K V), t.Balanced →
    ∀ x ∈ t.pathBlacks, x = t.blackHeight := by
  intro t
  induction t with
  | nil => intro _ x hx; simpa [pathBlacks, blackHeight] using hx
  | node l a c k v r ihl ihr =>
    intro h x hx
    obtain ⟨hbh, hl, hr⟩ := h
    simp only [pathBlacks, List.mem_map, List.mem_append] at hx
    obtain ⟨y, hy, rfl⟩ := hx
    rcases hy with hy | hy
    · rw [ihl hl y hy]; rfl
    · rw [ihr hr y hy, ← hbh]; rfl

theorem blackHeight_mem_pathBlacks : ∀ (t : Shape K V), t.blackHeight ∈ t.pathBlacks := by
  intro t
  induction t with
  | nil => simp [pathBlacks, blackHeight]
  | node l a c k v r ihl _ =>
    simp only [pathBlacks, List.mem_map, List.mem_append, blackHeight]
    exact ⟨l.blackHeight, Or.inl ihl, rfl⟩

theorem pathBlacks_ne_nil : ∀ (t : Shape K V), t.pathBlacks ≠ [] := by
  intro t h
  have := blackHeight_mem_pathBlacks t
  rw [h] at this
  simp at this

theorem balanced_of_equalBlackPaths : ∀ (t : Shape K V), t.EqualBlackPaths → t.Balanced := by
  intro t
  induction t with
  | nil => intro _; trivial
  | node l a c k v r ihl ihr =>
    intro h
    have hmem : ∀ y, y ∈ l.pathBlacks ∨ y ∈ r.pathBlacks →
        y + (if c = Color.Black then 1 else 0) ∈ (node l a c k v r).pathBlacks := by
      intro y hy
      simp only [pathBlacks, List.mem_map, List.mem_append]
      exact ⟨y, hy, rfl⟩
    refine ⟨?_, ihl ?_, ihr ?_⟩
    · have := h _ (hmem _ (Or.inl (blackHeight_mem_pathBlacks l))) _
        (hmem _ (Or.inr (blackHeight_mem_pathBlacks r)))
      omega
    · intro x hx y hy
      have := h _ (hmem x (Or.inl hx)) _ (hmem y (Or.inl hy))
      omega
    · intro x hx y hy
      have := h _ (hmem x (Or.inr hx)) _ (hmem y (Or.inr hy))
      omega

theorem equalBlackPaths_iff (t : Shape K V) : t.EqualBlackPaths ↔ t.Balanced := by
  constructor
  · exact balanced_of_equalBlackPaths t
  · intro h x hx y hy
    rw [mem_pathBlacks_of_balanced t h x hx, mem_pathBlacks_of_balanced t h y hy]

end Shape

namespace Path

@[simp] theorem color_top : (top : Path K V).color = .Red := rfl

@[simp] theorem color_left (up : Path K V) (a : Nat) (c : Color) (k : K) (v : Option V)
    (r : Shape K V) : (left up a c k v r).color = c := rfl

@[simp] theorem color_right (l : Shape K V) (a : Nat) (c : Color) (k : K) (v : Option V)
    (up : Path K V) : (right l a c k v up).color = c := rfl

@[simp] theorem rootColor_top (h : Color) : (top : Path K V).rootColor h = h := rfl

@[simp] theorem rootColor_left (up : Path K V) (a : Nat) (c : Color) (k : K) (v : Option V)
    (r : Shape K V) (h : Color) : (left up a c k v r).rootColor h = up.rootColor c := rfl

@[simp] theorem rootColor_right (l : Shape K V) (a : Nat) (c : Color) (k : K) (v : Option V)
    (up : Path K V) (h : Color) : (right l a c k v up).rootColor h = up.rootColor c := rfl

theorem plug_rootColor : ∀ (p : Path K V) (t : Shape K V),
    (p.plug t).rootColor = p.rootColor t.rootColor := by
  intro p
  induction p with
  | top => intro t; rfl
  | left up a c k v r ih => intro t; simp [plug, ih]
  | right l a c k v up ih => intro t; simp [plug, ih]

theorem balanced_plug : ∀ (p : Path K V) (t : Shape K V),
    (p.plug t).Balanced ↔ t.Balanced ∧ p.Bal t.blackHeight := by
  intro p
  induction p with
  | top => intro t; simp [plug, Bal]
  | left up a c k v r ih =>
    intro t
    simp only [plug, ih, Shape.Balanced, Bal, Shape.blackHeight]
    constructor
    · rintro ⟨⟨h1, h2, h3⟩, h4⟩
      exact ⟨h2, h3, h1.symm, h4⟩
    · rintro ⟨h2, h3, h1, h4⟩
      exact ⟨⟨h1.symm, h2, h3⟩, h4⟩
  | right l a c k v up ih =>
    intro t
    simp only [plug, ih, Shape.Balanced, Bal, Shape.blackHeight]
    constructor
    · rintro ⟨⟨h1, h2, h3⟩, h4⟩
      exact ⟨h3, h2, h1, h1 ▸ h4⟩
    · rintro ⟨h3, h2, h1, h4⟩
      exact ⟨⟨h1, h2, h3⟩, h1 ▸ h4⟩

theorem rootColor_of_noRedRed : ∀ (p : Path K V) (h : Color), p.NoRedRed →
    (h = .Red → p.color = .Black) → p.rootColor h = .Black := by
  intro p
  induction p with
  | top =>
    intro h _ hc
    cases h with
    | Red => simpa using hc rfl
    | Black => rfl
  | left up a c k v r ih =>
    intro h hn _
    exact ih c hn.2.2 (fun e => (hn.2.1 e).2)
  | right l a c k v up ih =>
    intro h hn _
    exact ih c hn.2.2 (fun e => (hn.2.1 e).2)

theorem noRedRed_plug : ∀ (p : Path K V) (t : Shape K V),
    ((p.plug t).NoRedRed ∧ (p.plug t).RootBlack) ↔
      (t.NoRedRed ∧ p.NoRedRed ∧ (t.rootColor = .Red → p.color = .Black)) := by
  intro p
  induction p with
  | top =>
    intro t
    simp only [plug, Shape.RootBlack, NoRedRed, color_top, true_and]
    cases t.rootColor <;> simp
  | left up a c k v r ih =>
    intro t
    simp only [plug, ih, Shape.NoRedRed, NoRedRed, Shape.rootColor_node, color_left]
    cases c <;> cases t.rootColor <;> simp <;> tauto
  | right l a c k v up ih =>
    intro t
    simp only [plug, ih, Shape.NoRedRed, NoRedRed, Shape.rootColor_node, color_right]
    cases c <;> cases t.rootColor <;> simp <;> tauto

end Path

theorem RepZ.up_left {s : Tree K V} {up : Path K V} {a : Nat} {c : Color} {k : K}
    {v : Option V} {r t : Shape K V} :
    RepZ s (.left up a c k v r) t ↔ RepZ s up (.node t a c k v r) := by
  simp only [repZ_iff, Path.plug]

theorem RepZ.up_right {s : Tree K V} {up : Path K V} {a : Nat} {c : Color} {k : K}
    {v : Option V} {l t : Shape K V} :
    RepZ s (.right l a c k v up) t ↔ RepZ s up (.node l a c k v t) := by
  simp only [repZ_iff, Path.plug]

theorem RepZ.cell {s : Tree K V} {p : Path K V} {l r : Shape K V} {n : Nat} {c : Color}
    {k : K} {v : Option V} (h : RepZ s p (.node l n c k v r)) :
    s.heap[n]? = some ⟨k, v, c, p.ptr, l.ptr, r.ptr⟩ := h.2.2.1.1

theorem RepZ.not_mem_path {s : Tree K V} {p : Path K V} {t : Shape K V} (h : RepZ s p t)
    {x : Nat} (hx : x ∈ t.addrs) : x ∉ p.addrs :=
  (nodup_focus h.2.2.2).2.2 x hx

theorem RepZ.sib_ne_left {s : Tree K V} {up : Path K V} {a : Nat} {c : Color} {k : K}
    {v : Option V} {sib t : Shape K V} (h : RepZ s (.left up a c k v sib) t) {x : Nat}
    (hx : x ∈ t.addrs) : sib.ptr ≠ some x := fun e =>
  h.not_mem_path hx (Path.mem_addrs_left.2 (Or.inr (Or.inl (Shape.ptr_mem_addrs e))))

theorem RepZ.sib_ne_right {s : Tree K V} {up : Path K V} {a : Nat} {c : Color} {k : K}
    {v : Option V} {sib t : Shape K V} (h : RepZ s (.right sib a c k v up) t) {x : Nat}
    (hx : x ∈ t.addrs) : sib.ptr ≠ some x := fun e =>
  h.not_mem_path hx (Path.mem_addrs_right.2 (Or.inr (Or.inl (Shape.ptr_mem_addrs e))))

theorem color_shape {s : Tree K V} {par : Ptr} {t : Shape K V} (h : Own s.heap par t) :
    color s t.ptr = .ok t.rootColor := by
  cases t with
  | nil => simp [color]
  | node l a c k v r => simp [color, getColor_cell h.1]

/-! ## `balanceInsert`, case by case -/

theorem color_cell {s : Tree K V} {a : Nat} {nd : Node K V} (h : s.heap[a]? = some nd) :
    color s (some a) = .ok nd.color := by
  simp [color, getColor_cell h]

/-- Case i: the node is the root. -/
theorem balanceInsert_root {s : Tree K V} {l r : Shape K V} {n : Nat} {c : Color} {k : K}
    {v : Option V} (h : RepZ s .top (.node l n c k v r)) (f : Nat) :
    ∃ s1, balanceInsert (f + 1) s (some n) = .ok s1 ∧ s1.size = s.size ∧
      s1.heap.length = s.heap.length ∧ RepZ s1 .top (.node l n .Black k v r) := by
  obtain ⟨s1, e1, hsz, hlen, h1⟩ := setColor_focus h .Black
  refine ⟨s1, ?_, hsz, hlen, h1⟩
  have hn := h.cell
  simp [balanceInsert, getParent_cell hn, e1]

/-- Case ii: the parent is Black. -/
theorem balanceInsert_parent_black {s : Tree K V} {n a : Nat} {nd ad : Node K V}
    (hn : s.heap[n]? = some nd) (hp : nd.parent = some a) (ha : s.heap[a]? = some ad)
    (hc : ad.color = .Black) (f : Nat) : balanceInsert (f + 1) s (some n) = .ok s := by
  simp [balanceInsert, getParent_cell hn, hp, color, getColor_cell ha, hc]

/-- Case iii, parent on the left of the grandparent: recolour and continue at
the grandparent. -/
theorem balanceInsert_uncle_red_left {s : Tree K V} {up : Path K V}
    {al ar ul ur : Shape K V} {n a g u : Nat} {cg : Color} {kp kg ku : K}
    {vp vg vu : Option V} {nd : Node K V}
    (h : RepZ s (.left up g cg kg vg (.node ul u .Red ku vu ur)) (.node al a .Red kp vp ar))
    (hn : s.heap[n]? = some nd) (hp : nd.parent = some a) (f : Nat) :
    ∃ s3, balanceInsert (f + 1) s (some n) = balanceInsert f s3 (some g) ∧ s3.size = s.size ∧
      s3.heap.length = s.heap.length ∧
      RepZ s3 up (.node (.node al a .Black kp vp ar) g .Red kg vg (.node ul u .Black ku vu ur)) := by
  have ha := h.cell
  have hg := (RepZ.up_left.1 h).cell
  have hu := (RepZ.up_right.2 (RepZ.up_left.1 h)).cell
  obtain ⟨s1, e1, hsz1, hlen1, h1⟩ := setColor_focus h .Black
  obtain ⟨s2, e2, hsz2, hlen2, h2⟩ := setColor_focus (RepZ.up_right.2 (RepZ.up_left.1 h1)) .Black
  obtain ⟨s3, e3, hsz3, hlen3, h3⟩ := setColor_focus (RepZ.up_right.1 h2) .Red
  refine ⟨s3, ?_, by omega, by omega, h3⟩
  simp only [Shape.ptr_node, Path.ptr_left, Path.ptr_right] at ha hg hu
  simp [balanceInsert, getParent_cell hn, hp, color, getColor_cell ha, grandparent, uncle,
    sibling, getParent_cell ha, getLeft_cell hg, getRight_cell hg, getColor_cell hu, e1, e2, e3]

/-- Case iii, parent on the right of the grandparent. -/
theorem balanceInsert_uncle_red_right {s : Tree K V} {up : Path K V}
    {al ar ul ur : Shape K V} {n a g u : Nat} {cg : Color} {kp kg ku : K}
    {vp vg vu : Option V} {nd : Node K V}
    (h : RepZ s (.right (.node ul u .Red ku vu ur) g cg kg vg up) (.node al a .Red kp vp ar))
    (hn : s.heap[n]? = some nd) (hp : nd.parent = some a) (f : Nat) :
    ∃ s3, balanceInsert (f + 1) s (some n) = balanceInsert f s3 (some g) ∧ s3.size = s.size ∧
      s3.heap.length = s.heap.length ∧
      RepZ s3 up (.node (.node ul u .Black ku vu ur) g .Red kg vg (.node al a .Black kp vp ar)) := by
  have ha := h.cell
  have hg := (RepZ.up_right.1 h).cell
  have hu := (RepZ.up_left.2 (RepZ.up_right.1 h)).cell
  have hne : ¬ (some u : Ptr) = some a := by
    have := h.sib_ne_right (x := a) (by simp)
    simpa using this
  obtain ⟨s1, e1, hsz1, hlen1, h1⟩ := setColor_focus h .Black
  obtain ⟨s2, e2, hsz2, hlen2, h2⟩ := setColor_focus (RepZ.up_left.2 (RepZ.up_right.1 h1)) .Black
  obtain ⟨s3, e3, hsz3, hlen3, h3⟩ := setColor_focus (RepZ.up_left.1 h2) .Red
  refine ⟨s3, ?_, by omega, by omega, h3⟩
  simp only [Shape.ptr_node, Path.ptr_left, Path.ptr_right] at ha hg hu
  simp [balanceInsert, getParent_cell hn, hp, color, getColor_cell ha, grandparent, uncle,
    sibling, getParent_cell ha, getLeft_cell hg, getRight_cell hg, getColor_cell hu, e1, e2, e3,
    hne]

/-- Case iv, left-left: recolour and rotate right at the grandparent. -/
theorem balanceInsert_rot_LL {s : Tree K V} {up : Path K V} {l r sib U : Shape K V}
    {n a g : Nat} {cg : Color} {k kp kg : K} {v vp vg : Option V}
    (h : RepZ s (.left (.left up g cg kg vg U) a .Red kp vp sib) (.node l n .Red k v r))
    (hU : U.rootColor ≠ .Red) (f : Nat) :
    ∃ s3, balanceInsert (f + 1) s (some n) = .ok s3 ∧ s3.size = s.size ∧
      s3.heap.length = s.heap.length ∧
      RepZ s3 up (.node (.node l n .Red k v r) a .Black kp vp (.node sib g .Red kg vg U)) := by
  have hn := h.cell
  have ha := (RepZ.up_left.1 h).cell
  have hg := (RepZ.up_left.1 (RepZ.up_left.1 h)).cell
  have hUown : Own s.heap (some g) U := (RepZ.up_left.1 (RepZ.up_left.1 h)).2.2.1.2.2
  have hcU := color_shape hUown
  have hne1 : ¬ (some n : Ptr) = sib.ptr := fun e => h.sib_ne_left (x := n) (by simp) e.symm
  have hne2 : ¬ (some a : Ptr) = U.ptr := fun e =>
    (RepZ.up_left.1 h).sib_ne_left (x := a) (by simp) e.symm
  obtain ⟨s1, e1, hsz1, hlen1, h1⟩ := setColor_focus (RepZ.up_left.1 h) .Black
  obtain ⟨s2, e2, hsz2, hlen2, h2⟩ := setColor_focus (RepZ.up_left.1 h1) .Red
  obtain ⟨s3, e3, hsz3, hlen3, h3⟩ := rotateRight_focus h2
  have hn2 := (RepZ.up_left.2 (RepZ.up_left.2 h2)).cell
  have ha2 := (RepZ.up_left.2 h2).cell
  have hg2 := h2.cell
  refine ⟨s3, ?_, by omega, by omega, h3⟩
  simp only [Shape.ptr_node, Path.ptr_left, Path.ptr_right] at hn ha hg hn2 ha2 hg2
  simp [balanceInsert, getParent_cell hn, color_cell ha, grandparent, uncle,
    sibling, getParent_cell ha, getLeft_cell hg, getRight_cell hg, hcU, hU, andAlso,
    isRightChild, isLeftChild, parentIsLeftOf, parentIsRightOf, getRight_cell ha,
    getLeft_cell ha, hne1, hne2, e1, e2, getParent_cell hn2, getLeft_cell ha2,
    getLeft_cell hg2, e3]

/-- Case iv, left-right: rotate left at the parent, recolour, rotate right at
the grandparent. -/
theorem balanceInsert_rot_LR {s : Tree K V} {up : Path K V} {l r sib U : Shape K V}
    {n a g : Nat} {cg : Color} {k kp kg : K} {v vp vg : Option V}
    (h : RepZ s (.right sib a .Red kp vp (.left up g cg kg vg U)) (.node l n .Red k v r))
    (hU : U.rootColor ≠ .Red) (f : Nat) :
    ∃ s4, balanceInsert (f + 1) s (some n) = .ok s4 ∧ s4.size = s.size ∧
      s4.heap.length = s.heap.length ∧
      RepZ s4 up (.node (.node sib a .Red kp vp l) n .Black k v (.node r g .Red kg vg U)) := by
  have hn := h.cell
  have ha := (RepZ.up_right.1 h).cell
  have hg := (RepZ.up_left.1 (RepZ.up_right.1 h)).cell
  have hUown : Own s.heap (some g) U := (RepZ.up_left.1 (RepZ.up_right.1 h)).2.2.1.2.2
  have hcU := color_shape hUown
  obtain ⟨s1, e1, hsz1, hlen1, h1⟩ := rotateLeft_focus (RepZ.up_right.1 h)
  have hn1 := h1.cell
  have ha1 := (RepZ.up_left.2 h1).cell
  obtain ⟨s2, e2, hsz2, hlen2, h2⟩ := setColor_focus h1 .Black
  obtain ⟨s3, e3, hsz3, hlen3, h3⟩ := setColor_focus (RepZ.up_left.1 h2) .Red
  obtain ⟨s4, e4, hsz4, hlen4, h4⟩ := rotateRight_focus h3
  have hg3 := h3.cell
  have hn3 := (RepZ.up_left.2 h3).cell
  have ha3 := (RepZ.up_left.2 (RepZ.up_left.2 h3)).cell
  refine ⟨s4, ?_, by omega, by omega, h4⟩
  simp only [Shape.ptr_node, Path.ptr_left, Path.ptr_right] at hn ha hg hn1 ha1 hg3 hn3 ha3
  simp [balanceInsert, getParent_cell hn, color_cell ha, grandparent, uncle,
    sibling, getParent_cell ha, getLeft_cell hg, getRight_cell hg, hcU, hU, andAlso,
    isRightChild, isLeftChild, parentIsLeftOf, parentIsRightOf, getRight_cell ha,
    getLeft_cell ha, e1, getLeft_cell hn1, getParent_cell ha1, e2, e3, getParent_cell ha3,
    getLeft_cell hn3, getLeft_cell hg3, e4]

/-- Case iv, right-left: rotate right at the parent, recolour, rotate left at
the grandparent. -/
theorem balanceInsert_rot_RL {s : Tree K V} {up : Path K V} {l r sib U : Shape K V}
    {n a g : Nat} {cg : Color} {k kp kg : K} {v vp vg : Option V}
    (h : RepZ s (.left (.right U g cg kg vg up) a .Red kp vp sib) (.node l n .Red k v r))
    (hU : U.rootColor ≠ .Red) (f : Nat) :
    ∃ s4, balanceInsert (f + 1) s (some n) = .ok s4 ∧ s4.size = s.size ∧
      s4.heap.length = s.heap.length ∧
      RepZ s4 up (.node (.node U g .Red kg vg l) n .Black k v (.node r a .Red kp vp sib)) := by
  have hn := h.cell
  have ha := (RepZ.up_left.1 h).cell
  have hg := (RepZ.up_right.1 (RepZ.up_left.1 h)).cell
  have hUown : Own s.heap (some g) U := (RepZ.up_right.1 (RepZ.up_left.1 h)).2.2.1.2.1
  have hcU := color_shape hUown
  have hne1 : ¬ (some n : Ptr) = sib.ptr := fun e => h.sib_ne_left (x := n) (by simp) e.symm
  have hne2 : ¬ U.ptr = (some a : Ptr) := fun e =>
    (RepZ.up_left.1 h).sib_ne_right (x := a) (by simp) e
  have hne2' : ¬ (some a : Ptr) = U.ptr := fun e => hne2 e.symm
  obtain ⟨s1, e1, hsz1, hlen1, h1⟩ := rotateRight_focus (RepZ.up_left.1 h)
  have hn1 := h1.cell
  have ha1 := (RepZ.up_right.2 h1).cell
  obtain ⟨s2, e2, hsz2, hlen2, h2⟩ := setColor_focus h1 .Black
  obtain ⟨s3, e3, hsz3, hlen3, h3⟩ := setColor_focus (RepZ.up_right.1 h2) .Red
  obtain ⟨s4, e4, hsz4, hlen4, h4⟩ := rotateLeft_focus h3
  have hg3 := h3.cell
  have hn3 := (RepZ.up_right.2 h3).cell
  have ha3 := (RepZ.up_right.2 (RepZ.up_right.2 h3)).cell
  have hne3 : ¬ (some a : Ptr) = l.ptr := fun e =>
    (RepZ.up_right.2 (RepZ.up_right.2 h3)).sib_ne_right (x := a) (by simp) e.symm
  refine ⟨s4, ?_, by omega, by omega, h4⟩
  simp only [Shape.ptr_node, Path.ptr_left, Path.ptr_right] at hn ha hg hn1 ha1 hg3 hn3 ha3
  simp [balanceInsert, getParent_cell hn, color_cell ha, grandparent, uncle,
    sibling, getParent_cell ha, getLeft_cell hg, getRight_cell hg, hcU, hU, andAlso,
    isRightChild, isLeftChild, parentIsLeftOf, parentIsRightOf, getRight_cell ha,
    getLeft_cell ha, hne1, hne2, hne2', e1, getRight_cell hn1, getParent_cell ha1, e2, e3,
    getParent_cell ha3, getLeft_cell hn3, getRight_cell hn3, getRight_cell hg3, hne3, e4]

/-- Case iv, right-right: recolour and rotate left at the grandparent. -/
theorem balanceInsert_rot_RR {s : Tree K V} {up : Path K V} {l r sib U : Shape K V}
    {n a g : Nat} {cg : Color} {k kp kg : K} {v vp vg : Option V}
    (h : RepZ s (.right sib a .Red kp vp (.right U g cg kg vg up)) (.node l n .Red k v r))
    (hU : U.rootColor ≠ .Red) (f : Nat) :
    ∃ s3, balanceInsert (f + 1) s (some n) = .ok s3 ∧ s3.size = s.size ∧
      s3.heap.length = s.heap.length ∧
      RepZ s3 up (.node (.node U g .Red kg vg sib) a .Black kp vp (.node l n .Red k v r)) := by
  have hn := h.cell
  have ha := (RepZ.up_right.1 h).cell
  have hg := (RepZ.up_right.1 (RepZ.up_right.1 h)).cell
  have hUown : Own s.heap (some g) U := (RepZ.up_right.1 (RepZ.up_right.1 h)).2.2.1.2.1
  have hcU := color_shape hUown
  have hne1 : ¬ (some n : Ptr) = sib.ptr := fun e => h.sib_ne_right (x := n) (by simp) e.symm
  have hne2 : ¬ U.ptr = (some a : Ptr) := fun e =>
    (RepZ.up_right.1 h).sib_ne_right (x := a) (by simp) e
  have hne2' : ¬ (some a : Ptr) = U.ptr := fun e => hne2 e.symm
  obtain ⟨s1, e1, hsz1, hlen1, h1⟩ := setColor_focus (RepZ.up_right.1 h) .Black
  obtain ⟨s2, e2, hsz2, hlen2, h2⟩ := setColor_focus (RepZ.up_right.1 h1) .Red
  obtain ⟨s3, e3, hsz3, hlen3, h3⟩ := rotateLeft_focus h2
  have hn2 := (RepZ.up_right.2 (RepZ.up_right.2 h2)).cell
  have ha2 := (RepZ.up_right.2 h2).cell
  have hg2 := h2.cell
  refine ⟨s3, ?_, by omega, by omega, h3⟩
  simp only [Shape.ptr_node, Path.ptr_left, Path.ptr_right] at hn ha hg hn2 ha2 hg2
  simp [balanceInsert, getParent_cell hn, color_cell ha, grandparent, uncle,
    sibling, getParent_cell ha, getLeft_cell hg, getRight_cell hg, hcU, hU, andAlso,
    isRightChild, isLeftChild, parentIsLeftOf, parentIsRightOf, getRight_cell ha,
    getLeft_cell ha, hne1, hne2, hne2', e1, e2, getParent_cell hn2, getLeft_cell ha2,
    getRight_cell ha2, getRight_cell hg2, e3]

/-! ## `balanceInsert`: the whole repair -/

theorem Path.rootColor_black_of {p : Path K V} {c : Color} (h : p.rootColor c = .Black) :
    p.rootColor .Black = .Black := by
  cases p with
  | top => rfl
  | left up a c1 k v r => exact h
  | right l a c1 k v up => exact h

set_option maxHeartbeats 4000000 in
theorem balanceInsert_spec : ∀ (fuel : Nat) (s : Tree K V) (p : Path K V) (l r : Shape K V)
    (n : Nat) (k : K) (v : Option V),
    RepZ s p (.node l n .Red k v r) → p.depth < fuel → p.rootColor .Black = .Black →
    ∃ s1 t1, balanceInsert fuel s (some n) = .ok s1 ∧ Rep s1 t1 ∧ s1.size = s.size ∧
      s1.heap.length = s.heap.length ∧
      t1.inorder = (p.plug (.node l n .Red k v r)).inorder ∧ t1.RootBlack ∧
      ((p.NoRedRed ∧ l.NoRedRed ∧ r.NoRedRed ∧ l.rootColor = .Black ∧ r.rootColor = .Black ∧
          p.Bal l.blackHeight ∧ l.Balanced ∧ r.Balanced ∧ l.blackHeight = r.blackHeight) →
        t1.NoRedRed ∧ t1.Balanced) := by
  intro fuel
  induction fuel with
  | zero => intro s p l r n k v _ hd; omega
  | succ f ih =>
    intro s p l r n k v h hd hroot
    cases p with
    | top =>
      obtain ⟨s1, e1, hsz, hlen, h1⟩ := balanceInsert_root h f
      refine ⟨s1, _, e1, repZ_iff.1 h1, hsz, hlen, ?_, ?_, ?_⟩
      · simp [Path.plug, Shape.inorder]
      · simp [Path.plug, Shape.RootBlack]
      · rintro ⟨-, h2, h3, -, -, -, h7, h8, h9⟩
        simp [Path.plug, Shape.NoRedRed, Shape.Balanced, h2, h3, h7, h8, h9]
    | left up a cp kp vp sib =>
      cases cp with
      | Black =>
        have e1 := balanceInsert_parent_black h.cell rfl (RepZ.up_left.1 h).cell rfl f
        refine ⟨s, _, e1, repZ_iff.1 h, rfl, rfl, rfl, ?_, ?_⟩
        · simpa [Shape.RootBlack, Path.plug_rootColor] using hroot
        · rintro ⟨h1, h2, h3, h4, h5, h6, h7, h8, h9⟩
          refine ⟨((Path.noRedRed_plug _ _).2 ⟨?_, h1, ?_⟩).1, (Path.balanced_plug _ _).2 ⟨?_, ?_⟩⟩
          · simp [Shape.NoRedRed, h2, h3, h4, h5]
          · simp
          · simp [Shape.Balanced, h7, h8, h9]
          · simpa [Shape.blackHeight] using h6
      | Red =>
        cases up with
        | top => simp at hroot
        | left up2 g cg kg vg U =>
          by_cases hU : U.rootColor = .Red
          · cases U with
            | nil => simp at hU
            | node ul u cu ku vu ur =>
              simp only [Shape.rootColor_node] at hU
              subst hU
              obtain ⟨s3, e3, hsz3, hlen3, h3⟩ :=
                balanceInsert_uncle_red_left (RepZ.up_left.1 h) h.cell rfl f
              obtain ⟨s1, t1, e1, hrep, hsz, hlen, hin, hrb, hinv⟩ :=
                ih s3 up2 _ _ g kg vg h3 (by simp [Path.depth] at hd ⊢; omega)
                  (Path.rootColor_black_of (c := cg) (by simpa using hroot))
              refine ⟨s1, t1, by rw [e3, e1], hrep, by omega, by omega, ?_, hrb, ?_⟩
              · rw [hin]; simp [Path.plug, Path.plug_inorder, Shape.inorder]
              · rintro ⟨h1, h2, h3, h4, h5, h6, h7, h8, h9⟩
                apply hinv
                simp only [Path.NoRedRed, Path.Bal, Shape.NoRedRed, Shape.Balanced, Shape.blackHeight,
                Shape.rootColor_node, Path.color_left, Path.color_right] at h1 h6 ⊢
                simp at h1 h6 ⊢
                have hcg : cg = .Black := by tauto
                subst hcg
                simp at h6 ⊢
                have e1 : r.blackHeight = l.blackHeight := by omega
                have e2 : sib.blackHeight = l.blackHeight := by omega
                have e3 : ul.blackHeight = l.blackHeight := by omega
                have e4 : ur.blackHeight = l.blackHeight := by omega
                simp only [e1, e2, e3, e4] at h6 ⊢
                split_ands <;> first | assumption | tauto
          · obtain ⟨s3, e3, hsz3, hlen3, h3⟩ := balanceInsert_rot_LL h hU f
            have hU2 := color_eq_black_of_ne_red hU
            refine ⟨s3, _, e3, repZ_iff.1 h3, hsz3, hlen3, ?_, ?_, ?_⟩
            · simp [Path.plug, Path.plug_inorder, Shape.inorder]
            · simpa [Shape.RootBlack, Path.plug_rootColor] using
                Path.rootColor_black_of (c := cg) (by simpa using hroot)
            · rintro ⟨h1, h2, h3, h4, h5, h6, h7, h8, h9⟩
              simp only [Path.NoRedRed, Path.Bal, Shape.NoRedRed, Shape.Balanced, Shape.blackHeight,
                Shape.rootColor_node, Path.color_left, Path.color_right] at h1 h6
              simp at h1 h6
              have hcg : cg = .Black := by tauto
              subst hcg
              simp at h6
              have e1 : r.blackHeight = l.blackHeight := by omega
              have e2 : sib.blackHeight = l.blackHeight := by omega
              have e3 : U.blackHeight = l.blackHeight := by omega
              refine ⟨((Path.noRedRed_plug _ _).2 ?_).1, (Path.balanced_plug _ _).2 ?_⟩
              · simp only [Path.NoRedRed, Path.Bal, Shape.NoRedRed, Shape.Balanced, Shape.blackHeight,
                Shape.rootColor_node, Path.color_left, Path.color_right]
                simp
                simp only [e1, e2, e3] at h6 ⊢
                split_ands <;> first | assumption | tauto
              · simp only [Path.NoRedRed, Path.Bal, Shape.NoRedRed, Shape.Balanced, Shape.blackHeight,
                Shape.rootColor_node, Path.color_left, Path.color_right]
                simp
                simp only [e1, e2, e3] at h6 ⊢
                split_ands <;> first | assumption | tauto
        | right U g cg kg vg up2 =>
          by_cases hU : U.rootColor = .Red
          · cases U with
            | nil => simp at hU
            | node ul u cu ku vu ur =>
              simp only [Shape.rootColor_node] at hU
              subst hU
              obtain ⟨s3, e3, hsz3, hlen3, h3⟩ :=
                balanceInsert_uncle_red_right (RepZ.up_left.1 h) h.cell rfl f
              obtain ⟨s1, t1, e1, hrep, hsz, hlen, hin, hrb, hinv⟩ :=
                ih s3 up2 _ _ g kg vg h3 (by simp [Path.depth] at hd ⊢; omega)
                  (Path.rootColor_black_of (c := cg) (by simpa using hroot))
              refine ⟨s1, t1, by rw [e3, e1], hrep, by omega, by omega, ?_, hrb, ?_⟩
              · rw [hin]; simp [Path.plug, Path.plug_inorder, Shape.inorder]
              · rintro ⟨h1, h2, h3, h4, h5, h6, h7, h8, h9⟩
                apply hinv
                simp only [Path.NoRedRed, Path.Bal, Shape.NoRedRed, Shape.Balanced, Shape.blackHeight,
                Shape.rootColor_node, Path.color_left, Path.color_right] at h1 h6 ⊢
                simp at h1 h6 ⊢
                have hcg : cg = .Black := by tauto
                subst hcg
                simp at h6 ⊢
                have e1 : r.blackHeight = l.blackHeight := by omega
                have e2 : sib.blackHeight = l.blackHeight := by omega
                have e3 : ul.blackHeight = l.blackHeight := by omega
                have e4 : ur.blackHeight = l.blackHeight := by omega
                simp only [e1, e2, e3, e4] at h6 ⊢
                split_ands <;> first | assumption | tauto
          · obtain ⟨s3, e3, hsz3, hlen3, h3⟩ := balanceInsert_rot_RL h hU f
            have hU2 := color_eq_black_of_ne_red hU
            refine ⟨s3, _, e3, repZ_iff.1 h3, hsz3, hlen3, ?_, ?_, ?_⟩
            · simp [Path.plug, Path.plug_inorder, Shape.inorder]
            · simpa [Shape.RootBlack, Path.plug_rootColor] using
                Path.rootColor_black_of (c := cg) (by simpa using hroot)
            · rintro ⟨h1, h2, h3, h4, h5, h6, h7, h8, h9⟩
              simp only [Path.NoRedRed, Path.Bal, Shape.NoRedRed, Shape.Balanced, Shape.blackHeight,
                Shape.rootColor_node, Path.color_left, Path.color_right] at h1 h6
              simp at h1 h6
              have hcg : cg = .Black := by tauto
              subst hcg
              simp at h6
              have e1 : r.blackHeight = l.blackHeight := by omega
              have e2 : sib.blackHeight = l.blackHeight := by omega
              have e3 : U.blackHeight = l.blackHeight := by omega
              refine ⟨((Path.noRedRed_plug _ _).2 ?_).1, (Path.balanced_plug _ _).2 ?_⟩
              · simp only [Path.NoRedRed, Path.Bal, Shape.NoRedRed, Shape.Balanced, Shape.blackHeight,
                Shape.rootColor_node, Path.color_left, Path.color_right]
                simp
                simp only [e1, e2, e3] at h6 ⊢
                split_ands <;> first | assumption | tauto
              · simp only [Path.NoRedRed, Path.Bal, Shape.NoRedRed, Shape.Balanced, Shape.blackHeight,
                Shape.rootColor_node, Path.color_left, Path.color_right]
                simp
                simp only [e1, e2, e3] at h6 ⊢
                split_ands <;> first | assumption | tauto
    | right sib a cp kp vp up =>
      cases cp with
      | Black =>
        have e1 := balanceInsert_parent_black h.cell rfl (RepZ.up_right.1 h).cell rfl f
        refine ⟨s, _, e1, repZ_iff.1 h, rfl, rfl, rfl, ?_, ?_⟩
        · simpa [Shape.RootBlack, Path.plug_rootColor] using hroot
        · rintro ⟨h1, h2, h3, h4, h5, h6, h7, h8, h9⟩
          refine ⟨((Path.noRedRed_plug _ _).2 ⟨?_, h1, ?_⟩).1, (Path.balanced_plug _ _).2 ⟨?_, ?_⟩⟩
          · simp [Shape.NoRedRed, h2, h3, h4, h5]
          · simp
          · simp [Shape.Balanced, h7, h8, h9]
          · simpa [Shape.blackHeight] using h6
      | Red =>
        cases up with
        | top => simp at hroot
        | left up2 g cg kg vg U =>
          by_cases hU : U.rootColor = .Red
          · cases U with
            | nil => simp at hU
            | node ul u cu ku vu ur =>
              simp only [Shape.rootColor_node] at hU
              subst hU
              obtain ⟨s3, e3, hsz3, hlen3, h3⟩ :=
                balanceInsert_uncle_red_left (RepZ.up_right.1 h) h.cell rfl f
              obtain ⟨s1, t1, e1, hrep, hsz, hlen, hin, hrb, hinv⟩ :=
                ih s3 up2 _ _ g kg vg h3 (by simp [Path.depth] at hd ⊢; omega)
                  (Path.rootColor_black_of (c := cg) (by simpa using hroot))
              refine ⟨s1, t1, by rw [e3, e1], hrep, by omega, by omega, ?_, hrb, ?_⟩
              · rw [hin]; simp [Path.plug, Path.plug_inorder, Shape.inorder]
              · rintro ⟨h1, h2, h3, h4, h5, h6, h7, h8, h9⟩
                apply hinv
                simp only [Path.NoRedRed, Path.Bal, Shape.NoRedRed, Shape.Balanced, Shape.blackHeight,
                Shape.rootColor_node, Path.color_left, Path.color_right] at h1 h6 ⊢
                simp at h1 h6 ⊢
                have hcg : cg = .Black := by tauto
                subst hcg
                simp at h6 ⊢
                have e1 : r.blackHeight = l.blackHeight := by omega
                have e2 : sib.blackHeight = l.blackHeight := by omega
                have e3 : ul.blackHeight = l.blackHeight := by omega
                have e4 : ur.blackHeight = l.blackHeight := by omega
                simp only [e1, e2, e3, e4] at h6 ⊢
                split_ands <;> first | assumption | tauto
          · obtain ⟨s3, e3, hsz3, hlen3, h3⟩ := balanceInsert_rot_LR h hU f
            have hU2 := color_eq_black_of_ne_red hU
            refine ⟨s3, _, e3, repZ_iff.1 h3, hsz3, hlen3, ?_, ?_, ?_⟩
            · simp [Path.plug, Path.plug_inorder, Shape.inorder]
            · simpa [Shape.RootBlack, Path.plug_rootColor] using
                Path.rootColor_black_of (c := cg) (by simpa using hroot)
            · rintro ⟨h1, h2, h3, h4, h5, h6, h7, h8, h9⟩
              simp only [Path.NoRedRed, Path.Bal, Shape.NoRedRed, Shape.Balanced, Shape.blackHeight,
                Shape.rootColor_node, Path.color_left, Path.color_right] at h1 h6
              simp at h1 h6
              have hcg : cg = .Black := by tauto
              subst hcg
              simp at h6
              have e1 : r.blackHeight = l.blackHeight := by omega
              have e2 : sib.blackHeight = l.blackHeight := by omega
              have e3 : U.blackHeight = l.blackHeight := by omega
              refine ⟨((Path.noRedRed_plug _ _).2 ?_).1, (Path.balanced_plug _ _).2 ?_⟩
              · simp only [Path.NoRedRed, Path.Bal, Shape.NoRedRed, Shape.Balanced, Shape.blackHeight,
                Shape.rootColor_node, Path.color_left, Path.color_right]
                simp
                simp only [e1, e2, e3] at h6 ⊢
                split_ands <;> first | assumption | tauto
              · simp only [Path.NoRedRed, Path.Bal, Shape.NoRedRed, Shape.Balanced, Shape.blackHeight,
                Shape.rootColor_node, Path.color_left, Path.color_right]
                simp
                simp only [e1, e2, e3] at h6 ⊢
                split_ands <;> first | assumption | tauto
        | right U g cg kg vg up2 =>
          by_cases hU : U.rootColor = .Red
          · cases U with
            | nil => simp at hU
            | node ul u cu ku vu ur =>
              simp only [Shape.rootColor_node] at hU
              subst hU
              obtain ⟨s3, e3, hsz3, hlen3, h3⟩ :=
                balanceInsert_uncle_red_right (RepZ.up_right.1 h) h.cell rfl f
              obtain ⟨s1, t1, e1, hrep, hsz, hlen, hin, hrb, hinv⟩ :=
                ih s3 up2 _ _ g kg vg h3 (by simp [Path.depth] at hd ⊢; omega)
                  (Path.rootColor_black_of (c := cg) (by simpa using hroot))
              refine ⟨s1, t1, by rw [e3, e1], hrep, by omega, by omega, ?_, hrb, ?_⟩
              · rw [hin]; simp [Path.plug, Path.plug_inorder, Shape.inorder]
              · rintro ⟨h1, h2, h3, h4, h5, h6, h7, h8, h9⟩
                apply hinv
                simp only [Path.NoRedRed, Path.Bal, Shape.NoRedRed, Shape.Balanced, Shape.blackHeight,
                Shape.rootColor_node, Path.color_left, Path.color_right] at h1 h6 ⊢
                simp at h1 h6 ⊢
                have hcg : cg = .Black := by tauto
                subst hcg
                simp at h6 ⊢
                have e1 : r.blackHeight = l.blackHeight := by omega
                have e2 : sib.blackHeight = l.blackHeight := by omega
                have e3 : ul.blackHeight = l.blackHeight := by omega
                have e4 : ur.blackHeight = l.blackHeight := by omega
                simp only [e1, e2, e3, e4] at h6 ⊢
                split_ands <;> first | assumption | tauto
          · obtain ⟨s3, e3, hsz3, hlen3, h3⟩ := balanceInsert_rot_RR h hU f
            have hU2 := color_eq_black_of_ne_red hU
            refine ⟨s3, _, e3, repZ_iff.1 h3, hsz3, hlen3, ?_, ?_, ?_⟩
            · simp [Path.plug, Path.plug_inorder, Shape.inorder]
            · simpa [Shape.RootBlack, Path.plug_rootColor] using
                Path.rootColor_black_of (c := cg) (by simpa using hroot)
            · rintro ⟨h1, h2, h3, h4, h5, h6, h7, h8, h9⟩
              simp only [Path.NoRedRed, Path.Bal, Shape.NoRedRed, Shape.Balanced, Shape.blackHeight,
                Shape.rootColor_node, Path.color_left, Path.color_right] at h1 h6
              simp at h1 h6
              have hcg : cg = .Black := by tauto
              subst hcg
              simp at h6
              have e1 : r.blackHeight = l.blackHeight := by omega
              have e2 : sib.blackHeight = l.blackHeight := by omega
              have e3 : U.blackHeight = l.blackHeight := by omega
              refine ⟨((Path.noRedRed_plug _ _).2 ?_).1, (Path.balanced_plug _ _).2 ?_⟩
              · simp only [Path.NoRedRed, Path.Bal, Shape.NoRedRed, Shape.Balanced, Shape.blackHeight,
                Shape.rootColor_node, Path.color_left, Path.color_right]
                simp
                simp only [e1, e2, e3] at h6 ⊢
                split_ands <;> first | assumption | tauto
              · simp only [Path.NoRedRed, Path.Bal, Shape.NoRedRed, Shape.Balanced, Shape.blackHeight,
                Shape.rootColor_node, Path.color_left, Path.color_right]
                simp
                simp only [e1, e2, e3] at h6 ⊢
                split_ands <;> first | assumption | tauto

/-! ## `insert`: descent and attachment -/

theorem Own.append {m : List (Node K V)} {par : Ptr} {t : Shape K V} (h : Own m par t)
    (x : List (Node K V)) : Own (m ++ x) par t := by
  refine h.congr ?_
  intro a ha
  obtain ⟨nd, hnd⟩ := h.allocated a ha
  rw [List.getElem?_append_left (lt_of_cell hnd)]

theorem Own.addr_lt {m : List (Node K V)} {par : Ptr} {t : Shape K V} (h : Own m par t)
    {a : Nat} (ha : a ∈ t.addrs) : a < m.length := by
  obtain ⟨nd, hnd⟩ := h.allocated a ha
  exact lt_of_cell hnd

theorem plug_addrs (p : Path K V) (t : Shape K V) :
    (p.plug t).addrs = (p.before ++ t.inorder ++ p.after).map fun e => e.1 := by
  simp [Shape.addrs, Path.plug_inorder]

/-- Hang a fresh leaf below a node without left child. -/
theorem attach_left {s : Tree K V} {acc : Path K V} {r : Shape K V} {a nn : Nat} {c : Color}
    {k key : K} {v value : Option V} (h : RepZ s acc (.node .nil a c k v r))
    (hnn : s.heap[nn]? = some ⟨key, value, .Red, none, none, none⟩)
    (hfresh : nn ∉ (acc.plug (.node .nil a c k v r)).addrs) :
    ∃ s1 s2, setLeft s (some a) (some nn) = .ok s1 ∧ setParent s1 (some nn) (some a) = .ok s2 ∧
      s2.size = s.size ∧ s2.heap.length = s.heap.length ∧
      RepZ s2 (.left acc a c k v r) (.node .nil nn .Red key value .nil) := by
  obtain ⟨hroot, hpath, ⟨hca, -, hr⟩, hnd⟩ := h
  obtain ⟨hndt, hndp, hdis⟩ := nodup_focus hnd
  rw [plug_addrs] at hfresh
  have hfr2 := hfresh
  simp only [Shape.inorder, List.map_append, List.map_cons, List.mem_append, List.mem_cons,
    List.nil_append, not_or] at hfr2
  have hna : nn ≠ a := hfr2.1.2.1
  have hnr : nn ∉ r.addrs := by simpa [Shape.addrs] using hfr2.1.2.2
  have hnp : nn ∉ acc.addrs := by
    simp only [Path.addrs, List.map_append, List.mem_append, not_or]
    exact ⟨hfr2.1.1, hfr2.2⟩
  simp only [Shape.addrs_node, Shape.addrs_nil, List.nil_append] at hndt hdis
  have har : a ∉ r.addrs := (List.nodup_cons.1 hndt).1
  have hap : a ∉ acc.addrs := hdis a (by simp)
  simp only [Shape.ptr_nil, Shape.ptr_node] at hca hroot hpath
  have h1nn : (s.heap.set a ⟨k, v, c, acc.ptr, some nn, r.ptr⟩)[nn]? =
      some ⟨key, value, .Red, none, none, none⟩ := by
    rw [List.getElem?_set_ne hna.symm, hnn]
  refine ⟨{ s with heap := s.heap.set a ⟨k, v, c, acc.ptr, some nn, r.ptr⟩ },
    { s with heap := ((s.heap.set a ⟨k, v, c, acc.ptr, some nn, r.ptr⟩).set nn
      ⟨key, value, .Red, some a, none, none⟩) }, ?_, ?_, rfl, by simp, ?_⟩
  · simp [setLeft, update_cell hca]
  · simp [setParent, Tree.update, h1nn]
  · have hfinal : ∀ x, x ≠ a → x ≠ nn →
        ((s.heap.set a ⟨k, v, c, acc.ptr, some nn, r.ptr⟩).set nn
          ⟨key, value, .Red, some a, none, none⟩)[x]? = s.heap[x]? := by
      intro x h1 h2
      rw [List.getElem?_set_ne (Ne.symm h2), List.getElem?_set_ne (Ne.symm h1)]
    refine ⟨by simpa using hroot, ⟨?_, ?_, ?_⟩, ⟨?_, trivial, trivial⟩, ?_⟩ <;> dsimp only
    · rw [List.getElem?_set_ne hna, getElem?_set_self_of hca]
      rfl
    · refine hr.congr ?_
      intro x hx
      exact hfinal x (by rintro rfl; exact har hx) (by rintro rfl; exact hnr hx)
    · refine hpath.congr_heap ?_
      intro x hx
      exact hfinal x (by rintro rfl; exact hap hx) (by rintro rfl; exact hnp hx)
    · simp [getElem?_set_self_of h1nn]
    · have hperm : List.Perm
          (((Path.left acc a c k v r).before ++
            (Shape.node .nil nn .Red key value .nil).inorder ++
            (Path.left acc a c k v r).after).map fun e => e.1)
          (nn :: ((acc.before ++ (Shape.node .nil a c k v r).inorder ++ acc.after).map
            fun e => e.1)) := by
        simp only [Path.before, Path.after, Shape.inorder, List.map_append, List.map_cons,
          List.nil_append, List.map_nil, List.append_nil, List.append_assoc, List.cons_append]
        exact List.perm_middle
      rw [hperm.nodup_iff, List.nodup_cons]
      exact ⟨hfresh, hnd⟩

/-- Hang a fresh leaf below a node without right child. -/
theorem attach_right {s : Tree K V} {acc : Path K V} {l : Shape K V} {a nn : Nat} {c : Color}
    {k key : K} {v value : Option V} (h : RepZ s acc (.node l a c k v .nil))
    (hnn : s.heap[nn]? = some ⟨key, value, .Red, none, none, none⟩)
    (hfresh : nn ∉ (acc.plug (.node l a c k v .nil)).addrs) :
    ∃ s1 s2, setRight s (some a) (some nn) = .ok s1 ∧
      setParent s1 (some nn) (some a) = .ok s2 ∧
      s2.size = s.size ∧ s2.heap.length = s.heap.length ∧
      RepZ s2 (.right l a c k v acc) (.node .nil nn .Red key value .nil) := by
  obtain ⟨hroot, hpath, ⟨hca, hl, -⟩, hnd⟩ := h
  obtain ⟨hndt, hndp, hdis⟩ := nodup_focus hnd
  rw [plug_addrs] at hfresh
  have hfr2 := hfresh
  simp only [Shape.inorder, List.map_append, List.map_cons, List.mem_append, List.mem_cons,
    List.append_nil, List.map_nil, List.not_mem_nil, or_false, not_or] at hfr2
  have hna : nn ≠ a := hfr2.1.2.2
  have hnl : nn ∉ l.addrs := by simpa [Shape.addrs] using hfr2.1.2.1
  have hnp : nn ∉ acc.addrs := by
    simp only [Path.addrs, List.map_append, List.mem_append, not_or]
    exact ⟨hfr2.1.1, hfr2.2⟩
  simp only [Shape.addrs_node, Shape.addrs_nil] at hndt hdis
  have hal : a ∉ l.addrs := fun h =>
    (List.nodup_append.1 hndt).2.2 h (List.mem_cons_self _ _)
  have hap : a ∉ acc.addrs := hdis a (by simp)
  simp only [Shape.ptr_nil, Shape.ptr_node] at hca hroot hpath
  have h1nn : (s.heap.set a ⟨k, v, c, acc.ptr, l.ptr, some nn⟩)[nn]? =
      some ⟨key, value, .Red, none, none, none⟩ := by
    rw [List.getElem?_set_ne hna.symm, hnn]
  refine ⟨{ s with heap := s.heap.set a ⟨k, v, c, acc.ptr, l.ptr, some nn⟩ },
    { s with heap := ((s.heap.set a ⟨k, v, c, acc.ptr, l.ptr, some nn⟩).set nn
      ⟨key, value, .Red, some a, none, none⟩) }, ?_, ?_, rfl, by simp, ?_⟩
  · simp [setRight, update_cell hca]
  · simp [setParent, Tree.update, h1nn]
  · have hfinal : ∀ x, x ≠ a → x ≠ nn →
        ((s.heap.set a ⟨k, v, c, acc.ptr, l.ptr, some nn⟩).set nn
          ⟨key, value, .Red, some a, none, none⟩)[x]? = s.heap[x]? := by
      intro x h1 h2
      rw [List.getElem?_set_ne (Ne.symm h2), List.getElem?_set_ne (Ne.symm h1)]
    refine ⟨by simpa using hroot, ⟨?_, ?_, ?_⟩, ⟨?_, trivial, trivial⟩, ?_⟩ <;> dsimp only
    · rw [List.getElem?_set_ne hna, getElem?_set_self_of hca]
      rfl
    · refine hl.congr ?_
      intro x hx
      exact hfinal x (by rintro rfl; exact hal hx) (by rintro rfl; exact hnl hx)
    · refine hpath.congr_heap ?_
      intro x hx
      exact hfinal x (by rintro rfl; exact hap hx) (by rintro rfl; exact hnp hx)
    · simp [getElem?_set_self_of h1nn]
    · have hperm : List.Perm
          (((Path.right l a c k v acc).before ++
            (Shape.node .nil nn .Red key value .nil).inorder ++
            (Path.right l a c k v acc).after).map fun e => e.1)
          (nn :: ((acc.before ++ (Shape.node l a c k v .nil).inorder ++ acc.after).map
            fun e => e.1)) := by
        simp only [Path.before, Path.after, Shape.inorder, List.map_append, List.map_cons,
          List.nil_append, List.map_nil, List.append_nil, List.append_assoc, List.cons_append]
        have := @List.perm_middle _ nn
          (List.map (fun e => e.1) acc.before ++ (List.map (fun e => e.1) l.inorder ++ [a]))
          (List.map (fun e => e.1) acc.after)
        simpa only [List.append_assoc, List.cons_append, List.nil_append] using this
      rw [hperm.nodup_iff, List.nodup_cons]
      exact ⟨hfresh, hnd⟩

theorem insertLoop_spec [LinearOrder K] {cmp : K → K → Int} (hc : LawfulCompare cmp) (key : K)
    (value : Option V) (nn : Nat) :
    ∀ (t : Shape K V) (acc : Path K V) (s : Tree K V) (fuel : Nat), t ≠ .nil → RepZ s acc t →
      t.size ≤ fuel → s.heap[nn]? = some ⟨key, value, .Red, none, none, none⟩ →
      nn ∉ (acc.plug t).addrs →
      (t.find key = .nil → ∃ s1 s2,
          insertLoop cmp fuel s (some nn) t.ptr = .ok (s1, some (t.pathTo key acc).ptr) ∧
          setParent s1 (some nn) (t.pathTo key acc).ptr = .ok s2 ∧ s2.size = s.size ∧
          s2.heap.length = s.heap.length ∧
          RepZ s2 (t.pathTo key acc) (.node .nil nn .Red key value .nil)) ∧
      (∀ l a c k v r, t.find key = .node l a c k v r → ∃ s1,
          insertLoop cmp fuel s (some nn) t.ptr = .ok (s1, none) ∧ s1.size = s.size ∧
          s1.heap.length = s.heap.length ∧
          RepZ s1 (t.pathTo key acc) (.node l a c k value r)) := by
  intro t
  induction t with
  | nil => intro acc s fuel h; exact absurd rfl h
  | node l a c k v0 r ihl ihr =>
    intro acc s fuel _ h hf hnn hfresh
    have ha := h.cell
    simp only [Shape.size] at hf
    cases fuel with
    | zero => omega
    | succ f =>
      by_cases hk : key = k
      · subst hk
        have h0 : cmp key key = 0 := (hc.eq_iff _ _).2 rfl
        refine ⟨by simp [Shape.find], ?_⟩
        intro l1 a1 c1 k1 v1 r1 hfind
        simp only [Shape.find, if_true, Shape.node.injEq] at hfind
        obtain ⟨rfl, rfl, rfl, rfl, rfl, rfl⟩ := hfind
        obtain ⟨s1, e1, hsz, hlen, h1⟩ := setValue_focus h value
        refine ⟨s1, ?_, hsz, hlen, by simpa [Shape.pathTo] using h1⟩
        simp [insertLoop, getKey_cell hnn, getKey_cell ha, h0, getValue_cell hnn, e1]
      · have h0 : cmp key k ≠ 0 := fun e => hk ((hc.eq_iff _ _).1 e)
        by_cases hlt : k < key
        · have h1 : 0 < cmp key k := (hc.gt_iff _ _).2 hlt
          have h2 : ¬ cmp key k < 0 := by omega
          simp only [Shape.find, Shape.pathTo, if_neg hk, if_pos hlt]
          cases r with
          | nil =>
            refine ⟨fun _ => ?_, by intro l1 a1 c1 k1 v1 r1 hfind; simp [Shape.find] at hfind⟩
            obtain ⟨s1, s2, e1, e2, hsz, hlen, h3⟩ := attach_right h hnn hfresh
            refine ⟨s1, s2, ?_, by simpa [Shape.pathTo] using e2, hsz, hlen,
              by simpa [Shape.pathTo] using h3⟩
            simp only [Shape.ptr_node, Shape.ptr_nil] at ha
            simp [insertLoop, getKey_cell hnn, getKey_cell ha, h0, h1, h2, getRight_cell ha, e1,
              Shape.pathTo]
          | node rl ra rc rk rv rr =>
            have hrec := ihr (.right l a c k v0 acc) s f (by simp) (RepZ.up_right.2 h)
              (by omega) hnn (by simpa [Path.plug] using hfresh)
            have hstep : insertLoop cmp (f + 1) s (some nn) (some a) =
                insertLoop cmp f s (some nn) (some ra) := by
              simp only [Shape.ptr_node] at ha
              simp [insertLoop, getKey_cell hnn, getKey_cell ha, h0, h1, h2, getRight_cell ha]
            simp only [Shape.ptr_node] at hrec ⊢
            rw [hstep]
            exact hrec
        · have hlt2 : key < k := lt_of_le_of_ne (not_lt.1 hlt) hk
          have h1 : cmp key k < 0 := (hc.lt_iff _ _).2 hlt2
          have h2 : ¬ 0 < cmp key k := by omega
          simp only [Shape.find, Shape.pathTo, if_neg hk, if_neg hlt]
          cases l with
          | nil =>
            refine ⟨fun _ => ?_, by intro l1 a1 c1 k1 v1 r1 hfind; simp [Shape.find] at hfind⟩
            obtain ⟨s1, s2, e1, e2, hsz, hlen, h3⟩ := attach_left h hnn hfresh
            refine ⟨s1, s2, ?_, by simpa [Shape.pathTo] using e2, hsz, hlen,
              by simpa [Shape.pathTo] using h3⟩
            simp only [Shape.ptr_node, Shape.ptr_nil] at ha
            simp [insertLoop, getKey_cell hnn, getKey_cell ha, h0, h1, h2, getLeft_cell ha, e1,
              Shape.pathTo]
          | node ll la lc lk lv lr =>
            have hrec := ihl (.left acc a c k v0 r) s f (by simp) (RepZ.up_left.2 h)
              (by omega) hnn (by simpa [Path.plug] using hfresh)
            have hstep : insertLoop cmp (f + 1) s (some nn) (some a) =
                insertLoop cmp f s (some nn) (some la) := by
              simp only [Shape.ptr_node] at ha
              simp [insertLoop, getKey_cell hnn, getKey_cell ha, h0, h1, h2, getLeft_cell ha]
            simp only [Shape.ptr_node] at hrec ⊢
            rw [hstep]
            exact hrec

/-! ## `Insert` -/

theorem Shape.depth_pathTo [LinearOrder K] (key : K) : ∀ (t : Shape K V) (acc : Path K V),
    (t.pathTo key acc).depth ≤ acc.depth + t.size := by
  intro t
  induction t with
  | nil => intro acc; simp [Shape.pathTo]
  | node l a c k v r ihl ihr =>
    intro acc
    simp only [Shape.pathTo, Shape.size]
    split
    · omega
    · split
      · have := ihr (.right l a c k v acc)
        simp only [Path.depth] at this
        omega
      · have := ihl (.left acc a c k v r)
        simp only [Path.depth] at this
        omega

theorem RepZ.size_irrel {s : Tree K V} {p : Path K V} {t : Shape K V} (h : RepZ s p t)
    (n : Int) : RepZ { s with size := n } p t := h

theorem Rep.alloc {s : Tree K V} {t : Shape K V} (h : Rep s t) (nd : Node K V) :
    Rep { s with heap := s.heap ++ [nd] } t ∧ s.heap.length ∉ t.addrs ∧
      (s.heap ++ [nd])[s.heap.length]? = some nd := by
  refine ⟨⟨h.1, h.2.1.append _, h.2.2⟩, ?_, by simp⟩
  intro hmem
  exact absurd (h.2.1.addr_lt hmem) (lt_irrefl _)

theorem Insert_spec [LinearOrder K] {cmp : K → K → Int} (hc : LawfulCompare cmp)
    {s : Tree K V} {t : Shape K V} (h : Rep s t) (hrb : t.RootBlack) (key : K)
    (value : Option V) {fuel : Nat} (hf : t.size < fuel) :
    ∃ s1 t1, Insert cmp fuel s key value = .ok s1 ∧ Rep s1 t1 ∧ t1.RootBlack ∧
      (t.NoRedRed ∧ t.Balanced → t1.NoRedRed ∧ t1.Balanced) ∧
      s1.heap.length = s.heap.length + 1 ∧
      ((t.find key = .nil ∧ s1.size = s.size + 1 ∧
          t1.inorder = (t.pathTo key .top).before ++
            (s.heap.length, key, value) :: (t.pathTo key .top).after) ∨
        (∃ l a c k v r, t.find key = .node l a c k v r ∧ s1.size = s.size ∧ s1.root = s.root ∧
          t1 = (t.pathTo key .top).plug (.node l a c k value r))) := by
  obtain ⟨h1, hfresh, hnn⟩ := h.alloc ⟨key, value, .Red, none, none, none⟩
  have hplug := Shape.plug_pathTo key t .top
  simp only [Path.plug] at hplug
  cases t with
  | nil =>
    -- empty tree: the new node becomes the root
    have hroot : s.root = none := h.1
    have hz : RepZ (⟨s.size + 1, some s.heap.length,
        s.heap ++ [⟨key, value, .Red, none, none, none⟩]⟩ : Tree K V) .top
        (.node .nil s.heap.length .Red key value .nil) := by
      refine ⟨rfl, trivial, ⟨hnn, trivial, trivial⟩, ?_⟩
      simp [Path.before, Path.after, Shape.inorder]
    obtain ⟨s1, t1, e1, hrep, hsz, hlen, hin, hrb1, hinv⟩ :=
      balanceInsert_spec fuel _ _ _ _ _ _ _ hz (by simp [Path.depth]; omega) rfl
    refine ⟨s1, t1, ?_, hrep, hrb1, ?_, by simpa using hlen, Or.inl ⟨rfl, by simpa using hsz, ?_⟩⟩
    · simp [Insert, insert, hroot, e1]
    · intro _
      exact hinv ⟨trivial, trivial, trivial, rfl, rfl, trivial, trivial, trivial, rfl⟩
    · simpa [Path.plug, Shape.inorder, Shape.pathTo, Path.before, Path.after] using hin
  | node l0 a0 c0 k0 v0 r0 =>
    have hroot : s.root = some a0 := h.1
    obtain ⟨hnew, hold⟩ := insertLoop_spec hc key value s.heap.length _ .top
      { s with heap := s.heap ++ [⟨key, value, .Red, none, none, none⟩] } fuel (by simp)
      (repZ_iff.2 h1) (by omega) hnn (by simpa [Path.plug] using hfresh)
    cases hfind : (Shape.node l0 a0 c0 k0 v0 r0).find key with
    | nil =>
      obtain ⟨s1, s2, e1, e2, hsz2, hlen2, hz⟩ := hnew hfind
      rw [hfind] at hplug
      have hdepth := Shape.depth_pathTo key (Shape.node l0 a0 c0 k0 v0 r0) .top
      simp only [Path.depth, Nat.zero_add] at hdepth
      have hrc : ((Shape.node l0 a0 c0 k0 v0 r0).pathTo key .top).rootColor .Black = .Black := by
        have := Path.plug_rootColor ((Shape.node l0 a0 c0 k0 v0 r0).pathTo key .top) .nil
        rw [hplug] at this
        simpa [Shape.RootBlack] using this.symm.trans hrb
      obtain ⟨s3, t1, e3, hrep, hsz, hlen, hin, hrb1, hinv⟩ :=
        balanceInsert_spec fuel _ _ _ _ _ _ _ (hz.size_irrel (s2.size + 1)) (by omega) hrc
      refine ⟨s3, t1, ?_, hrep, hrb1, ?_, ?_, Or.inl ⟨rfl, ?_, ?_⟩⟩
      · simp only [Shape.ptr_node, hroot] at e1
        simp [Insert, insert, hroot, e1, e2, e3]
      · rintro ⟨hn1, hn2⟩
        have hn3 := (Path.noRedRed_plug ((Shape.node l0 a0 c0 k0 v0 r0).pathTo key .top) .nil).1
          (by rw [hplug]; exact ⟨hn1, hrb⟩)
        have hn4 := (Path.balanced_plug ((Shape.node l0 a0 c0 k0 v0 r0).pathTo key .top) .nil).1
          (by rw [hplug]; exact hn2)
        exact hinv ⟨hn3.2.1, trivial, trivial, rfl, rfl, hn4.2, trivial, trivial, rfl⟩
      · simp only [List.length_append, List.length_singleton] at hlen2
        simp only at hlen
        omega
      · simp only at hsz hsz2
        omega
      · rw [hin, Path.plug_inorder]
        simp [Shape.inorder]
    | node l a c k v r =>
      obtain ⟨s1, e1, hsz1, hlen1, hz⟩ := hold l a c k v r hfind
      rw [hfind] at hplug
      refine ⟨s1, _, ?_, repZ_iff.1 hz, ?_, ?_, by simpa using hlen1,
        Or.inr ⟨l, a, c, k, v, r, rfl, by simpa using hsz1, ?_, rfl⟩⟩
      · simp only [Shape.ptr_node, hroot] at e1
        simp [Insert, insert, hroot, e1]
      · have := Path.plug_rootColor ((Shape.node l0 a0 c0 k0 v0 r0).pathTo key .top)
          (.node l a c k v r)
        rw [hplug] at this
        rw [Shape.RootBlack, Path.plug_rootColor]
        simpa [Shape.RootBlack] using this.symm.trans hrb
      · rintro ⟨hn1, hn2⟩
        have hn3 := (Path.noRedRed_plug ((Shape.node l0 a0 c0 k0 v0 r0).pathTo key .top)
          (.node l a c k v r)).1 (by rw [hplug]; exact ⟨hn1, hrb⟩)
        have hn4 := (Path.balanced_plug ((Shape.node l0 a0 c0 k0 v0 r0).pathTo key .top)
          (.node l a c k v r)).1 (by rw [hplug]; exact hn2)
        exact ⟨((Path.noRedRed_plug _ _).2 (by simpa [Shape.NoRedRed] using hn3)).1,
          (Path.balanced_plug _ _).2 (by simpa [Shape.Balanced, Shape.blackHeight] using hn4)⟩
      · have hr1 := hz.1
        rw [← Path.plug_ptr] at hr1
        have hr2 : (((Shape.node l0 a0 c0 k0 v0 r0).pathTo key .top).plug
            (.node l a c k value r)).ptr =
            (((Shape.node l0 a0 c0 k0 v0 r0).pathTo key .top).plug (.node l a c k v r)).ptr := by
          simp [Path.plug_ptr]
        rw [hr1, hr2, hplug, hroot]
        rfl

/-! ## Bindings after `Insert` -/

theorem Shape.find_key [LinearOrder K] {key : K} : ∀ {t l r : Shape K V} {a : Nat} {c : Color}
    {k : K} {v : Option V}, t.find key = .node l a c k v r → k = key := by
  intro t
  induction t with
  | nil => intro l r a c k v h; simp [Shape.find] at h
  | node l0 a0 c0 k0 v0 r0 ihl ihr =>
    intro l r a c k v h
    simp only [Shape.find] at h
    split at h
    · simp only [Shape.node.injEq] at h
      rw [← h.2.2.2.1]
      rename_i hk
      exact hk.symm
    · split at h
      · exact ihr h
      · exact ihl h

theorem Shape.find_sorted [LinearOrder K] (key : K) : ∀ (t : Shape K V), t.SortedKeys →
    (t.find key).SortedKeys := by
  intro t
  induction t with
  | nil => intro h; exact h
  | node l a c k v r ihl ihr =>
    intro h
    obtain ⟨hl, hr, -, -⟩ := Shape.sorted_node h
    simp only [Shape.find]
    split
    · exact h
    · split
      · exact ihr hr
      · exact ihl hl

theorem mem_keys_of_mem_inorder {t : Shape K V} {e : Nat × K × Option V} (h : e ∈ t.inorder) :
    e.2.1 ∈ t.keys := by
  simp only [Shape.keys, List.mem_map]
  exact ⟨e, h, rfl⟩

theorem Shape.pathTo_bounds [LinearOrder K] (key : K) : ∀ (t : Shape K V) (acc : Path K V),
    t.SortedKeys → (∀ e ∈ acc.before, e.2.1 < key) → (∀ e ∈ acc.after, key < e.2.1) →
    (∀ e ∈ (t.pathTo key acc).before, e.2.1 < key) ∧
      (∀ e ∈ (t.pathTo key acc).after, key < e.2.1) := by
  intro t
  induction t with
  | nil => intro acc _ h1 h2; exact ⟨h1, h2⟩
  | node l a c k v r ihl ihr =>
    intro acc hs h1 h2
    obtain ⟨hl, hr, hlt, hgt⟩ := Shape.sorted_node hs
    simp only [Shape.pathTo]
    split
    · exact ⟨h1, h2⟩
    · rename_i hk
      split
      · rename_i hlt2
        refine ihr _ hr ?_ h2
        intro e he
        simp only [Path.before, List.mem_append, List.mem_singleton] at he
        rcases he with (he | he) | he
        · exact h1 e he
        · exact lt_trans (hlt _ (mem_keys_of_mem_inorder he)) hlt2
        · rw [he]; exact hlt2
      · rename_i hlt2
        have hkk : key < k := lt_of_le_of_ne (not_lt.1 hlt2) hk
        refine ihl _ hl h1 ?_
        intro e he
        simp only [Path.after, List.mem_append, List.mem_cons] at he
        rcases he with (he | he) | he
        · rw [he]; exact hkk
        · exact lt_trans hkk (hgt _ (mem_keys_of_mem_inorder he))
        · exact h2 e he

theorem insertEntry_append_new [LinearOrder K] (key : K) (v : Option V) :
    ∀ (A B : List (K × Option V)), (∀ e ∈ A, e.1 < key) → (∀ e ∈ B, key < e.1) →
    insertEntry key v (A ++ B) = A ++ (key, v) :: B := by
  intro A
  induction A with
  | nil =>
    intro B _ hB
    cases B with
    | nil => rfl
    | cons e rest =>
      obtain ⟨k1, v1⟩ := e
      have h1 : key < k1 := hB (k1, v1) (by simp)
      simp [insertEntry, ne_of_lt h1, h1]
  | cons e A1 ih =>
    intro B hA hB
    obtain ⟨k1, v1⟩ := e
    have h1 : k1 < key := hA (k1, v1) (by simp)
    have h2 : ¬ key = k1 := fun e => (ne_of_lt h1) e.symm
    have h3 : ¬ key < k1 := lt_asymm h1
    rw [List.cons_append, insertEntry, if_neg h2, if_neg h3,
      ih B (fun e he => hA e (by simp [he])) hB, List.cons_append]

theorem insertEntry_append_old [LinearOrder K] (key : K) (v v0 : Option V) :
    ∀ (A B : List (K × Option V)), (∀ e ∈ A, e.1 < key) →
    insertEntry key v (A ++ (key, v0) :: B) = A ++ (key, v) :: B := by
  intro A
  induction A with
  | nil => intro B _; simp [insertEntry]
  | cons e A1 ih =>
    intro B hA
    obtain ⟨k1, v1⟩ := e
    have h1 : k1 < key := hA (k1, v1) (by simp)
    have h2 : ¬ key = k1 := fun e => (ne_of_lt h1) e.symm
    have h3 : ¬ key < k1 := lt_asymm h1
    rw [List.cons_append, insertEntry, if_neg h2, if_neg h3,
      ih B (fun e he => hA e (by simp [he])), List.cons_append]

theorem mem_keys_insertEntry [LinearOrder K] (key : K) (v : Option V) (x : K) :
    ∀ (L : List (K × Option V)),
    x ∈ (insertEntry key v L).map (fun e => e.1) ↔ x = key ∨ x ∈ L.map fun e => e.1 := by
  intro L
  induction L with
  | nil => simp [insertEntry]
  | cons e rest ih =>
    obtain ⟨k1, v1⟩ := e
    simp only [insertEntry]
    split
    · rename_i hk
      simp [hk]
    · split
      · simp
      · simp only [List.map_cons, List.mem_cons, ih]
        tauto

theorem insertEntry_sorted [LinearOrder K] (key : K) (v : Option V) :
    ∀ (L : List (K × Option V)), (L.map fun e => e.1).Pairwise (· < ·) →
    ((insertEntry key v L).map fun e => e.1).Pairwise (· < ·) := by
  intro L
  induction L with
  | nil => intro _; simp [insertEntry]
  | cons e rest ih =>
    intro h
    obtain ⟨k1, v1⟩ := e
    simp only [List.map_cons, List.pairwise_cons] at h
    simp only [insertEntry]
    split
    · rename_i hk
      subst hk
      simpa using h
    · rename_i hk
      split
      · rename_i hlt
        simp only [List.map_cons, List.pairwise_cons, List.mem_cons]
        refine ⟨?_, h⟩
        rintro x (rfl | hx)
        · exact hlt
        · exact lt_trans hlt (h.1 x hx)
      · rename_i hlt
        have hkk : k1 < key := lt_of_le_of_ne (not_lt.1 hlt) (fun e => hk e.symm)
        simp only [List.map_cons, List.pairwise_cons]
        refine ⟨?_, ih h.2⟩
        intro x hx
        rcases (mem_keys_insertEntry key v x rest).1 hx with rfl | hx
        · exact hkk
        · exact h.1 x hx

theorem valueOf_insertEntry_self [LinearOrder K] (key : K) (v : Option V) :
    ∀ (L : List (K × Option V)), valueOf key (insertEntry key v L) = v := by
  intro L
  induction L with
  | nil => simp [insertEntry, valueOf]
  | cons e rest ih =>
    obtain ⟨k1, v1⟩ := e
    simp only [insertEntry]
    split
    · simp [valueOf]
    · rename_i hk
      split
      · simp [valueOf]
      · have : ¬ k1 = key := fun e => hk e.symm
        simp [valueOf, this, ih]

theorem valueOf_insertEntry_ne [LinearOrder K] (key : K) (v : Option V) (k2 : K)
    (hne : k2 ≠ key) :
    ∀ (L : List (K × Option V)), valueOf k2 (insertEntry key v L) = valueOf k2 L := by
  intro L
  have hne2 : ¬ key = k2 := fun e => hne e.symm
  induction L with
  | nil => simp [insertEntry, valueOf, hne2]
  | cons e rest ih =>
    obtain ⟨k1, v1⟩ := e
    simp only [insertEntry]
    split
    · rename_i hk
      subst hk
      simp [valueOf, hne2]
    · split
      · simp [valueOf, hne2]
      · by_cases h1 : k1 = k2
        · simp [valueOf, h1]
        · simp [valueOf, h1, ih]

theorem entries_eq_map (t : Shape K V) : t.entries = t.inorder.map fun e => e.2 := rfl

theorem Insert_entries [LinearOrder K] {cmp : K → K → Int} (hc : LawfulCompare cmp)
    {s : Tree K V} {t : Shape K V} (h : Rep s t) (hrb : t.RootBlack) (hs : t.SortedKeys)
    (key : K) (value : Option V) {fuel : Nat} (hf : t.size < fuel) :
    ∃ s1 t1, Insert cmp fuel s key value = .ok s1 ∧ Rep s1 t1 ∧ t1.RootBlack ∧
      (t.NoRedRed ∧ t.Balanced → t1.NoRedRed ∧ t1.Balanced) ∧
      t1.entries = insertEntry key value t.entries ∧ t1.SortedKeys ∧
      (key ∈ t.keys → s1.size = s.size ∧ t1.size = t.size) ∧
      (key ∉ t.keys → s1.size = s.size + 1 ∧ t1.size = t.size + 1) := by
  obtain ⟨s1, t1, e1, hrep, hrb1, hinv, hlen, hcase⟩ := Insert_spec hc h hrb key value hf
  have hplug := Shape.plug_pathTo key t .top
  simp only [Path.plug] at hplug
  obtain ⟨hb1, hb2⟩ := Shape.pathTo_bounds key t .top hs (by simp [Path.before])
    (by simp [Path.after])
  have hent : t1.entries = insertEntry key value t.entries ∧
      ((key ∈ t.keys → s1.size = s.size ∧ t1.size = t.size) ∧
        (key ∉ t.keys → s1.size = s.size + 1 ∧ t1.size = t.size + 1)) := by
    rcases hcase with ⟨hfind, hsz, hin⟩ | ⟨l, a, c, k, v, r, hfind, hsz, -, ht1⟩
    · rw [hfind] at hplug
      have hnot : key ∉ t.keys := by
        intro hmem
        obtain ⟨l, a, c, v, r, hf2⟩ := Shape.find_of_mem key t hs hmem
        rw [hfind] at hf2
        exact Shape.noConfusion hf2
      have htin : t.inorder = (t.pathTo key .top).before ++ (t.pathTo key .top).after := by
        conv_lhs => rw [← hplug]
        rw [Path.plug_inorder]
        simp [Shape.inorder]
      refine ⟨?_, fun hm => absurd hm hnot, fun _ => ⟨hsz, ?_⟩⟩
      · have e1 : t1.entries = (t.pathTo key .top).before.map (fun e => e.2) ++
            (key, value) :: (t.pathTo key .top).after.map (fun e => e.2) := by
          rw [entries_eq_map, hin]; simp
        have e2 : t.entries = (t.pathTo key .top).before.map (fun e => e.2) ++
            (t.pathTo key .top).after.map (fun e => e.2) := by
          rw [entries_eq_map, htin]; simp
        rw [e1, e2, insertEntry_append_new]
        · intro e he
          obtain ⟨e1, he1, rfl⟩ := List.mem_map.1 he
          exact hb1 e1 he1
        · intro e he
          obtain ⟨e1, he1, rfl⟩ := List.mem_map.1 he
          exact hb2 e1 he1
      · rw [← Shape.length_inorder, ← Shape.length_inorder, hin, htin]
        simp
        omega
    · rw [hfind] at hplug
      have hk : k = key := Shape.find_key hfind
      subst hk
      have hmem : k ∈ t.keys := by
        rw [← hplug]
        simp [Shape.keys, Path.plug_inorder, Shape.inorder]
      have hsub := Shape.find_sorted k t hs
      rw [hfind] at hsub
      obtain ⟨-, -, hlt, -⟩ := Shape.sorted_node hsub
      have htin : t.inorder = ((t.pathTo k .top).before ++ l.inorder) ++
          (a, k, v) :: (r.inorder ++ (t.pathTo k .top).after) := by
        conv_lhs => rw [← hplug]
        rw [Path.plug_inorder]
        simp [Shape.inorder]
      have ht1in : t1.inorder = ((t.pathTo k .top).before ++ l.inorder) ++
          (a, k, value) :: (r.inorder ++ (t.pathTo k .top).after) := by
        rw [ht1, Path.plug_inorder]
        simp [Shape.inorder]
      refine ⟨?_, fun _ => ⟨hsz, ?_⟩, fun hm => absurd hmem hm⟩
      · have e1 : t1.entries = ((t.pathTo k .top).before ++ l.inorder).map (fun e => e.2) ++
            (k, value) :: (r.inorder ++ (t.pathTo k .top).after).map (fun e => e.2) := by
          rw [entries_eq_map, ht1in]; simp
        have e2 : t.entries = ((t.pathTo k .top).before ++ l.inorder).map (fun e => e.2) ++
            (k, v) :: (r.inorder ++ (t.pathTo k .top).after).map (fun e => e.2) := by
          rw [entries_eq_map, htin]; simp
        rw [e1, e2, insertEntry_append_old]
        intro e he
        obtain ⟨e1, he1, rfl⟩ := List.mem_map.1 he
        rcases List.mem_append.1 he1 with he2 | he2
        · exact hb1 e1 he2
        · exact hlt _ (mem_keys_of_mem_inorder he2)
      · rw [← Shape.length_inorder, ← Shape.length_inorder, ht1in, htin]
        simp
  refine ⟨s1, t1, e1, hrep, hrb1, hinv, hent.1, ?_, hent.2.1, hent.2.2⟩
  rw [Shape.SortedKeys, Shape.keys_eq_entries, hent.1]
  apply insertEntry_sorted
  rw [← Shape.keys_eq_entries]
  exact hs

/-! ## In-order traversal and sequences of insertions -/

@[simp] theorem Shape.values_nil : (Shape.nil : Shape K V).values = [] := rfl

@[simp] theorem Shape.values_node (l : Shape K V) (a : Nat) (c : Color) (k : K) (v : Option V)
    (r : Shape K V) : (Shape.node l a c k v r).values = l.values ++ v :: r.values := by
  simp [Shape.values, Shape.inorder]

theorem InOrder_shape {σ : Type} (s : Tree K V) (fn : σ → Option V → σ) :
    ∀ (t : Shape K V) (par : Ptr) (fuel : Nat) (acc : σ), Own s.heap par t → t.size < fuel →
    InOrder fuel s t.ptr fn acc = .ok (t.values.foldl fn acc) := by
  intro t
  induction t with
  | nil =>
    intro par fuel acc _ hf
    cases fuel with
    | zero => omega
    | succ f => simp [InOrder]
  | node l a c k v r ihl ihr =>
    intro par fuel acc hown hf
    obtain ⟨hc, hl, hr⟩ := hown
    simp only [Shape.size] at hf
    cases fuel with
    | zero => omega
    | succ f =>
      have h1 := ihl (some a) f acc hl (by omega)
      have h2 := ihr (some a) f (fn (l.values.foldl fn acc) v) hr (by omega)
      simp only [InOrder, Shape.ptr_node]
      simp only [getLeft_cell hc, getRight_cell hc, getValue_cell hc, bind_ok]
      cases l with
      | nil =>
        cases r with
        | nil => simp
        | node rl ra rc rk rv rr =>
          simp only [Shape.ptr_node, Shape.values_nil, List.foldl_nil, Shape.values_node,
            List.foldl_append, List.foldl_cons] at h2
          simp [h2, List.foldl_append]
      | node ll la lc lk lv lr =>
        simp only [Shape.ptr_node, Shape.values_node, List.foldl_append, List.foldl_cons] at h1
        cases r with
        | nil => simp [h1, List.foldl_append]
        | node rl ra rc rk rv rr =>
          simp only [Shape.ptr_node, Shape.values_node, List.foldl_append, List.foldl_cons] at h2
          simp [h1, h2, List.foldl_append]

theorem Do_inOrder {σ : Type} {s : Tree K V} {t : Shape K V} (h : Rep s t)
    (fn : σ → Option V → σ) (acc : σ) {fuel : Nat} (hf : t.size < fuel) :
    Do fuel s fn acc (some inOrderIter) = .ok (t.values.foldl fn acc) ∧
      Do fuel s fn acc none = .ok (t.values.foldl fn acc) := by
  have := InOrder_shape s fn t none fuel acc h.2.1 hf
  rw [← h.1] at this
  exact ⟨by simpa [Do, inOrderIter] using this, by simpa [Do, inOrderIter] using this⟩

theorem rep_new : Rep (New : Tree K V) .nil := ⟨rfl, trivial, by simp⟩

theorem insertAll_spec [LinearOrder K] {cmp : K → K → Int} (hc : LawfulCompare cmp) :
    ∀ (kvs : List (K × Option V)) (s : Tree K V) (t : Shape K V) (fuel : Nat), Rep s t →
      t.RedBlack → t.SortedKeys → t.size + kvs.length < fuel →
      ∃ s1 t1, insertAll cmp fuel kvs s = .ok s1 ∧ Rep s1 t1 ∧ t1.RedBlack ∧ t1.SortedKeys ∧
        t1.entries = kvs.foldl (fun E kv => insertEntry kv.1 kv.2 E) t.entries := by
  intro kvs
  induction kvs with
  | nil =>
    intro s t fuel h hrb hs _
    exact ⟨s, t, rfl, h, hrb, hs, rfl⟩
  | cons kv rest ih =>
    intro s t fuel h hrb hs hf
    obtain ⟨k, v⟩ := kv
    simp only [List.length_cons] at hf
    obtain ⟨s1, t1, e1, hrep1, hrb1, hinv, hent, hs1, hsz1, hsz2⟩ :=
      Insert_entries hc h hrb.1 hs k v (show t.size < fuel by omega)
    have hbal := (Shape.equalBlackPaths_iff t).1 hrb.2.2
    have hinv2 := hinv ⟨hrb.2.1, hbal⟩
    have hsize : t1.size ≤ t.size + 1 := by
      by_cases hm : k ∈ t.keys
      · have := (hsz1 hm).2; omega
      · have := (hsz2 hm).2; omega
    obtain ⟨s2, t2, e2, hrep2, hrb2, hs2, hent2⟩ :=
      ih s1 t1 fuel hrep1 ⟨hrb1, hinv2.1, (Shape.equalBlackPaths_iff t1).2 hinv2.2⟩ hs1
        (by omega)
    refine ⟨s2, t2, ?_, hrep2, hrb2, hs2, ?_⟩
    · simp [insertAll, e1, e2]
    · rw [hent2, hent]
      rfl

theorem foldl_insertEntry_keys [LinearOrder K] (x : K) :
    ∀ (kvs E : List (K × Option V)),
    x ∈ (kvs.foldl (fun E kv => insertEntry kv.1 kv.2 E) E).map (fun e => e.1) ↔
      x ∈ kvs.map (fun e => e.1) ∨ x ∈ E.map fun e => e.1 := by
  intro kvs
  induction kvs with
  | nil => intro E; simp
  | cons kv rest ih =>
    intro E
    simp only [List.foldl_cons, ih, mem_keys_insertEntry, List.map_cons, List.mem_cons]
    tauto

theorem foldl_insertEntry_sorted [LinearOrder K] :
    ∀ (kvs E : List (K × Option V)), (E.map fun e => e.1).Pairwise (· < ·) →
    ((kvs.foldl (fun E kv => insertEntry kv.1 kv.2 E) E).map fun e => e.1).Pairwise (· < ·) := by
  intro kvs
  induction kvs with
  | nil => intro E h; exact h
  | cons kv rest ih =>
    intro E h
    exact ih _ (insertEntry_sorted _ _ _ h)

theorem foldl_insertEntry_value [LinearOrder K] (x : K) :
    ∀ (kvs E : List (K × Option V)), x ∈ kvs.map (fun e => e.1) →
    valueOf x (kvs.foldl (fun E kv => insertEntry kv.1 kv.2 E) E) = valueOf x kvs.reverse := by
  intro kvs
  induction kvs using List.reverseRecOn with
  | nil => intro E h; simp at h
  | append_singleton init last ih =>
    intro E h
    obtain ⟨k, v⟩ := last
    simp only [List.foldl_append, List.foldl_cons, List.foldl_nil, List.reverse_append,
      List.reverse_cons, List.reverse_nil, List.nil_append, List.singleton_append]
    by_cases hk : x = k
    · subst hk
      simp [valueOf_insertEntry_self, valueOf]
    · have hk2 : ¬ k = x := fun e => hk e.symm
      rw [valueOf_insertEntry_ne _ _ _ hk]
      simp only [valueOf, if_neg hk2]
      apply ih
      simp only [List.map_append, List.map_cons, List.map_nil, List.mem_append,
        List.mem_singleton] at h
      rcases h with h | h
      · exact h
      · exact absurd h hk

/-! ## `balanceRemove`, case by case: the node is a left child -/

theorem balanceRemove_succ (f : Nat) (s : Tree K V) (n : Ptr) :
    balanceRemove (f + 1) s n = (do
      let p ← getParent s n
      if p = none then pure s
      else do
        let sib ← sibling s n
        let sc ← color s sib
        let (s, sib) ←
          if sc = Color.Red then do
            let p ← getParent s n
            let s ← setColor s p Color.Red
            let s ← setColor s sib Color.Black
            let c ← isLeftChild s n
            let p ← getParent s n
            let s ← if c then rotateLeft s p else rotateRight s p
            let sib ← sibling s n
            pure (s, sib)
          else pure (s, sib)
        balanceRemoveTail (balanceRemove f) s n sib) := by
  rfl

/-- Step iii, node on the left: Black parent, Black sibling with Black
children; the sibling turns Red and the repair continues at the parent. -/
theorem tail_left_iii {s : Tree K V} {up : Path K V} {Ln Rn XL XR : Shape K V}
    {n pp x : Nat} {cn cx : Color} {kn kpp kx : K} {vn vpp vx : Option V}
    (h : RepZ s (.left up pp .Black kpp vpp (.node XL x cx kx vx XR)) (.node Ln n cn kn vn Rn))
    (hl : XL.rootColor = .Black) (hr : XR.rootColor = .Black)
    (recur : Tree K V → Ptr → Exec (Tree K V)) :
    ∃ s1, balanceRemoveTail recur s (some n) (some x) = recur s1 (some pp) ∧ s1.size = s.size ∧
      s1.heap.length = s.heap.length ∧
      RepZ s1 (.left up pp .Black kpp vpp (.node XL x .Red kx vx XR)) (.node Ln n cn kn vn Rn) := by
  have hn := h.cell
  have hpp := (RepZ.up_left.1 h).cell
  have hX := RepZ.up_right.2 (RepZ.up_left.1 h)
  have hx := hX.cell
  have hcl := color_shape hX.2.2.1.2.1
  have hcr := color_shape hX.2.2.1.2.2
  obtain ⟨s1, e1, hsz1, hlen1, h1⟩ := setColor_focus hX .Red
  have h1n := RepZ.up_left.2 (RepZ.up_right.1 h1)
  have hn1 := h1n.cell
  refine ⟨s1, ?_, hsz1, hlen1, h1n⟩
  simp only [Shape.ptr_node, Path.ptr_left, Path.ptr_right] at hn hpp hx hn1
  simp [balanceRemoveTail, andAlso, parentColorIs, leftColorIs, rightColorIs, getParent_cell hn,
    getColor_cell hpp, getLeft_cell hx, getRight_cell hx, hcl, hcr, hl, hr, e1,
    getParent_cell hn1]

/-- Step iv, node on the left: Red parent, Black sibling with Black children. -/
theorem tail_left_iv {s : Tree K V} {up : Path K V} {Ln Rn XL XR : Shape K V}
    {n pp x : Nat} {cn cx : Color} {kn kpp kx : K} {vn vpp vx : Option V}
    (h : RepZ s (.left up pp .Red kpp vpp (.node XL x cx kx vx XR)) (.node Ln n cn kn vn Rn))
    (hl : XL.rootColor = .Black) (hr : XR.rootColor = .Black)
    (recur : Tree K V → Ptr → Exec (Tree K V)) :
    ∃ s2, balanceRemoveTail recur s (some n) (some x) = .ok s2 ∧ s2.size = s.size ∧
      s2.heap.length = s.heap.length ∧
      RepZ s2 (.left up pp .Black kpp vpp (.node XL x .Red kx vx XR)) (.node Ln n cn kn vn Rn) := by
  have hn := h.cell
  have hpp := (RepZ.up_left.1 h).cell
  have hX := RepZ.up_right.2 (RepZ.up_left.1 h)
  have hx := hX.cell
  have hcl := color_shape hX.2.2.1.2.1
  have hcr := color_shape hX.2.2.1.2.2
  obtain ⟨s1, e1, hsz1, hlen1, h1⟩ := setColor_focus hX .Red
  have hn1 := (RepZ.up_left.2 (RepZ.up_right.1 h1)).cell
  obtain ⟨s2, e2, hsz2, hlen2, h2⟩ := setColor_focus (RepZ.up_right.1 h1) .Black
  refine ⟨s2, ?_, by omega, by omega, RepZ.up_left.2 h2⟩
  simp only [Shape.ptr_node, Path.ptr_left, Path.ptr_right] at hn hpp hx hn1
  simp [balanceRemoveTail, andAlso, parentColorIs, leftColorIs, rightColorIs, getParent_cell hn,
    getColor_cell hpp, getLeft_cell hx, getRight_cell hx, hcl, hcr, hl, hr, e1,
    getParent_cell hn1, e2]

/-- Steps v and vi, node on the left: the sibling's far child is Black and its
near child Red. -/
theorem tail_left_va {s : Tree K V} {up : Path K V} {Ln Rn XLL XLR XR : Shape K V}
    {n pp x z : Nat} {cn cx pc : Color} {kn kpp kx kz : K} {vn vpp vx vz : Option V}
    (h : RepZ s (.left up pp pc kpp vpp (.node (.node XLL z .Red kz vz XLR) x cx kx vx XR))
      (.node Ln n cn kn vn Rn))
    (hr : XR.rootColor = .Black) (recur : Tree K V → Ptr → Exec (Tree K V)) :
    ∃ s7, balanceRemoveTail recur s (some n) (some x) = .ok s7 ∧ s7.size = s.size ∧
      s7.heap.length = s.heap.length ∧
      RepZ s7 (.left (.left up z pc kz vz (.node XLR x .Black kx vx XR)) pp .Black kpp vpp XLL)
        (.node Ln n cn kn vn Rn) := by
  have hn := h.cell
  have hpp := (RepZ.up_left.1 h).cell
  have hX := RepZ.up_right.2 (RepZ.up_left.1 h)
  have hx := hX.cell
  have hz := (RepZ.up_left.2 hX).cell
  have hcr := color_shape hX.2.2.1.2.2
  have hnz : ¬ (some n : Ptr) = some z := by
    intro e
    simp only [Option.some.injEq] at e
    subst e
    exact h.not_mem_path (x := n) (by simp) (Path.mem_addrs_left.2 (Or.inr (Or.inl (by simp))))
  -- v.
  obtain ⟨s1, e1, hsz1, hlen1, h1⟩ := setColor_focus hX .Red
  have hx1 := h1.cell
  obtain ⟨s2, e2, hsz2, hlen2, h2⟩ := setColor_focus (RepZ.up_left.2 h1) .Black
  obtain ⟨s3, e3, hsz3, hlen3, h3⟩ := rotateRight_focus (RepZ.up_left.1 h2)
  -- vi.
  have hn3 := (RepZ.up_left.2 (RepZ.up_right.1 h3)).cell
  have hpp3 := (RepZ.up_right.1 h3).cell
  have hz3 := h3.cell
  obtain ⟨s4, e4, hsz4, hlen4, h4⟩ := setColor_focus h3 pc
  have hn4 := (RepZ.up_left.2 (RepZ.up_right.1 h4)).cell
  obtain ⟨s5, e5, hsz5, hlen5, h5⟩ := setColor_focus (RepZ.up_right.1 h4) .Black
  have h5z := RepZ.up_right.2 h5
  have hn5 := (RepZ.up_left.2 h5).cell
  have hpp5 := h5.cell
  have hz5 := h5z.cell
  have hx5 := (RepZ.up_right.2 h5z).cell
  obtain ⟨s6, e6, hsz6, hlen6, h6⟩ := setColor_focus (RepZ.up_right.2 h5z) .Black
  have h6pp := RepZ.up_right.1 (RepZ.up_right.1 h6)
  have hn6 := (RepZ.up_left.2 h6pp).cell
  obtain ⟨s7, e7, hsz7, hlen7, h7⟩ := rotateLeft_focus h6pp
  have h7pp := RepZ.up_left.2 h7
  have hn7 := (RepZ.up_left.2 h7pp).cell
  have hpp7 := h7pp.cell
  have hz7 := h7.cell
  refine ⟨s7, ?_, by omega, by omega, RepZ.up_left.2 h7pp⟩
  simp only [Shape.ptr_node, Path.ptr_left, Path.ptr_right] at hn hpp hx hz hx1 hn3 hpp3 hz3 hn4 hn5 hpp5 hz5 hx5 hn6 hn7 hpp7 hz7
  simp [balanceRemoveTail, andAlso, parentColorIs, leftColorIs, rightColorIs, isLeftChild,
    isRightChild, sibling, getParent_cell hn, getColor_cell hpp, getLeft_cell hx,
    getRight_cell hx, color_cell hz, hcr, hr, getLeft_cell hpp, e1, getLeft_cell hx1, e2, e3,
    getParent_cell hn3, getRight_cell hpp3, getLeft_cell hpp3, hnz, getColor_cell hpp3, e4,
    getParent_cell hn4, e5, getParent_cell hn5, getLeft_cell hpp5, getRight_cell hz5,
    color_cell hx5, e6, getParent_cell hn6, e7, getParent_cell hn7, getLeft_cell hpp7,
    getLeft_cell hz7, color_cell hpp7]

/-- Step vi, node on the left: the sibling's far child is Red. -/
theorem tail_left_vb {s : Tree K V} {up : Path K V} {Ln Rn XL XRL XRR : Shape K V}
    {n pp x w : Nat} {cn cx pc : Color} {kn kpp kx kw : K} {vn vpp vx vw : Option V}
    (h : RepZ s (.left up pp pc kpp vpp (.node XL x cx kx vx (.node XRL w .Red kw vw XRR)))
      (.node Ln n cn kn vn Rn))
    (recur : Tree K V → Ptr → Exec (Tree K V)) :
    ∃ s4, balanceRemoveTail recur s (some n) (some x) = .ok s4 ∧ s4.size = s.size ∧
      s4.heap.length = s.heap.length ∧
      RepZ s4 (.left (.left up x pc kx vx (.node XRL w .Black kw vw XRR)) pp .Black kpp vpp XL)
        (.node Ln n cn kn vn Rn) := by
  have hn := h.cell
  have hpp := (RepZ.up_left.1 h).cell
  have hX := RepZ.up_right.2 (RepZ.up_left.1 h)
  have hx := hX.cell
  have hw := (RepZ.up_right.2 hX).cell
  have hcl := color_shape hX.2.2.1.2.1
  have hnx : ¬ (some n : Ptr) = some x := by
    intro e
    simp only [Option.some.injEq] at e
    subst e
    exact h.not_mem_path (x := n) (by simp) (Path.mem_addrs_left.2 (Or.inr (Or.inl (by simp))))
  obtain ⟨s1, e1, hsz1, hlen1, h1⟩ := setColor_focus hX pc
  have hn1 := (RepZ.up_left.2 (RepZ.up_right.1 h1)).cell
  obtain ⟨s2, e2, hsz2, hlen2, h2⟩ := setColor_focus (RepZ.up_right.1 h1) .Black
  have h2x := RepZ.up_right.2 h2
  have hn2 := (RepZ.up_left.2 h2).cell
  have hpp2 := h2.cell
  have hx2 := h2x.cell
  have hw2 := (RepZ.up_right.2 h2x).cell
  obtain ⟨s3, e3, hsz3, hlen3, h3⟩ := setColor_focus (RepZ.up_right.2 h2x) .Black
  have h3pp := RepZ.up_right.1 (RepZ.up_right.1 h3)
  have hn3 := (RepZ.up_left.2 h3pp).cell
  obtain ⟨s4, e4, hsz4, hlen4, h4⟩ := rotateLeft_focus h3pp
  have h4pp := RepZ.up_left.2 h4
  have hn4 := (RepZ.up_left.2 h4pp).cell
  have hpp4 := h4pp.cell
  have hx4 := h4.cell
  refine ⟨s4, ?_, by omega, by omega, RepZ.up_left.2 h4pp⟩
  simp only [Shape.ptr_node, Path.ptr_left, Path.ptr_right] at hn hpp hx hw hn1 hn2 hpp2 hx2 hw2 hn3 hn4 hpp4 hx4
  simp [balanceRemoveTail, andAlso, parentColorIs, leftColorIs, rightColorIs, isLeftChild,
    isRightChild, sibling, getParent_cell hn, getColor_cell hpp, getLeft_cell hx,
    getRight_cell hx, color_cell hw, hcl, getLeft_cell hpp, getRight_cell hpp, hnx, e1,
    getParent_cell hn1, e2, getParent_cell hn2, getLeft_cell hpp2, getRight_cell hx2,
    color_cell hw2, e3, getParent_cell hn3, e4, getParent_cell hn4, getLeft_cell hpp4,
    getLeft_cell hx4, color_cell hpp4]

/-! ## `balanceRemove`, case by case: the node is a right child -/

/-- Step iii, node on the right. -/
theorem tail_right_iii {s : Tree K V} {up : Path K V} {Ln Rn XL XR : Shape K V}
    {n pp x : Nat} {cn cx : Color} {kn kpp kx : K} {vn vpp vx : Option V}
    (h : RepZ s (.right (.node XL x cx kx vx XR) pp .Black kpp vpp up) (.node Ln n cn kn vn Rn))
    (hl : XL.rootColor = .Black) (hr : XR.rootColor = .Black)
    (recur : Tree K V → Ptr → Exec (Tree K V)) :
    ∃ s1, balanceRemoveTail recur s (some n) (some x) = recur s1 (some pp) ∧ s1.size = s.size ∧
      s1.heap.length = s.heap.length ∧
      RepZ s1 (.right (.node XL x .Red kx vx XR) pp .Black kpp vpp up) (.node Ln n cn kn vn Rn) := by
  have hn := h.cell
  have hpp := (RepZ.up_right.1 h).cell
  have hX := RepZ.up_left.2 (RepZ.up_right.1 h)
  have hx := hX.cell
  have hcl := color_shape hX.2.2.1.2.1
  have hcr := color_shape hX.2.2.1.2.2
  obtain ⟨s1, e1, hsz1, hlen1, h1⟩ := setColor_focus hX .Red
  have h1n := RepZ.up_right.2 (RepZ.up_left.1 h1)
  have hn1 := h1n.cell
  refine ⟨s1, ?_, hsz1, hlen1, h1n⟩
  simp only [Shape.ptr_node, Path.ptr_left, Path.ptr_right] at hn hpp hx hn1
  simp [balanceRemoveTail, andAlso, parentColorIs, leftColorIs, rightColorIs, getParent_cell hn,
    getColor_cell hpp, getLeft_cell hx, getRight_cell hx, hcl, hcr, hl, hr, e1,
    getParent_cell hn1]

/-- Step iv, node on the right. -/
theorem tail_right_iv {s : Tree K V} {up : Path K V} {Ln Rn XL XR : Shape K V}
    {n pp x : Nat} {cn cx : Color} {kn kpp kx : K} {vn vpp vx : Option V}
    (h : RepZ s (.right (.node XL x cx kx vx XR) pp .Red kpp vpp up) (.node Ln n cn kn vn Rn))
    (hl : XL.rootColor = .Black) (hr : XR.rootColor = .Black)
    (recur : Tree K V → Ptr → Exec (Tree K V)) :
    ∃ s2, balanceRemoveTail recur s (some n) (some x) = .ok s2 ∧ s2.size = s.size ∧
      s2.heap.length = s.heap.length ∧
      RepZ s2 (.right (.node XL x .Red kx vx XR) pp .Black kpp vpp up) (.node Ln n cn kn vn Rn) := by
  have hn := h.cell
  have hpp := (RepZ.up_right.1 h).cell
  have hX := RepZ.up_left.2 (RepZ.up_right.1 h)
  have hx := hX.cell
  have hcl := color_shape hX.2.2.1.2.1
  have hcr := color_shape hX.2.2.1.2.2
  obtain ⟨s1, e1, hsz1, hlen1, h1⟩ := setColor_focus hX .Red
  have hn1 := (RepZ.up_right.2 (RepZ.up_left.1 h1)).cell
  obtain ⟨s2, e2, hsz2, hlen2, h2⟩ := setColor_focus (RepZ.up_left.1 h1) .Black
  refine ⟨s2, ?_, by omega, by omega, RepZ.up_right.2 h2⟩
  simp only [Shape.ptr_node, Path.ptr_left, Path.ptr_right] at hn hpp hx hn1
  simp [balanceRemoveTail, andAlso, parentColorIs, leftColorIs, rightColorIs, getParent_cell hn,
    getColor_cell hpp, getLeft_cell hx, getRight_cell hx, hcl, hcr, hl, hr, e1,
    getParent_cell hn1, e2]

/-- Steps v and vi, node on the right: the sibling's near child is Red and its
far child Black.  Step vi recolours and does not rotate. -/
theorem tail_right_v {s : Tree K V} {up : Path K V} {Ln Rn XL XRL XRR : Shape K V}
    {n pp x w : Nat} {cn cx pc : Color} {kn kpp kx kw : K} {vn vpp vx vw : Option V}
    (h : RepZ s (.right (.node XL x cx kx vx (.node XRL w .Red kw vw XRR)) pp pc kpp vpp up)
      (.node Ln n cn kn vn Rn))
    (hl : XL.rootColor = .Black) (recur : Tree K V → Ptr → Exec (Tree K V)) :
    ∃ s5, balanceRemoveTail recur s (some n) (some x) = .ok s5 ∧ s5.size = s.size ∧
      s5.heap.length = s.heap.length ∧
      RepZ s5 (.right (.node (.node XL x .Red kx vx XRL) w pc kw vw XRR) pp .Black kpp vpp up)
        (.node Ln n cn kn vn Rn) := by
  have hn := h.cell
  have hpp := (RepZ.up_right.1 h).cell
  have hX := RepZ.up_left.2 (RepZ.up_right.1 h)
  have hx := hX.cell
  have hw := (RepZ.up_right.2 hX).cell
  have hcl := color_shape hX.2.2.1.2.1
  have hnx : ¬ (some n : Ptr) = some x := by
    intro e
    simp only [Option.some.injEq] at e
    subst e
    exact h.not_mem_path (x := n) (by simp) (Path.mem_addrs_right.2 (Or.inr (Or.inl (by simp))))
  have hnw : ¬ (some n : Ptr) = some w := by
    intro e
    simp only [Option.some.injEq] at e
    subst e
    exact h.not_mem_path (x := n) (by simp) (Path.mem_addrs_right.2 (Or.inr (Or.inl (by simp))))
  have hwn : ¬ (some w : Ptr) = some n := fun e => hnw e.symm
  -- v.
  obtain ⟨s1, e1, hsz1, hlen1, h1⟩ := setColor_focus hX .Red
  have hx1 := h1.cell
  obtain ⟨s2, e2, hsz2, hlen2, h2⟩ := setColor_focus (RepZ.up_right.2 h1) .Black
  obtain ⟨s3, e3, hsz3, hlen3, h3⟩ := rotateLeft_focus (RepZ.up_right.1 h2)
  -- vi.
  have hn3 := (RepZ.up_right.2 (RepZ.up_left.1 h3)).cell
  have hpp3 := (RepZ.up_left.1 h3).cell
  obtain ⟨s4, e4, hsz4, hlen4, h4⟩ := setColor_focus h3 pc
  have hn4 := (RepZ.up_right.2 (RepZ.up_left.1 h4)).cell
  obtain ⟨s5, e5, hsz5, hlen5, h5⟩ := setColor_focus (RepZ.up_left.1 h4) .Black
  have hn5 := (RepZ.up_right.2 h5).cell
  have hpp5 := h5.cell
  refine ⟨s5, ?_, by omega, by omega, RepZ.up_right.2 h5⟩
  simp only [Shape.ptr_node, Path.ptr_left, Path.ptr_right] at hn hpp hx hw hx1 hn3 hpp3 hn4 hn5 hpp5
  simp [balanceRemoveTail, andAlso, parentColorIs, leftColorIs, rightColorIs, isLeftChild,
    isRightChild, sibling, getParent_cell hn, getColor_cell hpp, getLeft_cell hx,
    getRight_cell hx, color_cell hw, hcl, hl, getLeft_cell hpp, getRight_cell hpp, hnx, e1,
    getRight_cell hx1, e2, e3, getParent_cell hn3, getLeft_cell hpp3, hnw, hwn,
    getColor_cell hpp3, e4, getParent_cell hn4, e5, getParent_cell hn5, getLeft_cell hpp5]

/-- Step vi, node on the right: the sibling's far child is Red.  The sibling
and the parent are recoloured and nothing is rotated. -/
theorem tail_right_far_red {s : Tree K V} {up : Path K V} {Ln Rn XLL XLR XR : Shape K V}
    {n pp x z : Nat} {cn cx pc : Color} {kn kpp kx kz : K} {vn vpp vx vz : Option V}
    (h : RepZ s (.right (.node (.node XLL z .Red kz vz XLR) x cx kx vx XR) pp pc kpp vpp up)
      (.node Ln n cn kn vn Rn))
    (recur : Tree K V → Ptr → Exec (Tree K V)) :
    ∃ s2, balanceRemoveTail recur s (some n) (some x) = .ok s2 ∧ s2.size = s.size ∧
      s2.heap.length = s.heap.length ∧
      RepZ s2 (.right (.node (.node XLL z .Red kz vz XLR) x pc kx vx XR) pp .Black kpp vpp up)
        (.node Ln n cn kn vn Rn) := by
  have hn := h.cell
  have hpp := (RepZ.up_right.1 h).cell
  have hX := RepZ.up_left.2 (RepZ.up_right.1 h)
  have hx := hX.cell
  have hz := (RepZ.up_left.2 hX).cell
  have hcr := color_shape hX.2.2.1.2.2
  have hnx : ¬ (some n : Ptr) = some x := by
    intro e
    simp only [Option.some.injEq] at e
    subst e
    exact h.not_mem_path (x := n) (by simp) (Path.mem_addrs_right.2 (Or.inr (Or.inl (by simp))))
  have hxn : ¬ (some x : Ptr) = some n := fun e => hnx e.symm
  obtain ⟨s1, e1, hsz1, hlen1, h1⟩ := setColor_focus hX pc
  have hn1 := (RepZ.up_right.2 (RepZ.up_left.1 h1)).cell
  obtain ⟨s2, e2, hsz2, hlen2, h2⟩ := setColor_focus (RepZ.up_left.1 h1) .Black
  have hn2 := (RepZ.up_right.2 h2).cell
  have hpp2 := h2.cell
  refine ⟨s2, ?_, by omega, by omega, RepZ.up_right.2 h2⟩
  simp only [Shape.ptr_node, Path.ptr_left, Path.ptr_right] at hn hpp hx hz hn1 hn2 hpp2
  simp [balanceRemoveTail, andAlso, parentColorIs, leftColorIs, rightColorIs, isLeftChild,
    isRightChild, sibling, getParent_cell hn, getColor_cell hpp, getLeft_cell hx,
    getRight_cell hx, color_cell hz, hcr, getLeft_cell hpp, getRight_cell hpp, hnx, hxn, e1,
    getParent_cell hn1, e2, getParent_cell hn2, getLeft_cell hpp2]

/-! ## `balanceRemove`: step ii -/

/-- Step ii, node on the left, Red sibling. -/
theorem balanceRemove_red_sibling_left {s : Tree K V} {up : Path K V}
    {Ln Rn SL SR : Shape K V} {n pp sx : Nat} {cn cpp : Color} {kn kpp ks : K}
    {vn vpp vs : Option V}
    (h : RepZ s (.left up pp cpp kpp vpp (.node SL sx .Red ks vs SR)) (.node Ln n cn kn vn Rn))
    (f : Nat) :
    ∃ s3, balanceRemove (f + 1) s (some n) =
        balanceRemoveTail (balanceRemove f) s3 (some n) SL.ptr ∧
      s3.size = s.size ∧ s3.heap.length = s.heap.length ∧
      RepZ s3 (.left (.left up sx .Black ks vs SR) pp .Red kpp vpp SL) (.node Ln n cn kn vn Rn) := by
  have hn := h.cell
  have hpp := (RepZ.up_left.1 h).cell
  have hX := RepZ.up_right.2 (RepZ.up_left.1 h)
  have hx := hX.cell
  obtain ⟨s1, e1, hsz1, hlen1, h1⟩ := setColor_focus (RepZ.up_left.1 h) .Red
  obtain ⟨s2, e2, hsz2, hlen2, h2⟩ := setColor_focus (RepZ.up_right.2 h1) .Black
  have hn2 := (RepZ.up_left.2 (RepZ.up_right.1 h2)).cell
  have hpp2 := (RepZ.up_right.1 h2).cell
  obtain ⟨s3, e3, hsz3, hlen3, h3⟩ := rotateLeft_focus (RepZ.up_right.1 h2)
  have h3n := RepZ.up_left.2 (RepZ.up_left.2 h3)
  have hn3 := h3n.cell
  have hpp3 := (RepZ.up_left.2 h3).cell
  refine ⟨s3, ?_, by omega, by omega, h3n⟩
  simp only [Shape.ptr_node, Path.ptr_left, Path.ptr_right] at hn hpp hx hn2 hpp2 hn3 hpp3
  rw [balanceRemove_succ]
  simp [sibling, getParent_cell hn, getLeft_cell hpp, getRight_cell hpp, color_cell hx, e1, e2,
    isLeftChild, getParent_cell hn2, getLeft_cell hpp2, e3, getParent_cell hn3,
    getLeft_cell hpp3, getRight_cell hpp3]

/-- Step ii, node on the right, Red sibling. -/
theorem balanceRemove_red_sibling_right {s : Tree K V} {up : Path K V}
    {Ln Rn SL SR : Shape K V} {n pp sx : Nat} {cn cpp : Color} {kn kpp ks : K}
    {vn vpp vs : Option V}
    (h : RepZ s (.right (.node SL sx .Red ks vs SR) pp cpp kpp vpp up) (.node Ln n cn kn vn Rn))
    (f : Nat) :
    ∃ s3, balanceRemove (f + 1) s (some n) =
        balanceRemoveTail (balanceRemove f) s3 (some n) SR.ptr ∧
      s3.size = s.size ∧ s3.heap.length = s.heap.length ∧
      RepZ s3 (.right SR pp .Red kpp vpp (.right SL sx .Black ks vs up)) (.node Ln n cn kn vn Rn) := by
  have hn := h.cell
  have hpp := (RepZ.up_right.1 h).cell
  have hX := RepZ.up_left.2 (RepZ.up_right.1 h)
  have hx := hX.cell
  have hnx : ¬ (some n : Ptr) = some sx := by
    intro e
    simp only [Option.some.injEq] at e
    subst e
    exact h.not_mem_path (x := n) (by simp) (Path.mem_addrs_right.2 (Or.inr (Or.inl (by simp))))
  have hxn : ¬ (some sx : Ptr) = some n := fun e => hnx e.symm
  obtain ⟨s1, e1, hsz1, hlen1, h1⟩ := setColor_focus (RepZ.up_right.1 h) .Red
  obtain ⟨s2, e2, hsz2, hlen2, h2⟩ := setColor_focus (RepZ.up_left.2 h1) .Black
  have hn2 := (RepZ.up_right.2 (RepZ.up_left.1 h2)).cell
  have hpp2 := (RepZ.up_left.1 h2).cell
  obtain ⟨s3, e3, hsz3, hlen3, h3⟩ := rotateRight_focus (RepZ.up_left.1 h2)
  have h3n := RepZ.up_right.2 (RepZ.up_right.2 h3)
  have hn3 := h3n.cell
  have hpp3 := (RepZ.up_right.2 h3).cell
  have hne3 : ¬ SR.ptr = (some n : Ptr) := h3n.sib_ne_right (x := n) (by simp)
  refine ⟨s3, ?_, by omega, by omega, h3n⟩
  simp only [Shape.ptr_node, Path.ptr_left, Path.ptr_right] at hn hpp hx hn2 hpp2 hn3 hpp3
  rw [balanceRemove_succ]
  simp [sibling, getParent_cell hn, getLeft_cell hpp, getRight_cell hpp, color_cell hx, e1, e2,
    isLeftChild, getParent_cell hn2, getLeft_cell hpp2, e3, getParent_cell hn3,
    getLeft_cell hpp3, getRight_cell hpp3, hnx, hxn, hne3]

/-- Step ii skipped, node on the left: the sibling is not Red. -/
theorem balanceRemove_black_sibling_left {s : Tree K V} {up : Path K V}
    {Ln Rn S : Shape K V} {n pp : Nat} {cn cpp : Color} {kn kpp : K} {vn vpp : Option V}
    (h : RepZ s (.left up pp cpp kpp vpp S) (.node Ln n cn kn vn Rn))
    (hS : S.rootColor ≠ .Red) (f : Nat) :
    balanceRemove (f + 1) s (some n) = balanceRemoveTail (balanceRemove f) s (some n) S.ptr := by
  have hn := h.cell
  have hpp := (RepZ.up_left.1 h).cell
  have hcS := color_shape (RepZ.up_left.1 h).2.2.1.2.2
  simp only [Shape.ptr_node, Path.ptr_left, Path.ptr_right] at hn hpp
  rw [balanceRemove_succ]
  simp [sibling, getParent_cell hn, getLeft_cell hpp, getRight_cell hpp, hcS, hS]

/-- Step ii skipped, node on the right: the sibling is not Red. -/
theorem balanceRemove_black_sibling_right {s : Tree K V} {up : Path K V}
    {Ln Rn S : Shape K V} {n pp : Nat} {cn cpp : Color} {kn kpp : K} {vn vpp : Option V}
    (h : RepZ s (.right S pp cpp kpp vpp up) (.node Ln n cn kn vn Rn))
    (hS : S.rootColor ≠ .Red) (f : Nat) :
    balanceRemove (f + 1) s (some n) = balanceRemoveTail (balanceRemove f) s (some n) S.ptr := by
  have hn := h.cell
  have hpp := (RepZ.up_right.1 h).cell
  have hcS := color_shape (RepZ.up_right.1 h).2.2.1.2.1
  have hne : ¬ S.ptr = (some n : Ptr) := h.sib_ne_right (x := n) (by simp)
  simp only [Shape.ptr_node, Path.ptr_left, Path.ptr_right] at hn hpp
  rw [balanceRemove_succ]
  simp [sibling, getParent_cell hn, getLeft_cell hpp, getRight_cell hpp, hcS, hS, hne]

/-! ## `balanceRemove`: the whole repair keeps the in-order sequence -/

theorem Shape.eq_node_of_red {t : Shape K V} (h : t.rootColor = .Red) :
    ∃ l a k v r, t = .node l a .Red k v r := by
  cases t with
  | nil => simp at h
  | node l a c k v r =>
    simp only [Shape.rootColor_node] at h
    subst h
    exact ⟨l, a, k, v, r, rfl⟩

theorem Shape.ne_nil_of_blackHeight {t : Shape K V} (h : 1 ≤ t.blackHeight) :
    ∃ l a c k v r, t = .node l a c k v r := by
  cases t with
  | nil => simp [Shape.blackHeight] at h
  | node l a c k v r => exact ⟨l, a, c, k, v, r, rfl⟩

/-- Steps iii to vi for a node on the left, every case but the recursive one. -/
theorem tail_left_done {s : Tree K V} {up : Path K V} {Ln Rn XL XR : Shape K V}
    {n pp x : Nat} {cn cx pc : Color} {kn kpp kx : K} {vn vpp vx : Option V}
    (h : RepZ s (.left up pp pc kpp vpp (.node XL x cx kx vx XR)) (.node Ln n cn kn vn Rn))
    (hcase : pc = .Red ∨ XL.rootColor = .Red ∨ XR.rootColor = .Red)
    (recur : Tree K V → Ptr → Exec (Tree K V)) :
    ∃ s1 p1, balanceRemoveTail recur s (some n) (some x) = .ok s1 ∧ s1.size = s.size ∧
      s1.heap.length = s.heap.length ∧ RepZ s1 p1 (.node Ln n cn kn vn Rn) ∧
      p1.before = (Path.left up pp pc kpp vpp (.node XL x cx kx vx XR)).before ∧
      p1.after = (Path.left up pp pc kpp vpp (.node XL x cx kx vx XR)).after ∧
      (up.rootColor pc = .Black → p1.rootColor .Black = .Black) := by
  by_cases hr : XR.rootColor = .Red
  · obtain ⟨XRL, w, kw, vw, XRR, rfl⟩ := Shape.eq_node_of_red hr
    obtain ⟨s1, e1, hsz, hlen, h1⟩ := tail_left_vb h recur
    exact ⟨s1, _, e1, hsz, hlen, h1, by simp [Path.before], by simp [Path.after, Shape.inorder],
        fun hroot => hroot⟩
  · have hr2 := color_eq_black_of_ne_red hr
    by_cases hl : XL.rootColor = .Red
    · obtain ⟨XLL, z, kz, vz, XLR, rfl⟩ := Shape.eq_node_of_red hl
      obtain ⟨s1, e1, hsz, hlen, h1⟩ := tail_left_va h hr2 recur
      exact ⟨s1, _, e1, hsz, hlen, h1, by simp [Path.before], by simp [Path.after, Shape.inorder],
        fun hroot => hroot⟩
    · have hl2 := color_eq_black_of_ne_red hl
      have hpc : pc = .Red := by
        rcases hcase with h1 | h1 | h1
        · exact h1
        · exact absurd h1 hl
        · exact absurd h1 hr
      subst hpc
      obtain ⟨s1, e1, hsz, hlen, h1⟩ := tail_left_iv h hl2 hr2 recur
      exact ⟨s1, _, e1, hsz, hlen, h1, by simp [Path.before], by simp [Path.after, Shape.inorder],
        fun hroot => @Path.rootColor_black_of _ _ up _ hroot⟩

/-- Steps iii to vi for a node on the right, every case but the recursive one. -/
theorem tail_right_done {s : Tree K V} {up : Path K V} {Ln Rn XL XR : Shape K V}
    {n pp x : Nat} {cn cx pc : Color} {kn kpp kx : K} {vn vpp vx : Option V}
    (h : RepZ s (.right (.node XL x cx kx vx XR) pp pc kpp vpp up) (.node Ln n cn kn vn Rn))
    (hcase : pc = .Red ∨ XL.rootColor = .Red ∨ XR.rootColor = .Red)
    (recur : Tree K V → Ptr → Exec (Tree K V)) :
    ∃ s1 p1, balanceRemoveTail recur s (some n) (some x) = .ok s1 ∧ s1.size = s.size ∧
      s1.heap.length = s.heap.length ∧ RepZ s1 p1 (.node Ln n cn kn vn Rn) ∧
      p1.before = (Path.right (.node XL x cx kx vx XR) pp pc kpp vpp up).before ∧
      p1.after = (Path.right (.node XL x cx kx vx XR) pp pc kpp vpp up).after ∧
      (up.rootColor pc = .Black → p1.rootColor .Black = .Black) := by
  by_cases hl : XL.rootColor = .Red
  · obtain ⟨XLL, z, kz, vz, XLR, rfl⟩ := Shape.eq_node_of_red hl
    obtain ⟨s1, e1, hsz, hlen, h1⟩ := tail_right_far_red h recur
    exact ⟨s1, _, e1, hsz, hlen, h1, by simp [Path.before, Shape.inorder], by simp [Path.after],
        fun hroot => @Path.rootColor_black_of _ _ up _ hroot⟩
  · have hl2 := color_eq_black_of_ne_red hl
    by_cases hr : XR.rootColor = .Red
    · obtain ⟨XRL, w, kw, vw, XRR, rfl⟩ := Shape.eq_node_of_red hr
      obtain ⟨s1, e1, hsz, hlen, h1⟩ := tail_right_v h hl2 recur
      exact ⟨s1, _, e1, hsz, hlen, h1, by simp [Path.before, Shape.inorder], by simp [Path.after],
        fun hroot => @Path.rootColor_black_of _ _ up _ hroot⟩
    · have hr2 := color_eq_black_of_ne_red hr
      have hpc : pc = .Red := by
        rcases hcase with h1 | h1 | h1
        · exact h1
        · exact absurd h1 hl
        · exact absurd h1 hr
      subst hpc
      obtain ⟨s1, e1, hsz, hlen, h1⟩ := tail_right_iv h hl2 hr2 recur
      exact ⟨s1, _, e1, hsz, hlen, h1, by simp [Path.before, Shape.inorder], by simp [Path.after],
        fun hroot => @Path.rootColor_black_of _ _ up _ hroot⟩

theorem balanceRemove_spec : ∀ (fuel : Nat) (s : Tree K V) (p : Path K V) (Ln Rn : Shape K V)
    (n : Nat) (cn : Color) (kn : K) (vn : Option V) (b : Nat),
    RepZ s p (.node Ln n cn kn vn Rn) → p.depth < fuel → p.Bal b → 1 ≤ b →
    ∃ s1 p1, balanceRemove fuel s (some n) = .ok s1 ∧ s1.size = s.size ∧
      s1.heap.length = s.heap.length ∧ RepZ s1 p1 (.node Ln n cn kn vn Rn) ∧
      p1.before = p.before ∧ p1.after = p.after := by
  intro fuel
  induction fuel with
  | zero => intro s p Ln Rn n cn kn vn b _ hd; omega
  | succ f ih =>
    intro s p Ln Rn n cn kn vn b h hd hbal hb
    cases p with
    | top =>
      refine ⟨s, .top, ?_, rfl, rfl, h, rfl, rfl⟩
      have hn := h.cell
      simp only [Path.ptr_top] at hn
      rw [balanceRemove_succ]
      simp [getParent_cell hn]
    | left up pp cpp kpp vpp S =>
      obtain ⟨hSbal, hSbh, hup⟩ := hbal
      obtain ⟨SL, sx, cs, ks, vs, SR, rfl⟩ := Shape.ne_nil_of_blackHeight (by omega : 1 ≤ S.blackHeight)
      simp only [Path.depth] at hd
      cases cs with
      | Red =>
        simp only [Shape.blackHeight, Shape.Balanced] at hSbh hSbal
        simp at hSbh
        obtain ⟨XL, x, cx, kx, vx, XR, rfl⟩ :=
          Shape.ne_nil_of_blackHeight (by omega : 1 ≤ SL.blackHeight)
        obtain ⟨s3, e3, hsz3, hlen3, h3⟩ := balanceRemove_red_sibling_left h f
        obtain ⟨s1, p1, e1, hsz1, hlen1, h1, hb1, ha1, -⟩ :=
          tail_left_done h3 (Or.inl rfl) (balanceRemove f)
        refine ⟨s1, p1, ?_, by omega, by omega, h1, ?_, ?_⟩
        · rw [e3]; simpa using e1
        · rw [hb1]; simp [Path.before]
        · rw [ha1]; simp [Path.after, Shape.inorder]
      | Black =>
        have e0 := balanceRemove_black_sibling_left h (by simp) f
        by_cases hcase : cpp = .Red ∨ SL.rootColor = .Red ∨ SR.rootColor = .Red
        · obtain ⟨s1, p1, e1, hsz1, hlen1, h1, hb1, ha1, -⟩ :=
            tail_left_done h hcase (balanceRemove f)
          exact ⟨s1, p1, by rw [e0]; simpa using e1, hsz1, hlen1, h1, hb1, ha1⟩
        · simp only [not_or] at hcase
          have hc1 := color_eq_black_of_ne_red hcase.1
          have hc2 := color_eq_black_of_ne_red hcase.2.1
          have hc3 := color_eq_black_of_ne_red hcase.2.2
          subst hc1
          obtain ⟨s1, e1, hsz1, hlen1, h1⟩ := tail_left_iii h hc2 hc3 (balanceRemove f)
          simp only [if_true] at hup
          obtain ⟨s2, p2, e2, hsz2, hlen2, h2, hb2, ha2⟩ :=
            ih s1 up _ _ pp .Black kpp vpp (b + 1) (RepZ.up_left.1 h1) (by omega) hup (by omega)
          refine ⟨s2, .left p2 pp .Black kpp vpp (.node SL sx .Red ks vs SR), ?_, by omega,
            by omega, RepZ.up_left.2 h2, ?_, ?_⟩
          · rw [e0]; simp only [Shape.ptr_node]; rw [e1, e2]
          · simp [Path.before, hb2]
          · simp [Path.after, ha2, Shape.inorder]
    | right S pp cpp kpp vpp up =>
      obtain ⟨hSbal, hSbh, hup⟩ := hbal
      obtain ⟨SL, sx, cs, ks, vs, SR, rfl⟩ := Shape.ne_nil_of_blackHeight (by omega : 1 ≤ S.blackHeight)
      simp only [Path.depth] at hd
      cases cs with
      | Red =>
        simp only [Shape.blackHeight, Shape.Balanced] at hSbh hSbal
        simp at hSbh
        obtain ⟨XL, x, cx, kx, vx, XR, rfl⟩ :=
          Shape.ne_nil_of_blackHeight (by omega : 1 ≤ SR.blackHeight)
        obtain ⟨s3, e3, hsz3, hlen3, h3⟩ := balanceRemove_red_sibling_right h f
        obtain ⟨s1, p1, e1, hsz1, hlen1, h1, hb1, ha1, -⟩ :=
          tail_right_done h3 (Or.inl rfl) (balanceRemove f)
        refine ⟨s1, p1, ?_, by omega, by omega, h1, ?_, ?_⟩
        · rw [e3]; simpa using e1
        · rw [hb1]; simp [Path.before, Shape.inorder]
        · rw [ha1]; simp [Path.after]
      | Black =>
        have e0 := balanceRemove_black_sibling_right h (by simp) f
        by_cases hcase : cpp = .Red ∨ SL.rootColor = .Red ∨ SR.rootColor = .Red
        · obtain ⟨s1, p1, e1, hsz1, hlen1, h1, hb1, ha1, -⟩ :=
            tail_right_done h hcase (balanceRemove f)
          exact ⟨s1, p1, by rw [e0]; simpa using e1, hsz1, hlen1, h1, hb1, ha1⟩
        · simp only [not_or] at hcase
          have hc1 := color_eq_black_of_ne_red hcase.1
          have hc2 := color_eq_black_of_ne_red hcase.2.1
          have hc3 := color_eq_black_of_ne_red hcase.2.2
          subst hc1
          obtain ⟨s1, e1, hsz1, hlen1, h1⟩ := tail_right_iii h hc2 hc3 (balanceRemove f)
          simp only [if_true] at hup
          obtain ⟨s2, p2, e2, hsz2, hlen2, h2, hb2, ha2⟩ :=
            ih s1 up _ _ pp .Black kpp vpp (b + 1) (RepZ.up_right.1 h1) (by omega) hup (by omega)
          refine ⟨s2, .right (.node SL sx .Red ks vs SR) pp .Black kpp vpp p2, ?_, by omega,
            by omega, RepZ.up_right.2 h2, ?_, ?_⟩
          · rw [e0]; simp only [Shape.ptr_node]; rw [e1, e2]
          · simp [Path.before, hb2, Shape.inorder]
          · simp [Path.after, ha2]

/-! ## `remove`: paths inside a subtree, the rightmost node -/

namespace Path

theorem plug_comp : ∀ (inner outer : Path K V) (t : Shape K V),
    (inner.comp outer).plug t = outer.plug (inner.plug t) := by
  intro inner
  induction inner with
  | top => intro outer t; rfl
  | left up a c k v r ih => intro outer t; simp only [comp, plug, ih]
  | right l a c k v up ih => intro outer t; simp only [comp, plug, ih]

theorem before_comp : ∀ (inner outer : Path K V),
    (inner.comp outer).before = outer.before ++ inner.before := by
  intro inner
  induction inner with
  | top => intro outer; simp [comp, before]
  | left up a c k v r ih => intro outer; simp only [comp, before, ih]
  | right l a c k v up ih => intro outer; simp only [comp, before, ih, List.append_assoc]

theorem after_comp : ∀ (inner outer : Path K V),
    (inner.comp outer).after = inner.after ++ outer.after := by
  intro inner
  induction inner with
  | top => intro outer; simp [comp, after]
  | left up a c k v r ih =>
    intro outer; simp only [comp, after, ih, List.append_assoc, List.cons_append]
  | right l a c k v up ih => intro outer; simp only [comp, after, ih]

theorem depth_comp : ∀ (inner outer : Path K V),
    (inner.comp outer).depth = inner.depth + outer.depth := by
  intro inner
  induction inner with
  | top => intro outer; simp [comp, depth]
  | left up a c k v r ih => intro outer; simp only [comp, depth, ih]; omega
  | right l a c k v up ih => intro outer; simp only [comp, depth, ih]; omega

theorem depth_le_length : ∀ (p : Path K V), p.depth ≤ (p.before ++ p.after).length := by
  intro p
  induction p with
  | top => simp [depth]
  | left up a c k v r ih =>
    simp only [depth, before, after, List.length_append, List.length_cons] at ih ⊢
    omega
  | right l a c k v up ih =>
    simp only [depth, before, after, List.length_append, List.length_cons,
      List.length_nil] at ih ⊢
    omega

theorem ptr_none_iff_top {p : Path K V} : p.ptr = none ↔ p = .top := by
  cases p <;> simp

theorem blackHeight_plug_congr : ∀ (p : Path K V) {t u : Shape K V},
    t.blackHeight = u.blackHeight → (p.plug t).blackHeight = (p.plug u).blackHeight := by
  intro p
  induction p with
  | top => intro t u h; exact h
  | left up a c k v r ih =>
    intro t u h
    simp only [plug]
    exact ih (by simp only [Shape.blackHeight, h])
  | right l a c k v up ih =>
    intro t u h
    simp only [plug]
    exact ih (by simp only [Shape.blackHeight])

theorem balanced_plug_congr (p : Path K V) {t u : Shape K V}
    (hb : t.blackHeight = u.blackHeight) (h : t.Balanced → u.Balanced) :
    (p.plug t).Balanced → (p.plug u).Balanced := by
  rw [balanced_plug, balanced_plug, hb]
  exact fun ⟨h1, h2⟩ => ⟨h h1, h2⟩

end Path

namespace Shape

theorem maxPath_plug : ∀ (t : Shape K V), t.maxPath.plug t.maxNode = t := by
  intro t
  induction t with
  | nil => rfl
  | node l a c k v r _ ihr =>
    cases r with
    | nil => rfl
    | node rl b cb kb vb rr =>
      simp only [maxPath, maxNode, Path.plug_comp, ihr, Path.plug]

theorem maxPath_after : ∀ (t : Shape K V), t.maxPath.after = [] := by
  intro t
  induction t with
  | nil => rfl
  | node l a c k v r _ ihr =>
    cases r with
    | nil => rfl
    | node rl b cb kb vb rr =>
      simp only [maxPath, Path.after_comp, ihr, Path.after, List.append_nil]

theorem maxNode_eq : ∀ (t : Shape K V), t ≠ nil →
    ∃ ml m cm km vm, t.maxNode = node ml m cm km vm nil := by
  intro t
  induction t with
  | nil => intro h; exact absurd rfl h
  | node l a c k v r _ ihr =>
    intro _
    cases r with
    | nil => exact ⟨l, a, c, k, v, rfl⟩
    | node rl b cb kb vb rr =>
      simp only [maxNode]
      exact ihr (by simp)

theorem maxPath_depth : ∀ (t : Shape K V), t.maxPath.depth ≤ t.size := by
  intro t
  induction t with
  | nil => simp [maxPath, Path.depth]
  | node l a c k v r _ ihr =>
    cases r with
    | nil => simp [maxPath, Path.depth]
    | node rl b cb kb vb rr =>
      simp only [maxPath, Path.depth_comp, Path.depth, size] at ihr ⊢
      omega

end Shape

theorem loopRight_max (s : Tree K V) : ∀ (t : Shape K V) (par : Ptr) (fuel : Nat),
    Own s.heap par t → t ≠ .nil → t.size ≤ fuel →
    loopRight fuel s t.ptr = .ok t.maxNode.ptr := by
  intro t
  induction t with
  | nil => intro par fuel _ h; exact absurd rfl h
  | node l a c k v r _ ihr =>
    intro par fuel hown _ hfuel
    obtain ⟨hc, _, hr⟩ := hown
    cases fuel with
    | zero => simp [Shape.size] at hfuel
    | succ fuel =>
      have hsz : r.size ≤ fuel := by simp [Shape.size] at hfuel; omega
      cases r with
      | nil => simp [loopRight, getRight_cell hc, Shape.maxNode]
      | node lr ar cr kr vr rr =>
        have := ihr (some a) fuel hr (by simp) hsz
        simpa [loopRight, getRight_cell hc, Shape.maxNode] using this

/-- Moving the focus between a node and a node inside its left subtree. -/
theorem RepZ.comp_left {s : Tree K V} {p sp : Path K V} {a : Nat} {c : Color} {k : K}
    {v : Option V} {r t : Shape K V} :
    RepZ s (sp.comp (.left p a c k v r)) t ↔ RepZ s p (.node (sp.plug t) a c k v r) := by
  simp only [repZ_iff, Path.plug_comp, Path.plug]

/-- The `swap` of a node with a node inside its left subtree exchanges the two
key/value pairs and nothing else. -/
theorem swap_spec {s : Tree K V} {p sp : Path K V} {r ml mr : Shape K V} {a m : Nat}
    {c cm : Color} {k km : K} {v vm : Option V}
    (h : RepZ s p (.node (sp.plug (.node ml m cm km vm mr)) a c k v r)) :
    ∃ s1, swap s (some a) (some m) = .ok s1 ∧ s1.size = s.size ∧
      s1.heap.length = s.heap.length ∧
      RepZ s1 (sp.comp (.left p a c km vm r)) (.node ml m cm k v mr) := by
  have ha := h.cell
  have hm := (RepZ.comp_left.2 h).cell
  obtain ⟨s1, e1, hsz1, hlen1, h1⟩ := setKey_focus h km
  obtain ⟨s2, e2, hsz2, hlen2, h2⟩ := setKey_focus (RepZ.comp_left.2 h1) k
  have ha2 := (RepZ.comp_left.1 h2).cell
  have hm2 := h2.cell
  obtain ⟨s3, e3, hsz3, hlen3, h3⟩ := setValue_focus (RepZ.comp_left.1 h2) vm
  obtain ⟨s4, e4, hsz4, hlen4, h4⟩ := setValue_focus (RepZ.comp_left.2 h3) v
  refine ⟨s4, ?_, by omega, by omega, h4⟩
  simp [swap, getKey_cell ha, getKey_cell hm, e1, e2, getValue_cell ha2, getValue_cell hm2,
    e3, e4]

/-! ## `remove`: taking a node with at most one child out of the tree -/

theorem remove_eq (cmp : K → K → Int) (fuel : Nat) (s : Tree K V) (key : K) :
    remove cmp fuel s key = (do
      let n ← lookup cmp fuel s key
      if n = none then pure (s, none)
      else do
        let two ← andAlso (do let l ← getLeft s n; pure (decide (l ≠ none)))
          (do let r ← getRight s n; pure (decide (r ≠ none)))
        let (s, n) ←
          if two then do
            let l ← getLeft s n
            let max ← maximum fuel s l
            let s ← swap s n max
            pure (s, max)
          else pure (s, n)
        removeNode fuel s n) := by
  rfl

theorem update_outside {s : Tree K V} {t : Shape K V} (h : Rep s t) {n : Nat}
    (hn : n ∉ t.addrs) {nd : Node K V} (hc : s.heap[n]? = some nd) (f : Node K V → Node K V) :
    ∃ s1, s.update (some n) f = .ok s1 ∧ s1.size = s.size ∧ s1.heap.length = s.heap.length ∧
      Rep s1 t ∧ s1.heap[n]? = some (f nd) := by
  refine ⟨_, update_cell hc f, rfl, by simp, ⟨h.1, h.2.1.congr ?_, h.2.2⟩,
    by simp [getElem?_set_self_of hc]⟩
  intro a ha
  have : n ≠ a := by rintro rfl; exact hn ha
  simp [List.getElem?_set_ne this]

theorem update_other {s s1 : Tree K V} {r n : Nat} {f : Node K V → Node K V}
    (e : s.update (some r) f = .ok s1) (hne : r ≠ n) : s1.heap[n]? = s.heap[n]? := by
  unfold Tree.update at e
  cases h : s.heap[r]? with
  | none => simp [h] at e
  | some nd =>
    simp only [h, Except.ok.injEq] at e
    subst e
    simp [List.getElem?_set_ne hne]

/-- The function `detach` on a node that is no longer part of the tree. -/
theorem detach_outside {s : Tree K V} {t : Shape K V} (h : Rep s t) {n : Nat}
    (hn : n ∉ t.addrs) {nd : Node K V} (hc : s.heap[n]? = some nd) :
    ∃ s1, detach s (some n) = .ok s1 ∧ s1.size = s.size ∧ s1.heap.length = s.heap.length ∧
      Rep s1 t ∧ getValue s1 (some n) = .ok nd.value := by
  obtain ⟨s1, e1, z1, l1, r1, c1⟩ := update_outside h hn hc (fun nd => { nd with parent := none })
  obtain ⟨s2, e2, z2, l2, r2, c2⟩ := update_outside r1 hn c1 (fun nd => { nd with left := none })
  obtain ⟨s3, e3, z3, l3, r3, c3⟩ := update_outside r2 hn c2 (fun nd => { nd with right := none })
  refine ⟨s3, ?_, by omega, by omega, r3, by simp [getValue_cell c3]⟩
  simp [detach, setParent, setLeft, setRight, e1, e2, e3]

theorem mem_plug_addrs {p : Path K V} {t : Shape K V} {x : Nat} :
    x ∈ (p.plug t).addrs ↔ x ∈ p.addrs ∨ x ∈ t.addrs := by
  rw [plug_addrs]
  simp only [Path.addrs, Shape.addrs, List.map_append, List.mem_append]
  tauto

/-- Splice: `replace` puts the only child of a node in the node's place. -/
theorem replace_child {s : Tree K V} {p : Path K V} {A B C : Shape K V} {n : Nat} {cn : Color}
    {kn : K} {vn : Option V} (h : RepZ s p (.node A n cn kn vn B))
    (hC : (A = .nil ∧ C = B) ∨ (B = .nil ∧ C = A)) :
    ∃ s1, replace s (some n) C.ptr = .ok s1 ∧ s1.size = s.size ∧
      s1.heap.length = s.heap.length ∧ RepZ s1 p C ∧ s1.heap[n]? = s.heap[n]? := by
  have hnp : n ∉ p.addrs := h.not_mem_path (by simp)
  obtain ⟨hroot, hpath, hown, hnd⟩ := h
  obtain ⟨hndt, hndp, hdis⟩ := nodup_focus hnd
  rw [Shape.addrs_node] at hndt
  have hnA : n ∉ A.addrs := fun h =>
    (List.nodup_append.1 hndt).2.2 h (List.mem_cons_self _ _)
  have hnB : n ∉ B.addrs := (List.nodup_cons.1 (List.nodup_append.1 hndt).2.1).1
  have hCown : Own s.heap (some n) C := by
    rcases hC with ⟨_, rfl⟩ | ⟨_, rfl⟩
    · exact hown.2.2
    · exact hown.2.1
  have hCsub : ∀ x ∈ C.addrs, x ∈ (Shape.node A n cn kn vn B).addrs ∧ x ≠ n := by
    intro x hx
    rcases hC with ⟨_, rfl⟩ | ⟨_, rfl⟩
    · exact ⟨by simp [hx], by rintro rfl; exact hnB hx⟩
    · exact ⟨by simp [hx], by rintro rfl; exact hnA hx⟩
  have hCnd : C.addrs.Nodup := by
    rcases hC with ⟨_, rfl⟩ | ⟨_, rfl⟩
    · exact (List.nodup_cons.1 (List.nodup_append.1 hndt).2.1).2
    · exact (List.nodup_append.1 hndt).1
  have hCn : C.ptr ≠ some n := fun e => (hCsub n (Shape.ptr_mem_addrs e)).2 rfl
  obtain ⟨s1, e1, hsz, hlen, hroot1, hpath1, hfr, hnew⟩ :=
    replace_path hroot hpath hown.1 rfl hnp hndp C.ptr (by
      intro r hr
      have hr1 := Shape.ptr_mem_addrs hr
      exact ⟨hdis r (hCsub r hr1).1, (hCsub r hr1).2, hCown.allocated r hr1⟩)
  refine ⟨s1, e1, hsz, hlen, ⟨hroot1, hpath1, ?_, ?_⟩, hfr n hnp hCn⟩
  · refine hCown.reparent (fun a nd ha hcell => hnew a nd ha hcell) ?_ hCnd
    intro a ha hne
    exact hfr a (hdis a (hCsub a ha).1) hne
  · exact nodup_of_focus hCnd hndp (fun a ha => hdis a (hCsub a ha).1)

/-- The end of `remove`: `detach` and the size update. -/
theorem unlink_finish {s : Tree K V} {t : Shape K V} (h : Rep s t) {n : Nat}
    (hn : n ∉ t.addrs) {nd : Node K V} (hc : s.heap[n]? = some nd) :
    ∃ s1, (do
        let s ← detach s (some n)
        let s := { s with size := s.size - 1 }
        pure (s, some n) : Exec (Tree K V × Ptr)) = .ok (s1, some n) ∧
      Rep s1 t ∧ s1.size = s.size - 1 ∧ s1.heap.length = s.heap.length ∧
      getValue s1 (some n) = .ok nd.value := by
  obtain ⟨s1, e1, hsz, hlen, hrep, hv⟩ := detach_outside h hn hc
  refine ⟨{ s1 with size := s1.size - 1 }, by simp [e1], ⟨hrep.1, hrep.2.1, hrep.2.2⟩,
    by simp [hsz], hlen, ?_⟩
  simpa [getValue, Tree.load] using hv

theorem unlinkNode_spec {s : Tree K V} {q : Path K V} {A B C : Shape K V} {n : Nat} {cc : Color}
    {kn : K} {vn : Option V} (hz : RepZ s q (.node A n cc kn vn B))
    (hC : (A = .nil ∧ C = B) ∨ (B = .nil ∧ C = A)) :
    ∃ s1 t1, unlinkNode s (some n) C.ptr = .ok (s1, some n) ∧ Rep s1 t1 ∧
      t1.inorder = q.before ++ C.inorder ++ q.after ∧ s1.size = s.size - 1 ∧
      s1.heap.length = s.heap.length ∧ getValue s1 (some n) = .ok vn ∧
      (q.rootColor .Black = .Black → t1.RootBlack) := by
  have hnq : n ∉ q.addrs := hz.not_mem_path (by simp)
  have hnC : n ∉ C.addrs := by
    have hndt := (nodup_focus hz.2.2.2).1
    rw [Shape.addrs_node] at hndt
    rcases hC with ⟨_, rfl⟩ | ⟨_, rfl⟩
    · exact (List.nodup_cons.1 (List.nodup_append.1 hndt).2.1).1
    · exact fun h => (List.nodup_append.1 hndt).2.2 h (List.mem_cons_self _ _)
  obtain ⟨s1, e1, hsz1, hlen1, hz1, hn1⟩ := replace_child hz hC
  have hcell1 : s1.heap[n]? = some ⟨kn, vn, cc, q.ptr, A.ptr, B.ptr⟩ := hn1.trans hz.cell
  by_cases hcond : q.ptr = none ∧ C.ptr ≠ none
  · obtain ⟨hq, hCp⟩ := hcond
    have hq1 := Path.ptr_none_iff_top.1 hq
    subst hq1
    cases C with
    | nil => exact absurd rfl hCp
    | node cl x cx kx vx cr =>
      have hxn : x ≠ n := by rintro rfl; exact hnC (by simp)
      obtain ⟨s2, e2, hsz2, hlen2, hz2⟩ := setColor_focus hz1 .Black
      have hcell2 : s2.heap[n]? = some ⟨kn, vn, cc, none, A.ptr, B.ptr⟩ :=
        (update_other e2 hxn).trans hcell1
      have hrep2 := repZ_iff.1 hz2
      simp only [Path.plug] at hrep2
      have hn2 : n ∉ (Shape.node cl x .Black kx vx cr).addrs := by
        simpa using hnC
      obtain ⟨s3, e3, hrep3, hsz3, hlen3, hv3⟩ := unlink_finish hrep2 hn2 hcell2
      refine ⟨s3, _, ?_, hrep3, by simp [Path.before, Path.after, Shape.inorder],
        by omega, by omega, hv3, fun _ => rfl⟩
      simp only [Shape.ptr_node] at e1
      simpa [unlinkNode, e1, getParent_cell hcell1, e2] using e3
  · have hrep1 := repZ_iff.1 hz1
    have hn1 : n ∉ (q.plug C).addrs := by
      rw [mem_plug_addrs]
      exact fun h => h.elim hnq hnC
    obtain ⟨s3, e3, hrep3, hsz3, hlen3, hv3⟩ := unlink_finish hrep1 hn1 hcell1
    have hblack : q.rootColor .Black = .Black → (q.plug C).RootBlack := by
      intro hroot
      cases q with
      | top =>
        have hCp : C.ptr = none := by
          by_contra hne
          exact hcond ⟨rfl, hne⟩
        rw [Shape.ptr_eq_none.1 hCp]
        rfl
      | left up a c k v r => simpa [Shape.RootBlack, Path.plug_rootColor, Path.rootColor] using hroot
      | right l a c k v up => simpa [Shape.RootBlack, Path.plug_rootColor, Path.rootColor] using hroot
    refine ⟨s3, _, ?_, hrep3, Path.plug_inorder q C, by omega, by omega, hv3, hblack⟩
    by_cases hq : q.ptr = none
    · have hCp : C.ptr = none := by
        by_contra hne
        exact hcond ⟨hq, hne⟩
      rw [hCp] at e1
      simpa [unlinkNode, e1, getParent_cell hcell1, hq, hCp] using e3
    · simpa [unlinkNode, e1, getParent_cell hcell1, hq] using e3

/-! ## `Remove` of a present key -/

theorem removeNode_core {s : Tree K V} {q : Path K V} {A B C : Shape K V} {n : Nat} {cn : Color}
    {kn : K} {vn : Option V} {fuel : Nat}
    (hz : RepZ s q (.node A n cn kn vn B)) (hC : (A = .nil ∧ C = B) ∨ (B = .nil ∧ C = A))
    (hbal : (q.plug (.node A n cn kn vn B)).Balanced) (hd : q.depth < fuel) :
    ∃ s1 t1, (do
        let nc ← getColor s (some n)
        let s ←
          if nc = Color.Black then do
            let cc ← color s C.ptr
            let s ← setColor s (some n) cc
            balanceRemove fuel s (some n)
          else pure s
        unlinkNode s (some n) C.ptr) = .ok (s1, some n) ∧ Rep s1 t1 ∧
      t1.inorder = q.before ++ C.inorder ++ q.after ∧ s1.size = s.size - 1 ∧
      s1.heap.length = s.heap.length ∧ getValue s1 (some n) = .ok vn := by
  have hcell := hz.cell
  have hCown : Own s.heap (some n) C := by
    rcases hC with ⟨_, rfl⟩ | ⟨_, rfl⟩
    · exact hz.2.2.1.2.2
    · exact hz.2.2.1.2.1
  have hcol := color_shape hCown
  cases cn with
  | Red =>
    obtain ⟨s1, t1, e1, hrep, hin, hsz1, hlen1, hv, -⟩ := unlinkNode_spec hz hC
    exact ⟨s1, t1, by simpa [getColor_cell hcell] using e1, hrep, hin, hsz1, hlen1, hv⟩
  | Black =>
    obtain ⟨s2, e2, hsz2, hlen2, hz2⟩ := setColor_focus hz C.rootColor
    have hb := ((Path.balanced_plug q _).1 hbal).2
    simp only [Shape.blackHeight, if_true] at hb
    obtain ⟨s3, q3, e3, hsz3, hlen3, hz3, hb3, ha3⟩ :=
      balanceRemove_spec fuel s2 q A B n C.rootColor kn vn (A.blackHeight + 1) hz2 hd hb
        (by omega)
    obtain ⟨s1, t1, e1, hrep, hin, hsz1, hlen1, hv, -⟩ := unlinkNode_spec hz3 hC
    refine ⟨s1, t1, ?_, hrep, by rw [hin, hb3, ha3], by omega, by omega, hv⟩
    simp [getColor_cell hcell, hcol, e2, e3, e1]

theorem removeNode_spec {s : Tree K V} {q : Path K V} {A B : Shape K V} {n : Nat} {cn : Color}
    {kn : K} {vn : Option V} {fuel : Nat}
    (hz : RepZ s q (.node A n cn kn vn B)) (hAB : A = .nil ∨ B = .nil)
    (hbal : (q.plug (.node A n cn kn vn B)).Balanced) (hd : q.depth < fuel) :
    ∃ s1 t1, removeNode fuel s (some n) = .ok (s1, some n) ∧ Rep s1 t1 ∧
      t1.inorder = q.before ++ (A.inorder ++ B.inorder) ++ q.after ∧ s1.size = s.size - 1 ∧
      s1.heap.length = s.heap.length ∧ getValue s1 (some n) = .ok vn := by
  have hcell := hz.cell
  cases B with
  | nil =>
    obtain ⟨s1, t1, e1, hrep, hin, hsz1, hlen1, hv⟩ :=
      removeNode_core hz (Or.inr ⟨rfl, rfl⟩) hbal hd
    refine ⟨s1, t1, ?_, hrep, by simpa [Shape.inorder] using hin, hsz1, hlen1, hv⟩
    simpa [removeNode, getRight_cell hcell, getLeft_cell hcell] using e1
  | node bl b cb kb vb br =>
    have hA : A = .nil := by
      rcases hAB with h | h
      · exact h
      · cases h
    subst hA
    obtain ⟨s1, t1, e1, hrep, hin, hsz1, hlen1, hv⟩ :=
      removeNode_core hz (Or.inl ⟨rfl, rfl⟩) hbal hd
    refine ⟨s1, t1, ?_, hrep, by simpa [Shape.inorder] using hin, hsz1, hlen1, hv⟩
    simpa [removeNode, getRight_cell hcell] using e1

theorem filter_ne_of_sorted [LinearOrder K] (X Y : List (K × Option V)) (key : K)
    (v : Option V) (h : ((X ++ (key, v) :: Y).map fun e => e.1).Pairwise (· < ·)) :
    (X ++ (key, v) :: Y).filter (fun e => decide (e.1 ≠ key)) = X ++ Y := by
  rw [List.map_append, List.map_cons, List.pairwise_append] at h
  obtain ⟨_, h2, h3⟩ := h
  rw [List.pairwise_cons] at h2
  have hX : X.filter (fun e => decide (e.1 ≠ key)) = X := by
    rw [List.filter_eq_self]
    intro e he
    have := h3 e.1 (List.mem_map_of_mem _ he) key (List.mem_cons_self _ _)
    simpa using ne_of_lt this
  have hY : Y.filter (fun e => decide (e.1 ≠ key)) = Y := by
    rw [List.filter_eq_self]
    intro e he
    have := h2.1 e.1 (List.mem_map_of_mem _ he)
    simpa using ne_of_gt this
  rw [List.filter_append, List.filter_cons, hX, hY]
  simp

/-- `Remove` of a key that is present, on a tree with sorted keys and equal
black heights: the call returns the value bound to the key, the tree keeps
every other binding in order, and the size goes down by one. -/
theorem Remove_present [LinearOrder K] {cmp : K → K → Int} (hc : LawfulCompare cmp)
    {s : Tree K V} {t : Shape K V} (h : Rep s t) (hs : t.SortedKeys) (hb : t.Balanced)
    (key : K) (hk : key ∈ t.keys) {fuel : Nat} (hf : t.size < fuel) :
    ∃ s1 t1, Remove cmp fuel s key = .ok (s1, valueOf key t.entries) ∧ Rep s1 t1 ∧
      t1.entries = t.entries.filter (fun e => decide (e.1 ≠ key)) ∧
      s1.size = s.size - 1 ∧ t1.size + 1 = t.size ∧ s1.heap.length = s.heap.length := by
  obtain ⟨L, a, c, v, R, hfind⟩ := Shape.find_of_mem key t hs hk
  have hplug := Shape.plug_pathTo key t .top
  rw [hfind] at hplug
  simp only [Path.plug] at hplug
  have hz : RepZ s (t.pathTo key .top) (.node L a c key v R) :=
    repZ_iff.2 (by rw [hplug]; exact h)
  have hlook := lookup_shape hc h key hf
  rw [hfind] at hlook
  have hval : valueOf key t.entries = v := by
    rw [valueOf_find key t hs, hfind]; rfl
  have hcell := hz.cell
  have htin : t.inorder = (t.pathTo key .top).before ++ (L.inorder ++ (a, key, v) :: R.inorder) ++
      (t.pathTo key .top).after := by
    conv_lhs => rw [← hplug]
    rw [Path.plug_inorder]
    simp [Shape.inorder]
  have hsize : ((t.pathTo key .top).before ++ (t.pathTo key .top).after).length +
      (L.size + 1 + R.size) = t.size := by
    conv_rhs => rw [← hplug]
    rw [Path.plug_size]
    simp [Shape.size]
  have hdp := Path.depth_le_length (t.pathTo key .top)
  have hkeys : (t.entries.map fun e => e.1).Pairwise (· < ·) := by
    rw [← Shape.keys_eq_entries]; exact hs
  rw [hval]
  by_cases hAB : L = .nil ∨ R = .nil
  · -- at most one child: the node itself is taken out
    obtain ⟨s1, t1, e1, hrep, hin, hsz1, hlen1, hv⟩ :=
      removeNode_spec hz hAB (by rw [hplug]; exact hb)
        (show (t.pathTo key .top).depth < fuel by omega)
    have hte : t.entries = ((t.pathTo key .top).before ++ L.inorder).map (fun e => e.2) ++
        (key, v) :: (R.inorder ++ (t.pathTo key .top).after).map (fun e => e.2) := by
      simp [Shape.entries, htin]
    refine ⟨s1, t1, ?_, hrep, ?_, hsz1, ?_, hlen1⟩
    · rcases hAB with h1 | h1
      · subst h1
        simp [Remove, remove_eq, hlook, andAlso, getLeft_cell hcell, e1, hv]
      · subst h1
        cases hL : L.ptr <;>
          simp [Remove, remove_eq, hlook, andAlso, getLeft_cell hcell, getRight_cell hcell, hL,
            e1, hv]
    · rw [hte] at hkeys ⊢
      rw [filter_ne_of_sorted _ _ key v hkeys]
      simp [Shape.entries, hin]
    · have h1 := congrArg List.length hin
      have h2 := congrArg List.length htin
      simp only [Shape.length_inorder, List.length_append, List.length_cons] at h1 h2
      omega
  · -- two children: the predecessor takes the binding and is taken out instead
    simp only [not_or] at hAB
    obtain ⟨hL, hR⟩ := hAB
    obtain ⟨ml, m, cm, km, vm, hmax⟩ := Shape.maxNode_eq L hL
    have hLp := Shape.maxPath_plug L
    rw [hmax] at hLp
    have hLa := Shape.maxPath_after L
    have hLd := Shape.maxPath_depth L
    have hLin : L.inorder = L.maxPath.before ++ (ml.inorder ++ [(m, km, vm)]) := by
      conv_lhs => rw [← hLp]
      rw [Path.plug_inorder, hLa]
      simp [Shape.inorder]
    have hmaxp : maximum fuel s L.ptr = .ok (some m) := by
      have := loopRight_max s L (some a) fuel hz.2.2.1.2.1 hL (by omega)
      rw [hmax] at this
      simpa [maximum, Shape.ptr_eq_none, hL] using this
    have hz0 : RepZ s (t.pathTo key .top)
        (.node (L.maxPath.plug (.node ml m cm km vm .nil)) a c key v R) := by
      rw [hLp]; exact hz
    obtain ⟨s1, e1, hsz1, hlen1, hz1⟩ := swap_spec hz0
    have hbal1 : ((L.maxPath.comp (.left (t.pathTo key .top) a c km vm R)).plug
        (.node ml m cm key v .nil)).Balanced := by
      rw [Path.plug_comp]
      simp only [Path.plug]
      have hb0 : ((t.pathTo key .top).plug
          (.node (L.maxPath.plug (.node ml m cm km vm .nil)) a c key v R)).Balanced := by
        rw [hLp, hplug]; exact hb
      refine Path.balanced_plug_congr _ ?_ ?_ hb0
      · simp only [Shape.blackHeight]
        rw [Path.blackHeight_plug_congr L.maxPath (u := .node ml m cm key v .nil)
          (by simp only [Shape.blackHeight])]
      · simp only [Shape.Balanced]
        rintro ⟨h1, h2, h3⟩
        refine ⟨?_, ?_, h3⟩
        · rw [← h1]
          exact (Path.blackHeight_plug_congr L.maxPath (by simp only [Shape.blackHeight])).symm
        · exact Path.balanced_plug_congr L.maxPath (by simp only [Shape.blackHeight])
            (by simp only [Shape.Balanced]; exact id) h2
    have hd1 : (L.maxPath.comp (.left (t.pathTo key .top) a c km vm R)).depth < fuel := by
      rw [Path.depth_comp]
      simp only [Path.depth]
      omega
    obtain ⟨s2, t1, e2, hrep, hin, hsz2, hlen2, hv⟩ :=
      removeNode_spec hz1 (Or.inr rfl) hbal1 hd1
    have hte : t.entries = (((t.pathTo key .top).before ++ L.maxPath.before ++ ml.inorder).map
          (fun e => e.2) ++ [(km, vm)]) ++
        (key, v) :: (R.inorder ++ (t.pathTo key .top).after).map (fun e => e.2) := by
      simp [Shape.entries, htin, hLin]
    refine ⟨s2, t1, ?_, hrep, ?_, by omega, ?_, by omega⟩
    · simp [Remove, remove_eq, hlook, andAlso, getLeft_cell hcell, getRight_cell hcell,
        Shape.ptr_eq_none, hL, hR, hmaxp, e1, e2, hv]
    · rw [hte] at hkeys ⊢
      rw [filter_ne_of_sorted _ _ key v hkeys]
      simp [Shape.entries, hin, Path.before_comp, Path.after_comp, hLa, Path.before, Path.after,
        Shape.inorder]
    · have h1 := congrArg List.length hin
      have h2 := congrArg List.length htin
      rw [hLin] at h2
      simp only [Shape.length_inorder, List.length_append, List.length_cons, Path.before_comp,
        Path.after_comp, hLa, Path.before, Path.after, Shape.inorder, List.length_nil] at h1 h2
      omega

/-! ## `Insert` of a key that is present; the comparison on naturals -/

theorem Insert_overwrite [LinearOrder K] {cmp : K → K → Int} (hc : LawfulCompare cmp)
    {s : Tree K V} {t : Shape K V} (h : Rep s t) (hs : t.SortedKeys) (key : K)
    (hk : key ∈ t.keys) (value : Option V) {fuel : Nat} (hf : t.size < fuel) :
    ∃ s1 l a c v r, t = (t.pathTo key .top).plug (.node l a c key v r) ∧
      Insert cmp fuel s key value = .ok s1 ∧
      Rep s1 ((t.pathTo key .top).plug (.node l a c key value r)) ∧
      s1.size = s.size ∧ s1.root = s.root := by
  obtain ⟨h1, hfresh, hnn⟩ := h.alloc ⟨key, value, .Red, none, none, none⟩
  obtain ⟨l, a, c, v, r, hfind⟩ := Shape.find_of_mem key t hs hk
  have hplug := Shape.plug_pathTo key t .top
  rw [hfind] at hplug
  simp only [Path.plug] at hplug
  cases t with
  | nil => simp at hk
  | node l0 a0 c0 k0 v0 r0 =>
    have hroot : s.root = some a0 := h.1
    obtain ⟨_, hold⟩ := insertLoop_spec hc key value s.heap.length _ .top
      { s with heap := s.heap ++ [⟨key, value, .Red, none, none, none⟩] } fuel (by simp)
      (repZ_iff.2 h1) (by omega) hnn (by simpa [Path.plug] using hfresh)
    obtain ⟨s1, e1, hsz1, hlen1, hz⟩ := hold l a c key v r hfind
    refine ⟨s1, l, a, c, v, r, hplug.symm, ?_, repZ_iff.1 hz, by simpa using hsz1, ?_⟩
    · simp only [Shape.ptr_node, hroot] at e1
      simp [Insert, insert, hroot, e1]
    · have hr1 := hz.1
      rw [← Path.plug_ptr] at hr1
      have hr2 : (((Shape.node l0 a0 c0 k0 v0 r0).pathTo key .top).plug
          (.node l a c key value r)).ptr =
          (((Shape.node l0 a0 c0 k0 v0 r0).pathTo key .top).plug (.node l a c key v r)).ptr := by
        simp [Path.plug_ptr]
      rw [hr1, hr2, hplug, hroot]
      rfl

theorem natCompare_lawful : LawfulCompare natCompare := by
  refine ⟨?_, ?_, ?_⟩ <;> intro a b <;> unfold natCompare
  · by_cases h1 : a < b
    · simp [h1]
    · by_cases h2 : a > b <;> simp [h1, h2]
  · by_cases h1 : a < b
    · simp [h1]; omega
    · by_cases h2 : a > b
      · simp [h1, h2]; omega
      · simp [h1, h2]; omega
  · by_cases h1 : a < b
    · simp [h1]; omega
    · by_cases h2 : a > b <;> simp [h1, h2]

/-! ## The concrete trees represent what they should -/

theorem rep_tree2130 : Rep tree2130 shape2130 :=
  ⟨rfl, ⟨rfl, ⟨rfl, ⟨rfl, trivial, trivial⟩, trivial⟩, ⟨rfl, trivial, trivial⟩⟩, by decide⟩

theorem redBlack_shape2130 : shape2130.RedBlack :=
  ⟨rfl, by simp [shape2130, Shape.NoRedRed], by decide⟩

theorem sorted_shape2130 : shape2130.SortedKeys := by decide

theorem insertAll_kvs2130 : insertAll natCompare 10 kvs2130 New = .ok tree2130 := rfl

theorem rep_tree2130Less3 : Rep tree2130Less3 shape2130Less3 :=
  ⟨rfl, ⟨rfl, ⟨rfl, ⟨rfl, trivial, trivial⟩, trivial⟩, trivial⟩, by decide⟩

theorem length_insertEntry_le [LinearOrder K] (key : K) (v : Option V) :
    ∀ (L : List (K × Option V)), (insertEntry key v L).length ≤ L.length + 1 := by
  intro L
  induction L with
  | nil => simp [insertEntry]
  | cons e rest ih =>
    obtain ⟨k1, v1⟩ := e
    simp only [insertEntry]
    split
    · simp
    · split
      · simp
      · simp only [List.length_cons]; omega

theorem length_foldl_insertEntry_le [LinearOrder K] :
    ∀ (kvs E : List (K × Option V)),
      (kvs.foldl (fun E kv => insertEntry kv.1 kv.2 E) E).length ≤ E.length + kvs.length := by
  intro kvs
  induction kvs with
  | nil => intro E; simp
  | cons kv rest ih =>
    intro E
    have h1 := ih (insertEntry kv.1 kv.2 E)
    have h2 := length_insertEntry_le kv.1 kv.2 E
    simp only [List.foldl_cons, List.length_cons]
    omega

theorem size_eq_length_entries (t : Shape K V) : t.size = t.entries.length := by
  simp [Shape.entries, Shape.length_inorder]

/-! ## Insertion: invariants, traversal order and lookup -/

/-- C1, the concrete case evaluated: `Insert` of the keys 2, 1, 3, 0 into an
empty tree gives a tree that satisfies the red-black invariants and has sorted
keys; `Remove(3)` on it returns the value bound to 3 and leaves a tree in which
the root-to-nil paths cross 2, 2, 2 and 1 Black nodes, so the equal-Black-count
invariant is lost. -/
theorem C1_remove_breaks_equal_black_paths :
    insertAll natCompare 10 kvs2130 New = .ok tree2130 ∧ Rep tree2130 shape2130 ∧
      shape2130.RedBlack ∧ shape2130.SortedKeys ∧
      Remove natCompare 10 tree2130 3 = .ok (tree2130Less3, some 3) ∧
      Rep tree2130Less3 shape2130Less3 ∧ shape2130Less3.pathBlacks = [2, 2, 2, 1] ∧
      ¬ shape2130Less3.EqualBlackPaths :=
  ⟨rfl, rep_tree2130, redBlack_shape2130, sorted_shape2130, rfl, rep_tree2130Less3, rfl,
    by decide⟩

/-- C2: `Insert` preserves the red-black invariants.  On a tree with a Black
root (or empty), no Red node next to a Red node, equal Black counts on all
root-to-nil paths, sorted keys and consistent links, `Insert(key, value)`
returns and the tree again has all of these; in particular every tree built
from `New()` by `Insert` calls alone has them. -/
theorem C2_insert_preserves_red_black [LinearOrder K] {cmp : K → K → Int}
    (hc : LawfulCompare cmp) {s : Tree K V} {t : Shape K V} (h : Rep s t) (hrb : t.RedBlack)
    (hs : t.SortedKeys) (key : K) (value : Option V) {fuel : Nat} (hf : t.size < fuel) :
    (∃ s1 t1, Insert cmp fuel s key value = .ok s1 ∧ Rep s1 t1 ∧ t1.RedBlack ∧
        t1.SortedKeys) ∧
      ∀ kvs : List (K × Option V), kvs.length < fuel →
        ∃ s2 t2, insertAll cmp fuel kvs New = .ok s2 ∧ Rep s2 t2 ∧ t2.RedBlack ∧
          t2.SortedKeys := by
  constructor
  · obtain ⟨s1, t1, e1, hrep, hrb1, hinv, _, hs1, _, _⟩ :=
      Insert_entries hc h hrb.1 hs key value hf
    have h2 := hinv ⟨hrb.2.1, (Shape.equalBlackPaths_iff t).1 hrb.2.2⟩
    exact ⟨s1, t1, e1, hrep, ⟨hrb1, h2.1, (Shape.equalBlackPaths_iff t1).2 h2.2⟩, hs1⟩
  · intro kvs hk
    obtain ⟨s2, t2, e2, hrep, hrb2, hs2, _⟩ := insertAll_spec hc kvs New .nil fuel rep_new
      ⟨rfl, trivial, by simp [Shape.EqualBlackPaths, Shape.pathBlacks]⟩
      (by simp [Shape.SortedKeys]) (by simpa [Shape.size] using hk)
    exact ⟨s2, t2, e2, hrep, hrb2, hs2⟩

/-- Witness for C2: `Insert(4, 4)` into the tree holding 2, 1, 3, 0. -/
theorem C2_insert_preserves_red_black_witness :
    (∃ s1 t1, Insert natCompare 10 tree2130 4 (some 4) = .ok s1 ∧ Rep s1 t1 ∧ t1.RedBlack ∧
        t1.SortedKeys) ∧
      ∀ kvs : List (Nat × Option Nat), kvs.length < 10 →
        ∃ s2 t2, insertAll natCompare 10 kvs New = .ok s2 ∧ Rep s2 t2 ∧ t2.RedBlack ∧
          t2.SortedKeys :=
  C2_insert_preserves_red_black natCompare_lawful rep_tree2130 redBlack_shape2130
    sorted_shape2130 4 (some 4) (by decide)

/-- C3: after the keys of a list have been inserted one by one into an empty
tree, the ascending traversal `Do(fn, InOrder)` hands `fn` the values of
`bindingsOf kvs` in order, one call per binding; the keys of these bindings are
strictly increasing, they are exactly the inserted keys, and each key is bound
to the value of its latest `Insert`. -/
theorem C3_inorder_traversal_sorted [LinearOrder K] {cmp : K → K → Int}
    (hc : LawfulCompare cmp) (kvs : List (K × Option V)) {fuel : Nat} (hf : kvs.length < fuel)
    {σ : Type} (fn : σ → Option V → σ) (acc : σ) :
    (∃ s1, insertAll cmp fuel kvs New = .ok s1 ∧
        Do fuel s1 fn acc (some inOrderIter) =
          .ok (((bindingsOf kvs).map fun e => e.2).foldl fn acc)) ∧
      ((bindingsOf kvs).map fun e => e.1).Pairwise (· < ·) ∧
      (∀ k, k ∈ (bindingsOf kvs).map (fun e => e.1) ↔ k ∈ kvs.map fun e => e.1) ∧
      ∀ k ∈ kvs.map (fun e => e.1), valueOf k (bindingsOf kvs) = valueOf k kvs.reverse := by
  refine ⟨?_, ?_, ?_, ?_⟩
  · obtain ⟨s1, t1, e1, hrep, _, _, hent⟩ := insertAll_spec hc kvs New .nil fuel rep_new
      ⟨rfl, trivial, by simp [Shape.EqualBlackPaths, Shape.pathBlacks]⟩
      (by simp [Shape.SortedKeys]) (by simpa [Shape.size] using hf)
    have hsz : t1.size < fuel := by
      rw [size_eq_length_entries, hent]
      have := length_foldl_insertEntry_le kvs (Shape.nil : Shape K V).entries
      simp only [Shape.entries, Shape.inorder, List.map_nil, List.length_nil] at this ⊢
      omega
    refine ⟨s1, e1, ?_⟩
    rw [(Do_inOrder hrep fn acc hsz).1]
    have hv : t1.values = (bindingsOf kvs).map fun e => e.2 := by
      have : t1.values = t1.entries.map fun e => e.2 := by
        simp [Shape.values, Shape.entries]
      rw [this, hent]
      rfl
    rw [hv]
  · exact foldl_insertEntry_sorted kvs [] (by simp)
  · intro k
    have := foldl_insertEntry_keys k kvs ([] : List (K × Option V))
    simpa [bindingsOf] using this
  · intro k hk
    exact foldl_insertEntry_value k kvs [] hk

/-- Witness for C3: the keys 5, 3, 8, 1, 4, 7, 9 inserted into an empty tree are
traversed as 1, 3, 4, 5, 7, 8, 9. -/
theorem C3_inorder_traversal_sorted_witness :
    ∃ s1, insertAll natCompare 10 kvs7 New = .ok s1 ∧
      Do 10 s1 collect [] (some inOrderIter) =
        .ok [some 1, some 3, some 4, some 5, some 7, some 8, some 9] :=
  (C3_inorder_traversal_sorted natCompare_lawful kvs7 (by decide) collect []).1

/-- On a tree with sorted keys whose root is Black (or that is empty),
`Insert(key, value)` returns, `Lookup(key)` after it returns `value`, and
`Lookup` of every key that compares unequal to `key` returns what it returned
before. -/
theorem Lookup_after_Insert [LinearOrder K] {cmp : K → K → Int} (hc : LawfulCompare cmp)
    {s : Tree K V} {t : Shape K V} (h : Rep s t) (hs : t.SortedKeys) (hrb : t.RootBlack)
    (key : K) (value : Option V) {fuel : Nat} (hf : t.size + 1 < fuel) :
    ∃ s1, Insert cmp fuel s key value = .ok s1 ∧ Lookup cmp fuel s1 key = .ok value ∧
      ∀ k2, cmp k2 key ≠ 0 → Lookup cmp fuel s1 k2 = Lookup cmp fuel s k2 := by
  obtain ⟨s1, t1, e1, hrep, _, _, hent, hs1, hin, hout⟩ :=
    Insert_entries hc h hrb hs key value (show t.size < fuel by omega)
  have hsz : t1.size < fuel := by
    by_cases hk : key ∈ t.keys
    · have := (hin hk).2; omega
    · have := (hout hk).2; omega
  refine ⟨s1, e1, ?_, ?_⟩
  · rw [Lookup_shape hc hrep hs1 key hsz, hent, valueOf_insertEntry_self]
  · intro k2 hk2
    have hne : k2 ≠ key := fun e => hk2 ((hc.eq_iff _ _).2 e)
    rw [Lookup_shape hc hrep hs1 k2 hsz, hent, valueOf_insertEntry_ne key value k2 hne,
      Lookup_shape hc h hs k2 (show t.size < fuel by omega)]

/-! ## Bindings after a removal -/

theorem valueOf_of_mem [DecidableEq K] :
    ∀ (L : List (K × Option V)), (L.map fun e => e.1).Nodup → ∀ (k : K) (v : Option V),
      (k, v) ∈ L → valueOf k L = v := by
  intro L
  induction L with
  | nil => intro _ k v h; simp at h
  | cons e rest ih =>
    intro hnd k v hmem
    obtain ⟨k1, v1⟩ := e
    simp only [List.map_cons, List.nodup_cons] at hnd
    rcases List.mem_cons.1 hmem with h1 | h1
    · simp only [Prod.mk.injEq] at h1
      obtain ⟨rfl, rfl⟩ := h1
      simp [valueOf]
    · have hne : ¬ k1 = k := by
        rintro rfl
        exact hnd.1 (List.mem_map_of_mem (fun e => e.1) h1)
      simp only [valueOf, if_neg hne]
      exact ih hnd.2 k v h1

theorem valueOf_filter_self [DecidableEq K] (key : K) :
    ∀ (L : List (K × Option V)), valueOf key (L.filter fun e => decide (e.1 ≠ key)) = none := by
  intro L
  induction L with
  | nil => rfl
  | cons e rest ih =>
    obtain ⟨k1, v1⟩ := e
    rw [List.filter_cons]
    by_cases h : k1 = key
    · rw [if_neg (by simp [h])]
      exact ih
    · rw [if_pos (by simp [h]), valueOf, if_neg h]
      exact ih

theorem valueOf_filter_ne [DecidableEq K] (key k2 : K) (hne : k2 ≠ key) :
    ∀ (L : List (K × Option V)),
      valueOf k2 (L.filter fun e => decide (e.1 ≠ key)) = valueOf k2 L := by
  intro L
  induction L with
  | nil => rfl
  | cons e rest ih =>
    obtain ⟨k1, v1⟩ := e
    rw [List.filter_cons]
    by_cases h : k1 = key
    · have h2 : ¬ k1 = k2 := fun e => hne (e.symm.trans h)
      rw [if_neg (by simp [h]), ih, valueOf, if_neg h2]
    · rw [if_pos (by simp [h]), valueOf, valueOf, ih]

theorem keys_filter (L : List (K × Option V)) (p : K → Bool) :
    (L.filter fun e => p e.1).map (fun e => e.1) = (L.map fun e => e.1).filter p := by
  induction L with
  | nil => rfl
  | cons e rest ih =>
    by_cases h : p e.1 <;> simp [List.filter_cons, h, ih]

/-! ## Removal, overwriting, size and cursors -/

/-- C5: `Remove` of a present key deletes exactly that binding.  On a tree that
satisfies the invariants and binds `key` to `v`, `Remove(key)` returns `v`
(whether or not the node has two children), `Lookup(key)` then finds nothing,
the in-order keys are the previous ones with `key` erased, and `Lookup` of
every other key returns what it returned before. -/
theorem C5_remove_present_deletes_binding [LinearOrder K] {cmp : K → K → Int}
    (hc : LawfulCompare cmp) {s : Tree K V} {t : Shape K V} (h : Rep s t) (hrb : t.RedBlack)
    (hs : t.SortedKeys) (key : K) (v : Option V) (hk : (key, v) ∈ t.entries) {fuel : Nat}
    (hf : t.size < fuel) :
    ∃ s1 t1, Remove cmp fuel s key = .ok (s1, v) ∧ Rep s1 t1 ∧ t1.keys = t.keys.erase key ∧
      Lookup cmp fuel s1 key = .ok none ∧
      ∀ k2, k2 ≠ key → Lookup cmp fuel s1 k2 = Lookup cmp fuel s k2 := by
  have hkeys : key ∈ t.keys := by
    rw [Shape.keys_eq_entries]
    exact List.mem_map_of_mem (fun e => e.1) hk
  have hnd : (t.entries.map fun e => e.1).Nodup := by
    rw [← Shape.keys_eq_entries]
    exact hs.imp (fun h => ne_of_lt h)
  obtain ⟨s1, t1, e1, hrep, hent, _, hsz, _⟩ :=
    Remove_present hc h hs ((Shape.equalBlackPaths_iff t).1 hrb.2.2) key hkeys hf
  rw [valueOf_of_mem t.entries hnd key v hk] at e1
  have hk1 : t1.keys = t.keys.filter fun k => decide (k ≠ key) := by
    rw [Shape.keys_eq_entries, hent, Shape.keys_eq_entries]
    exact keys_filter t.entries fun k => decide (k ≠ key)
  have hs1 : t1.SortedKeys := by
    unfold Shape.SortedKeys
    rw [hk1]
    exact List.Pairwise.filter _ hs
  refine ⟨s1, t1, e1, hrep, ?_, ?_, ?_⟩
  · rw [hk1, List.Nodup.erase_eq_filter (hs.imp (fun h => ne_of_lt h))]
    congr 1
    funext k
    by_cases hkk : k = key <;> simp [bne, hkk]
  · rw [Lookup_shape hc hrep hs1 key (by omega), hent, valueOf_filter_self]
  · intro k2 hne
    rw [Lookup_shape hc hrep hs1 k2 (by omega), hent, valueOf_filter_ne key k2 hne,
      Lookup_shape hc h hs k2 hf]

/-- Witness for C5: `Remove(2)` on the tree holding 2, 1, 3, 0; key 2 sits at
the root, which has two children. -/
theorem C5_remove_present_deletes_binding_witness :
    ∃ s1 t1, Remove natCompare 10 tree2130 2 = .ok (s1, some 2) ∧ Rep s1 t1 ∧
      t1.keys = [0, 1, 3] ∧ Lookup natCompare 10 s1 2 = .ok none ∧
      ∀ k2, k2 ≠ 2 → Lookup natCompare 10 s1 k2 = Lookup natCompare 10 tree2130 k2 :=
  C5_remove_present_deletes_binding natCompare_lawful rep_tree2130 redBlack_shape2130
    sorted_shape2130 2 (some 2) (by decide) (by decide)

/-- C6: `Remove` of an absent key is a no-op.  When `key` is not in the tree,
`Remove(key)` returns nil and the tree object is the one before the call: same
size, same root, same cells.  (The order of the keys plays no part.) -/
theorem C6_remove_absent_is_noop [LinearOrder K] {cmp : K → K → Int} (hc : LawfulCompare cmp)
    {s : Tree K V} {t : Shape K V} (h : Rep s t) (key : K) (hk : key ∉ t.keys) {fuel : Nat}
    (hf : t.size < fuel) : Remove cmp fuel s key = .ok (s, none) := by
  have hlook := lookup_shape hc h key hf
  rw [Shape.find_of_not_mem key t hk] at hlook
  simp [Remove, remove, hlook]

/-- Witness for C6: `Remove(7)` on the tree holding 2, 1, 3, 0. -/
theorem C6_remove_absent_is_noop_witness :
    Remove natCompare 10 tree2130 7 = .ok (tree2130, none) :=
  C6_remove_absent_is_noop natCompare_lawful rep_tree2130 7 (by decide) (by decide)

/-- C7: `Insert` of a key that is present only overwrites its value.  The tree
is some context `p` around the node `a` that holds `key`; after
`Insert(key, value)` it is the same context around the same node (same
address, colour, key and subtrees) with `value` in it, and `Size()` and the
root are as before. -/
theorem C7_insert_present_overwrites [LinearOrder K] {cmp : K → K → Int}
    (hc : LawfulCompare cmp) {s : Tree K V} {t : Shape K V} (h : Rep s t) (hs : t.SortedKeys)
    (key : K) (hk : key ∈ t.keys) (value : Option V) {fuel : Nat} (hf : t.size < fuel) :
    ∃ s1 p l a c v r, t = Path.plug p (.node l a c key v r) ∧
      Insert cmp fuel s key value = .ok s1 ∧ Rep s1 (Path.plug p (.node l a c key value r)) ∧
      Size s1 = Size s ∧ s1.root = s.root := by
  obtain ⟨s1, l, a, c, v, r, ht, e1, hrep, hsz, hroot⟩ :=
    Insert_overwrite hc h hs key hk value hf
  exact ⟨s1, _, l, a, c, v, r, ht, e1, hrep, hsz, hroot⟩

/-- Witness for C7: `Insert(1, 9)` into the tree holding 2, 1, 3, 0. -/
theorem C7_insert_present_overwrites_witness :
    ∃ s1 p l a c v r, shape2130 = Path.plug p (.node l a c 1 v r) ∧
      Insert natCompare 10 tree2130 1 (some 9) = .ok s1 ∧
      Rep s1 (Path.plug p (.node l a c 1 (some 9) r)) ∧
      Size s1 = Size tree2130 ∧ s1.root = tree2130.root :=
  C7_insert_present_overwrites natCompare_lawful rep_tree2130 sorted_shape2130 1 (by decide)
    (some 9) (by decide)

/-- C8: `Size()` equals the number of nodes.  `New()` has size 0; on a tree that
satisfies the invariants and whose size field equals its node count, `Insert`
of a new key adds one to both, `Insert` of a present key changes neither,
`Remove` of a present key takes one from both, and `Remove` of an absent key
changes nothing. -/
theorem C8_size_counts_nodes [LinearOrder K] {cmp : K → K → Int} (hc : LawfulCompare cmp)
    {s : Tree K V} {t : Shape K V} (h : Rep s t) (hrb : t.RedBlack) (hs : t.SortedKeys)
    (hsz : Size s = (t.size : Int)) (key : K) (value : Option V) {fuel : Nat}
    (hf : t.size < fuel) :
    Size (New : Tree K V) = 0 ∧
      (key ∉ t.keys → ∃ s1 t1, Insert cmp fuel s key value = .ok s1 ∧ Rep s1 t1 ∧
        Size s1 = Size s + 1 ∧ t1.size = t.size + 1 ∧ Size s1 = (t1.size : Int)) ∧
      (key ∈ t.keys → ∃ s1 t1, Insert cmp fuel s key value = .ok s1 ∧ Rep s1 t1 ∧
        Size s1 = Size s ∧ t1.size = t.size ∧ Size s1 = (t1.size : Int)) ∧
      (key ∈ t.keys → ∃ s1 t1 v, Remove cmp fuel s key = .ok (s1, v) ∧ Rep s1 t1 ∧
        Size s1 = Size s - 1 ∧ t1.size + 1 = t.size ∧ Size s1 = (t1.size : Int)) ∧
      (key ∉ t.keys → ∃ v, Remove cmp fuel s key = .ok (s, v)) := by
  simp only [Size] at hsz ⊢
  obtain ⟨s1, t1, e1, hrep, _, _, _, _, hin, hout⟩ :=
    Insert_entries hc h hrb.1 hs key value hf
  refine ⟨rfl, ?_, ?_, ?_, ?_⟩
  · intro hk
    obtain ⟨h1, h2⟩ := hout hk
    exact ⟨s1, t1, e1, hrep, h1, h2, by omega⟩
  · intro hk
    obtain ⟨h1, h2⟩ := hin hk
    exact ⟨s1, t1, e1, hrep, h1, h2, by omega⟩
  · intro hk
    obtain ⟨s2, t2, e2, hrep2, _, h1, h2, _⟩ :=
      Remove_present hc h hs ((Shape.equalBlackPaths_iff t).1 hrb.2.2) key hk hf
    exact ⟨s2, t2, _, e2, hrep2, h1, h2, by omega⟩
  · intro hk
    have hlook := lookup_shape hc h key hf
    rw [Shape.find_of_not_mem key t hk] at hlook
    exact ⟨none, by simp [Remove, remove, hlook]⟩

/-- Witness for C8: on the tree holding 2, 1, 3, 0 (size 4), key 7 is new and
key 2 is present. -/
theorem C8_size_counts_nodes_witness :
    (∃ s1 t1, Insert natCompare 10 tree2130 7 (some 7) = .ok s1 ∧ Rep s1 t1 ∧
        Size s1 = Size tree2130 + 1 ∧ t1.size = shape2130.size + 1 ∧ Size s1 = (t1.size : Int)) ∧
      (∃ s1 t1, Insert natCompare 10 tree2130 2 (some 7) = .ok s1 ∧ Rep s1 t1 ∧
        Size s1 = Size tree2130 ∧ t1.size = shape2130.size ∧ Size s1 = (t1.size : Int)) ∧
      (∃ s1 t1 v, Remove natCompare 10 tree2130 2 = .ok (s1, v) ∧ Rep s1 t1 ∧
        Size s1 = Size tree2130 - 1 ∧ t1.size + 1 = shape2130.size ∧
        Size s1 = (t1.size : Int)) ∧
      ∃ v, Remove natCompare 10 tree2130 7 = .ok (tree2130, v) :=
  ⟨(C8_size_counts_nodes natCompare_lawful rep_tree2130 redBlack_shape2130 sorted_shape2130
      rfl 7 (some 7) (by decide)).2.1 (by decide),
    (C8_size_counts_nodes natCompare_lawful rep_tree2130 redBlack_shape2130 sorted_shape2130
      rfl 2 (some 7) (by decide)).2.2.1 (by decide),
    (C8_size_counts_nodes natCompare_lawful rep_tree2130 redBlack_shape2130 sorted_shape2130
      rfl 2 (some 7) (by decide)).2.2.2.1 (by decide),
    (C8_size_counts_nodes natCompare_lawful rep_tree2130 redBlack_shape2130 sorted_shape2130
      rfl 7 (some 7) (by decide)).2.2.2.2 (by decide)⟩

/-- C9: `Previous` undoes `Next`.  In a tree with consistent links, `Next` of a
node `n` returns, and when the result is a node `m` (not the `End()`
sentinel), `Previous` of `m` is `n` itself. -/
theorem C9_previous_undoes_next {s : Tree K V} {t : Shape K V} (h : Rep s t) {n : Nat}
    (hn : n ∈ t.addrs) {fuel : Nat} (hf : t.size < fuel) :
    ∃ r, Next fuel s (some n) = .ok r ∧
      ∀ m, r = some m → Previous fuel s (some m) = .ok (some n) := by
  refine ⟨_, next_shape h hn hf, ?_⟩
  intro m hm
  rw [previous_shape h (nextIn_mem t.addrs n m hm) hf,
    prevIn_of_nextIn t.addrs n m none h.2.2 hn hm]

/-- Witness for C9: in the tree holding 2, 1, 3, 0, `Next` of the root cell
(key 2) is cell 2 (key 3), and `Previous` of that is the root cell again. -/
theorem C9_previous_undoes_next_witness :
    ∃ r, Next 10 tree2130 (some 0) = .ok r ∧
      ∀ m, r = some m → Previous 10 tree2130 (some m) = .ok (some 0) :=
  C9_previous_undoes_next rep_tree2130 (by decide) (by decide)

/-- C10: cursor traversal equals in-order traversal.  On a non-empty tree with
consistent links, `First()` is the first and `Last()` the last node of the
in-order (left, self, right) sequence; the loop from `First()` along `Next()`
ends and visits exactly that sequence, the loop from `Last()` along
`Previous()` visits its reverse; `Next()` moves from each position to the
following one, and from the last node to `End()`.  When the keys are sorted,
a later position holds a greater key, so position order is key order. -/
theorem C10_cursor_traversal_is_inorder [LinearOrder K] {s : Tree K V} {t : Shape K V}
    (h : Rep s t) (hne : t ≠ .nil) {fuel : Nat} (hf : t.size < fuel) :
    t.addrs ≠ [] ∧ First fuel s = .ok t.addrs.head? ∧ Last fuel s = .ok t.addrs.getLast? ∧
      (First fuel s >>= cursorLoop (Next fuel) fuel s) = .ok t.addrs ∧
      (Last fuel s >>= cursorLoop (Previous fuel) fuel s) = .ok t.addrs.reverse ∧
      (∀ i x, t.addrs[i]? = some x → Next fuel s (some x) = .ok t.addrs[i + 1]?) ∧
      (∀ x, t.addrs.getLast? = some x → Next fuel s (some x) = .ok (End s)) ∧
      (t.SortedKeys → ∀ (i j : Nat) (ki kj : K), i < j → t.keys[i]? = some ki →
        t.keys[j]? = some kj → ki < kj) := by
  have hfirst : First fuel s = .ok t.addrs.head? := by
    have := loopLeft_shape s t none fuel h.2.1 hne (by omega)
    rw [← h.1] at this
    exact this
  have hlast : Last fuel s = .ok t.addrs.getLast? := by
    have := loopRight_shape s t none fuel h.2.1 hne (by omega)
    rw [← h.1] at this
    exact this
  have hnext : ∀ i x, t.addrs[i]? = some x → Next fuel s (some x) = .ok t.addrs[i + 1]? := by
    intro i x hx
    rw [next_shape h (List.getElem?_mem hx) hf, nextIn_index t.addrs i x none h.2.2 hx]
    simp
  have hprev : ∀ i x, t.addrs.reverse[i]? = some x →
      Previous fuel s (some x) = .ok t.addrs.reverse[i + 1]? := by
    intro i x hx
    have hmem : x ∈ t.addrs := List.mem_reverse.1 (List.getElem?_mem hx)
    rw [previous_shape h hmem hf, prevIn_eq_nextIn_reverse,
      nextIn_index t.addrs.reverse i x none (List.nodup_reverse.2 h.2.2) hx]
    simp
  have hlen : t.addrs.length = t.size := Shape.length_addrs t
  refine ⟨Shape.addrs_ne_nil hne, hfirst, hlast, ?_, ?_, hnext, ?_, ?_⟩
  · have := cursorLoop_list s (Next fuel) t.addrs hnext fuel 0 (by omega)
    rw [hfirst]
    simpa [List.head?_eq_getElem?] using this
  · have := cursorLoop_list s (Previous fuel) t.addrs.reverse hprev fuel 0
      (by simp only [List.length_reverse]; omega)
    rw [hlast]
    simpa [List.getLast?_eq_head?_reverse, List.head?_eq_getElem?] using this
  · intro x hx
    have hpos : 0 < t.addrs.length := by
      have := Shape.addrs_ne_nil hne
      exact List.length_pos.2 this
    have hx2 : t.addrs[t.addrs.length - 1]? = some x := by
      rw [← List.getLast?_eq_getElem?]; exact hx
    rw [hnext _ x hx2]
    have : t.addrs[t.addrs.length - 1 + 1]? = none :=
      List.getElem?_eq_none_iff.2 (by omega)
    rw [this]
    rfl
  · intro hs i j ki kj hij hi hj
    have hp := List.pairwise_iff_getElem.1 hs
    obtain ⟨hi1, hi2⟩ := List.getElem?_eq_some_iff.1 hi
    obtain ⟨hj1, hj2⟩ := List.getElem?_eq_some_iff.1 hj
    have := hp i j hi1 hj1 hij
    rw [hi2, hj2] at this
    exact this

/-- Witness for C10: the tree holding 2, 1, 3, 0 keeps its keys 0, 1, 2, 3 in
the cells 3, 1, 0, 2. -/
theorem C10_cursor_traversal_is_inorder_witness :
    (First 10 tree2130 >>= cursorLoop (Next 10) 10 tree2130) = .ok [3, 1, 0, 2] ∧
      (Last 10 tree2130 >>= cursorLoop (Previous 10) 10 tree2130) = .ok [2, 0, 1, 3] :=
  ⟨(C10_cursor_traversal_is_inorder rep_tree2130 (by decide) (by decide)).2.2.2.1,
    (C10_cursor_traversal_is_inorder rep_tree2130 (by decide) (by decide)).2.2.2.2.1⟩

/-! ## Descending traversal and the bounded-count decorator -/

theorem InOrderR_shape {σ : Type} (s : Tree K V) (fn : σ → Option V → σ) :
    ∀ (t : Shape K V) (par : Ptr) (fuel : Nat) (acc : σ), Own s.heap par t → t.size < fuel →
    InOrderR fuel s t.ptr fn acc = .ok (t.values.reverse.foldl fn acc) := by
  intro t
  induction t with
  | nil =>
    intro par fuel acc _ hf
    cases fuel with
    | zero => omega
    | succ f => simp [InOrderR]
  | node l a c k v r ihl ihr =>
    intro par fuel acc hown hf
    obtain ⟨hc, hl, hr⟩ := hown
    simp only [Shape.size] at hf
    cases fuel with
    | zero => omega
    | succ f =>
      have h2 := ihr (some a) f acc hr (by omega)
      have h1 := ihl (some a) f (fn (r.values.reverse.foldl fn acc) v) hl (by omega)
      simp only [InOrderR, Shape.ptr_node]
      simp only [getLeft_cell hc, getRight_cell hc, getValue_cell hc, bind_ok]
      cases r with
      | nil =>
        cases l with
        | nil => simp
        | node ll la lc lk lv lr =>
          simp only [Shape.ptr_node, Shape.values_nil, List.reverse_nil, List.foldl_nil] at h1
          simp [h1, List.foldl_append]
      | node rl ra rc rk rv rr =>
        simp only [Shape.ptr_node] at h2
        simp [List.foldl_append] at h2
        cases l with
        | nil => simp [h2, List.foldl_append]
        | node ll la lc lk lv lr =>
          simp only [Shape.ptr_node] at h1
          simp [List.foldl_append] at h1
          simp [h2, List.foldl_append]
          exact h1

theorem InOrderReverse_shape {σ : Type} (s : Tree K V) (fn : σ → Option V → σ)
    (t : Shape K V) (par : Ptr) (fuel : Nat) (acc : σ) (hown : Own s.heap par t)
    (hf : t.size ≤ fuel) :
    InOrderReverse fuel s t.ptr fn acc = .ok (t.values.reverse.foldl fn acc) := by
  cases t with
  | nil => simp [InOrderReverse]
  | node l a c k v r =>
    obtain ⟨hc, hl, hr⟩ := hown
    simp only [Shape.size] at hf
    have h2 := InOrderR_shape s fn r (some a) fuel acc hr (by omega)
    have h1 := InOrderR_shape s fn l (some a) fuel (fn (r.values.reverse.foldl fn acc) v) hl
      (by omega)
    simp only [InOrderReverse, Shape.ptr_node]
    simp only [getLeft_cell hc, getRight_cell hc, getValue_cell hc, bind_ok]
    cases r with
    | nil =>
      cases l with
      | nil => simp
      | node ll la lc lk lv lr =>
        simp only [Shape.ptr_node, Shape.values_nil, List.reverse_nil, List.foldl_nil] at h1
        simp [h1, List.foldl_append]
    | node rl ra rc rk rv rr =>
      simp only [Shape.ptr_node] at h2
      simp [List.foldl_append] at h2
      cases l with
      | nil => simp [h2, List.foldl_append]
      | node ll la lc lk lv lr =>
        simp only [Shape.ptr_node] at h1
        simp [List.foldl_append] at h1
        simp [h2, List.foldl_append]
        exact h1

/-- The counting callback of `limit`, run over a list of values: the counter
advances once per value, the wrapped callback sees the values while the
counter is at most the cap. -/
theorem foldl_limit {σ : Type} (l : Nat) (fn : σ → Option V → σ) :
    ∀ (xs : List (Option V)) (c : Nat) (acc : σ),
      xs.foldl (fun (st : Int × σ) value =>
          let c := st.1 + 1
          if c > (l : Int) then (c, st.2) else (c, fn st.2 value)) ((c : Int), acc) =
        (((c + xs.length : Nat) : Int), (xs.take (l - c)).foldl fn acc) := by
  intro xs
  induction xs with
  | nil => intro c acc; simp
  | cons x xs ih =>
    intro c acc
    simp only [List.foldl_cons, List.length_cons]
    by_cases hc : ((c : Int) + 1 > (l : Int))
    · have h0 : l - c = 0 := by omega
      have h1 : l - (c + 1) = 0 := by omega
      have := ih (c + 1) acc
      simp only [Nat.cast_add, Nat.cast_one] at this
      simp only [hc, if_true, this, h0, h1, List.take_zero, List.foldl_nil]
      congr 1
      push_cast
      omega
    · have h0 : l - c = (l - (c + 1)) + 1 := by omega
      have := ih (c + 1) (fn acc x)
      simp only [Nat.cast_add, Nat.cast_one] at this
      simp only [hc, if_false, this, h0, List.take_succ_cons, List.foldl_cons]
      congr 1
      push_cast
      omega

theorem Limit_spec {σ : Type} (l : Nat) (iter : IterFunc K V) (fuel : Nat) (s : Tree K V)
    (n : Ptr) (xs : List (Option V))
    (hiter : ∀ (τ : Type) (g : τ → Option V → τ) (a : τ),
      iter τ fuel s n g a = .ok (xs.foldl g a))
    (fn : σ → Option V → σ) (acc : σ) :
    Limit (l : Int) iter σ fuel s n fn acc = .ok ((xs.take l).foldl fn acc) := by
  have h := foldl_limit l fn xs 0 acc
  simp only [Nat.cast_zero, Nat.sub_zero] at h
  simp only [Limit, limit, hiter, h, bind_ok]
  rfl

/-! ## `Height`, and the height of a red-black tree -/

theorem height_shape (s : Tree K V) : ∀ (t : Shape K V) (par : Ptr) (fuel : Nat),
    Own s.heap par t → t.depth < fuel → height fuel s t.ptr = .ok (t.depth : Int) := by
  intro t
  induction t with
  | nil =>
    intro par fuel _ hf
    cases fuel with
    | zero => omega
    | succ f => simp [height, Shape.depth]
  | node l a c k v r ihl ihr =>
    intro par fuel hown hf
    obtain ⟨hc, hl, hr⟩ := hown
    simp only [Shape.depth] at hf
    cases fuel with
    | zero => omega
    | succ f =>
      have h1 := ihl (some a) f hl (by omega)
      have h2 := ihr (some a) f hr (by omega)
      simp [height, getLeft_cell hc, getRight_cell hc, h1, h2, Shape.depth]

theorem Height_shape {s : Tree K V} {t : Shape K V} (h : Rep s t) {fuel : Nat}
    (hf : t.depth < fuel) : Height fuel s = .ok (t.depth : Int) := by
  unfold Height
  rw [h.1]
  exact height_shape s t none fuel h.2.1 hf

theorem Shape.depth_le_size : ∀ (t : Shape K V), t.depth ≤ t.size := by
  intro t
  induction t with
  | nil => simp [Shape.depth]
  | node l a c k v r ihl ihr =>
    simp only [Shape.depth, Shape.size]
    omega

theorem Shape.depth_eq_edgeHeight : ∀ (t : Shape K V), t ≠ .nil →
    t.depth = t.edgeHeight + 1 := by
  intro t
  induction t with
  | nil => intro h; exact absurd rfl h
  | node l a c k v r ihl ihr =>
    intro _
    cases l with
    | nil =>
      cases r with
      | nil => simp [Shape.depth, Shape.edgeHeight]
      | node rl ra rc rk rv rr =>
        have := ihr (by simp)
        simp only [Shape.depth, Shape.edgeHeight] at this ⊢
        omega
    | node ll la lc lk lv lr =>
      have h1 := ihl (by simp)
      cases r with
      | nil =>
        simp only [Shape.depth, Shape.edgeHeight] at h1 ⊢
        omega
      | node rl ra rc rk rv rr =>
        have h2 := ihr (by simp)
        simp only [Shape.depth, Shape.edgeHeight] at h1 h2 ⊢
        omega

/-- A shape with equal black heights has at least `2 ^ blackHeight - 1` nodes. -/
theorem Shape.pow_blackHeight_le : ∀ (t : Shape K V), t.Balanced →
    2 ^ t.blackHeight ≤ t.size + 1 := by
  intro t
  induction t with
  | nil => intro _; simp [Shape.blackHeight, Shape.size]
  | node l a c k v r ihl ihr =>
    rintro ⟨hb, hl, hr⟩
    have h1 := ihl hl
    have h2 := ihr hr
    rw [← hb] at h2
    simp only [Shape.blackHeight, Shape.size]
    cases c with
    | Red =>
      simp only [reduceCtorEq, if_false, Nat.add_zero]
      omega
    | Black =>
      simp only [if_true, pow_succ]
      omega

/-- Without a Red node below a Red node, the depth is at most twice the black
height, plus one under a Red root. -/
theorem Shape.depth_le_blackHeight : ∀ (t : Shape K V), t.Balanced → t.NoRedRed →
    t.depth ≤ 2 * t.blackHeight + (if t.rootColor = Color.Red then 1 else 0) := by
  intro t
  induction t with
  | nil => intro _ _; simp [Shape.depth]
  | node l a c k v r ihl ihr =>
    rintro ⟨hb, hl, hr⟩ ⟨hc, hnl, hnr⟩
    have h1 := ihl hl hnl
    have h2 := ihr hr hnr
    rw [← hb] at h2
    simp only [Shape.depth, Shape.blackHeight, Shape.rootColor_node]
    cases c with
    | Red =>
      obtain ⟨hcl, hcr⟩ := hc rfl
      simp only [hcl, hcr, reduceCtorEq, if_false, Nat.add_zero] at h1 h2
      simp only [reduceCtorEq, if_false, if_true, Nat.add_zero]
      omega
    | Black =>
      simp only [if_true, reduceCtorEq, if_false, Nat.add_zero]
      split at h1 <;> split at h2 <;> omega

theorem Shape.pow_depth_le {t : Shape K V} (hrb : t.RedBlack) :
    2 ^ t.depth ≤ (t.size + 1) ^ 2 := by
  have hbal := (Shape.equalBlackPaths_iff t).1 hrb.2.2
  have h1 := Shape.depth_le_blackHeight t hbal hrb.2.1
  have h2 := Shape.pow_blackHeight_le t hbal
  have hroot : t.rootColor = Color.Black := hrb.1
  simp only [hroot, reduceCtorEq, if_false, Nat.add_zero] at h1
  calc 2 ^ t.depth ≤ 2 ^ (2 * t.blackHeight) := Nat.pow_le_pow_right (by decide) h1
    _ = (2 ^ t.blackHeight) ^ 2 := by rw [Nat.mul_comm, pow_mul]
    _ ≤ (t.size + 1) ^ 2 := Nat.pow_le_pow_left h2 2

/-! ## Rotations on a whole tree -/

theorem Path.plug_labels_congr : ∀ (p : Path K V) {t u : Shape K V},
    t.labels = u.labels → (p.plug t).labels = (p.plug u).labels := by
  intro p
  induction p with
  | top => intro t u h; exact h
  | left up a c k v r ih =>
    intro t u h
    simp only [Path.plug]
    exact ih (by simp only [Shape.labels, h])
  | right l a c k v up ih =>
    intro t u h
    simp only [Path.plug]
    exact ih (by simp only [Shape.labels, h])

/-- Every node of a shape is the focus of some path. -/
theorem Shape.exists_path_of_mem {n : Nat} : ∀ (t : Shape K V) (acc : Path K V), n ∈ t.addrs →
    ∃ p l c k v r, acc.plug t = Path.plug p (.node l n c k v r) := by
  intro t
  induction t with
  | nil => intro acc h; simp at h
  | node l a c k v r ihl ihr =>
    intro acc h
    rw [Shape.addrs_node] at h
    rcases List.mem_append.1 h with h1 | h1
    · exact ihl (.left acc a c k v r) h1
    · rcases List.mem_cons.1 h1 with h2 | h2
      · subst h2
        exact ⟨acc, l, c, k, v, r, rfl⟩
      · exact ihr (.right l a c k v acc) h2

/-- Below the top, the root of the plugged shape is an ancestor of the hole,
whatever is put in the hole. -/
theorem Path.root_of_ne_top : ∀ (p : Path K V), p ≠ .top →
    ∃ a, a ∈ p.addrs ∧ ∀ x, p.root x = some a := by
  intro p
  induction p with
  | top => intro h; exact absurd rfl h
  | left up a c k v r ih =>
    intro _
    by_cases hup : up = .top
    · subst hup
      exact ⟨a, Path.mem_addrs_left.2 (Or.inl rfl), fun x => rfl⟩
    · obtain ⟨b, hb, hroot⟩ := ih hup
      exact ⟨b, Path.mem_addrs_left.2 (Or.inr (Or.inr hb)), fun x => by simp [hroot]⟩
  | right l a c k v up ih =>
    intro _
    by_cases hup : up = .top
    · subst hup
      exact ⟨a, Path.mem_addrs_right.2 (Or.inl rfl), fun x => rfl⟩
    · obtain ⟨b, hb, hroot⟩ := ih hup
      exact ⟨b, Path.mem_addrs_right.2 (Or.inr (Or.inr hb)), fun x => by simp [hroot]⟩

/-- The root pointer after the focus node `n` has been exchanged for `r`. -/
theorem root_after_exchange {s s1 : Tree K V} {p : Path K V} {n r : Nat}
    (h : s.root = p.root (some n)) (h1 : s1.root = p.root (some r)) (hn : n ∉ p.addrs) :
    (s.root = some n → s1.root = some r) ∧ (s.root ≠ some n → s1.root = s.root) := by
  by_cases hp : p = .top
  · subst hp
    simp only [Path.root_top] at h h1
    exact ⟨fun _ => h1, fun hne => absurd h hne⟩
  · obtain ⟨a, ha, hroot⟩ := Path.root_of_ne_top p hp
    rw [hroot] at h h1
    refine ⟨fun e => ?_, fun _ => h1.trans h.symm⟩
    rw [h] at e
    simp only [Option.some.injEq] at e
    subst e
    exact absurd ha hn

theorem rotateLeft_tree {s : Tree K V} {t : Shape K V} (h : Rep s t) {n r : Nat}
    (hn : n ∈ t.addrs) (hr : getRight s (some n) = .ok (some r)) :
    ∃ s1 t1, rotateLeft s (some n) = .ok s1 ∧ Rep s1 t1 ∧ t1.labels = t.labels ∧
      getLeft s1 (some r) = .ok (some n) ∧ getParent s1 (some n) = .ok (some r) ∧
      (s.root = some n → s1.root = some r) ∧ (s.root ≠ some n → s1.root = s.root) ∧
      s1.size = s.size := by
  obtain ⟨p, l, c, k, v, rt, hplug⟩ := Shape.exists_path_of_mem t .top hn
  simp only [Path.plug] at hplug
  subst hplug
  have hz := repZ_iff.2 h
  have hcell := hz.cell
  rw [getRight_cell hcell] at hr
  cases rt with
  | nil => simp at hr
  | node rl r0 cr kr vr rr =>
    simp only [Shape.ptr_node, Except.ok.injEq, Option.some.injEq] at hr
    subst hr
    obtain ⟨s1, e1, hsz, _, hz1⟩ := rotateLeft_focus hz
    have hroot := root_after_exchange hz.1 hz1.1 (hz.not_mem_path (by simp))
    refine ⟨s1, _, e1, repZ_iff.1 hz1, Path.plug_labels_congr p (by simp [Shape.labels]), ?_, ?_,
      hroot.1, hroot.2, hsz⟩
    · rw [getLeft_cell hz1.cell]; rfl
    · rw [getParent_cell (RepZ.up_left.2 hz1).cell]; rfl

theorem rotateRight_tree {s : Tree K V} {t : Shape K V} (h : Rep s t) {n l : Nat}
    (hn : n ∈ t.addrs) (hl : getLeft s (some n) = .ok (some l)) :
    ∃ s1 t1, rotateRight s (some n) = .ok s1 ∧ Rep s1 t1 ∧ t1.labels = t.labels ∧
      getRight s1 (some l) = .ok (some n) ∧ getParent s1 (some n) = .ok (some l) ∧
      (s.root = some n → s1.root = some l) ∧ (s.root ≠ some n → s1.root = s.root) ∧
      s1.size = s.size := by
  obtain ⟨p, lt, c, k, v, r, hplug⟩ := Shape.exists_path_of_mem t .top hn
  simp only [Path.plug] at hplug
  subst hplug
  have hz := repZ_iff.2 h
  have hcell := hz.cell
  rw [getLeft_cell hcell] at hl
  cases lt with
  | nil => simp at hl
  | node ll l0 cl kl vl lr =>
    simp only [Shape.ptr_node, Except.ok.injEq, Option.some.injEq] at hl
    subst hl
    obtain ⟨s1, e1, hsz, _, hz1⟩ := rotateRight_focus hz
    have hroot := root_after_exchange hz.1 hz1.1 (hz.not_mem_path (by simp))
    refine ⟨s1, _, e1, repZ_iff.1 hz1, Path.plug_labels_congr p (by simp [Shape.labels]), ?_, ?_,
      hroot.1, hroot.2, hsz⟩
    · rw [getRight_cell hz1.cell]; rfl
    · rw [getParent_cell (RepZ.up_right.2 hz1).cell]; rfl

/-! ## Executions that do not run out of fuel -/

@[simp] theorem finishes_ok {α : Type} (x : α) : Finishes (Except.ok x : Exec α) := by
  simp [Finishes]

@[simp] theorem finishes_pure {α : Type} (x : α) : Finishes (pure x : Exec α) := by
  simp [Finishes, pure, Except.pure]

@[simp] theorem finishes_nilDeref {α : Type} :
    Finishes (Except.error Fault.nilDeref : Exec α) := by
  simp [Finishes]

theorem finishes_bind {α β : Type} (e : Exec α) (f : α → Exec β) :
    Finishes (e >>= f) ↔ Finishes e ∧ ∀ x, e = .ok x → Finishes (f x) := by
  cases e with
  | error err => simp [Finishes, bind, Except.bind]
  | ok x => simp [Finishes, bind, Except.bind]

theorem finishes_ite {α : Type} (c : Prop) [Decidable c] (a b : Exec α) :
    Finishes (if c then a else b) ↔ (c → Finishes a) ∧ (¬ c → Finishes b) := by
  split <;> simp [*]

@[simp] theorem finishes_load (s : Tree K V) (p : Ptr) : Finishes (s.load p) := by
  unfold Tree.load
  split
  · simp
  · split <;> simp

@[simp] theorem finishes_update (s : Tree K V) (p : Ptr) (f : Node K V → Node K V) :
    Finishes (s.update p f) := by
  unfold Tree.update
  split
  · simp
  · split <;> simp

@[simp] theorem finishes_getKey (s : Tree K V) (n : Ptr) : Finishes (getKey s n) := by
  simp [getKey, finishes_bind]

@[simp] theorem finishes_getValue (s : Tree K V) (n : Ptr) : Finishes (getValue s n) := by
  simp [getValue, finishes_bind]

@[simp] theorem finishes_getColor (s : Tree K V) (n : Ptr) : Finishes (getColor s n) := by
  simp [getColor, finishes_bind]

@[simp] theorem finishes_getParent (s : Tree K V) (n : Ptr) : Finishes (getParent s n) := by
  simp [getParent, finishes_bind]

@[simp] theorem finishes_getLeft (s : Tree K V) (n : Ptr) : Finishes (getLeft s n) := by
  simp [getLeft, finishes_bind]

@[simp] theorem finishes_getRight (s : Tree K V) (n : Ptr) : Finishes (getRight s n) := by
  simp [getRight, finishes_bind]

@[simp] theorem finishes_setColor (s : Tree K V) (n : Ptr) (c : Color) :
    Finishes (setColor s n c) := by
  simp [setColor]

@[simp] theorem finishes_setParent (s : Tree K V) (n p : Ptr) : Finishes (setParent s n p) := by
  simp [setParent]

@[simp] theorem finishes_setLeft (s : Tree K V) (n p : Ptr) : Finishes (setLeft s n p) := by
  simp [setLeft]

@[simp] theorem finishes_setRight (s : Tree K V) (n p : Ptr) : Finishes (setRight s n p) := by
  simp [setRight]

@[simp] theorem finishes_color (s : Tree K V) (n : Ptr) : Finishes (color s n) := by
  simp [color, finishes_ite]

@[simp] theorem finishes_sibling (s : Tree K V) (n : Ptr) : Finishes (sibling s n) := by
  simp [sibling, finishes_bind, finishes_ite]

@[simp] theorem finishes_grandparent (s : Tree K V) (n : Ptr) : Finishes (grandparent s n) := by
  simp [grandparent, finishes_bind, finishes_ite]

@[simp] theorem finishes_uncle (s : Tree K V) (n : Ptr) : Finishes (uncle s n) := by
  simp [uncle, finishes_bind, finishes_ite]

@[simp] theorem finishes_isLeftChild (s : Tree K V) (n : Ptr) : Finishes (isLeftChild s n) := by
  simp [isLeftChild, finishes_bind]

@[simp] theorem finishes_isRightChild (s : Tree K V) (n : Ptr) :
    Finishes (isRightChild s n) := by
  simp [isRightChild, finishes_bind]

@[simp] theorem finishes_parentIsLeftOf (s : Tree K V) (n g : Ptr) :
    Finishes (parentIsLeftOf s n g) := by
  simp [parentIsLeftOf, finishes_bind]

@[simp] theorem finishes_parentIsRightOf (s : Tree K V) (n g : Ptr) :
    Finishes (parentIsRightOf s n g) := by
  simp [parentIsRightOf, finishes_bind]

@[simp] theorem finishes_leftColorIs (s : Tree K V) (x : Ptr) (c : Color) :
    Finishes (leftColorIs s x c) := by
  simp [leftColorIs, finishes_bind]

@[simp] theorem finishes_rightColorIs (s : Tree K V) (x : Ptr) (c : Color) :
    Finishes (rightColorIs s x c) := by
  simp [rightColorIs, finishes_bind]

@[simp] theorem finishes_parentColorIs (s : Tree K V) (n : Ptr) (c : Color) :
    Finishes (parentColorIs s n c) := by
  simp [parentColorIs, finishes_bind]

theorem finishes_andAlso (a b : Exec Bool) :
    Finishes (andAlso a b) ↔ Finishes a ∧ (a = .ok true → Finishes b) := by
  cases a with
  | error err => simp [andAlso, Finishes, bind, Except.bind]
  | ok x => cases x <;> simp [andAlso, Finishes, bind, Except.bind, pure, Except.pure]

theorem andAlso_eq_true (a b : Exec Bool) :
    andAlso a b = .ok true ↔ a = .ok true ∧ b = .ok true := by
  cases a with
  | error err => simp [andAlso, bind, Except.bind]
  | ok x => cases x <;> simp [andAlso, bind, Except.bind, pure, Except.pure]

@[simp] theorem finishes_replace (s : Tree K V) (old new : Ptr) :
    Finishes (replace s old new) := by
  simp [replace, finishes_bind, finishes_ite]

@[simp] theorem finishes_rotateLeft (s : Tree K V) (n : Ptr) : Finishes (rotateLeft s n) := by
  simp [rotateLeft, finishes_bind, finishes_ite]

@[simp] theorem finishes_rotateRight (s : Tree K V) (n : Ptr) : Finishes (rotateRight s n) := by
  simp [rotateRight, finishes_bind, finishes_ite]

/-! ## The fix-ups use no more fuel than the depth of their node -/

/-- Steps iii to vi of `balanceRemove` call `recur` only in step iii. -/
theorem balanceRemoveTail_finishes (recur : Tree K V → Ptr → Exec (Tree K V)) (s : Tree K V)
    (n sib : Ptr)
    (H : parentColorIs s n .Black = .ok true → leftColorIs s sib .Black = .ok true →
      rightColorIs s sib .Black = .ok true → ∀ s2 p, Finishes (recur s2 p)) :
    Finishes (balanceRemoveTail recur s n sib) := by
  unfold balanceRemoveTail
  simp only [finishes_bind, finishes_ite, finishes_andAlso, finishes_parentColorIs,
    finishes_leftColorIs, finishes_rightColorIs, finishes_setColor, finishes_getParent,
    finishes_getLeft, finishes_getRight, finishes_getColor, finishes_rotateLeft,
    finishes_rotateRight, finishes_sibling, finishes_isLeftChild, finishes_isRightChild,
    finishes_pure, finishes_ok, implies_true, and_true, true_and, imp_self]
  intro c3 h3 hc s2 _ p _
  subst hc
  rw [andAlso_eq_true, andAlso_eq_true] at h3
  exact H h3.1 h3.2.1 h3.2.2 s2 p

/-- A call of `balanceInsert` calls itself only in step iii, when the uncle is
Red. -/
theorem balanceInsert_finishes_step (f : Nat) (s : Tree K V) (n : Ptr)
    (H : ∀ u, uncle s n = .ok u → color s u = .ok .Red →
      ∀ (s3 : Tree K V) (g : Ptr), Finishes (balanceInsert f s3 g)) :
    Finishes (balanceInsert (f + 1) s n) := by
  unfold balanceInsert
  simp only [finishes_bind, finishes_ite, finishes_andAlso, finishes_parentIsLeftOf,
    finishes_parentIsRightOf, finishes_setColor, finishes_getParent, finishes_color,
    finishes_getLeft, finishes_getRight, finishes_getColor, finishes_rotateLeft,
    finishes_rotateRight, finishes_uncle, finishes_grandparent, finishes_isLeftChild,
    finishes_isRightChild, finishes_pure, finishes_ok, implies_true, and_true, true_and,
    imp_self]
  intros
  subst_vars
  apply H <;> assumption

/-- One call of `balanceInsert` below a parent `a`: it returns, faults, or goes
on at the grandparent, two levels up. -/
theorem balanceInsert_finishes_below {s : Tree K V} {up : Path K V} {al ar : Shape K V}
    {n a : Nat} {ca : Color} {ka : K} {va : Option V} {nd : Node K V}
    (h : RepZ s up (.node al a ca ka va ar)) (hn : s.heap[n]? = some nd)
    (hp : nd.parent = some a) (f : Nat)
    (ih : ∀ (s1 : Tree K V) (p1 : Path K V) (l r : Shape K V) (g : Nat) (c : Color) (k : K)
      (v : Option V), RepZ s1 p1 (.node l g c k v r) → p1.depth < up.depth →
      Finishes (balanceInsert f s1 (some g))) :
    Finishes (balanceInsert (f + 1) s (some n)) := by
  have ha := h.cell
  cases ca with
  | Black =>
    rw [balanceInsert_parent_black hn hp ha rfl f]
    simp
  | Red =>
    cases up with
    | top =>
      apply balanceInsert_finishes_step
      intro u hu hcol
      simp only [Path.ptr_top] at ha
      simp [uncle, sibling, getParent_cell hn, hp, getParent_cell ha] at hu
      subst hu
      simp [color] at hcol
    | left up1 g cg kg vg U =>
      have hg := (RepZ.up_left.1 h).cell
      have hUown : Own s.heap (some g) U := (RepZ.up_left.1 h).2.2.1.2.2
      by_cases hU : U.rootColor = .Red
      · obtain ⟨ul, u, ku, vu, ur, rfl⟩ := Shape.eq_node_of_red hU
        obtain ⟨s3, e3, _, _, h3⟩ := balanceInsert_uncle_red_left h hn hp f
        rw [e3]
        exact ih s3 up1 _ _ g _ _ _ h3 (by simp [Path.depth])
      · apply balanceInsert_finishes_step
        intro u hu hcol
        simp only [Path.ptr_left, Shape.ptr_node] at ha hg
        simp [uncle, sibling, getParent_cell hn, hp, getParent_cell ha, getLeft_cell hg,
          getRight_cell hg] at hu
        subst hu
        rw [color_shape hUown] at hcol
        simp only [Except.ok.injEq] at hcol
        exact absurd hcol hU
    | right U g cg kg vg up1 =>
      have hg := (RepZ.up_right.1 h).cell
      have hUown : Own s.heap (some g) U := (RepZ.up_right.1 h).2.2.1.2.1
      have hne : ¬ U.ptr = (some a : Ptr) := h.sib_ne_right (by simp)
      by_cases hU : U.rootColor = .Red
      · obtain ⟨ul, u, ku, vu, ur, rfl⟩ := Shape.eq_node_of_red hU
        obtain ⟨s3, e3, _, _, h3⟩ := balanceInsert_uncle_red_right h hn hp f
        rw [e3]
        exact ih s3 up1 _ _ g _ _ _ h3 (by simp [Path.depth])
      · apply balanceInsert_finishes_step
        intro u hu hcol
        simp only [Path.ptr_right, Shape.ptr_node] at ha hg
        simp [uncle, sibling, getParent_cell hn, hp, getParent_cell ha, getLeft_cell hg,
          getRight_cell hg, hne] at hu
        subst hu
        rw [color_shape hUown] at hcol
        simp only [Except.ok.injEq] at hcol
        exact absurd hcol hU

theorem balanceInsert_finishes : ∀ (f : Nat) (s : Tree K V) (p : Path K V) (l r : Shape K V)
    (n : Nat) (c : Color) (k : K) (v : Option V), RepZ s p (.node l n c k v r) →
    p.depth < f → Finishes (balanceInsert f s (some n)) := by
  intro f
  induction f with
  | zero => intro s p l r n c k v _ hd; omega
  | succ f ih =>
    intro s p l r n c k v h hd
    have hn := h.cell
    cases p with
    | top =>
      obtain ⟨s1, e1, _⟩ := balanceInsert_root h f
      rw [e1]
      simp
    | left up a ca ka va sib =>
      simp only [Path.depth] at hd
      exact balanceInsert_finishes_below (RepZ.up_left.1 h) hn rfl f
        (fun s1 p1 l1 r1 g c1 k1 v1 h1 hd1 => ih s1 p1 l1 r1 g c1 k1 v1 h1 (by omega))
    | right sib a ca ka va up =>
      simp only [Path.depth] at hd
      exact balanceInsert_finishes_below (RepZ.up_right.1 h) hn rfl f
        (fun s1 p1 l1 r1 g c1 k1 v1 h1 hd1 => ih s1 p1 l1 r1 g c1 k1 v1 h1 (by omega))

theorem balanceRemove_finishes : ∀ (f : Nat) (s : Tree K V) (p : Path K V)
    (Ln Rn : Shape K V) (n : Nat) (cn : Color) (kn : K) (vn : Option V),
    RepZ s p (.node Ln n cn kn vn Rn) → p.depth < f →
    Finishes (balanceRemove f s (some n)) := by
  intro f
  induction f with
  | zero => intro s p Ln Rn n cn kn vn _ hd; omega
  | succ f ih =>
    intro s p Ln Rn n cn kn vn h hd
    have hn := h.cell
    cases p with
    | top =>
      simp only [Path.ptr_top] at hn
      rw [balanceRemove_succ]
      simp [getParent_cell hn]
    | left up pp cpp kpp vpp S =>
      simp only [Path.depth] at hd
      have hpp := (RepZ.up_left.1 h).cell
      have hSown : Own s.heap (some pp) S := (RepZ.up_left.1 h).2.2.1.2.2
      by_cases hS : S.rootColor = .Red
      · obtain ⟨SL, sx, ks, vs, SR, rfl⟩ := Shape.eq_node_of_red hS
        obtain ⟨s3, e3, _, _, h3⟩ := balanceRemove_red_sibling_left h f
        rw [e3]
        apply balanceRemoveTail_finishes
        intro hpc
        have hn3 := h3.cell
        have hpp3 := (RepZ.up_left.1 h3).cell
        simp only [Path.ptr_left] at hn3
        simp [parentColorIs, getParent_cell hn3, getColor_cell hpp3] at hpc
      · rw [balanceRemove_black_sibling_left h hS f]
        by_cases hiii : cpp = .Black ∧ ∃ XL x cx kx vx XR, S = .node XL x cx kx vx XR ∧
            XL.rootColor = .Black ∧ XR.rootColor = .Black
        · obtain ⟨rfl, XL, x, cx, kx, vx, XR, rfl, hl, hr⟩ := hiii
          obtain ⟨s1, e1, _, _, h1⟩ := tail_left_iii h hl hr (balanceRemove f)
          rw [Shape.ptr_node, e1]
          exact ih s1 up _ _ pp _ _ _ (RepZ.up_left.1 h1) (by omega)
        · apply balanceRemoveTail_finishes
          intro h1 h2 h3
          exfalso
          apply hiii
          simp only [Path.ptr_left] at hn
          simp [parentColorIs, getParent_cell hn, getColor_cell hpp] at h1
          refine ⟨h1, ?_⟩
          cases S with
          | nil => simp [leftColorIs, getLeft, Tree.load] at h2
          | node XL x cx kx vx XR =>
            have hx := hSown.1
            rw [Shape.ptr_node] at h2 h3
            simp [leftColorIs, getLeft_cell hx, color_shape hSown.2.1] at h2
            simp [rightColorIs, getRight_cell hx, color_shape hSown.2.2] at h3
            exact ⟨XL, x, cx, kx, vx, XR, rfl, h2, h3⟩
    | right S pp cpp kpp vpp up =>
      simp only [Path.depth] at hd
      have hpp := (RepZ.up_right.1 h).cell
      have hSown : Own s.heap (some pp) S := (RepZ.up_right.1 h).2.2.1.2.1
      by_cases hS : S.rootColor = .Red
      · obtain ⟨SL, sx, ks, vs, SR, rfl⟩ := Shape.eq_node_of_red hS
        obtain ⟨s3, e3, _, _, h3⟩ := balanceRemove_red_sibling_right h f
        rw [e3]
        apply balanceRemoveTail_finishes
        intro hpc
        have hn3 := h3.cell
        have hpp3 := (RepZ.up_right.1 h3).cell
        simp only [Path.ptr_right] at hn3
        simp [parentColorIs, getParent_cell hn3, getColor_cell hpp3] at hpc
      · rw [balanceRemove_black_sibling_right h hS f]
        by_cases hiii : cpp = .Black ∧ ∃ XL x cx kx vx XR, S = .node XL x cx kx vx XR ∧
            XL.rootColor = .Black ∧ XR.rootColor = .Black
        · obtain ⟨rfl, XL, x, cx, kx, vx, XR, rfl, hl, hr⟩ := hiii
          obtain ⟨s1, e1, _, _, h1⟩ := tail_right_iii h hl hr (balanceRemove f)
          rw [Shape.ptr_node, e1]
          exact ih s1 up _ _ pp _ _ _ (RepZ.up_right.1 h1) (by omega)
        · apply balanceRemoveTail_finishes
          intro h1 h2 h3
          exfalso
          apply hiii
          simp only [Path.ptr_right] at hn
          simp [parentColorIs, getParent_cell hn, getColor_cell hpp] at h1
          refine ⟨h1, ?_⟩
          cases S with
          | nil => simp [leftColorIs, getLeft, Tree.load] at h2
          | node XL x cx kx vx XR =>
            have hx := hSown.1
            rw [Shape.ptr_node] at h2 h3
            simp [leftColorIs, getLeft_cell hx, color_shape hSown.2.1] at h2
            simp [rightColorIs, getRight_cell hx, color_shape hSown.2.2] at h3
            exact ⟨XL, x, cx, kx, vx, XR, rfl, h2, h3⟩

/-- The hole of a path lies below the root: a non-empty subtree plugged into a
path makes a shape deeper than the path. -/
theorem Path.depth_lt_plug : ∀ (p : Path K V) (t : Shape K V),
    p.depth + t.depth ≤ (p.plug t).depth := by
  intro p
  induction p with
  | top => intro t; simp [Path.depth, Path.plug]
  | left up a c k v r ih =>
    intro t
    have := ih (.node t a c k v r)
    simp only [Path.depth, Path.plug, Shape.depth] at this ⊢
    omega
  | right l a c k v up ih =>
    intro t
    have := ih (.node l a c k v t)
    simp only [Path.depth, Path.plug, Shape.depth] at this ⊢
    omega

/-! ## Traversal decorators, height, `Uint` keys -/

theorem rep_singleTree : Rep singleTree singleShape :=
  ⟨rfl, ⟨rfl, trivial, trivial⟩, by decide⟩

theorem size_lt_of_insertAll [LinearOrder K] {kvs : List (K × Option V)} {t : Shape K V}
    {fuel : Nat} (hent : t.entries = kvs.foldl (fun E kv => insertEntry kv.1 kv.2 E)
      (Shape.nil : Shape K V).entries) (hf : kvs.length < fuel) : t.size < fuel := by
  rw [size_eq_length_entries, hent]
  have := length_foldl_insertEntry_le kvs (Shape.nil : Shape K V).entries
  simp only [Shape.entries, Shape.inorder, List.map_nil, List.length_nil] at this ⊢
  omega

/-- C11: the bounded-count decorator visits exactly `min(l, s)` elements.  When
the iterator `iter` hands its callback the values `xs` in order, on the tree
and for every callback, `Do(fn, Limit(l, iter))` hands `fn` the first `l`
values of `xs` in order, that is `min l xs.length` calls.  `InOrder` and
`InOrderReverse` are such iterators on every tree, with the in-order values
and their reverse. -/
theorem C11_limit_visits_min (l : Nat) (iter : IterFunc K V) (fuel : Nat) (s : Tree K V)
    (xs : List (Option V))
    (hiter : ∀ (τ : Type) (g : τ → Option V → τ) (a : τ),
      iter τ fuel s s.root g a = .ok (xs.foldl g a))
    {σ : Type} (fn : σ → Option V → σ) (acc : σ) :
    Do fuel s fn acc (some (Limit (l : Int) iter)) = .ok ((xs.take l).foldl fn acc) ∧
      (xs.take l).length = min l xs.length ∧
      ∀ t : Shape K V, Rep s t → t.size < fuel →
        Do fuel s fn acc (some (Limit (l : Int) inOrderIter)) =
            .ok ((t.values.take l).foldl fn acc) ∧
          Do fuel s fn acc (some (Limit (l : Int) inOrderReverseIter)) =
            .ok ((t.values.reverse.take l).foldl fn acc) ∧
          (t.values.take l).length = min l t.size ∧
          (t.values.reverse.take l).length = min l t.size := by
  refine ⟨?_, List.length_take _ _, ?_⟩
  · exact Limit_spec l iter fuel s s.root xs hiter fn acc
  · intro t h hf
    have hlen : t.values.length = t.size := by
      simp [Shape.values, Shape.length_inorder]
    refine ⟨?_, ?_, by rw [List.length_take, hlen], by
      rw [List.length_take, List.length_reverse, hlen]⟩
    · refine Limit_spec l inOrderIter fuel s s.root t.values ?_ fn acc
      intro τ g a
      have := InOrder_shape s g t none fuel a h.2.1 hf
      rw [← h.1] at this
      exact this
    · refine Limit_spec l inOrderReverseIter fuel s s.root t.values.reverse ?_ fn acc
      intro τ g a
      have := InOrderReverse_shape s g t none fuel a h.2.1 (by omega)
      rw [← h.1] at this
      exact this

/-- Witness for C11: on the tree holding the keys 0 to 15, a descending
traversal capped at 4 makes 4 calls, on the values 15, 14, 13, 12. -/
theorem C11_limit_visits_min_witness :
    Do 20 tree16 countCalls 0 (some (Limit 4 inOrderReverseIter)) = .ok 4 ∧
      Do 20 tree16 collect [] (some (Limit 4 inOrderReverseIter)) =
        .ok [some 15, some 14, some 13, some 12] :=
  ⟨(C11_limit_visits_min 4 inOrderReverseIter 20 tree16
      ((List.range 16).reverse.map fun k => some k) (fun _ _ _ => rfl) countCalls 0).1,
    (C11_limit_visits_min 4 inOrderReverseIter 20 tree16
      ((List.range 16).reverse.map fun k => some k) (fun _ _ _ => rfl) collect []).1⟩

/-- C12: `InOrderReverse` is the reverse of `InOrder`.  At every node (the
root of a subtree `t` with consistent links), `InOrder` hands its callback the
values of `t` in order and `InOrderReverse` hands it the same values in
reverse order; when the keys are sorted, that is decreasing key order.  The
calls that `InOrderReverse` makes on the subtrees go to `InOrderR`. -/
theorem C12_inorder_reverse_is_reverse [LinearOrder K] {s : Tree K V} {t : Shape K V}
    {par : Ptr} (h : Own s.heap par t) {fuel : Nat} (hf : t.size < fuel) {σ : Type}
    (fn : σ → Option V → σ) (acc : σ) :
    InOrder fuel s t.ptr fn acc = .ok (t.values.foldl fn acc) ∧
      InOrderReverse fuel s t.ptr fn acc = .ok (t.values.reverse.foldl fn acc) ∧
      (t.SortedKeys → t.keys.reverse.Pairwise (· > ·)) := by
  refine ⟨InOrder_shape s fn t par fuel acc h hf,
    InOrderReverse_shape s fn t par fuel acc h (by omega), ?_⟩
  intro hs
  rw [List.pairwise_reverse]
  exact hs

/-- Witness for C12: on the tree holding 2, 1, 3, 0 the ascending traversal
yields 0, 1, 2, 3 and the descending one 3, 2, 1, 0. -/
theorem C12_inorder_reverse_is_reverse_witness :
    InOrder 10 tree2130 (some 0) collect [] = .ok [some 0, some 1, some 2, some 3] ∧
      InOrderReverse 10 tree2130 (some 0) collect [] = .ok [some 3, some 2, some 1, some 0] :=
  ⟨(C12_inorder_reverse_is_reverse rep_tree2130.2.1 (by decide) collect []).1,
    (C12_inorder_reverse_is_reverse rep_tree2130.2.1 (by decide) collect []).2.1⟩

/-- Counterexample for C13 as stated: the tree that `Insert(5, 5)` makes of
`New()` holds a single node, its longest root-to-leaf path has no edge, and
`Height()` returns 1. -/
theorem C13_height_of_single_node :
    Insert natCompare 10 New 5 (some 5) = .ok singleTree ∧ Rep singleTree singleShape ∧
      singleShape.edgeHeight = 0 ∧ Height 10 singleTree = .ok 1 :=
  ⟨rfl, rep_singleTree, rfl, rfl⟩

/-- C13, amended: `Height()` returns the number of nodes on the longest path
from the root to a leaf: 0 for the empty tree and, for a non-empty tree, the
longest root-to-leaf edge count plus one. -/
theorem C13_height_counts_nodes {s : Tree K V} {t : Shape K V} (h : Rep s t) {fuel : Nat}
    (hf : t.depth < fuel) :
    Height fuel s = .ok (t.depth : Int) ∧ (t = .nil → Height fuel s = .ok 0) ∧
      (t ≠ .nil → Height fuel s = .ok ((t.edgeHeight : Int) + 1)) := by
  have h1 := Height_shape h hf
  refine ⟨h1, ?_, ?_⟩
  · intro ht
    subst ht
    simpa [Shape.depth] using h1
  · intro ht
    rw [h1, Shape.depth_eq_edgeHeight t ht]
    simp

/-- Witness for C13: the tree holding 2, 1, 3, 0 has three nodes on its longest
path, 2 - 1 - 0, which has two edges. -/
theorem C13_height_counts_nodes_witness :
    Height 10 tree2130 = .ok 3 ∧ shape2130.edgeHeight = 2 :=
  ⟨(C13_height_counts_nodes rep_tree2130 (by decide)).1, rfl⟩

/-- C14, the concrete case evaluated: for `a = 2 ^ 63` and `b = 0`, both keys of
type `Uint`, `a.Compare(b)` is `-2 ^ 63`, negative although `a > b`;
`a.Compare(b)` and `b.Compare(a)` are both negative.  The three-way comparison
in the manner of `String.Compare` gives 1. -/
theorem C14_uint_compare_wraps :
    Uint.Compare (2 ^ 63) 0 = -(2 ^ 63) ∧ Uint.Compare (2 ^ 63) 0 < 0 ∧
      Uint.Compare 0 (2 ^ 63) < 0 ∧ (0 : Nat) < 2 ^ 63 ∧ (2 ^ 63 : Nat) < 2 ^ 64 ∧
      natCompare (2 ^ 63) 0 = 1 := by
  decide

/-- C15, the concrete case evaluated: after `Insert` of 2, 1, 3, 0 and
`Remove(3)`, the call `Remove(1)` faults on a nil dereference: the node 1 has
no sibling, and `balanceRemove` reads `sibling.left`.  No amount of fuel makes
the call return. -/
theorem C15_remove_faults_after_unbalanced_remove :
    insertAll natCompare 10 kvs2130 New = .ok tree2130 ∧
      Remove natCompare 10 tree2130 3 = .ok (tree2130Less3, some 3) ∧
      Remove natCompare 10 tree2130Less3 1 = .error .nilDeref ∧
      ∀ fuel, ∃ e, Remove natCompare fuel tree2130Less3 1 = .error e := by
  refine ⟨rfl, rfl, rfl, ?_⟩
  intro fuel
  rcases fuel with _ | _ | _ | n <;> exact ⟨_, rfl⟩

/-- C16: `Insert` never fails.  On a tree that satisfies the invariants, with
consistent links, `Insert(key, value)` returns (no nil dereference) and leaves
a tree with consistent links.  The repair itself returns at every Red node of
a tree with a Black root: under a Red parent the grandparent is there, and
each rotation finds the child it lifts. -/
theorem C16_insert_never_fails [LinearOrder K] {cmp : K → K → Int} (hc : LawfulCompare cmp)
    {s : Tree K V} {t : Shape K V} (h : Rep s t) (hrb : t.RedBlack) (hs : t.SortedKeys)
    (key : K) (value : Option V) {fuel : Nat} (hf : t.size < fuel) :
    (∃ s1 t1, Insert cmp fuel s key value = .ok s1 ∧ Rep s1 t1) ∧
      Insert cmp fuel s key value ≠ .error .nilDeref ∧
      ∀ (s0 : Tree K V) (p : Path K V) (l r : Shape K V) (n : Nat) (k : K) (v : Option V),
        RepZ s0 p (.node l n .Red k v r) → p.rootColor .Black = .Black → p.depth < fuel →
        ∃ s1 t1, balanceInsert fuel s0 (some n) = .ok s1 ∧ Rep s1 t1 := by
  obtain ⟨s1, t1, e1, hrep, _⟩ := Insert_entries hc h hrb.1 hs key value hf
  refine ⟨⟨s1, t1, e1, hrep⟩, by rw [e1]; simp, ?_⟩
  intro s0 p l r n k v hz hroot hd
  obtain ⟨s2, t2, e2, hrep2, _⟩ := balanceInsert_spec fuel s0 p l r n k v hz hd hroot
  exact ⟨s2, t2, e2, hrep2⟩

/-- Witness for C16: `Insert(4, 4)` into the tree holding 2, 1, 3, 0. -/
theorem C16_insert_never_fails_witness :
    (∃ s1 t1, Insert natCompare 10 tree2130 4 (some 4) = .ok s1 ∧ Rep s1 t1) ∧
      Insert natCompare 10 tree2130 4 (some 4) ≠ .error .nilDeref :=
  ⟨(C16_insert_never_fails natCompare_lawful rep_tree2130 redBlack_shape2130 sorted_shape2130
      4 (some 4) (by decide)).1,
    (C16_insert_never_fails natCompare_lawful rep_tree2130 redBlack_shape2130 sorted_shape2130
      4 (some 4) (by decide)).2.1⟩

/-- C17, the empty tree evaluated: on the tree returned by `New()`, `First()`
and `Last()` fault on a nil dereference (they read `n.left` and `n.right` of the
nil root) whatever the fuel, while `End()` is nil. -/
theorem C17_first_last_fault_on_empty_tree :
    First 1 (New : Tree Nat Nat) = .error .nilDeref ∧
      Last 1 (New : Tree Nat Nat) = .error .nilDeref ∧
      (∀ fuel, ∃ e, First fuel (New : Tree Nat Nat) = .error e) ∧
      (∀ fuel, ∃ e, Last fuel (New : Tree Nat Nat) = .error e) ∧
      End (New : Tree Nat Nat) = none := by
  refine ⟨rfl, rfl, ?_, ?_, rfl⟩ <;> intro fuel <;> rcases fuel with _ | n <;> exact ⟨_, rfl⟩

/-- C18: a red-black tree has logarithmic height.  On a tree with `n` nodes
that satisfies invariants 1 to 3, `Height()` returns some `hgt` with
`2 ^ hgt ≤ (n + 1) ^ 2`, that is `hgt ≤ 2 * log2 (n + 1)`; so it is for every
tree built from `New()` by `Insert` calls. -/
theorem C18_height_logarithmic [LinearOrder K] {cmp : K → K → Int} (hc : LawfulCompare cmp)
    {s : Tree K V} {t : Shape K V} (h : Rep s t) (hrb : t.RedBlack) {fuel : Nat}
    (hf : t.size < fuel) :
    (∃ hgt : Nat, Height fuel s = .ok (hgt : Int) ∧ 2 ^ hgt ≤ (t.size + 1) ^ 2) ∧
      ∀ kvs : List (K × Option V), kvs.length < fuel →
        ∃ s2 t2, ∃ hgt : Nat, insertAll cmp fuel kvs New = .ok s2 ∧ Rep s2 t2 ∧
          Height fuel s2 = .ok (hgt : Int) ∧ 2 ^ hgt ≤ (t2.size + 1) ^ 2 := by
  constructor
  · have hd := Shape.depth_le_size t
    exact ⟨t.depth, Height_shape h (by omega), Shape.pow_depth_le hrb⟩
  · intro kvs hk
    obtain ⟨s2, t2, e2, hrep, hrb2, _, hent⟩ := insertAll_spec hc kvs New .nil fuel rep_new
      ⟨rfl, trivial, by simp [Shape.EqualBlackPaths, Shape.pathBlacks]⟩
      (by simp [Shape.SortedKeys]) (by simpa [Shape.size] using hk)
    have hsz := size_lt_of_insertAll hent hk
    have hd := Shape.depth_le_size t2
    exact ⟨s2, t2, t2.depth, e2, hrep, Height_shape hrep (by omega), Shape.pow_depth_le hrb2⟩

/-- Witness for C18: the tree holding 2, 1, 3, 0 has height 3 and 4 nodes, and
`2 ^ 3 ≤ 5 ^ 2`. -/
theorem C18_height_logarithmic_witness :
    ∃ hgt : Nat, Height 10 tree2130 = .ok (hgt : Int) ∧ 2 ^ hgt ≤ (shape2130.size + 1) ^ 2 :=
  (C18_height_logarithmic natCompare_lawful rep_tree2130 redBlack_shape2130 (by decide)).1

/-- C19: rotations preserve order and link consistency.  In a tree with
consistent links, for a node `n` with a right child `r`, `rotateLeft(n)`
returns and leaves a tree with consistent links whose in-order sequence of
nodes (address, key, value, colour) is the one before; `n` is then the left
child of `r`, and the root pointer is `r` when it was `n` and unchanged
otherwise.  Symmetrically for `rotateRight(n)` and a left child `l`. -/
theorem C19_rotations_preserve_order {s : Tree K V} {t : Shape K V} (h : Rep s t) {n : Nat}
    (hn : n ∈ t.addrs) :
    (∀ r, getRight s (some n) = .ok (some r) →
        ∃ s1 t1, rotateLeft s (some n) = .ok s1 ∧ Rep s1 t1 ∧ t1.labels = t.labels ∧
          getLeft s1 (some r) = .ok (some n) ∧ getParent s1 (some n) = .ok (some r) ∧
          (s.root = some n → s1.root = some r) ∧ (s.root ≠ some n → s1.root = s.root) ∧
          s1.size = s.size) ∧
      ∀ l, getLeft s (some n) = .ok (some l) →
        ∃ s1 t1, rotateRight s (some n) = .ok s1 ∧ Rep s1 t1 ∧ t1.labels = t.labels ∧
          getRight s1 (some l) = .ok (some n) ∧ getParent s1 (some n) = .ok (some l) ∧
          (s.root = some n → s1.root = some l) ∧ (s.root ≠ some n → s1.root = s.root) ∧
          s1.size = s.size :=
  ⟨fun _ hr => rotateLeft_tree h hn hr, fun _ hl => rotateRight_tree h hn hl⟩

/-- Witness for C19: both rotations at the root (cell 0) of the tree holding
2, 1, 3, 0, whose children are the cells 1 and 2. -/
theorem C19_rotations_preserve_order_witness :
    (∃ s1 t1, rotateLeft tree2130 (some 0) = .ok s1 ∧ Rep s1 t1 ∧
        t1.labels = shape2130.labels ∧ getLeft s1 (some 2) = .ok (some 0) ∧
        getParent s1 (some 0) = .ok (some 2) ∧ (tree2130.root = some 0 → s1.root = some 2) ∧
        (tree2130.root ≠ some 0 → s1.root = tree2130.root) ∧ s1.size = tree2130.size) ∧
      ∃ s1 t1, rotateRight tree2130 (some 0) = .ok s1 ∧ Rep s1 t1 ∧
        t1.labels = shape2130.labels ∧ getRight s1 (some 1) = .ok (some 0) ∧
        getParent s1 (some 0) = .ok (some 1) ∧ (tree2130.root = some 0 → s1.root = some 1) ∧
        (tree2130.root ≠ some 0 → s1.root = tree2130.root) ∧ s1.size = tree2130.size :=
  ⟨(C19_rotations_preserve_order rep_tree2130 (by decide)).1 2 rfl,
    (C19_rotations_preserve_order rep_tree2130 (by decide)).2 1 rfl⟩

theorem rep_insertPending : Rep insertPending shapePending :=
  ⟨rfl, ⟨rfl, ⟨rfl, ⟨rfl, trivial, trivial⟩, trivial⟩, ⟨rfl, trivial, trivial⟩⟩, by decide⟩

theorem rep_tree213Black : Rep tree213Black shape213Black :=
  ⟨rfl, ⟨rfl, ⟨rfl, trivial, trivial⟩, ⟨rfl, trivial, trivial⟩⟩, by decide⟩

/-- The object `tree213` is what `Insert` of 2, 1, 3 makes of `New()`. -/
theorem insertAll_tree213 :
    insertAll natCompare 10 [(2, some 2), (1, some 1), (3, some 3)] New = .ok tree213 := rfl

/-- Inside `Insert(0, 0)` on `tree213` the descent links the new cell 3 below
cell 1; with the size counted this is `insertPending`, the object handed to
`balanceInsert`. -/
theorem insertPending_reached :
    ∃ s1 s2, insertLoop natCompare 3
        { tree213 with heap := tree213.heap ++ [⟨0, some 0, .Red, none, none, none⟩] }
        (some 3) (some 0) = .ok (s1, some (some 1)) ∧
      setParent s1 (some 3) (some 1) = .ok s2 ∧
      { s2 with size := s2.size + 1 } = insertPending :=
  ⟨_, _, rfl, rfl, rfl⟩

/-- The object `tree213Black` is what `Remove(0)` leaves of `tree2130`. -/
theorem remove_0_tree2130 : Remove natCompare 10 tree2130 0 = .ok (tree213Black, some 0) := rfl

/-- C20: the fix-ups end, with recursion bounded by depth.  For a node `n` with
`p.depth` ancestors in a tree with consistent links, `balanceInsert(n)` and
`balanceRemove(n)` do not run out of fuel once the fuel (the number of nested
calls allowed) exceeds `p.depth`: they return or fault on a nil dereference.
`balanceInsert` goes on at the grandparent only and `balanceRemove` at the
parent only.  The depth of a node is below the height of the tree, which is
what `Height()` returns. -/
theorem C20_fixups_bounded_by_depth {s : Tree K V} {p : Path K V} {Ln Rn : Shape K V}
    {n : Nat} {cn : Color} {kn : K} {vn : Option V}
    (h : Rep s (Path.plug p (.node Ln n cn kn vn Rn))) {fuel : Nat} (hf : p.depth < fuel) :
    balanceInsert fuel s (some n) ≠ .error .outOfFuel ∧
      balanceRemove fuel s (some n) ≠ .error .outOfFuel ∧
      p.depth < (Path.plug p (.node Ln n cn kn vn Rn)).depth ∧
      ∀ F, (Path.plug p (.node Ln n cn kn vn Rn)).depth < F →
        Height F s = .ok ((Path.plug p (.node Ln n cn kn vn Rn)).depth : Int) := by
  have hz := repZ_iff.2 h
  refine ⟨balanceInsert_finishes fuel s p Ln Rn n cn kn vn hz hf,
    balanceRemove_finishes fuel s p Ln Rn n cn kn vn hz hf, ?_, fun F hF => Height_shape h hF⟩
  have := Path.depth_lt_plug p (.node Ln n cn kn vn Rn)
  simp only [Shape.depth] at this
  omega

/-- Witness for C20, at two nodes where the fix-ups do recurse and return.
Inside `Insert(0, 0)` on the tree holding 2, 1, 3, `balanceInsert` starts at
the new node (cell 3, two ancestors) with a Red parent and a Red uncle: it
recolours and goes on at the grandparent, the root.  Three nested calls are
allowed by the bound and the call returns `tree2130`; a single call is not
enough.  Inside `Remove(1)` on the all-Black tree holding 2, 1, 3,
`balanceRemove` starts at the node of key 1 (cell 1, one ancestor) with a Black
parent and a Black sibling: it turns the sibling Red and goes on at the parent.
Two nested calls are allowed by the bound and the call returns; a single call
is not enough.  `Height()` is 2 on that tree, above the depth 1 of the node. -/
theorem C20_fixups_bounded_by_depth_witness :
    (Rep insertPending shapePending ∧
      balanceInsert 3 insertPending (some 3) ≠ .error .outOfFuel ∧
      balanceInsert 3 insertPending (some 3) = .ok tree2130 ∧
      balanceInsert 1 insertPending (some 3) = .error .outOfFuel) ∧
    (Rep tree213Black shape213Black ∧
      balanceInsert 2 tree213Black (some 1) ≠ .error .outOfFuel ∧
      balanceRemove 2 tree213Black (some 1) ≠ .error .outOfFuel ∧
      balanceRemove 2 tree213Black (some 1) = .ok tree213Recolored ∧
      balanceRemove 1 tree213Black (some 1) = .error .outOfFuel ∧
      Height 3 tree213Black = .ok 2) :=
  have hA := @C20_fixups_bounded_by_depth Nat Nat insertPending
    (.left (.left .top 0 .Black 2 (some 2) (.node .nil 2 .Red 3 (some 3) .nil))
      1 .Red 1 (some 1) .nil) .nil .nil 3 .Red 0 (some 0) rep_insertPending 3 (by decide)
  have hB := @C20_fixups_bounded_by_depth Nat Nat tree213Black
    (.left .top 0 .Black 2 (some 2) (.node .nil 2 .Black 3 (some 3) .nil))
    .nil .nil 1 .Black 1 (some 1) rep_tree213Black 2 (by decide)
  ⟨⟨rep_insertPending, hA.1, rfl, rfl⟩,
    ⟨rep_tree213Black, hB.1, hB.2.1, rfl, rfl, hB.2.2.2 3 (by decide)⟩⟩

/-! ## More fuel never changes a result -/

theorem extends_refl {α : Type} (e : Exec α) : Extends e e := fun _ h => h

theorem extends_error {α : Type} (err : Fault) (e : Exec α) : Extends (.error err) e := by
  intro r h
  cases h

theorem extends_bind {α β : Type} (e : Exec α) {f g : α → Exec β}
    (h : ∀ x, Extends (f x) (g x)) : Extends (e >>= f) (e >>= g) := by
  intro r hr
  cases e with
  | error err => cases hr
  | ok x => exact h x r hr

theorem extends_bind_both {α β : Type} {e e1 : Exec α} {f g : α → Exec β}
    (he : Extends e e1) (h : ∀ x, Extends (f x) (g x)) : Extends (e >>= f) (e1 >>= g) := by
  intro r hr
  cases e with
  | error err => cases hr
  | ok x =>
    rw [he x rfl]
    exact h x r hr

theorem extends_ite {α : Type} (c : Prop) [Decidable c] {a b a1 b1 : Exec α}
    (ha : Extends a a1) (hb : Extends b b1) :
    Extends (if c then a else b) (if c then a1 else b1) := by
  split
  · exact ha
  · exact hb

theorem extends_trans {α : Type} {a b c : Exec α} (h1 : Extends a b) (h2 : Extends b c) :
    Extends a c := fun r h => h2 r (h1 r h)

theorem extends_of_le {α : Type} (run : Nat → Exec α)
    (h : ∀ f, Extends (run f) (run (f + 1))) : ∀ {f g : Nat}, f ≤ g →
    Extends (run f) (run g) := by
  intro f g hfg
  induction hfg with
  | refl => exact extends_refl _
  | step _ ih => exact extends_trans ih (h _)

theorem balanceInsert_mono : ∀ (f : Nat) (s : Tree K V) (n : Ptr),
    Extends (balanceInsert f s n) (balanceInsert (f + 1) s n) := by
  intro f
  induction f with
  | zero => intro s n; exact extends_error _ _
  | succ f ih =>
    intro s n
    rw [balanceInsert, balanceInsert]
    repeat' first
      | with_reducible exact extends_refl _
      | with_reducible exact ih _ _
      | (with_reducible apply extends_bind; intro _)
      | with_reducible apply extends_ite

theorem balanceRemove_mono : ∀ (f : Nat) (s : Tree K V) (n : Ptr),
    Extends (balanceRemove f s n) (balanceRemove (f + 1) s n) := by
  intro f
  induction f with
  | zero => intro s n; exact extends_error _ _
  | succ f ih =>
    intro s n
    rw [balanceRemove, balanceRemove]
    repeat' first
      | with_reducible exact extends_refl _
      | with_reducible exact ih _ _
      | (with_reducible apply extends_bind; intro _)
      | with_reducible apply extends_ite

theorem loopRight_mono : ∀ (f : Nat) (s : Tree K V) (n : Ptr),
    Extends (loopRight f s n) (loopRight (f + 1) s n) := by
  intro f
  induction f with
  | zero => intro s n; exact extends_error _ _
  | succ f ih =>
    intro s n
    rw [loopRight, loopRight]
    repeat' first
      | with_reducible exact extends_refl _
      | with_reducible exact ih _ _
      | (with_reducible apply extends_bind; intro _)
      | with_reducible apply extends_ite

theorem lookupLoop_mono (cmp : K → K → Int) : ∀ (f : Nat) (s : Tree K V) (key : K) (n : Ptr),
    Extends (lookupLoop cmp f s key n) (lookupLoop cmp (f + 1) s key n) := by
  intro f
  induction f with
  | zero => intro s key n; exact extends_error _ _
  | succ f ih =>
    intro s key n
    rw [lookupLoop, lookupLoop]
    repeat' first
      | with_reducible exact extends_refl _
      | with_reducible exact ih _ _ _
      | (with_reducible apply extends_bind; intro _)
      | with_reducible apply extends_ite

theorem insertLoop_mono (cmp : K → K → Int) : ∀ (f : Nat) (s : Tree K V) (node n : Ptr),
    Extends (insertLoop cmp f s node n) (insertLoop cmp (f + 1) s node n) := by
  intro f
  induction f with
  | zero => intro s node n; exact extends_error _ _
  | succ f ih =>
    intro s node n
    rw [insertLoop, insertLoop]
    repeat' first
      | with_reducible exact extends_refl _
      | with_reducible exact ih _ _ _
      | (with_reducible apply extends_bind; rintro ⟨_, _, _⟩)
      | (with_reducible apply extends_bind; intro _)
      | with_reducible apply extends_ite

theorem Insert_mono (cmp : K → K → Int) (s : Tree K V) (key : K) (value : Option V) (f : Nat) :
    Extends (Insert cmp f s key value) (Insert cmp (f + 1) s key value) := by
  unfold Insert insert
  repeat' first
    | with_reducible exact extends_refl _
    | with_reducible exact balanceInsert_mono _ _ _
    | with_reducible exact insertLoop_mono _ _ _ _ _
    | with_reducible apply extends_ite
    | with_reducible apply extends_bind
    | with_reducible apply extends_bind_both
    | with_reducible intro _
    | dsimp only
    | split

theorem removeNode_mono (s : Tree K V) (n : Ptr) (f : Nat) :
    Extends (removeNode f s n) (removeNode (f + 1) s n) := by
  unfold removeNode
  repeat' first
    | with_reducible exact extends_refl _
    | with_reducible exact balanceRemove_mono _ _ _
    | with_reducible apply extends_ite
    | with_reducible apply extends_bind
    | with_reducible apply extends_bind_both
    | with_reducible intro _

theorem maximum_mono (s : Tree K V) (n : Ptr) (f : Nat) :
    Extends (maximum f s n) (maximum (f + 1) s n) := by
  unfold maximum
  repeat' first
    | with_reducible exact extends_refl _
    | with_reducible exact loopRight_mono _ _ _
    | with_reducible apply extends_ite

theorem remove_mono (cmp : K → K → Int) (s : Tree K V) (key : K) (f : Nat) :
    Extends (remove cmp f s key) (remove cmp (f + 1) s key) := by
  rw [remove_eq, remove_eq]
  unfold lookup
  repeat' first
    | with_reducible exact extends_refl _
    | with_reducible exact lookupLoop_mono cmp _ _ _ _
    | with_reducible exact maximum_mono _ _ _
    | with_reducible exact removeNode_mono _ _ _
    | with_reducible apply extends_ite
    | with_reducible apply extends_bind
    | with_reducible apply extends_bind_both
    | with_reducible intro _

theorem Remove_mono (cmp : K → K → Int) (s : Tree K V) (key : K) (f : Nat) :
    Extends (Remove cmp f s key) (Remove cmp (f + 1) s key) := by
  unfold Remove
  repeat' first
    | with_reducible exact extends_refl _
    | with_reducible exact remove_mono cmp _ _ _
    | with_reducible apply extends_ite
    | with_reducible apply extends_bind
    | with_reducible apply extends_bind_both
    | with_reducible intro _

/-- A result of `Insert` is the result with any larger fuel. -/
theorem Insert_fuel (cmp : K → K → Int) (s : Tree K V) (key : K) (value : Option V)
    {f g : Nat} (hfg : f ≤ g) {s1 : Tree K V} (h : Insert cmp f s key value = .ok s1) :
    Insert cmp g s key value = .ok s1 :=
  extends_of_le (fun f => Insert cmp f s key value) (Insert_mono cmp s key value) hfg s1 h

/-- A result of `Remove` is the result with any larger fuel. -/
theorem Remove_fuel (cmp : K → K → Int) (s : Tree K V) (key : K)
    {f g : Nat} (hfg : f ≤ g) {r : Tree K V × Option V} (h : Remove cmp f s key = .ok r) :
    Remove cmp g s key = .ok r :=
  extends_of_le (fun f => Remove cmp f s key) (Remove_mono cmp s key) hfg r h

/-! ## `balanceRemove` on trees of any black heights

The results above need equal black heights, which `Remove` itself can lose.
What follows holds on every tree with consistent links, for every call that
returns. -/

/-- With no sibling, steps iii and iv read a field of the nil sibling. -/
theorem tail_nil_sibling {s : Tree K V} {p : Path K V} {Ln Rn : Shape K V} {n : Nat}
    {cn : Color} {kn : K} {vn : Option V} (h : RepZ s p (.node Ln n cn kn vn Rn))
    (hp : p ≠ .top) (recur : Tree K V → Ptr → Exec (Tree K V)) :
    balanceRemoveTail recur s (some n) none = .error .nilDeref := by
  have hn := h.cell
  cases p with
  | top => exact absurd rfl hp
  | left up pp pc kpp vpp S =>
    have hpp := (RepZ.up_left.1 h).cell
    simp only [Shape.ptr_node, Path.ptr_left, Path.ptr_right] at hn hpp
    cases pc <;>
      simp [balanceRemoveTail, andAlso, parentColorIs, leftColorIs, getParent_cell hn,
        getColor_cell hpp, getLeft, Tree.load]
  | right S pp pc kpp vpp up =>
    have hpp := (RepZ.up_right.1 h).cell
    simp only [Shape.ptr_node, Path.ptr_left, Path.ptr_right] at hn hpp
    cases pc <;>
      simp [balanceRemoveTail, andAlso, parentColorIs, leftColorIs, getParent_cell hn,
        getColor_cell hpp, getLeft, Tree.load]

/-- A call of `balanceRemove` that returns keeps the links consistent, the
in-order sequence, and a Black root. -/
theorem balanceRemove_partial : ∀ (fuel : Nat) (s : Tree K V) (p : Path K V) (Ln Rn : Shape K V)
    (n : Nat) (cn : Color) (kn : K) (vn : Option V) (s1 : Tree K V),
    RepZ s p (.node Ln n cn kn vn Rn) → balanceRemove fuel s (some n) = .ok s1 →
    ∃ p1, s1.size = s.size ∧ s1.heap.length = s.heap.length ∧
      RepZ s1 p1 (.node Ln n cn kn vn Rn) ∧ p1.before = p.before ∧ p1.after = p.after ∧
      (p.rootColor .Black = .Black → p1.rootColor .Black = .Black) := by
  intro fuel
  induction fuel with
  | zero =>
    intro s p Ln Rn n cn kn vn s1 _ hr
    exact absurd hr (by simp [balanceRemove])
  | succ f ih =>
    intro s p Ln Rn n cn kn vn s1 h hr
    cases p with
    | top =>
      have hn := h.cell
      simp only [Path.ptr_top] at hn
      rw [balanceRemove_succ] at hr
      simp [getParent_cell hn] at hr
      subst hr
      exact ⟨.top, rfl, rfl, h, rfl, rfl, id⟩
    | left up pp cpp kpp vpp S =>
      cases S with
      | nil =>
        rw [balanceRemove_black_sibling_left h (by simp) f] at hr
        rw [show (Shape.nil : Shape K V).ptr = none from rfl, tail_nil_sibling h (by simp)] at hr
        cases hr
      | node SL sx cs ks vs SR =>
        cases cs with
        | Red =>
          obtain ⟨s3, e3, hsz3, hlen3, h3⟩ := balanceRemove_red_sibling_left h f
          rw [e3] at hr
          cases SL with
          | nil =>
            rw [show (Shape.nil : Shape K V).ptr = none from rfl,
              tail_nil_sibling h3 (by simp)] at hr
            cases hr
          | node XL x cx kx vx XR =>
            obtain ⟨s4, p1, e1, hsz1, hlen1, h1, hb1, ha1, hc1⟩ :=
              tail_left_done h3 (Or.inl rfl) (balanceRemove f)
            simp only [Shape.ptr_node] at hr
            rw [e1] at hr
            cases hr
            refine ⟨p1, by omega, by omega, h1, ?_, ?_, ?_⟩
            · rw [hb1]; simp [Path.before]
            · rw [ha1]; simp [Path.after, Shape.inorder]
            · intro hroot
              exact hc1 (@Path.rootColor_black_of _ _ up cpp hroot)
        | Black =>
          rw [balanceRemove_black_sibling_left h (by simp) f] at hr
          simp only [Shape.ptr_node] at hr
          by_cases hcase : cpp = .Red ∨ SL.rootColor = .Red ∨ SR.rootColor = .Red
          · obtain ⟨s4, p1, e1, hsz1, hlen1, h1, hb1, ha1, hc1⟩ :=
              tail_left_done h hcase (balanceRemove f)
            rw [e1] at hr
            cases hr
            exact ⟨p1, hsz1, hlen1, h1, hb1, ha1, fun hroot => hc1 hroot⟩
          · simp only [not_or] at hcase
            have hc1 := color_eq_black_of_ne_red hcase.1
            have hc2 := color_eq_black_of_ne_red hcase.2.1
            have hc3 := color_eq_black_of_ne_red hcase.2.2
            subst hc1
            obtain ⟨s4, e1, hsz1, hlen1, h1⟩ := tail_left_iii h hc2 hc3 (balanceRemove f)
            rw [e1] at hr
            obtain ⟨p2, hsz2, hlen2, h2, hb2, ha2, hr2⟩ :=
              ih s4 up _ _ pp .Black kpp vpp s1 (RepZ.up_left.1 h1) hr
            refine ⟨.left p2 pp .Black kpp vpp (.node SL sx .Red ks vs SR), by omega,
              by omega, RepZ.up_left.2 h2, ?_, ?_, fun hroot => hr2 hroot⟩
            · simp [Path.before, hb2]
            · simp [Path.after, ha2, Shape.inorder]
    | right S pp cpp kpp vpp up =>
      cases S with
      | nil =>
        rw [balanceRemove_black_sibling_right h (by simp) f] at hr
        rw [show (Shape.nil : Shape K V).ptr = none from rfl, tail_nil_sibling h (by simp)] at hr
        cases hr
      | node SL sx cs ks vs SR =>
        cases cs with
        | Red =>
          obtain ⟨s3, e3, hsz3, hlen3, h3⟩ := balanceRemove_red_sibling_right h f
          rw [e3] at hr
          cases SR with
          | nil =>
            rw [show (Shape.nil : Shape K V).ptr = none from rfl,
              tail_nil_sibling h3 (by simp)] at hr
            cases hr
          | node XL x cx kx vx XR =>
            obtain ⟨s4, p1, e1, hsz1, hlen1, h1, hb1, ha1, hc1⟩ :=
              tail_right_done h3 (Or.inl rfl) (balanceRemove f)
            simp only [Shape.ptr_node] at hr
            rw [e1] at hr
            cases hr
            refine ⟨p1, by omega, by omega, h1, ?_, ?_, ?_⟩
            · rw [hb1]; simp [Path.before, Shape.inorder]
            · rw [ha1]; simp [Path.after]
            · intro hroot
              exact hc1 (@Path.rootColor_black_of _ _ up cpp hroot)
        | Black =>
          rw [balanceRemove_black_sibling_right h (by simp) f] at hr
          simp only [Shape.ptr_node] at hr
          by_cases hcase : cpp = .Red ∨ SL.rootColor = .Red ∨ SR.rootColor = .Red
          · obtain ⟨s4, p1, e1, hsz1, hlen1, h1, hb1, ha1, hc1⟩ :=
              tail_right_done h hcase (balanceRemove f)
            rw [e1] at hr
            cases hr
            exact ⟨p1, hsz1, hlen1, h1, hb1, ha1, fun hroot => hc1 hroot⟩
          · simp only [not_or] at hcase
            have hc1 := color_eq_black_of_ne_red hcase.1
            have hc2 := color_eq_black_of_ne_red hcase.2.1
            have hc3 := color_eq_black_of_ne_red hcase.2.2
            subst hc1
            obtain ⟨s4, e1, hsz1, hlen1, h1⟩ := tail_right_iii h hc2 hc3 (balanceRemove f)
            rw [e1] at hr
            obtain ⟨p2, hsz2, hlen2, h2, hb2, ha2, hr2⟩ :=
              ih s4 up _ _ pp .Black kpp vpp s1 (RepZ.up_right.1 h1) hr
            refine ⟨.right (.node SL sx .Red ks vs SR) pp .Black kpp vpp p2, by omega,
              by omega, RepZ.up_right.2 h2, ?_, ?_, fun hroot => hr2 hroot⟩
            · simp [Path.before, hb2, Shape.inorder]
            · simp [Path.after, ha2]

/-! ## `Remove` on trees of any black heights -/

theorem Path.rootColor_comp (sp outer : Path K V) (x : Color) :
    (sp.comp outer).rootColor x = outer.rootColor (sp.rootColor x) := by
  induction sp generalizing x with
  | top => rfl
  | left up a c k v r ih => simp only [Path.comp, Path.rootColor]; exact ih c
  | right l a c k v up ih => simp only [Path.comp, Path.rootColor]; exact ih c

/-- The second half of `remove` on a node with at most one child, `C`: the
call faults, or it returns and has taken the node out. -/
theorem removeNode_core_cases {s : Tree K V} {q : Path K V} {A B C : Shape K V} {n : Nat}
    {cn : Color} {kn : K} {vn : Option V} (fuel : Nat)
    (hz : RepZ s q (.node A n cn kn vn B)) (hC : (A = .nil ∧ C = B) ∨ (B = .nil ∧ C = A)) :
    (∃ e, (do
        let nc ← getColor s (some n)
        let s ←
          if nc = Color.Black then do
            let cc ← color s C.ptr
            let s ← setColor s (some n) cc
            balanceRemove fuel s (some n)
          else pure s
        unlinkNode s (some n) C.ptr) = .error e) ∨
    ∃ s1 t1, (do
        let nc ← getColor s (some n)
        let s ←
          if nc = Color.Black then do
            let cc ← color s C.ptr
            let s ← setColor s (some n) cc
            balanceRemove fuel s (some n)
          else pure s
        unlinkNode s (some n) C.ptr) = .ok (s1, some n) ∧ Rep s1 t1 ∧
      t1.inorder = q.before ++ C.inorder ++ q.after ∧ s1.size = s.size - 1 ∧
      s1.heap.length = s.heap.length ∧ getValue s1 (some n) = .ok vn ∧
      (q.rootColor cn = .Black → t1.RootBlack) := by
  have hcell := hz.cell
  have hCown : Own s.heap (some n) C := by
    rcases hC with ⟨_, rfl⟩ | ⟨_, rfl⟩
    · exact hz.2.2.1.2.2
    · exact hz.2.2.1.2.1
  have hcol := color_shape hCown
  cases cn with
  | Red =>
    obtain ⟨s1, t1, e1, hrep, hin, hsz1, hlen1, hv, hb⟩ := unlinkNode_spec hz hC
    exact Or.inr ⟨s1, t1, by simpa [getColor_cell hcell] using e1, hrep, hin, hsz1, hlen1, hv,
      fun hr => hb (Path.rootColor_black_of hr)⟩
  | Black =>
    obtain ⟨s2, e2, hsz2, hlen2, hz2⟩ := setColor_focus hz C.rootColor
    cases hbr : balanceRemove fuel s2 (some n) with
    | error e =>
      refine Or.inl ⟨e, ?_⟩
      simp [getColor_cell hcell, hcol, e2, hbr]
    | ok s3 =>
      obtain ⟨q3, hsz3, hlen3, hz3, hb3, ha3, hr3⟩ :=
        balanceRemove_partial fuel s2 q A B n C.rootColor kn vn s3 hz2 hbr
      obtain ⟨s1, t1, e1, hrep, hin, hsz1, hlen1, hv, hb⟩ := unlinkNode_spec hz3 hC
      refine Or.inr ⟨s1, t1, ?_, hrep, by rw [hin, hb3, ha3], by omega, by omega, hv,
        fun hr => hb (hr3 hr)⟩
      simp [getColor_cell hcell, hcol, e2, hbr, e1]

theorem removeNode_cases {s : Tree K V} {q : Path K V} {A B : Shape K V} {n : Nat} {cn : Color}
    {kn : K} {vn : Option V} (fuel : Nat)
    (hz : RepZ s q (.node A n cn kn vn B)) (hAB : A = .nil ∨ B = .nil) :
    (∃ e, removeNode fuel s (some n) = .error e) ∨
    ∃ s1 t1, removeNode fuel s (some n) = .ok (s1, some n) ∧ Rep s1 t1 ∧
      t1.inorder = q.before ++ (A.inorder ++ B.inorder) ++ q.after ∧ s1.size = s.size - 1 ∧
      s1.heap.length = s.heap.length ∧ getValue s1 (some n) = .ok vn ∧
      (q.rootColor cn = .Black → t1.RootBlack) := by
  have hcell := hz.cell
  cases B with
  | nil =>
    rcases removeNode_core_cases fuel hz (Or.inr ⟨rfl, rfl⟩) with
      ⟨e, he⟩ | ⟨s1, t1, e1, hrep, hin, hsz1, hlen1, hv, hb⟩
    · exact Or.inl ⟨e, by simpa [removeNode, getRight_cell hcell, getLeft_cell hcell] using he⟩
    · refine Or.inr ⟨s1, t1, ?_, hrep, by simpa [Shape.inorder] using hin, hsz1, hlen1, hv, hb⟩
      simpa [removeNode, getRight_cell hcell, getLeft_cell hcell] using e1
  | node bl b cb kb vb br =>
    have hA : A = .nil := by
      rcases hAB with h | h
      · exact h
      · cases h
    subst hA
    rcases removeNode_core_cases fuel hz (Or.inl ⟨rfl, rfl⟩) with
      ⟨e, he⟩ | ⟨s1, t1, e1, hrep, hin, hsz1, hlen1, hv, hb⟩
    · exact Or.inl ⟨e, by simpa [removeNode, getRight_cell hcell] using he⟩
    · refine Or.inr ⟨s1, t1, ?_, hrep, by simpa [Shape.inorder] using hin, hsz1, hlen1, hv, hb⟩
      simpa [removeNode, getRight_cell hcell] using e1

/-- `Remove` of a key that is present, on a tree with sorted keys: the call
faults, or it returns the value bound to the key and leaves a tree with every
other binding, in order, whose root is Black if it was before. -/
theorem Remove_cases [LinearOrder K] {cmp : K → K → Int} (hc : LawfulCompare cmp)
    {s : Tree K V} {t : Shape K V} (h : Rep s t) (hs : t.SortedKeys)
    (key : K) (hk : key ∈ t.keys) {fuel : Nat} (hf : t.size < fuel) :
    (∃ e, Remove cmp fuel s key = .error e) ∨
    ∃ s1 t1, Remove cmp fuel s key = .ok (s1, valueOf key t.entries) ∧ Rep s1 t1 ∧
      t1.entries = t.entries.filter (fun e => decide (e.1 ≠ key)) ∧
      (t.RootBlack → t1.RootBlack) := by
  obtain ⟨L, a, c, v, R, hfind⟩ := Shape.find_of_mem key t hs hk
  have hplug := Shape.plug_pathTo key t .top
  rw [hfind] at hplug
  simp only [Path.plug] at hplug
  have hz : RepZ s (t.pathTo key .top) (.node L a c key v R) :=
    repZ_iff.2 (by rw [hplug]; exact h)
  have hlook := lookup_shape hc h key hf
  rw [hfind] at hlook
  have hval : valueOf key t.entries = v := by
    rw [valueOf_find key t hs, hfind]; rfl
  have hcell := hz.cell
  have htin : t.inorder = (t.pathTo key .top).before ++ (L.inorder ++ (a, key, v) :: R.inorder) ++
      (t.pathTo key .top).after := by
    conv_lhs => rw [← hplug]
    rw [Path.plug_inorder]
    simp [Shape.inorder]
  have hsize : ((t.pathTo key .top).before ++ (t.pathTo key .top).after).length +
      (L.size + 1 + R.size) = t.size := by
    conv_rhs => rw [← hplug]
    rw [Path.plug_size]
    simp [Shape.size]
  have hroot : t.RootBlack → (t.pathTo key .top).rootColor c = .Black := by
    intro hrb
    have : ((t.pathTo key .top).plug (.node L a c key v R)).rootColor = .Black := by
      rw [hplug]; exact hrb
    simpa [Path.plug_rootColor] using this
  have hkeys : (t.entries.map fun e => e.1).Pairwise (· < ·) := by
    rw [← Shape.keys_eq_entries]; exact hs
  rw [hval]
  by_cases hAB : L = .nil ∨ R = .nil
  · -- at most one child: the node itself is taken out
    have hte : t.entries = ((t.pathTo key .top).before ++ L.inorder).map (fun e => e.2) ++
        (key, v) :: (R.inorder ++ (t.pathTo key .top).after).map (fun e => e.2) := by
      simp [Shape.entries, htin]
    rcases removeNode_cases fuel hz hAB with
      ⟨e, he⟩ | ⟨s1, t1, e1, hrep, hin, hsz1, hlen1, hv, hb⟩
    · refine Or.inl ⟨e, ?_⟩
      rcases hAB with h1 | h1
      · subst h1
        simp [Remove, remove_eq, hlook, andAlso, getLeft_cell hcell, he]
      · subst h1
        cases hL : L.ptr <;>
          simp [Remove, remove_eq, hlook, andAlso, getLeft_cell hcell, getRight_cell hcell, hL,
            he]
    · refine Or.inr ⟨s1, t1, ?_, hrep, ?_, fun hrb => hb (hroot hrb)⟩
      · rcases hAB with h1 | h1
        · subst h1
          simp [Remove, remove_eq, hlook, andAlso, getLeft_cell hcell, e1, hv]
        · subst h1
          cases hL : L.ptr <;>
            simp [Remove, remove_eq, hlook, andAlso, getLeft_cell hcell, getRight_cell hcell, hL,
              e1, hv]
      · rw [hte] at hkeys ⊢
        rw [filter_ne_of_sorted _ _ key v hkeys]
        simp [Shape.entries, hin]
  · -- two children: the predecessor takes the binding and is taken out instead
    simp only [not_or] at hAB
    obtain ⟨hL, hR⟩ := hAB
    obtain ⟨ml, m, cm, km, vm, hmax⟩ := Shape.maxNode_eq L hL
    have hLp := Shape.maxPath_plug L
    rw [hmax] at hLp
    have hLa := Shape.maxPath_after L
    have hLd := Shape.maxPath_depth L
    have hLin : L.inorder = L.maxPath.before ++ (ml.inorder ++ [(m, km, vm)]) := by
      conv_lhs => rw [← hLp]
      rw [Path.plug_inorder, hLa]
      simp [Shape.inorder]
    have hmaxp : maximum fuel s L.ptr = .ok (some m) := by
      have := loopRight_max s L (some a) fuel hz.2.2.1.2.1 hL (by omega)
      rw [hmax] at this
      simpa [maximum, Shape.ptr_eq_none, hL] using this
    have hz0 : RepZ s (t.pathTo key .top)
        (.node (L.maxPath.plug (.node ml m cm km vm .nil)) a c key v R) := by
      rw [hLp]; exact hz
    obtain ⟨s1, e1, hsz1, hlen1, hz1⟩ := swap_spec hz0
    have hte : t.entries = (((t.pathTo key .top).before ++ L.maxPath.before ++ ml.inorder).map
          (fun e => e.2) ++ [(km, vm)]) ++
        (key, v) :: (R.inorder ++ (t.pathTo key .top).after).map (fun e => e.2) := by
      simp [Shape.entries, htin, hLin]
    have hroot1 : t.RootBlack →
        (L.maxPath.comp (.left (t.pathTo key .top) a c km vm R)).rootColor cm = .Black := by
      intro hrb
      rw [Path.rootColor_comp]
      exact hroot hrb
    rcases removeNode_cases fuel hz1 (Or.inr rfl) with
      ⟨e, he⟩ | ⟨s2, t1, e2, hrep, hin, hsz2, hlen2, hv, hb⟩
    · refine Or.inl ⟨e, ?_⟩
      simp [Remove, remove_eq, hlook, andAlso, getLeft_cell hcell, getRight_cell hcell,
        Shape.ptr_eq_none, hL, hR, hmaxp, e1, he]
    · refine Or.inr ⟨s2, t1, ?_, hrep, ?_, fun hrb => hb (hroot1 hrb)⟩
      · simp [Remove, remove_eq, hlook, andAlso, getLeft_cell hcell, getRight_cell hcell,
          Shape.ptr_eq_none, hL, hR, hmaxp, e1, e2, hv]
      · rw [hte] at hkeys ⊢
        rw [filter_ne_of_sorted _ _ key v hkeys]
        simp [Shape.entries, hin, Path.before_comp, Path.after_comp, hLa, Path.before, Path.after,
          Shape.inorder]

/-- `Remove` of a key that is not in the tree returns nil and leaves the tree
object as it is. -/
theorem Remove_absent [LinearOrder K] {cmp : K → K → Int} (hc : LawfulCompare cmp)
    {s : Tree K V} {t : Shape K V} (h : Rep s t) (key : K) (hk : key ∉ t.keys) {fuel : Nat}
    (hf : t.size < fuel) : Remove cmp fuel s key = .ok (s, none) := by
  have hlook := lookup_shape hc h key hf
  rw [Shape.find_of_not_mem key t hk] at hlook
  simp [Remove, remove, hlook]

/-! ## What every reachable tree object satisfies -/

theorem rep_New : Rep (New : Tree K V) .nil :=
  ⟨rfl, trivial, by simp [Shape.addrs, Shape.inorder]⟩

/-- Every tree object built from `New()` by calls of `Insert` and `Remove` has
consistent links, strictly increasing keys and a Black root (or is empty). -/
theorem Reachable.invariant [LinearOrder K] {cmp : K → K → Int} (hc : LawfulCompare cmp)
    {s : Tree K V} (hreach : Reachable cmp s) :
    ∃ t, Rep s t ∧ t.SortedKeys ∧ t.RootBlack := by
  induction hreach with
  | new => exact ⟨.nil, rep_New, by simp [Shape.SortedKeys, Shape.keys, Shape.inorder], rfl⟩
  | @insert s s1 fuel key value _ hins ih =>
    obtain ⟨t, hrep, hs, hrb⟩ := ih
    obtain ⟨s2, t2, e2, hrep2, hrb2, -, -, hs2, -, -⟩ :=
      Insert_entries hc hrep hrb hs key value (show t.size < max fuel t.size + 1 by omega)
    have e3 := Insert_fuel cmp s key value
      (show fuel ≤ max fuel t.size + 1 by omega) hins
    rw [e2] at e3
    cases e3
    exact ⟨t2, hrep2, hs2, hrb2⟩
  | @remove s s1 fuel key v _ hrem ih =>
    obtain ⟨t, hrep, hs, hrb⟩ := ih
    have e3 := Remove_fuel cmp s key (show fuel ≤ max fuel t.size + 1 by omega) hrem
    have hf : t.size < max fuel t.size + 1 := by omega
    by_cases hk : key ∈ t.keys
    · rcases Remove_cases hc hrep hs key hk hf with ⟨e, he⟩ | ⟨s2, t2, e2, hrep2, hent, hb⟩
      · rw [he] at e3
        cases e3
      · rw [e2] at e3
        cases e3
        refine ⟨t2, hrep2, ?_, hb hrb⟩
        have hkeys : (t.entries.map fun e => e.1).Pairwise (· < ·) := by
          rw [← Shape.keys_eq_entries]; exact hs
        show t2.keys.Pairwise (· < ·)
        rw [Shape.keys_eq_entries, hent]
        exact hkeys.sublist ((List.filter_sublist _).map _)
    · rw [Remove_absent hc hrep key hk hf] at e3
      cases e3
      exact ⟨t, hrep, hs, hrb⟩

/-- The results of a run of `Insert` calls on a reachable tree object are
reachable. -/
theorem Reachable.of_insertAll {cmp : K → K → Int} (fuel : Nat) :
    ∀ (kvs : List (K × Option V)) {s s1 : Tree K V}, Reachable cmp s →
      insertAll cmp fuel kvs s = .ok s1 → Reachable cmp s1 := by
  intro kvs
  induction kvs with
  | nil =>
    intro s s1 hr h
    simp [rbtree.insertAll] at h
    subst h
    exact hr
  | cons kv rest ih =>
    intro s s1 hr h
    obtain ⟨k, v⟩ := kv
    cases hi : Insert cmp fuel s k v with
    | error e => simp [rbtree.insertAll, hi] at h
    | ok s2 =>
      simp [rbtree.insertAll, hi] at h
      exact ih (Reachable.insert fuel k v hr hi) h

theorem reachable_tree2130 : Reachable natCompare tree2130 :=
  Reachable.of_insertAll 10 kvs2130 Reachable.new insertAll_kvs2130

/-- C4: `Lookup` returns the most recently inserted value.  On every tree
object built from `New()` by calls of `Insert` and `Remove`, with strictly
increasing in-order keys, `Insert(key, value)` returns, `Lookup(key)` after it
returns `value`, and `Lookup` of every key that compares unequal to `key`
returns what it returned before the `Insert`. -/
theorem C4_lookup_after_insert [LinearOrder K] {cmp : K → K → Int} (hc : LawfulCompare cmp)
    {s : Tree K V} (hreach : Reachable cmp s) {t : Shape K V} (h : Rep s t)
    (hs : t.SortedKeys) (key : K) (value : Option V) {fuel : Nat} (hf : t.size + 1 < fuel) :
    ∃ s1, Insert cmp fuel s key value = .ok s1 ∧ Lookup cmp fuel s1 key = .ok value ∧
      ∀ k2, cmp k2 key ≠ 0 → Lookup cmp fuel s1 k2 = Lookup cmp fuel s k2 := by
  obtain ⟨t0, hrep0, -, hrb0⟩ := hreach.invariant hc
  have hrb : t.RootBlack := by
    have h1 := color_shape h.2.1
    have h2 := color_shape hrep0.2.1
    rw [← h.1] at h1
    rw [← hrep0.1, h1] at h2
    exact (Except.ok.inj h2).trans hrb0
  exact Lookup_after_Insert hc h hs hrb key value hf

/-- Witness for C4: `Insert(4, 4)` into the tree holding 2, 1, 3, 0, which is
built from `New()` by four calls of `Insert`. -/
theorem C4_lookup_after_insert_witness :
    ∃ s1, Insert natCompare 10 tree2130 4 (some 4) = .ok s1 ∧
      Lookup natCompare 10 s1 4 = .ok (some 4) ∧
      ∀ k2, natCompare k2 4 ≠ 0 → Lookup natCompare 10 s1 k2 = Lookup natCompare 10 tree2130 k2 :=
  C4_lookup_after_insert natCompare_lawful reachable_tree2130 rep_tree2130 sorted_shape2130
    4 (some 4) (by decide)

end rbtree
